import Mathlib

/-!
# Verification of the Go 1.5 runtime substrate

Shallow embedding of `net/fd_mutex.go` (the descriptor lock `fdMutex`) and of
`runtime/time.go` (the timer heap), with the properties of their specification
stated and proved over the embedding.

Machine integers are natural numbers / integers with the wrap-around of the
machine width written out.  An atomic load followed by a successful
compare-and-swap ("run without interference") is a function from the value
loaded to the value stored.
-/

set_option autoImplicit false

/-! ## `net/fd_mutex.go` -/

namespace fdMutex

/-! ### State layout constants (fd_mutex.go, lines 25-35) -/

def mutexClosed : Nat := 1 <<< 0
def mutexRLock : Nat := 1 <<< 1
def mutexWLock : Nat := 1 <<< 2
def mutexRef : Nat := 1 <<< 3
def mutexRefMask : Nat := ((1 <<< 20) - 1) <<< 3
def mutexRWait : Nat := 1 <<< 23
def mutexRMask : Nat := ((1 <<< 20) - 1) <<< 23
def mutexWWait : Nat := 1 <<< 43
def mutexWMask : Nat := ((1 <<< 20) - 1) <<< 43

/-! ### `uint64` arithmetic -/

/-- Addition of two `uint64` values, wrapping at `2^64`. -/
def add64 (a b : Nat) : Nat := (a + b) % 2 ^ 64

/-- Subtraction of two `uint64` values, wrapping at `2^64`. -/
def sub64 (a b : Nat) : Nat := (a + (2 ^ 64 - b % 2 ^ 64)) % 2 ^ 64

/-- Go's bit-clear operator `a &^ m` on `uint64`: `a AND (NOT m)`. -/
def andNot64 (a m : Nat) : Nat := a &&& ((2 ^ 64 - 1) ^^^ m)

/-! ### The semaphores and the result of one loop iteration -/

/-- The two semaphore words of an `fdMutex`. -/
inductive Sema where
  | rsema
  | wsema
  deriving DecidableEq, Repr

/-- Calls into the runtime made by the operations. -/
inductive Event where
  | Semrelease (s : Sema)
  | Semacquire (s : Sema)
  deriving DecidableEq, Repr

/-- How one iteration of an operation's `for` loop ends. -/
inductive Ctl where
  | ret (b : Bool)
  | panic (msg : String)
  | retry
  deriving DecidableEq, Repr

/-- Outcome of one loop iteration whose compare-and-swap (if reached) succeeds:
the value of `mu.state` afterwards, the runtime calls made, and how it ended. -/
structure Step where
  state : Nat
  events : List Event
  ctl : Ctl
  deriving DecidableEq, Repr

def inconsistent : String := "net: inconsistent fdMutex"

/-! ### Operations -/

/-- One iteration of `fdMutex.Incref` (lines 48-62) on the loaded value `old`. -/
def Incref (old : Nat) : Step :=
  if old &&& mutexClosed ≠ 0 then
    { state := old, events := [], ctl := .ret false }
  else
    let new := add64 old mutexRef
    if new &&& mutexRefMask = 0 then
      { state := old, events := [], ctl := .panic inconsistent }
    else
      { state := new, events := [], ctl := .ret true }

/-- The wake-up loops of `IncrefAndClose` (lines 80-87):
`for old&mask != 0 { old -= wait; runtime_Semrelease(sema) }`.
Returns the final `old` and the releases made, `none` when the fuel runs out. -/
def wakeLoop (mask wait : Nat) (sema : Sema) : Nat → Nat → Option (Nat × List Event)
  | 0, _ => none
  | fuel + 1, old =>
    if old &&& mask ≠ 0 then
      match wakeLoop mask wait sema fuel (sub64 old wait) with
      | some (o, evs) => some (o, Event.Semrelease sema :: evs)
      | none => none
    else some (old, [])

/-- Fuel for the wake-up loops: a waiter field has 20 bits. -/
def wakeFuel : Nat := 2 ^ 20

/-- One iteration of `fdMutex.IncrefAndClose` (lines 64-91) on the loaded value `old`.
`none` only if a wake-up loop runs out of fuel. -/
def IncrefAndClose (old : Nat) : Option Step :=
  if old &&& mutexClosed ≠ 0 then
    some { state := old, events := [], ctl := .ret false }
  else
    let new := add64 (old ||| mutexClosed) mutexRef
    if new &&& mutexRefMask = 0 then
      some { state := old, events := [], ctl := .panic inconsistent }
    else
      let new := andNot64 new (mutexRMask ||| mutexWMask)
      match wakeLoop mutexRMask mutexRWait .rsema wakeFuel old with
      | none => none
      | some (old1, evs1) =>
        match wakeLoop mutexWMask mutexWWait .wsema wakeFuel old1 with
        | none => none
        | some (_, evs2) => some { state := new, events := evs1 ++ evs2, ctl := .ret true }

/-- One iteration of `fdMutex.Decref` (lines 93-104) on the loaded value `old`. -/
def Decref (old : Nat) : Step :=
  if old &&& mutexRefMask = 0 then
    { state := old, events := [], ctl := .panic inconsistent }
  else
    let new := sub64 old mutexRef
    { state := new, events := [],
      ctl := .ret (decide (new &&& (mutexClosed ||| mutexRefMask) = mutexClosed)) }

/-- Mode selection at the head of `RWLock` / `RWUnlock` (lines 107-119, 150-162). -/
def mutexBit (read : Bool) : Nat := if read then mutexRLock else mutexWLock
def mutexWait (read : Bool) : Nat := if read then mutexRWait else mutexWWait
def mutexMask (read : Bool) : Nat := if read then mutexRMask else mutexWMask
def mutexSema (read : Bool) : Sema := if read then .rsema else .wsema

/-- One iteration of the loop of `fdMutex.RWLock` (lines 120-146) on the loaded
value `old`.  `Ctl.retry` is the path that parks in `runtime_Semacquire` and then
goes round the loop again. -/
def RWLock (read : Bool) (old : Nat) : Step :=
  if old &&& mutexClosed ≠ 0 then
    { state := old, events := [], ctl := .ret false }
  else if old &&& mutexBit read = 0 then
    let new := add64 (old ||| mutexBit read) mutexRef
    if new &&& mutexRefMask = 0 then
      { state := old, events := [], ctl := .panic inconsistent }
    else
      { state := new, events := [], ctl := .ret true }
  else
    let new := add64 old (mutexWait read)
    if new &&& mutexMask read = 0 then
      { state := old, events := [], ctl := .panic inconsistent }
    else
      { state := new, events := [Event.Semacquire (mutexSema read)], ctl := .retry }

/-- One iteration of `fdMutex.RWUnlock` (lines 163-179) on the loaded value `old`. -/
def RWUnlock (read : Bool) (old : Nat) : Step :=
  if old &&& mutexBit read = 0 ∨ old &&& mutexRefMask = 0 then
    { state := old, events := [], ctl := .panic inconsistent }
  else
    let new := sub64 (andNot64 old (mutexBit read)) mutexRef
    let new := if old &&& mutexMask read ≠ 0 then sub64 new (mutexWait read) else new
    { state := new,
      events := if old &&& mutexMask read ≠ 0 then [Event.Semrelease (mutexSema read)] else [],
      ctl := .ret (decide (new &&& (mutexClosed ||| mutexRefMask) = mutexClosed)) }

/-! ### The fields of the state word (layout comment, lines 18-24) -/

/-- The closed bit. -/
def closed (s : Nat) : Bool := s &&& mutexClosed != 0
/-- The lock bit of a mode (`read = true`: read lock, `read = false`: write lock). -/
def locked (read : Bool) (s : Nat) : Bool := s &&& mutexBit read != 0
/-- The 20-bit reference count. -/
def refCount (s : Nat) : Nat := (s &&& mutexRefMask) >>> 3
/-- The 20-bit waiter count of a mode. -/
def waiters (read : Bool) (s : Nat) : Nat :=
  (s &&& mutexMask read) >>> (if read then 23 else 43)

/-! ### Traces of operations -/

/-- The operations of an `fdMutex`; each stands for one loop iteration whose
compare-and-swap succeeds, which is the only way the state word changes. -/
inductive Op where
  | Incref
  | IncrefAndClose
  | Decref
  | RWLock (read : Bool)
  | RWUnlock (read : Bool)
  deriving DecidableEq, Repr

/-- Run one operation on the state word. -/
def Op.run : Op → Nat → Option Step
  | .Incref, s => some (fdMutex.Incref s)
  | .IncrefAndClose, s => fdMutex.IncrefAndClose s
  | .Decref, s => some (fdMutex.Decref s)
  | .RWLock read, s => some (fdMutex.RWLock read s)
  | .RWUnlock read, s => some (fdMutex.RWUnlock read s)

/-- Whether an iteration ended in a panic. -/
def Ctl.isPanic : Ctl → Bool
  | .panic _ => true
  | _ => false

/-- Run a sequence of operations from state `s`, giving the step of each one.
A panic aborts the program, so a sequence containing a panicking operation has no
trace (`none`). -/
def trace : List Op → Nat → Option (List Step)
  | [], _ => some []
  | op :: ops, s =>
    match op.run s with
    | none => none
    | some st =>
      if Ctl.isPanic st.ctl then none
      else
        match trace ops st.state with
        | none => none
        | some sts => some (st :: sts)

/-- The state word after a sequence of steps starting in `s`. -/
def finalState (s : Nat) : List Step → Nat
  | [] => s
  | st :: sts => finalState st.state sts

/-! ### Reference accounting -/

/-- What the callers of an `fdMutex` hold: the number of references taken by a
successful `Incref` or `IncrefAndClose` and not yet released by `Decref`, and for each
mode whether a successful `RWLock` has not yet been followed by its `RWUnlock`. -/
structure Account where
  refs : Nat
  rlock : Bool
  wlock : Bool
  deriving DecidableEq, Repr

/-- Whether the lock of the mode is held according to the account. -/
def Account.held (a : Account) (read : Bool) : Bool := if read then a.rlock else a.wlock

/-- The discipline of the callers: `Decref` needs an unreleased reference, and
`RWUnlock` of a mode needs a successful `RWLock` of that mode not yet unlocked. -/
def Account.allows (a : Account) : Op → Bool
  | .Decref => decide (0 < a.refs)
  | .RWUnlock read => a.held read
  | _ => true

/-- The account after an operation that ended with `ctl` without a panic. -/
def Account.update (a : Account) (op : Op) (ctl : Ctl) : Account :=
  match op with
  | .Incref => if ctl = .ret true then { a with refs := a.refs + 1 } else a
  | .IncrefAndClose => if ctl = .ret true then { a with refs := a.refs + 1 } else a
  | .Decref => { a with refs := a.refs - 1 }
  | .RWLock read =>
    if ctl = .ret true then
      (if read then { a with rlock := true } else { a with wlock := true })
    else a
  | .RWUnlock read => if read then { a with rlock := false } else { a with wlock := false }

/-- Whether the sequence of operations is matched from the state `s` with the account
`a`: every operation that is executed is allowed by the account before it.  Nothing
is executed after a panic. -/
def Matched : List Op → Nat → Account → Bool
  | [], _, _ => true
  | op :: ops, s, a =>
    a.allows op &&
      match op.run s with
      | none => true
      | some st =>
        if Ctl.isPanic st.ctl then true else Matched ops st.state (a.update op st.ctl)

/-- Run a sequence of operations from the state `s` with the account `a`: for every
operation executed, the operation, its step and the account after it (the account
before it when it panics).  The run ends at a panic.  `none` only if a wake-up loop
runs out of fuel. -/
def accounts : List Op → Nat → Account → Option (List (Op × Step × Account))
  | [], _, _ => some []
  | op :: ops, s, a =>
    match op.run s with
    | none => none
    | some st =>
      if Ctl.isPanic st.ctl then some [(op, st, a)]
      else
        match accounts ops st.state (a.update op st.ctl) with
        | none => none
        | some recs => some ((op, st, a.update op st.ctl) :: recs)

/-- The number of lock bits set in the state word. -/
def lockBits (s : Nat) : Nat :=
  (if locked true s then 1 else 0) + (if locked false s then 1 else 0)

/-- The state word agrees with the account: the reference count is the number of
lock bits set plus the unreleased references, and a lock bit is set exactly when the
account holds that lock. -/
def Accounted (s : Nat) (a : Account) : Prop :=
  s < 2 ^ 64 ∧ refCount s = lockBits s + a.refs ∧
    a.rlock = locked true s ∧ a.wlock = locked false s

end fdMutex

/-! ## `runtime/time.go` -/

namespace runtime

/-- The largest `int64`, written `1<<63 - 1` in the source. -/
def maxInt64 : Int := 2 ^ 63 - 1

/-- Wrap-around of `int64` arithmetic: the representative in `[-2^63, 2^63)`. -/
def wrap64 (x : Int) : Int := (x + 2 ^ 63) % 2 ^ 64 - 2 ^ 63

/-- The struct `timer` (time.go, lines 15-26).  The callback `f` and its argument are
represented by identifiers. -/
structure timer where
  i : Int
  when : Int
  period : Int
  f : Nat
  arg : Nat
  seq : Nat
  deriving DecidableEq, Repr

/-- The global `timers` (lines 28-36) together with the timer objects its pointers
refer to: `mem a` is the object at address `a`, `t` is the slice `timers.t` of
pointers.  The lock, `gp` and `waitnote` appear as events only. -/
structure Timers where
  mem : Nat → timer
  t : List Nat
  sleeping : Bool
  rescheduling : Bool
  created : Bool

/-- Calls made by the timer code that are visible to the rest of the runtime. -/
inductive Ev where
  | notewakeup
  | goready
  | goTimerproc
  | lock
  | unlock
  | call (tm f arg seq : Nat)
  deriving DecidableEq, Repr

/-- Result of running a piece of code: a value, a run-time panic, or the fuel of a
loop ran out. -/
inductive Res (α : Type) where
  | ok (v : α)
  | panic (msg : String)
  | outOfFuel
  deriving Repr

def indexOutOfRange : String := "index out of range"

/-- The pointer `timers.t[k]`.  The code reads the slice only at indices it has
checked to be below the length, apart from the first read `t[i]` of the two sift
functions, where an index out of range is a panic (`siftupTimer`, `siftdownTimer`). -/
def ptr (st : Timers) (k : Nat) : Nat := st.t.getD k 0

/-- The field `timers.t[k].when`. -/
def whenAt (st : Timers) (k : Nat) : Int := (st.mem (ptr st k)).when

/-- The assignment `p.i = v` through the pointer `p`. -/
def setI (st : Timers) (p : Nat) (v : Int) : Timers :=
  { st with mem := fun q => if q = p then { st.mem q with i := v } else st.mem q }

/-- The assignment `p.when = v` through the pointer `p`. -/
def setWhen (st : Timers) (p : Nat) (v : Int) : Timers :=
  { st with mem := fun q => if q = p then { st.mem q with when := v } else st.mem q }

/-- The assignment `timers.t[k] = p`. -/
def setT (st : Timers) (k : Nat) (p : Nat) : Timers :=
  { st with t := st.t.set k p }

/-- The four assignments `t[i] = t[c]; t[i].i = i; t[c] = tmp; t[c].i = c` that both
sift loops make (lines 247-250 with `c = p`, and lines 285-288). -/
def exchange (st : Timers) (i c tmp : Nat) : Timers :=
  let st := setT st i (ptr st c)
  let st := setI st (ptr st i) i
  let st := setT st c tmp
  setI st (ptr st c) c

/-- The loop of `siftupTimer` (lines 242-252); `when` and `tmp` are the locals set
before the loop.  The parent index `p` is below `i`, so `t[p]` is in range whenever
`t[i]` is.  `none` when the fuel runs out. -/
def siftupLoop (when : Int) (tmp : Nat) : Nat → Nat → Timers → Option Timers
  | 0, _, _ => none
  | fuel + 1, i, st =>
    if i > 0 then
      let p := (i - 1) / 4
      if when ≥ whenAt st p then some st
      else siftupLoop when tmp fuel p (exchange st i p tmp)
    else some st

/-- The function `siftupTimer(i)` (lines 238-253).  Reading `t[i]` panics when `i` is out of
range.  The loop makes at most `i` iterations. -/
def siftupTimer (i : Int) (st : Timers) : Res Timers :=
  if i < 0 ∨ (st.t.length : Int) ≤ i then .panic indexOutOfRange
  else
    match siftupLoop (whenAt st i.toNat) (ptr st i.toNat) (i.toNat + 1) i.toNat st with
    | some st => .ok st
    | none => .outOfFuel

/-- The choice of the smallest child in `siftdownTimer` (lines 266-281): from the
left child `c < n`, the final values of the locals `w` and `c`.  Every index read is
guarded by a comparison with `n`. -/
def smallestChild (st : Timers) (n c : Nat) : Int × Nat :=
  let c3 := c + 2
  let w := whenAt st c
  let (w, c) :=
    if c + 1 < n ∧ whenAt st (c + 1) < w then (whenAt st (c + 1), c + 1) else (w, c)
  if c3 < n then
    let w3 := whenAt st c3
    let (w3, c3) :=
      if c3 + 1 < n ∧ whenAt st (c3 + 1) < w3 then (whenAt st (c3 + 1), c3 + 1)
      else (w3, c3)
    if w3 < w then (w3, c3) else (w, c)
  else (w, c)

/-- The loop of `siftdownTimer` (lines 260-290); `n`, `when`, `tmp` are the locals
set before the loop.  Indices are natural numbers: a heap long enough for `i*4 + 1`
to overflow `int` does not fit in memory.  `none` when the fuel runs out. -/
def siftdownLoop (n : Nat) (when : Int) (tmp : Nat) : Nat → Nat → Timers → Option Timers
  | 0, _, _ => none
  | fuel + 1, i, st =>
    let c := i * 4 + 1
    if c ≥ n then some st
    else
      let wc := smallestChild st n c
      if wc.1 ≥ when then some st
      else siftdownLoop n when tmp fuel wc.2 (exchange st i wc.2 tmp)

/-- The function `siftdownTimer(i)` (lines 255-291).  Reading `t[i]` panics when `i` is out of
range.  The index grows in every iteration, so the loop makes at most `len(t)`
iterations. -/
def siftdownTimer (i : Int) (st : Timers) : Res Timers :=
  if i < 0 ∨ (st.t.length : Int) ≤ i then .panic indexOutOfRange
  else
    match siftdownLoop st.t.length (whenAt st i.toNat) (ptr st i.toNat)
        (st.t.length + 1) i.toNat st with
    | some st => .ok st
    | none => .outOfFuel

/-- The end of `addtimerLocked` (lines 103-117): when the new timer `p` has reached
index 0 a sleeping or rescheduling `timerproc` is woken, and `timerproc` is started
if it was not yet. -/
def wakeOnAdd (p : Nat) (st : Timers) : Timers × List Ev :=
  let (st, ev1) :=
    if (st.mem p).i = 0 then
      let (st, e1) :=
        if st.sleeping then ({ st with sleeping := false }, [Ev.notewakeup]) else (st, [])
      let (st, e2) :=
        if st.rescheduling then ({ st with rescheduling := false }, [Ev.goready])
        else (st, [])
      (st, e1 ++ e2)
    else (st, [])
  let (st, ev2) :=
    if !st.created then ({ st with created := true }, [Ev.goTimerproc]) else (st, [])
  (st, ev1 ++ ev2)

/-- The function `addtimerLocked(t)` (lines 94-118) for the timer at address `p`: the new state and
the wake-ups issued. -/
def addtimerLocked (p : Nat) (st : Timers) : Res (Timers × List Ev) :=
  let st := if (st.mem p).when < 0 then setWhen st p maxInt64 else st
  let st := setI st p st.t.length
  let st := { st with t := st.t ++ [p] }
  match siftupTimer (st.mem p).i st with
  | .panic msg => .panic msg
  | .outOfFuel => .outOfFuel
  | .ok st => .ok (wakeOnAdd p st)

/-- Add the timers at the addresses `ps` one after the other with `addtimerLocked`. -/
def addAll : List Nat → Timers → Res (Timers × List Ev)
  | [], st => .ok (st, [])
  | p :: ps, st =>
    match addtimerLocked p st with
    | .panic msg => .panic msg
    | .outOfFuel => .outOfFuel
    | .ok (st, ev) =>
      match addAll ps st with
      | .panic msg => .panic msg
      | .outOfFuel => .outOfFuel
      | .ok (st, evs) => .ok (st, ev ++ evs)

/-- The function `deltimer(t)` (lines 122-149) for the timer at address `p`: the new
state and the result.  The index test `timers.t[i] != t` is evaluated only when
`0 <= i <= last`, so it reads the slice in range.  `timers.lock` is taken before
`t.i` is read and released before each return. -/
def deltimer (p : Nat) (st : Timers) : Res (Timers × Bool) :=
  let i := (st.mem p).i
  let last : Int := (st.t.length : Int) - 1
  if i < 0 ∨ i > last ∨ ptr st i.toNat ≠ p then .ok (st, false)
  else
    let st :=
      if i ≠ last then
        let st := setT st i.toNat (ptr st last.toNat)
        setI st (ptr st i.toNat) i
      else st
    let st := { st with t := st.t.take last.toNat }
    if i ≠ last then
      match siftupTimer i st with
      | .panic msg => .panic msg
      | .outOfFuel => .outOfFuel
      | .ok st =>
        match siftdownTimer i st with
        | .panic msg => .panic msg
        | .outOfFuel => .outOfFuel
        | .ok st => .ok (st, true)
    else .ok (st, true)

/-- The function `stopTimer(t)` (lines 74-76). -/
def stopTimer (p : Nat) (st : Timers) : Res (Timers × Bool) := deltimer p st

/-- The effect of a timer callback `f(arg, seq)` on the timer state. -/
abbrev Callback := Nat → Nat → Nat → Timers → Timers

/-- Result of the inner loop of `timerproc`: the state, the last `delta`, and the
events in order. -/
structure LoopResult where
  st : Timers
  delta : Int
  events : List Ev

/-- The periodic branch of `timerproc` (lines 172-174) for the root `t`: the deadline
moves forward by whole periods and the root is sifted down. -/
def rescheduleRoot (t : Nat) (delta : Int) (st : Timers) : Res Timers :=
  let per := (st.mem t).period
  let st := setWhen st t
    (wrap64 ((st.mem t).when
      + wrap64 (per * wrap64 (1 + wrap64 ((wrap64 (-delta)).tdiv per)))))
  siftdownTimer 0 st

/-- The one-shot branch of `timerproc` (lines 176-187) for the root `t`: the last
entry replaces the root, the slice shrinks by one, the new root is sifted down and
`t.i` is set to -1.  The assignment `timers.t[last] = nil` clears a cell that the
shortened slice no longer shows. -/
def removeRoot (t : Nat) (st : Timers) : Res Timers :=
  let last := st.t.length - 1
  let st := if last > 0 then setT st 0 (ptr st last) else st
  let st := if last > 0 then setI st (ptr st 0) 0 else st
  let st := { st with t := st.t.take last }
  match (if last > 0 then siftdownTimer 0 st else .ok st) with
  | .ok st => .ok (setI st t (-1))
  | .panic msg => .panic msg
  | .outOfFuel => .outOfFuel

/-- The inner loop of `timerproc` (lines 161-198) for the clock value `now`, entered
with `timers.lock` held.  `cb` is what the callbacks do to the timer state while the
lock is released. -/
def timerprocLoop (cb : Callback) (now : Int) : Nat → Timers → Res LoopResult
  | 0, _ => .outOfFuel
  | fuel + 1, st =>
    if st.t.length = 0 then .ok ⟨st, -1, []⟩
    else
      let t := ptr st 0
      let delta := wrap64 ((st.mem t).when - now)
      if delta > 0 then .ok ⟨st, delta, []⟩
      else
        match (if (st.mem t).period > 0 then rescheduleRoot t delta st
               else removeRoot t st) with
        | .panic msg => .panic msg
        | .outOfFuel => .outOfFuel
        | .ok st =>
          let f := (st.mem t).f
          let arg := (st.mem t).arg
          let seq := (st.mem t).seq
          match timerprocLoop cb now fuel (cb f arg seq st) with
          | .panic msg => .panic msg
          | .outOfFuel => .outOfFuel
          | .ok r => .ok ⟨r.st, r.delta, [Ev.unlock, Ev.call t f arg seq, Ev.lock] ++ r.events⟩

/-- The timers whose callbacks were invoked, in order of invocation. -/
def fired : List Ev → List Nat
  | [] => []
  | Ev.call tm _ _ _ :: evs => tm :: fired evs
  | _ :: evs => fired evs

/-- A fresh timer state for the deadlines `ws`: the heap is empty and the timer at
address `a` is a one-shot timer (`period = 0`) with deadline `ws[a]`. -/
def oneShots (ws : List Int) : Timers :=
  { mem := fun a => { i := 0, when := ws.getD a 0, period := 0, f := a, arg := a, seq := 0 },
    t := [], sleeping := false, rescheduling := false, created := false }

/-- The deadlines in the order in which their callbacks are invoked when the timers
of `oneShots ws` are added one after the other and the inner loop of `timerproc` then
runs with the clock at `now` and callbacks that leave the timer state alone. -/
def firingOrder (ws : List Int) (now : Int) : Option (List Int) :=
  match addAll (List.range ws.length) (oneShots ws) with
  | .ok (st, _) =>
    match timerprocLoop (fun _ _ _ s => s) now (ws.length + 1) st with
    | .ok r => some ((fired r.events).map (fun a => (st.mem a).when))
    | _ => none
  | _ => none

/-- The back-pointer invariant: `timers.t[k].i = k` for every index `k` of the heap. -/
def BackPtr (st : Timers) : Prop :=
  ∀ k, k < st.t.length → (st.mem (ptr st k)).i = (k : Int)

/-- The state `st2` has the same timer data as `st1`: at every address the fields
`when`, `period`, `f`, `arg`, `seq` agree (the heap index `i` may differ). -/
def sameData (st1 st2 : Timers) : Prop :=
  ∀ a, (st2.mem a).when = (st1.mem a).when ∧ (st2.mem a).period = (st1.mem a).period ∧
    (st2.mem a).f = (st1.mem a).f ∧ (st2.mem a).arg = (st1.mem a).arg ∧
    (st2.mem a).seq = (st1.mem a).seq

/-- The flags of `timers` agree in the two states. -/
def sameFlags (st1 st2 : Timers) : Prop :=
  st2.sleeping = st1.sleeping ∧ st2.rescheduling = st1.rescheduling ∧
    st2.created = st1.created

/-- The state of `addtimerLocked` just before its call of `siftupTimer` (lines
97-101): the deadline is clamped, `t.i` is the old length and `t` is appended. -/
def enqueue (p : Nat) (st : Timers) : Timers :=
  let st := if (st.mem p).when < 0 then setWhen st p maxInt64 else st
  let st := setI st p st.t.length
  { st with t := st.t ++ [p] }

/-- The last entry of the slice replaces the entry at index `k`, its `i` becomes `k`,
and the slice shrinks by one: the state of `deltimer` (lines 137-142, `k = i`) and of
the one-shot branch of `timerproc` (lines 177-183, `k = 0`) just before their sifts,
when `k` is not the last index. -/
def moveLast (k : Nat) (st : Timers) : Timers :=
  let last := st.t.length - 1
  let st := setT st k (ptr st last)
  let st := setI st (ptr st k) k
  { st with t := st.t.take last }

/-- A heap of two timers with the back-pointers in place: the timers at the addresses
0 and 1 have the deadlines 10 and 20 and the period `per`; every other address holds
a timer that was never added (`i = 0`). -/
def twoTimers (per : Int) : Timers :=
  { mem := fun a =>
      { i := if a < 2 then (a : Int) else 0, when := 10 * ((a : Int) + 1), period := per,
        f := a, arg := a, seq := 0 },
    t := [0, 1], sleeping := false, rescheduling := false, created := true }

/-- A heap holding one timer, at address 0, with deadline `w` and period `per`. -/
def oneTimer (w per : Int) : Timers :=
  { mem := fun a => { i := 0, when := w, period := per, f := a, arg := a, seq := 0 },
    t := [0], sleeping := false, rescheduling := false, created := true }

/-- What a pass of the inner loop of `timerproc` leaves, when it returns: the slice,
the deadline of the timer at address `a`, the last `delta` and the timers fired. -/
def summary (a : Nat) : Res LoopResult → Option (List Nat × Int × Int × List Nat)
  | .ok r => some (r.st.t, (r.st.mem a).when, r.delta, fired r.events)
  | _ => none

/-- Whether a run ended in a panic. -/
def Res.isPanic {α : Type} : Res α → Bool
  | .panic _ => true
  | _ => false

/-- The boolean returned by `deltimer`, when it returns. -/
def returned : Res (Timers × Bool) → Option Bool
  | .ok (_, b) => some b
  | _ => none

/-- What a sift leaves of the state `st1` in `st2`: the timer data and the flags are
the same, the slice holds the same pointers, the back-pointer invariant is kept, and
timers outside the heap are untouched. -/
def Sifted (st1 st2 : Timers) : Prop :=
  sameData st1 st2 ∧ sameFlags st1 st2 ∧ st2.t.Perm st1.t ∧
    (BackPtr st1 → BackPtr st2) ∧ (∀ a, a ∉ st1.t → st2.mem a = st1.mem a)

/-! ### Order predicates on the keys of a 4-ary heap, by index -/

/-- Heap order of the keys `g 0 .. g (n-1)` in the 4-ary layout. -/
def HeapOrdF (g : Nat → Int) (n : Nat) : Prop :=
  ∀ j, 0 < j → j < n → g ((j - 1) / 4) ≤ g j

/-- Heap order everywhere except between `i` and its children, whose keys are at
least the key of the parent of `i`: the loop invariant of `siftdownTimer`. -/
def DownInvF (g : Nat → Int) (n i : Nat) : Prop :=
  (∀ j, 0 < j → j < n → (j - 1) / 4 ≠ i → g ((j - 1) / 4) ≤ g j) ∧
  (0 < i → ∀ j, 0 < j → j < n → (j - 1) / 4 = i → g ((i - 1) / 4) ≤ g j)

/-- Heap order everywhere except between `i` and its parent, the children of `i`
having keys at least the key of the parent of `i`: the loop invariant of
`siftupTimer`. -/
def UpInvF (g : Nat → Int) (n i : Nat) : Prop :=
  (∀ j, 0 < j → j < n → j ≠ i → g ((j - 1) / 4) ≤ g j) ∧
  (0 < i → ∀ j, 0 < j → j < n → (j - 1) / 4 = i → g ((i - 1) / 4) ≤ g j)

/-- The keys after exchanging the entries at `i` and `c`. -/
def swapFn (g : Nat → Int) (i c : Nat) : Nat → Int :=
  fun j => if j = c then g i else if j = i then g c else g j

/-- One pass of the outer loop of `timerproc` (lines 157-210) with the clock at
`now`: the lock is taken, `sleeping` is cleared, the inner loop runs, and the pass
ends by releasing the lock, in `goparkunlock` after setting `rescheduling` (lines
199-203) or in `unlock` after setting `sleeping` (lines 206-208).  `faketime` is the
global of that name.  The events are those on `timers.lock` and the callbacks. -/
def timerprocPass (cb : Callback) (faketime now : Int) (fuel : Nat) (st : Timers) :
    Res LoopResult :=
  match timerprocLoop cb now fuel { st with sleeping := false } with
  | .panic msg => .panic msg
  | .outOfFuel => .outOfFuel
  | .ok r =>
    if r.delta < 0 ∨ faketime > 0 then
      .ok ⟨{ r.st with rescheduling := true }, r.delta, [Ev.lock] ++ r.events ++ [Ev.unlock]⟩
    else
      .ok ⟨{ r.st with sleeping := true }, r.delta, [Ev.lock] ++ r.events ++ [Ev.unlock]⟩

/-- The function `timerproc` (lines 154-211) for as many passes of its outer loop as
`passes` has entries: an entry gives the clock value that the pass reads and what the
other goroutines do to the timer state while `timerproc` is parked or asleep after
the pass. -/
def timerproc (cb : Callback) (faketime : Int) (fuel : Nat) :
    List (Int × (Timers → Timers)) → Timers → Res (Timers × List Ev)
  | [], st => .ok (st, [])
  | (now, env) :: passes, st =>
    match timerprocPass cb faketime now fuel st with
    | .panic msg => .panic msg
    | .outOfFuel => .outOfFuel
    | .ok r =>
      match timerproc cb faketime fuel passes (env r.st) with
      | .panic msg => .panic msg
      | .outOfFuel => .outOfFuel
      | .ok (st, evs) => .ok (st, r.events ++ evs)

/-- The events of a run that returned. -/
def eventsOf : Res (Timers × List Ev) → List Ev
  | .ok (_, evs) => evs
  | _ => []

/-- The events of a pass of the inner loop that returned. -/
def loopEvents : Res LoopResult → List Ev
  | .ok r => r.events
  | _ => []

/-- Follow the events on `timers.lock` from a point where `timerproc` holds the lock
(`held = true`) or does not: the value of `held` after the events, or `none` when a
callback is invoked while the lock is held, the lock is taken while held, or released
while not held. -/
def lockHeld : Bool → List Ev → Option Bool
  | held, [] => some held
  | held, Ev.lock :: evs => if held then none else lockHeld true evs
  | held, Ev.unlock :: evs => if held then lockHeld false evs else none
  | held, Ev.call _ _ _ _ :: evs => if held then none else lockHeld false evs
  | held, _ :: evs => lockHeld held evs

/-- The events of one callback invocation `f(arg, seq)` of the timer `tm`: the lock
is released, the callback runs, the lock is taken again (lines 192-197). -/
def service (c : Nat × Nat × Nat × Nat) : List Ev :=
  [Ev.unlock, Ev.call c.1 c.2.1 c.2.2.1 c.2.2.2, Ev.lock]

/-- The deadlines `timers.t[0].when, timers.t[1].when, ...` of the heap. -/
def deadlines (st : Timers) : List Int := st.t.map (fun a => (st.mem a).when)

/-- The indices `timers.t[0].i, timers.t[1].i, ...` recorded in the timers of the heap. -/
def indices (st : Timers) : List Int := st.t.map (fun a => (st.mem a).i)

/-- The state that a call left, when it returned. -/
def stateOf {α : Type} : Res (Timers × α) → Option Timers
  | .ok (st, _) => some st
  | _ => none

/-- The state that a call without a result left, when it returned. -/
def Res.state : Res Timers → Option Timers
  | .ok st => some st
  | _ => none

/-- A heap of two one-shot timers in heap order whose root, at address 0, has the
negative deadline -5; the timer at address 1 has the deadline 3. -/
def negativeRoot : Timers :=
  { mem := fun a =>
      { i := (a : Int), when := if a = 0 then -5 else 3, period := 0, f := a, arg := a,
        seq := 0 },
    t := [0, 1], sleeping := false, rescheduling := false, created := true }

/-- A heap in heap order that holds its root timer twice, at the indices 0 and 1: the
timer at address 0 has the deadline 0 and the period 10, the timer at address 1 the
deadline 100, and the timer at address 2, a child of index 1, the deadline 5. -/
def doubleRoot : Timers :=
  { mem := fun a =>
      { i := 0, when := if a = 0 then 0 else if a = 1 then 100 else 5,
        period := if a = 0 then 10 else 0, f := a, arg := a, seq := 0 },
    t := [0, 0, 1, 1, 1, 2], sleeping := false, rescheduling := false, created := true }

end runtime

/-! ## `time/sleep.go` -/

namespace time

/-- The function `when(d)` (sleep.go, lines 29-38); `now` is the value returned by
`runtimeNano()`, the sum is an `int64` addition. -/
def when (now d : Int) : Int :=
  if d ≤ 0 then now
  else
    let t := runtime.wrap64 (now + d)
    if t < 0 then 2 ^ 63 - 1 else t

end time

/-! ## `sync/mutex.go` -/

namespace sync

/-! ### Constants (mutex.go, lines 32-36) and `int32` arithmetic -/

def mutexLocked : Nat := 1 <<< 0
def mutexWoken : Nat := 1 <<< 1
def mutexWaiterShift : Nat := 2

/-- Addition of two `int32` values as 32-bit words, wrapping at `2^32`. -/
def add32 (a b : Nat) : Nat := (a + b) % 2 ^ 32

/-- Subtraction of two `int32` values as 32-bit words, wrapping at `2^32`. -/
def sub32 (a b : Nat) : Nat := (a + (2 ^ 32 - b % 2 ^ 32)) % 2 ^ 32

/-- Go's bit-clear operator `a &^ m` on 32-bit words. -/
def andNot32 (a m : Nat) : Nat := a &&& ((2 ^ 32 - 1) ^^^ m)

/-- The shift `x >> k` of an `int32` (arithmetic: the sign bit is copied in), on the
32-bit word of `x`, for `k <= 32`. -/
def sar32 (x k : Nat) : Nat :=
  if x < 2 ^ 31 then x >>> k else (x >>> k) + (2 ^ 32 - 2 ^ (32 - k))

/-- The struct `Mutex` (lines 21-24): `state` is the 32-bit word of the `int32`,
`sema` the number of permits of the semaphore. -/
structure Mutex where
  state : Nat
  sema : Nat
  deriving DecidableEq, Repr

/-- Modelled from the spec: `runtime_Semrelease` (the semaphore of the runtime, the
"Parker", is not among the sources) releases one permit. -/
def runtime_Semrelease (sema : Nat) : Nat := sema + 1

/-- Modelled from the spec: `runtime_Semacquire` (not among the sources) blocks the
caller until there is a permit and consumes it: `some` of the remaining permits when
the caller resumes, `none` while it stays parked. -/
def runtime_Semacquire (sema : Nat) : Option Nat :=
  if sema > 0 then some (sema - 1) else none

/-- Calls into the runtime made by `Lock` and `Unlock`. -/
inductive Call where
  | doSpin
  | Semacquire
  | Semrelease
  deriving DecidableEq, Repr

/-- Program points of `Mutex.Lock` between two accesses to the shared word.
`fast`: before the fast-path compare-and-swap (line 43).  `load`: at the head of the
loop, before `old := m.state` (line 53), with the locals `awoke` and `iter`.  `cas`:
after the load, with `old`; the step from here runs lines 54-85 up to its one
compare-and-swap.  `park`: inside `runtime_Semacquire` (line 82).  `returned`: `Lock`
has returned.  `panicked`: the panic of line 74. -/
inductive LockPc where
  | fast
  | load (awoke : Bool) (iter : Nat)
  | cas (awoke : Bool) (iter : Nat) (old : Nat)
  | park
  | returned
  | panicked (msg : String)
  deriving DecidableEq, Repr

/-- Outcome of one step: the next program point, the mutex, the runtime calls made. -/
structure LockStep where
  pc : LockPc
  m : Mutex
  calls : List Call
  deriving DecidableEq, Repr

/-- One step of `Mutex.Lock` (lines 41-91): the code from the program point `pc` up to
and including its next access to the mutex `m`, whose current value is read at that
access.  `canSpin` is the result of `runtime_canSpin(iter)`.  A compare-and-swap
succeeds exactly when the current `m.state` equals its `old`. -/
def lockStep (canSpin : Bool) (pc : LockPc) (m : Mutex) : LockStep :=
  match pc with
  | .fast =>
    if m.state = 0 then ⟨.returned, { m with state := mutexLocked }, []⟩
    else ⟨.load false 0, m, []⟩
  | .load awoke iter => ⟨.cas awoke iter m.state, m, []⟩
  | .cas awoke iter old =>
    if old &&& mutexLocked ≠ 0 ∧ canSpin = true then
      if awoke = false ∧ old &&& mutexWoken = 0 ∧ sar32 old mutexWaiterShift ≠ 0
          ∧ m.state = old then
        ⟨.load true (iter + 1), { m with state := old ||| mutexWoken }, [Call.doSpin]⟩
      else ⟨.load awoke (iter + 1), m, [Call.doSpin]⟩
    else
      let new :=
        if old &&& mutexLocked ≠ 0 then add32 old (1 <<< mutexWaiterShift)
        else old ||| mutexLocked
      if awoke = true ∧ new &&& mutexWoken = 0 then
        ⟨.panicked "sync: inconsistent mutex state", m, []⟩
      else
        let new := if awoke = true then andNot32 new mutexWoken else new
        if m.state = old then
          if old &&& mutexLocked = 0 then ⟨.returned, { m with state := new }, []⟩
          else ⟨.park, { m with state := new }, [Call.Semacquire]⟩
        else ⟨.load awoke iter, m, []⟩
  | .park =>
    match runtime_Semacquire m.sema with
    | some sema => ⟨.load true 0, { m with sema := sema }, []⟩
    | none => ⟨.park, m, []⟩
  | .returned => ⟨.returned, m, []⟩
  | .panicked msg => ⟨.panicked msg, m, []⟩

/-- Program points of `Mutex.Unlock`.  `add`: before the atomic add (line 106).
`loop`: at the head of the loop (line 112) with `old`.  `reload`: after a failed
compare-and-swap, before `old = m.state` (line 124).  `returned`: `Unlock` has
returned.  `panicked`: the panic of line 108. -/
inductive UnlockPc where
  | add
  | loop (old : Nat)
  | reload
  | returned
  | panicked (msg : String)
  deriving DecidableEq, Repr

/-- Outcome of one step of `Unlock`. -/
structure UnlockStep where
  pc : UnlockPc
  m : Mutex
  calls : List Call
  deriving DecidableEq, Repr

/-- One step of `Mutex.Unlock` (lines 99-126) from the program point `pc`. -/
def unlockStep (pc : UnlockPc) (m : Mutex) : UnlockStep :=
  match pc with
  | .add =>
    let new := sub32 m.state mutexLocked
    if (add32 new mutexLocked) &&& mutexLocked = 0 then
      ⟨.panicked "sync: unlock of unlocked mutex", { m with state := new }, []⟩
    else ⟨.loop new, { m with state := new }, []⟩
  | .loop old =>
    if sar32 old mutexWaiterShift = 0 ∨ old &&& (mutexLocked ||| mutexWoken) ≠ 0 then
      ⟨.returned, m, []⟩
    else
      let new := (sub32 old (1 <<< mutexWaiterShift)) ||| mutexWoken
      if m.state = old then
        ⟨.returned, { state := new, sema := runtime_Semrelease m.sema }, [Call.Semrelease]⟩
      else ⟨.reload, m, []⟩
  | .reload => ⟨.loop m.state, m, []⟩
  | .returned => ⟨.returned, m, []⟩
  | .panicked msg => ⟨.panicked msg, m, []⟩

/-- The call `Unlock()` run without interference (lines 99-126): no other goroutine
writes the state word between the atomic add and the compare-and-swap of the loop,
which therefore succeeds when it is reached. -/
def Unlock (m : Mutex) : UnlockStep :=
  let new := sub32 m.state mutexLocked
  if (add32 new mutexLocked) &&& mutexLocked = 0 then
    ⟨.panicked "sync: unlock of unlocked mutex", { m with state := new }, []⟩
  else
    let old := new
    if sar32 old mutexWaiterShift = 0 ∨ old &&& (mutexLocked ||| mutexWoken) ≠ 0 then
      ⟨.returned, { m with state := new }, []⟩
    else
      let new := (sub32 old (1 <<< mutexWaiterShift)) ||| mutexWoken
      ⟨.returned, { state := new, sema := runtime_Semrelease m.sema }, [Call.Semrelease]⟩

/-- Modelled from the spec: the worker of the shared-counter test (the test is not
among the sources).  Each worker runs `for k := 0; k < M; k++ { mu.Lock(); counter++;
mu.Unlock() }`, the increment being a read followed by a write.  Program points:
`idle` between two rounds; `lock pc` inside `Lock` (at `lock .returned` the call has
returned); `read` before reading the counter; `write tmp` after reading `tmp`, before
writing `tmp + 1`; `unlock pc` inside `Unlock`. -/
inductive WorkerPc where
  | idle
  | lock (pc : LockPc)
  | read
  | write (tmp : Nat)
  | unlock (pc : UnlockPc)
  deriving DecidableEq, Repr

/-- A worker: its program point and the number of increments it has written. -/
structure Worker where
  pc : WorkerPc
  rounds : Nat
  deriving DecidableEq, Repr

/-- The shared memory (one mutex, one counter) and the workers, by index. -/
structure World where
  m : Mutex
  counter : Nat
  workers : Nat → Worker

/-- One step of worker `w`: the code up to and including its next access to shared
memory, read and written atomically (sequentially consistent memory). -/
def workerStep (M : Nat) (canSpin : Bool) (w : Worker) (m : Mutex) (counter : Nat) :
    Worker × Mutex × Nat :=
  match w.pc with
  | .idle => if w.rounds < M then ({ w with pc := .lock .fast }, m, counter) else (w, m, counter)
  | .lock .returned => ({ w with pc := .read }, m, counter)
  | .lock pc =>
    let r := lockStep canSpin pc m
    ({ w with pc := .lock r.pc }, r.m, counter)
  | .read => ({ w with pc := .write counter }, m, counter)
  | .write tmp => ({ pc := .unlock .add, rounds := w.rounds + 1 }, m, tmp + 1)
  | .unlock .returned => ({ w with pc := .idle }, m, counter)
  | .unlock pc =>
    let r := unlockStep pc m
    ({ w with pc := .unlock r.pc }, r.m, counter)

/-- The scheduler runs one step of worker `i` (of `N`); `canSpin` is what
`runtime_canSpin` answers if asked during the step. -/
def World.step (N M : Nat) (s : World) (i : Nat) (canSpin : Bool) : World :=
  if i < N then
    let r := workerStep M canSpin (s.workers i) s.m s.counter
    { m := r.2.1, counter := r.2.2, workers := Function.update s.workers i r.1 }
  else s

/-- An interleaving: the list of scheduling decisions, run from left to right. -/
def World.run (N M : Nat) (s : World) : List (Nat × Bool) → World
  | [] => s
  | (i, canSpin) :: rest => World.run N M (World.step N M s i canSpin) rest

/-- The initial world: the zero-value mutex, counter `0`, every worker idle. -/
def World.init : World :=
  { m := { state := 0, sema := 0 }, counter := 0, workers := fun _ => { pc := .idle, rounds := 0 } }

/-- A worker holds the mutex from the return of its `Lock` until the atomic add of its
following `Unlock`. -/
def holding (w : Worker) : Bool :=
  match w.pc with
  | .lock .returned => true
  | .read => true
  | .write _ => true
  | .unlock .add => true
  | _ => false

/-- A worker has finished: all `M` rounds done and back outside the loop body. -/
def finished (M : Nat) (w : Worker) : Bool := w.pc = .idle && w.rounds = M

/-- The number of increments written so far by the workers `0 .. n-1`. -/
def totalRounds (workers : Nat → Worker) : Nat → Nat
  | 0 => 0
  | n + 1 => totalRounds workers n + (workers n).rounds

/-- The invariant of the shared-counter system: at most one worker holds the mutex;
the locked bit is set exactly when some worker holds it; the counter is the number of
increments written; a worker about to write has read the current counter. -/
def World.Inv (N : Nat) (s : World) : Prop :=
  (∀ i j, holding (s.workers i) = true → holding (s.workers j) = true → i = j) ∧
  (s.m.state % 2 = 1 ↔ ∃ i, holding (s.workers i) = true) ∧
  s.counter = totalRounds s.workers N ∧
  (∀ i tmp, (s.workers i).pc = .write tmp → tmp = s.counter)

/-- An interleaving of two workers doing one increment each, with contention: worker 0
takes the mutex by the fast path and reads the counter; worker 1 fails the fast path,
registers as a waiter and parks; worker 0 writes, unlocks and hands off; worker 1 wakes
up, takes the mutex, increments and unlocks. -/
def contended : List (Nat × Bool) :=
  List.replicate 4 (0, false) ++ List.replicate 4 (1, false) ++
    List.replicate 4 (0, false) ++ List.replicate 9 (1, false)

/-- The locked bit of the state word. -/
def locked (s : Nat) : Bool := s &&& mutexLocked != 0

/-- The woken bit of the state word. -/
def woken (s : Nat) : Bool := s &&& mutexWoken != 0

/-- The waiter count: the 30 bits above the two flags. -/
def waiters (s : Nat) : Nat := (s >>> mutexWaiterShift) % 2 ^ 30

end sync

/-! ## `sync/cond.go` -/

namespace sync

/-- Result of a call that may panic, or whose loop is cut by the fuel of the model. -/
inductive Outcome (α : Type) where
  | ok (a : α)
  | panic (msg : String)
  | outOfFuel
  deriving DecidableEq, Repr

/-- The struct `Cond` (cond.go, lines 22-29), without the field `L`, whose `Lock` and
`Unlock` are calls to the caller's `Locker`: the permits of the semaphore `sema`, the
`uint32` counter `waiters`, and the `uintptr` stored in `checker`. -/
structure Cond where
  sema : Nat
  waiters : Nat
  checker : Nat
  deriving DecidableEq, Repr

/-- Calls made by `Wait`, `Signal` and `Broadcast`, in the order of the trace. -/
inductive CondCall where
  | check
  | AddUint32 (delta : Nat)
  | LUnlock
  | Syncsemacquire
  | LLock
  | Syncsemrelease (n : Nat)
  deriving DecidableEq, Repr

/-- Modelled from the spec: `runtime_Syncsemrelease(s, n)` (the semaphore of the
runtime is not among the sources) releases `n` permits. -/
def runtime_Syncsemrelease (sema n : Nat) : Nat := sema + n

/-- Modelled from the spec: `runtime_Syncsemacquire` (not among the sources) blocks the
caller until there is a permit and consumes it: `some` of the remaining permits when
the caller resumes, `none` while it stays blocked. -/
def runtime_Syncsemacquire (sema : Nat) : Option Nat :=
  if sema > 0 then some (sema - 1) else none

/-- The call `atomic.CompareAndSwapUintptr(addr, old, new)` on a word holding `v`:
whether it succeeded, and the word afterwards. -/
def CompareAndSwapUintptr (v old new : Nat) : Bool × Nat :=
  if v = old then (true, new) else (false, v)

/-- The method `copyChecker.check` (lines 115-121) on a checker located at address `a`
and holding `v`, without interference: the value held afterwards, or the panic. -/
def copyChecker.check (a v : Nat) : Outcome Nat :=
  if v ≠ a then
    if (CompareAndSwapUintptr v 0 a).1 = false then
      if (CompareAndSwapUintptr v 0 a).2 ≠ a then .panic "sync.Cond is copied"
      else .ok (CompareAndSwapUintptr v 0 a).2
    else .ok (CompareAndSwapUintptr v 0 a).2
  else .ok v

/-- The loop of `signalImpl` (lines 90-109).  The compare-and-swap succeeds when the
counter still holds `old`; a failed one makes another turn, which costs fuel. -/
def signalLoop (all : Bool) : Nat → Cond → Outcome (Cond × List CondCall)
  | 0, _ => .outOfFuel
  | fuel + 1, c =>
    let old := c.waiters
    if old = 0 then .ok (c, [])
    else
      let new := if all = true then 0 else sub32 old 1
      if c.waiters = old then
        .ok ({ c with waiters := new, sema := runtime_Syncsemrelease c.sema (sub32 old new) },
          [CondCall.Syncsemrelease (sub32 old new)])
      else signalLoop all fuel c

/-- The method `signalImpl(all)` (lines 85-110) on the `Cond` located at address `a`. -/
def signalImpl (all : Bool) (a fuel : Nat) (c : Cond) : Outcome (Cond × List CondCall) :=
  match copyChecker.check a c.checker with
  | .ok v => signalLoop all fuel { c with checker := v }
  | .panic msg => .panic msg
  | .outOfFuel => .outOfFuel

/-- The method `Signal` (lines 72-74). -/
def Signal (a fuel : Nat) (c : Cond) : Outcome (Cond × List CondCall) :=
  signalImpl false a fuel c

/-- The method `Broadcast` (lines 81-83). -/
def Broadcast (a fuel : Nat) (c : Cond) : Outcome (Cond × List CondCall) :=
  signalImpl true a fuel c

/-- Program points of `Cond.Wait` (lines 53-65): before each of its five statements,
after its return, and the panic of the copy check. -/
inductive WaitPc where
  | check
  | add
  | unlock
  | acquire
  | lock
  | returned
  | panicked (msg : String)
  deriving DecidableEq, Repr

/-- One step of `Cond.Wait` on the `Cond` located at address `a`: the statement at the
program point `pc`.  At `acquire` the caller stays blocked while the semaphore has no
permit. -/
def waitStep (a : Nat) (pc : WaitPc) (c : Cond) : WaitPc × Cond × List CondCall :=
  match pc with
  | .check =>
    match copyChecker.check a c.checker with
    | .ok v => (.add, { c with checker := v }, [CondCall.check])
    | .panic msg => (.panicked msg, c, [])
    | .outOfFuel => (.check, c, [])
  | .add => (.unlock, { c with waiters := add32 c.waiters 1 }, [CondCall.AddUint32 1])
  | .unlock => (.acquire, c, [CondCall.LUnlock])
  | .acquire =>
    match runtime_Syncsemacquire c.sema with
    | some sema => (.lock, { c with sema := sema }, [CondCall.Syncsemacquire])
    | none => (.acquire, c, [])
  | .lock => (.returned, c, [CondCall.LLock])
  | .returned => (.returned, c, [])
  | .panicked msg => (.panicked msg, c, [])

/-- A run of `Cond.Wait`: before each of its steps the other goroutines change the
`Cond` as they like (one function of `env` per step); the trace collects the calls. -/
def waitRun (a : Nat) : List (Cond → Cond) → WaitPc → Cond → List CondCall →
    WaitPc × Cond × List CondCall
  | [], pc, c, tr => (pc, c, tr)
  | env :: rest, pc, c, tr =>
    waitRun a rest (waitStep a pc (env c)).1 (waitStep a pc (env c)).2.1
      (tr ++ (waitStep a pc (env c)).2.2)

/-- The trace of `Wait` when it has reached the program point `pc`. -/
def waitTrace : WaitPc → List CondCall
  | .check => []
  | .add => [.check]
  | .unlock => [.check, .AddUint32 1]
  | .acquire => [.check, .AddUint32 1, .LUnlock]
  | .lock => [.check, .AddUint32 1, .LUnlock, .Syncsemacquire]
  | .returned => [.check, .AddUint32 1, .LUnlock, .Syncsemacquire, .LLock]
  | .panicked _ => []

/-- Another goroutine releases one permit, as `Signal` does. -/
def releaseOne (c : Cond) : Cond := { c with sema := runtime_Syncsemrelease c.sema 1 }

end sync

/-! ## `sync/pool.go` -/

namespace sync

/-- The struct `poolLocal` (pool.go, lines 53-58) without its mutex and padding.  An
`interface{}` value is `none` for nil and `some` of a number otherwise; `priv` is
the field `private`. -/
structure poolLocal where
  priv : Option Nat
  shared : List (Option Nat)
  deriving DecidableEq, Repr

/-- The struct `Pool` (lines 42-50).  The pointer `local` is modelled by the array it
points to, `shards` (the array is created by `make` in `pinSlow` and belongs to this
pool), and by `localNil`, which says that the pointer is nil; the array stays in
memory when the pointer is set to nil.  `New` is `none` for a nil function and `some`
of the value the function returns otherwise. -/
structure Pool where
  shards : List poolLocal
  localNil : Bool
  localSize : Nat
  New : Option (Option Nat)
  deriving DecidableEq, Repr

/-- The memory: the pools by address, and the registry `allPools` (lines 209-212). -/
structure Pools where
  pool : Nat → Pool
  allPools : List Nat

/-- The function `indexLocal(l, i)` (lines 218-220), as a read. -/
def indexLocal (shards : List poolLocal) (i : Nat) : poolLocal :=
  shards.getD i ⟨none, []⟩

/-- A write through the pointer `indexLocal(p.local, i)` of the pool at address `p`. -/
def Pools.store (st : Pools) (p i : Nat) (l : poolLocal) : Pools :=
  let q : Pool := { (st.pool p) with shards := (st.pool p).shards.set i l }
  { st with pool := Function.update st.pool p q }

/-- The method `pinSlow` (lines 162-184) of the pool at address `p`; `procs` is
`runtime.GOMAXPROCS(0)` and `pid` the result of `runtime_procPin()`.  The shard it
returns is the one of index `pid` in the state it returns. -/
def Pool.pinSlow (procs pid p : Nat) (st : Pools) : Pools :=
  if pid < (st.pool p).localSize then st
  else
    let q : Pool := { (st.pool p) with
      shards := List.replicate procs ⟨none, []⟩, localNil := false, localSize := procs }
    { pool := Function.update st.pool p q
      allPools := if (st.pool p).localNil = true then st.allPools ++ [p] else st.allPools }

/-- The method `pin` (lines 148-160); the shard it returns is the one of index `pid`
in the state it returns. -/
def Pool.pin (procs pid p : Nat) (st : Pools) : Pools :=
  if pid < (st.pool p).localSize then st else Pool.pinSlow procs pid p st

/-- The method `Put(x)` (lines 61-83), with `raceenabled` false. -/
def Pool.Put (procs pid p : Nat) (x : Option Nat) (st : Pools) : Pools :=
  if x = none then st
  else
    let st := Pool.pin procs pid p st
    let l := indexLocal (st.pool p).shards pid
    if l.priv = none then st.store p pid { l with priv := x }
    else st.store p pid { l with shared := l.shared ++ [x] }

/-- What `Get` returns: the memory, the item, and the number of calls of `New`. -/
structure GetResult where
  st : Pools
  x : Option Nat
  newCalls : Nat

/-- The pop of lines 108-112 and 130-133: `last := len(l.shared) - 1`, and if
`last >= 0` then `x = l.shared[last]` and `l.shared = l.shared[:last]`. -/
def poolLocal.pop (l : poolLocal) : poolLocal × Option Nat :=
  if 1 ≤ l.shared.length then
    ({ l with shared := l.shared.take (l.shared.length - 1) },
      l.shared.getD (l.shared.length - 1) none)
  else (l, none)

/-- The loop of `getSlow` (lines 127-138): `n` more turns from `i` on. -/
def Pool.steal (pid size : Nat) : Nat → Nat → List poolLocal → List poolLocal × Option Nat
  | 0, _, shards => (shards, none)
  | n + 1, i, shards =>
    if 1 ≤ (indexLocal shards ((pid + i + 1) % size)).shared.length then
      (shards.set ((pid + i + 1) % size) (indexLocal shards ((pid + i + 1) % size)).pop.1,
        (indexLocal shards ((pid + i + 1) % size)).pop.2)
    else Pool.steal pid size n (i + 1) shards

/-- The method `getSlow` (lines 120-144). -/
def Pool.getSlow (pid p : Nat) (st : Pools) : GetResult :=
  let size := (st.pool p).localSize
  let r := Pool.steal pid size size 0 (st.pool p).shards
  let st1 : Pools :=
    { st with pool := Function.update st.pool p ({ (st.pool p) with shards := r.1 }) }
  match (st.pool p).New with
  | some v => if r.2 = none then ⟨st1, v, 1⟩ else ⟨st1, r.2, 0⟩
  | none => ⟨st1, r.2, 0⟩

/-- The method `Get` (lines 93-118), with `raceenabled` false. -/
def Pool.Get (procs pid p : Nat) (st : Pools) : GetResult :=
  let st := Pool.pin procs pid p st
  let l := indexLocal (st.pool p).shards pid
  if l.priv ≠ none then ⟨st.store p pid { l with priv := none }, l.priv, 0⟩
  else
    let l1 : poolLocal := { l with priv := none }
    if l1.pop.2 ≠ none then ⟨st.store p pid l1.pop.1, l1.pop.2, 0⟩
    else Pool.getSlow pid p (st.store p pid l1.pop.1)

/-- The inner loops of `poolCleanup` (lines 195-202): `n` more shards from `i` on. -/
def clearShards : Nat → Nat → List poolLocal → List poolLocal
  | 0, _, shards => shards
  | n + 1, i, shards => clearShards n (i + 1) (shards.set i ⟨none, []⟩)

/-- The body of the outer loop of `poolCleanup` (lines 194-204) for one pool. -/
def Pool.sweep (q : Pool) : Pool :=
  { q with shards := clearShards q.localSize 0 q.shards, localNil := true, localSize := 0 }

/-- The function `poolCleanup` (lines 186-207). -/
def poolCleanup (st : Pools) : Pools :=
  { pool := st.allPools.foldl (fun pool p => Function.update pool p (pool p).sweep) st.pool
    allPools := [] }

/-- A pool at address 1 with three workers: only the shared list of the third shard
holds items. -/
def stealPool : Pools :=
  { pool := fun _ =>
      { shards := [⟨none, []⟩, ⟨none, []⟩, ⟨some 3, [some 4, some 9]⟩], localNil := false,
        localSize := 3, New := none }
    allPools := [1] }

/-- A pool at address 1 with one worker whose private slot holds the item 7. -/
def busyPool : Pools :=
  { pool := fun _ => { shards := [⟨some 7, []⟩], localNil := false, localSize := 1, New := none }
    allPools := [1] }

/-- The loop of `getSlow` (lines 127-138), `n` more turns from `i` on, together with
the indices of the shards it inspects, in order.  The remainder `% int(size)` is a
run-time panic when `size` is 0. -/
def Pool.stealScan (pid size : Nat) :
    Nat → Nat → List poolLocal → Outcome (List Nat × List poolLocal × Option Nat)
  | 0, _, shards => .ok ([], shards, none)
  | n + 1, i, shards =>
    if size = 0 then .panic "integer divide by zero"
    else if 1 ≤ (indexLocal shards ((pid + i + 1) % size)).shared.length then
      .ok ([(pid + i + 1) % size],
        shards.set ((pid + i + 1) % size) (indexLocal shards ((pid + i + 1) % size)).pop.1,
        (indexLocal shards ((pid + i + 1) % size)).pop.2)
    else
      match Pool.stealScan pid size n (i + 1) shards with
      | .ok (ks, sh, x) => .ok ((pid + i + 1) % size :: ks, sh, x)
      | .panic msg => .panic msg
      | .outOfFuel => .outOfFuel

/-- The round-robin scan order: the indices `(pid+i+1) mod size` for
`i = 0..size-1`. -/
def scanOrder (pid size : Nat) : List Nat :=
  (List.range size).map (fun i => (pid + i + 1) % size)

/-- A call on a pool: `Put(x)` or `Get()` by the worker `pid` with `GOMAXPROCS = procs`,
or a run of `poolCleanup`. -/
inductive PoolOp where
  | Put (procs pid : Nat) (x : Option Nat)
  | Get (procs pid : Nat)
  | Cleanup
  deriving DecidableEq, Repr

/-- The worker index of a call is below `GOMAXPROCS`, as `runtime_procPin` returns it. -/
def PoolOp.valid : PoolOp → Bool
  | .Put procs pid _ => decide (pid < procs)
  | .Get procs pid => decide (pid < procs)
  | .Cleanup => true

/-- The memory together with the history of the calls on one pool: the non-nil values
passed to `Put` and the results of the calls of `Get`, in order. -/
structure PoolLog where
  st : Pools
  puts : List Nat
  gets : List (Option Nat)

/-- Run a sequence of calls on the pool at address `p`, one after the other. -/
def poolRun (p : Nat) : List PoolOp → PoolLog → PoolLog
  | [], log => log
  | .Put procs pid x :: ops, log =>
    poolRun p ops ⟨Pool.Put procs pid p x log.st, log.puts ++ x.toList, log.gets⟩
  | .Get procs pid :: ops, log =>
    poolRun p ops ⟨(Pool.Get procs pid p log.st).st, log.puts,
      log.gets ++ [(Pool.Get procs pid p log.st).x]⟩
  | .Cleanup :: ops, log => poolRun p ops ⟨poolCleanup log.st, log.puts, log.gets⟩

/-- How many times the shard holds the value `v`. -/
def poolLocal.count (l : poolLocal) (v : Nat) : Nat :=
  (if l.priv = some v then 1 else 0) + l.shared.count (some v)

/-- How many times the shards hold the value `v`. -/
def stored (shards : List poolLocal) (v : Nat) : Nat :=
  (shards.map (fun l => l.count v)).sum

/-- No shared list of the shards holds nil. -/
def NoNil (shards : List poolLocal) : Prop :=
  ∀ l ∈ shards, none ∉ l.shared

end sync

/-! ## `runtime/mfixalloc.go` -/

namespace runtime

/-- Modelled from the spec: the constant `_FixAllocChunk` (declared in malloc.go, which
is not among the sources), the size of a chunk: 16 KiB. -/
def _FixAllocChunk : Nat := 16 <<< 10

/-- The struct `fixalloc` (mfixalloc.go, lines 22-31).  Pointers are addresses, 0 for
nil; `size` and `inuse` are `uintptr` (64 bits), `nchunk` is `uint32`. -/
structure fixalloc where
  size : Nat
  first : Nat
  arg : Nat
  list : Nat
  chunk : Nat
  nchunk : Nat
  inuse : Nat
  stat : Nat
  deriving DecidableEq, Repr

/-- The pointer-size word (8 bytes, least significant byte first, as on amd64) that
the byte memory `mem` holds at the address `a`. -/
def loadWord (mem : Nat → Nat) (a : Nat) : Nat :=
  mem a % 256 + 2 ^ 8 * (mem (a + 1) % 256) + 2 ^ 16 * (mem (a + 2) % 256)
    + 2 ^ 24 * (mem (a + 3) % 256) + 2 ^ 32 * (mem (a + 4) % 256)
    + 2 ^ 40 * (mem (a + 5) % 256) + 2 ^ 48 * (mem (a + 6) % 256)
    + 2 ^ 56 * (mem (a + 7) % 256)

/-- The byte memory after the pointer-size word `v` is stored at the address `a`: the
eight bytes from `a` on are overwritten. -/
def storeWord (mem : Nat → Nat) (a v : Nat) : Nat → Nat :=
  fun b => if a ≤ b ∧ b < a + 8 then v / 2 ^ (8 * (b - a)) % 256 else mem b

/-- The allocator with the memory of its blocks, byte by byte, and the number of
chunks obtained so far.  The field `mlink.next` (lines 40-42) of the block at address
`a` is the pointer-size word at `a`, `loadWord mem a`: the words of two blocks less
than 8 bytes apart share bytes. -/
structure FixHeap where
  f : fixalloc
  mem : Nat → Nat
  nchunks : Nat

/-- Calls made by `fixAlloc_Alloc`. -/
inductive FixCall where
  | persistentalloc (size : Nat)
  | first (arg p : Nat)
  deriving DecidableEq, Repr

/-- What `fixAlloc_Alloc` does: `throw`, or it returns the block `v`. -/
inductive AllocResult where
  | throw (msg : String)
  | ok (h : FixHeap) (v : Nat) (calls : List FixCall)

/-- The function `fixAlloc_Init` (lines 47-56). -/
def fixAlloc_Init (h : FixHeap) (size first arg stat : Nat) : FixHeap :=
  { h with f := ⟨size, first, arg, 0, 0, 0, 0, stat⟩ }

/-- Lines 75-83 of `fixAlloc_Alloc`: the block is carved at `chunk`, of which `nchunk`
bytes are left; `nchunks` chunks have been obtained, by the calls `calls`. -/
def carve (h : FixHeap) (chunk nchunk nchunks : Nat) (calls : List FixCall) : AllocResult :=
  .ok
    { h with
      f := { h.f with
        chunk := (chunk + h.f.size) % 2 ^ 64
        nchunk := (nchunk + (2 ^ 32 - h.f.size % 2 ^ 32)) % 2 ^ 32
        inuse := (h.f.inuse + h.f.size) % 2 ^ 64 }
      nchunks := nchunks }
    chunk
    (calls ++ if h.f.first ≠ 0 then [FixCall.first h.f.arg chunk] else [])

/-- The function `fixAlloc_Alloc` (lines 58-84).  Modelled from the spec: the backing
allocator `persistentalloc` (not among the sources) is the parameter `chunks`, its
`k`-th call returning the chunk at address `chunks k`. -/
def fixAlloc_Alloc (chunks : Nat → Nat) (h : FixHeap) : AllocResult :=
  if h.f.size = 0 then .throw "runtime: internal error"
  else if h.f.list ≠ 0 then
    .ok { h with f := { h.f with
            list := loadWord h.mem h.f.list, inuse := (h.f.inuse + h.f.size) % 2 ^ 64 } }
      h.f.list []
  else if h.f.nchunk < h.f.size then
    carve h (chunks h.nchunks) _FixAllocChunk (h.nchunks + 1)
      [FixCall.persistentalloc _FixAllocChunk]
  else carve h h.f.chunk h.f.nchunk h.nchunks []

/-- The function `fixAlloc_Free` (lines 86-91): `v.next = f.list` stores a
pointer-size word at `p`. -/
def fixAlloc_Free (h : FixHeap) (p : Nat) : FixHeap :=
  { h with
    f := { h.f with inuse := (h.f.inuse + (2 ^ 64 - h.f.size % 2 ^ 64)) % 2 ^ 64, list := p }
    mem := storeWord h.mem p h.f.list }

/-- A call of the allocator. -/
inductive FixOp where
  | alloc
  | free (p : Nat)
  deriving DecidableEq, Repr

/-- What one call of `fixAlloc_Alloc` did: whether the free list was non-empty on
entry, the block returned, the calls made. -/
structure FixRec where
  fromList : Bool
  ret : Nat
  calls : List FixCall
  deriving DecidableEq, Repr

/-- A sequence of calls of `fixAlloc_Alloc` and `fixAlloc_Free`: the final state and the
records of the calls of `fixAlloc_Alloc`, or `none` if one of them throws. -/
def fixRun (chunks : Nat → Nat) : List FixOp → FixHeap → Option (FixHeap × List FixRec)
  | [], h => some (h, [])
  | .alloc :: ops, h =>
    match fixAlloc_Alloc chunks h with
    | .throw _ => none
    | .ok h1 v calls =>
      match fixRun chunks ops h1 with
      | none => none
      | some (h2, recs) => some (h2, ⟨decide (h.f.list ≠ 0), v, calls⟩ :: recs)
  | .free p :: ops, h => fixRun chunks ops (fixAlloc_Free h p)

/-- The free list starting at `p` links exactly the blocks of `stk`, top first. -/
def Chain (mem : Nat → Nat) : Nat → List Nat → Prop
  | p, [] => p = 0
  | p, x :: xs => p = x ∧ x ≠ 0 ∧ Chain mem (loadWord mem x) xs

/-- The first `K` chunks handed out by the backing allocator are not nil, do not wrap
around the address space and are pairwise disjoint. -/
def GoodChunks (chunks : Nat → Nat) (K : Nat) : Prop :=
  (∀ k, k < K → 0 < chunks k ∧ chunks k + _FixAllocChunk < 2 ^ 64) ∧
  ∀ i j, i < K → j < K → i ≠ j →
    chunks i + _FixAllocChunk ≤ chunks j ∨ chunks j + _FixAllocChunk ≤ chunks i

/-- The chunk cursor and the blocks carved so far (`carved`, latest first): unless no
byte is left, the cursor is inside the latest chunk with `nchunk` bytes behind it;
every carved block lies inside one chunk, below the cursor if that is the latest chunk;
and no two carved blocks overlap. -/
def Carved (chunks : Nat → Nat) (h : FixHeap) (carved : List Nat) : Prop :=
  h.f.nchunk ≤ _FixAllocChunk ∧
  (h.f.nchunk = 0 ∨ (0 < h.nchunks ∧ chunks (h.nchunks - 1) ≤ h.f.chunk ∧
    h.f.chunk + h.f.nchunk = chunks (h.nchunks - 1) + _FixAllocChunk)) ∧
  (∀ a, a ∈ carved → ∃ k, k < h.nchunks ∧ chunks k ≤ a ∧
    a + h.f.size ≤ chunks k + _FixAllocChunk ∧
    (k + 1 = h.nchunks → h.f.nchunk ≠ 0 → a + h.f.size ≤ h.f.chunk)) ∧
  carved.Pairwise (fun a b => a + h.f.size ≤ b ∨ b + h.f.size ≤ a)

/-- The invariant of a well-used allocator: the carved blocks, of which `ret` have
been returned and `freed` have been freed at least once; the free list and the links
of the freed blocks lead to freed blocks only. -/
def FixInv (chunks : Nat → Nat) (h : FixHeap) (carved ret freed : List Nat) : Prop :=
  Carved chunks h carved ∧ (h.f.list = 0 ∨ h.f.list ∈ freed) ∧
  (∀ a, a ∈ freed → loadWord h.mem a = 0 ∨ loadWord h.mem a ∈ freed) ∧
  (∀ a, a ∈ ret → a ∈ carved) ∧ (∀ a, a ∈ freed → a ∈ carved)

/-- Adjacent chunks of 16 KiB from address 4096 on. -/
def adjacentChunks (k : Nat) : Nat := 4096 + k * 16384

/-- A heap with an empty allocator. -/
def emptyHeap : FixHeap := { f := ⟨0, 0, 0, 0, 0, 0, 0, 0⟩, mem := fun _ => 0, nchunks := 0 }

end runtime

/-! ## `runtime/slice.go` -/

namespace runtime

/-- The struct `slice` (slice.go, lines 11-15): the address of the array, `len` and
`cap`, both of type `int`. -/
structure slice where
  array : Nat
  len : Int
  cap : Int
  deriving DecidableEq, Repr

/-- The conversion `uintptr(x)` of an `int` on a 64-bit platform. -/
def uintptr (x : Int) : Nat := (x % 2 ^ 64).toNat

/-- The conversion `int(x)` of a `uintptr` on a 64-bit platform. -/
def int (x : Nat) : Int := wrap64 (x : Int)

/-- The body of the loop of `growslice` (lines 73-77): `newcap += newcap` or
`newcap += newcap / 4`, in `int` arithmetic. -/
def growOnce (oldlen newcap : Int) : Int :=
  if oldlen < 1024 then wrap64 (newcap + newcap) else wrap64 (newcap + newcap.tdiv 4)

/-- The loop of `growslice` (lines 72-81) from the value `newcap`.  `none` when the fuel
runs out. -/
def growLoop (oldlen cap : Int) : Nat → Int → Option Int
  | 0, _ => none
  | fuel + 1, newcap =>
    if cap ≤ growOnce oldlen newcap then some (growOnce oldlen newcap)
    else growLoop oldlen cap fuel (growOnce oldlen newcap)

/-- The capacity that `growslice` computes before the rounding to a size class (lines
68-82). -/
def growCap (fuel : Nat) (old : slice) (cap : Int) : Option Int :=
  if wrap64 (old.cap + old.cap) < cap then some cap
  else growLoop old.len cap fuel old.cap

def capOutOfRange : String := "growslice: cap out of range"

/-- The function `growslice(t, old, cap)` (lines 51-108) on a 64-bit platform, with
`raceenabled` false.  `size` is `t.elem.size`.  The constant `_MaxMem` and the function
`roundupsize` are not in this file of the runtime: they are the parameters `MaxMem` and
`roundupsize`.  `zerobase` is the address of the variable of that name and `newarr` the
address of the array that `rawmem` or `newarray` returns; the copy of the elements into
it does not change the slice header. -/
def growslice (MaxMem : Nat) (roundupsize : Nat → Nat) (zerobase newarr fuel : Nat)
    (size : Nat) (old : slice) (cap : Int) : Res slice :=
  if cap < old.cap ∨ (size > 0 ∧ uintptr cap > MaxMem / size) then .panic capOutOfRange
  else if size = 0 then .ok ⟨zerobase, old.len, cap⟩
  else
    match growCap fuel old cap with
    | none => .outOfFuel
    | some newcap =>
      if uintptr newcap ≥ MaxMem / size then .panic capOutOfRange
      else .ok ⟨newarr, old.len, int (roundupsize (uintptr newcap * size % 2 ^ 64) / size)⟩

/-- One step of the growth in unbounded integers: doubled when the old length is below
1024, grown by a quarter otherwise. -/
def growStep (oldlen c : Int) : Int := if oldlen < 1024 then c + c else c + c / 4

/-- Rounding up to a multiple of 16, a stand-in for `roundupsize` in examples. -/
def roundup16 (x : Nat) : Nat := (x + 15) / 16 * 16

/-- The slice returned by `growslice`, when it returns. -/
def sliceOf : Res slice → Option slice
  | .ok s => some s
  | _ => none

end runtime

/-! ## `container/ring/ring.go` -/

namespace ring

/-- The struct `Ring` (ring.go, lines 14-17).  Pointers are addresses, with 0 for nil;
a `Value` is represented by a number. -/
structure Ring where
  next : Nat
  prev : Nat
  Value : Nat
  deriving DecidableEq, Repr

/-- The memory: the ring element at each address. -/
abbrev Heap := Nat → Ring

def nilDeref : String := "invalid memory address or nil pointer dereference"

/-- The assignment `r.next = v`. -/
def setNext (h : Heap) (r v : Nat) : Heap :=
  fun a => if a = r then { h a with next := v } else h a

/-- The assignment `r.prev = v`. -/
def setPrev (h : Heap) (r v : Nat) : Heap :=
  fun a => if a = r then { h a with prev := v } else h a

/-- The method `init` (lines 19-23). -/
def init (r : Nat) (h : Heap) : runtime.Res (Nat × Heap) :=
  if r = 0 then .panic nilDeref else .ok (r, setPrev (setNext h r r) r r)

/-- The method `Next` (lines 26-31). -/
def Next (r : Nat) (h : Heap) : runtime.Res (Nat × Heap) :=
  if r = 0 then .panic nilDeref
  else if (h r).next = 0 then init r h
  else .ok ((h r).next, h)

/-- The method `Prev` (lines 34-39). -/
def Prev (r : Nat) (h : Heap) : runtime.Res (Nat × Heap) :=
  if r = 0 then .panic nilDeref
  else if (h r).next = 0 then init r h
  else .ok ((h r).prev, h)

/-- The loops of `Move` (lines 50-52 and 54-56): `k` more steps from `r`, backward
through `prev` or forward through `next`. -/
def walk (h : Heap) (back : Bool) : Nat → Nat → runtime.Res Nat
  | 0, r => .ok r
  | k + 1, r =>
    if r = 0 then .panic nilDeref
    else walk h back k (if back then (h r).prev else (h r).next)

/-- The method `Move(n)` (lines 44-59). -/
def Move (r : Nat) (n : Int) (h : Heap) : runtime.Res (Nat × Heap) :=
  if r = 0 then .panic nilDeref
  else if (h r).next = 0 then init r h
  else if n < 0 then
    match walk h true (-n).toNat r with
    | .ok s => .ok (s, h)
    | .panic msg => .panic msg
    | .outOfFuel => .outOfFuel
  else if n > 0 then
    match walk h false n.toNat r with
    | .ok s => .ok (s, h)
    | .panic msg => .panic msg
    | .outOfFuel => .outOfFuel
  else .ok (r, h)

/-- The four assignments of `Link` (lines 99-102):
`r.next = s; s.prev = r; n.prev = p; p.next = n`. -/
def relink (h : Heap) (r s n p : Nat) : Heap :=
  setNext (setPrev (setPrev (setNext h r s) s r) n p) p n

/-- The method `Link(s)` (lines 93-105). -/
def Link (r s : Nat) (h : Heap) : runtime.Res (Nat × Heap) :=
  match Next r h with
  | .panic msg => .panic msg
  | .outOfFuel => .outOfFuel
  | .ok (n, h) =>
    if s ≠ 0 then
      match Prev s h with
      | .panic msg => .panic msg
      | .outOfFuel => .outOfFuel
      | .ok (p, h) =>
        if n = 0 ∨ p = 0 then .panic nilDeref else .ok (n, relink h r s n p)
    else .ok (n, h)

/-- The method `Unlink(n)` (lines 111-116); `n + 1` is an `int` addition, of 64 bits. -/
def Unlink (r : Nat) (n : Int) (h : Heap) : runtime.Res (Nat × Heap) :=
  if n ≤ 0 then .ok (0, h)
  else
    match Move r (runtime.wrap64 (n + 1)) h with
    | .panic msg => .panic msg
    | .outOfFuel => .outOfFuel
    | .ok (s, h) => Link r s h

/-- The loop of `Len` (lines 125-127) at its test `p != r`, with the count `n`. -/
def lenLoop (h : Heap) (r : Nat) : Nat → Nat → Nat → runtime.Res Nat
  | 0, _, _ => .outOfFuel
  | fuel + 1, p, n =>
    if p ≠ r then
      if p = 0 then .panic nilDeref else lenLoop h r fuel (h p).next (n + 1)
    else .ok n

/-- The method `Len` (lines 121-130). -/
def Len (r : Nat) (h : Heap) (fuel : Nat) : runtime.Res Nat :=
  if r ≠ 0 then
    match Next r h with
    | .panic msg => .panic msg
    | .outOfFuel => .outOfFuel
    | .ok (p, h) => lenLoop h r fuel p 1
  else .ok 0

/-- The addresses `f 0, ..., f (L-1)` are a ring of `L` elements in the memory `h`:
they are not nil, pairwise different, and each element points forward to the next and
is pointed back to by it, the last one being followed by the first. -/
def IsRing (h : Heap) (f : Nat → Nat) (L : Nat) : Prop :=
  1 ≤ L ∧ (∀ i, i < L → f i ≠ 0) ∧ (∀ i j, i < L → j < L → f i = f j → i = j) ∧
    ∀ i, i < L → (h (f i)).next = f ((i + 1) % L) ∧ (h (f ((i + 1) % L))).prev = f i

/-- The elements of the ring `f` that stay with `f 0` when the `k` elements after it are
taken out: `f 0, f (k+1), f (k+2), ...`. -/
def kept (f : Nat → Nat) (k : Nat) : Nat → Nat := fun i => if i = 0 then f 0 else f (k + i)

/-- A memory that holds a ring of `L` elements at the addresses `1, ..., L`, in this
order. -/
def ringOf (L : Nat) : Heap :=
  fun a => if 1 ≤ a ∧ a ≤ L then ⟨a % L + 1, (a + L - 2) % L + 1, a⟩ else ⟨0, 0, 0⟩

/-- What a call returned: the pointer, or the number. -/
def valueOf {α : Type} : runtime.Res (α × Heap) → Option α
  | .ok (v, _) => some v
  | _ => none

end ring

/-! # Theorems -/

/-! ## Bit-field arithmetic -/

namespace fdMutex

theorem and_window (x k n : Nat) :
    x &&& ((2 ^ k - 1) <<< n) = (x / 2 ^ n % 2 ^ k) * 2 ^ n := by
  apply Nat.eq_of_testBit_eq
  intro j
  rw [← Nat.shiftLeft_eq, ← Nat.shiftRight_eq_div_pow]
  simp only [Nat.testBit_and, Nat.testBit_shiftLeft, Nat.testBit_two_pow_sub_one,
    Nat.testBit_mod_two_pow, Nat.testBit_shiftRight]
  by_cases h : n ≤ j
  · have : n + (j - n) = j := by omega
    simp [h, this, Bool.and_comm]
  · simp [h]

theorem and_two_windows (x k1 n1 k2 n2 : Nat) (h : n1 + k1 ≤ n2) :
    x &&& (((2 ^ k1 - 1) <<< n1) ||| ((2 ^ k2 - 1) <<< n2))
      = (x / 2 ^ n1 % 2 ^ k1) * 2 ^ n1 + (x / 2 ^ n2 % 2 ^ k2) * 2 ^ n2 := by
  rw [Nat.and_or_distrib_left, and_window, and_window, Nat.or_comm,
    Nat.mul_comm (x / 2 ^ n2 % 2 ^ k2), Nat.add_comm]
  refine (Nat.mul_add_lt_is_or ?_ _).symm
  calc x / 2 ^ n1 % 2 ^ k1 * 2 ^ n1 < 2 ^ k1 * 2 ^ n1 :=
        Nat.mul_lt_mul_of_pos_right (Nat.mod_lt _ (Nat.two_pow_pos k1)) (Nat.two_pow_pos n1)
    _ = 2 ^ (n1 + k1) := by rw [Nat.pow_add, Nat.mul_comm]
    _ ≤ 2 ^ n2 := Nat.pow_le_pow_right (by decide) h

theorem or_two_pow (x n : Nat) (h : x / 2 ^ n % 2 = 0) : x ||| 2 ^ n = x + 2 ^ n := by
  have hlo : x % 2 ^ n < 2 ^ n := Nat.mod_lt _ (Nat.two_pow_pos n)
  have hx : x = 2 ^ (n + 1) * (x / 2 ^ (n + 1)) + x % 2 ^ n := by
    have h1 := Nat.div_add_mod x (2 ^ n)
    have h2 := Nat.div_add_mod (x / 2 ^ n) 2
    rw [Nat.div_div_eq_div_mul, h, Nat.add_zero] at h2
    rw [Nat.pow_succ, Nat.mul_assoc, h2]
    exact h1.symm
  have hlt : x % 2 ^ n < 2 ^ (n + 1) := by
    rw [Nat.pow_succ]; omega
  have hlt2 : 2 ^ n + x % 2 ^ n < 2 ^ (n + 1) := by
    rw [Nat.pow_succ]; omega
  have e1 : x % 2 ^ n ||| 2 ^ n = 2 ^ n + x % 2 ^ n := by
    have := Nat.mul_add_lt_is_or hlo 1
    rw [Nat.mul_one] at this
    rw [Nat.or_comm, this]
  generalize x / 2 ^ (n + 1) = hi at hx
  generalize x % 2 ^ n = lo at *
  calc x ||| 2 ^ n = (2 ^ (n + 1) * hi ||| lo) ||| 2 ^ n := by
        rw [← Nat.mul_add_lt_is_or hlt hi, ← hx]
    _ = 2 ^ (n + 1) * hi + (2 ^ n + lo) := by
        rw [Nat.or_assoc, e1, ← Nat.mul_add_lt_is_or hlt2 hi]
    _ = x + 2 ^ n := by omega

theorem mutexClosed_eq : mutexClosed = 1 := by decide
theorem mutexRLock_eq : mutexRLock = 2 := by decide
theorem mutexWLock_eq : mutexWLock = 4 := by decide
theorem mutexRef_eq : mutexRef = 8 := by decide
theorem mutexRWait_eq : mutexRWait = 2 ^ 23 := by decide
theorem mutexWWait_eq : mutexWWait = 2 ^ 43 := by decide

theorem and_mutexClosed (s : Nat) : s &&& mutexClosed = s % 2 := by
  have h : mutexClosed = (2 ^ 1 - 1) <<< 0 := by decide
  rw [h, and_window]; omega

theorem and_mutexRLock (s : Nat) : s &&& mutexRLock = s / 2 % 2 * 2 := by
  have h : mutexRLock = (2 ^ 1 - 1) <<< 1 := by decide
  rw [h, and_window]; omega

theorem and_mutexWLock (s : Nat) : s &&& mutexWLock = s / 4 % 2 * 4 := by
  have h : mutexWLock = (2 ^ 1 - 1) <<< 2 := by decide
  rw [h, and_window]; omega

theorem and_mutexRefMask (s : Nat) : s &&& mutexRefMask = s / 8 % 2 ^ 20 * 8 := by
  have h : mutexRefMask = (2 ^ 20 - 1) <<< 3 := by decide
  rw [h, and_window]; omega

theorem and_mutexRMask (s : Nat) : s &&& mutexRMask = s / 2 ^ 23 % 2 ^ 20 * 2 ^ 23 := by
  have h : mutexRMask = (2 ^ 20 - 1) <<< 23 := by decide
  rw [h, and_window]

theorem and_mutexWMask (s : Nat) : s &&& mutexWMask = s / 2 ^ 43 % 2 ^ 20 * 2 ^ 43 := by
  have h : mutexWMask = (2 ^ 20 - 1) <<< 43 := by decide
  rw [h, and_window]

theorem and_closedRef (s : Nat) :
    s &&& (mutexClosed ||| mutexRefMask) = s % 2 + s / 8 % 2 ^ 20 * 8 := by
  have h : mutexClosed ||| mutexRefMask = ((2 ^ 1 - 1) <<< 0) ||| ((2 ^ 20 - 1) <<< 3) := by
    decide
  rw [h, and_two_windows _ _ _ _ _ (by decide)]; omega

theorem andNot_waitMasks (s : Nat) :
    andNot64 s (mutexRMask ||| mutexWMask) = s % 2 ^ 23 + s / 2 ^ 63 % 2 * 2 ^ 63 := by
  have h : (2 ^ 64 - 1) ^^^ (mutexRMask ||| mutexWMask)
      = ((2 ^ 23 - 1) <<< 0) ||| ((2 ^ 1 - 1) <<< 63) := by decide
  rw [andNot64, h, and_two_windows _ _ _ _ _ (by decide)]; omega

theorem andNot_mutexRLock (s : Nat) :
    andNot64 s mutexRLock = s % 2 + s / 4 % 2 ^ 62 * 4 := by
  have h : (2 ^ 64 - 1) ^^^ mutexRLock = ((2 ^ 1 - 1) <<< 0) ||| ((2 ^ 62 - 1) <<< 2) := by
    decide
  rw [andNot64, h, and_two_windows _ _ _ _ _ (by decide)]; omega

theorem andNot_mutexWLock (s : Nat) :
    andNot64 s mutexWLock = s % 4 + s / 8 % 2 ^ 61 * 8 := by
  have h : (2 ^ 64 - 1) ^^^ mutexWLock = ((2 ^ 2 - 1) <<< 0) ||| ((2 ^ 61 - 1) <<< 3) := by
    decide
  rw [andNot64, h, and_two_windows _ _ _ _ _ (by decide)]; omega

theorem or_mutexClosed (s : Nat) (h : s % 2 = 0) : s ||| mutexClosed = s + 1 := by
  have := or_two_pow s 0 (by simpa using h)
  simpa [mutexClosed] using this

theorem or_mutexRLock (s : Nat) (h : s / 2 % 2 = 0) : s ||| mutexRLock = s + 2 := by
  have := or_two_pow s 1 (by simpa using h)
  simpa [mutexRLock] using this

theorem or_mutexWLock (s : Nat) (h : s / 4 % 2 = 0) : s ||| mutexWLock = s + 4 := by
  have := or_two_pow s 2 (by simpa using h)
  simpa [mutexWLock] using this

/-! ### The fields in arithmetic form -/

theorem closed_eq (s : Nat) : closed s = decide (s % 2 = 1) := by
  rw [closed, and_mutexClosed]
  by_cases h : s % 2 = 1
  · simp [h]
  · have : s % 2 = 0 := by omega
    simp [this]

theorem locked_true_eq (s : Nat) : locked true s = decide (s / 2 % 2 = 1) := by
  simp only [locked, mutexBit, if_true]
  rw [and_mutexRLock]
  by_cases h : s / 2 % 2 = 1
  · simp [h]
  · have : s / 2 % 2 = 0 := by omega
    simp [this]

theorem locked_false_eq (s : Nat) : locked false s = decide (s / 4 % 2 = 1) := by
  simp only [locked, mutexBit, Bool.false_eq_true, if_false]
  rw [and_mutexWLock]
  by_cases h : s / 4 % 2 = 1
  · simp [h]
  · have : s / 4 % 2 = 0 := by omega
    simp [this]

theorem refCount_eq (s : Nat) : refCount s = s / 8 % 2 ^ 20 := by
  rw [refCount, and_mutexRefMask, Nat.shiftRight_eq_div_pow]; omega

theorem waiters_true_eq (s : Nat) : waiters true s = s / 2 ^ 23 % 2 ^ 20 := by
  simp only [waiters, mutexMask, if_true]
  rw [and_mutexRMask, Nat.shiftRight_eq_div_pow]; omega

theorem waiters_false_eq (s : Nat) : waiters false s = s / 2 ^ 43 % 2 ^ 20 := by
  simp only [waiters, mutexMask, Bool.false_eq_true, if_false]
  rw [and_mutexWMask, Nat.shiftRight_eq_div_pow]; omega

end fdMutex

/-! ## Contracts of the `fdMutex` operations -/

namespace fdMutex

/-- C1. `Incref` on any 64-bit state word `s`: when closed it returns false and
leaves the state `s`; when open with `ref_count < 2^20-1` it returns true and the
state becomes `s + mutexRef` (no wrap), with the reference count one larger and the
closed bit, both lock bits and both waiter counts unchanged; when open with
`ref_count = 2^20-1` it panics and the state stays `s`. -/
theorem Incref_spec (s : Nat) (hs : s < 2 ^ 64) :
    (closed s = true → Incref s = { state := s, events := [], ctl := .ret false }) ∧
    (closed s = false → refCount s < 2 ^ 20 - 1 →
      Incref s = { state := s + mutexRef, events := [], ctl := .ret true } ∧
      s + mutexRef < 2 ^ 64 ∧
      refCount (s + mutexRef) = refCount s + 1 ∧
      closed (s + mutexRef) = false ∧
      (∀ read, locked read (s + mutexRef) = locked read s ∧
        waiters read (s + mutexRef) = waiters read s)) ∧
    (closed s = false → refCount s = 2 ^ 20 - 1 →
      Incref s = { state := s, events := [], ctl := .panic inconsistent }) := by
  simp only [closed_eq, refCount_eq, locked_true_eq, locked_false_eq, waiters_true_eq,
    waiters_false_eq, Bool.forall_bool, Incref, and_mutexClosed, and_mutexRefMask, add64,
    mutexRef_eq, decide_eq_true_eq, decide_eq_false_iff_not, decide_eq_decide]
  refine ⟨?_, ?_, ?_⟩
  · intro h
    rw [if_pos (by omega)]
  · intro h hr
    rw [if_neg (by omega), if_neg (by omega)]
    have e : (s + 8) % 2 ^ 64 = s + 8 := by omega
    rw [e]
    refine ⟨rfl, ?_, ?_, ?_, ⟨?_, ?_⟩, ?_, ?_⟩ <;> omega
  · intro h hr
    rw [if_neg (by omega), if_pos (by omega)]

/-- Instance of `Incref_spec` at the state with one reference held. -/
theorem Incref_spec_witness :
    (8 : Nat) < 2 ^ 64 ∧ Incref 8 = { state := 8 + mutexRef, events := [], ctl := .ret true } :=
  ⟨by decide, ((Incref_spec 8 (by decide)).2.1 (by decide) (by decide)).1⟩

end fdMutex

namespace fdMutex

theorem wakeLoop_read (fuel : Nat) : ∀ old : Nat, old < 2 ^ 64 → old / 2 ^ 23 % 2 ^ 20 < fuel →
    wakeLoop mutexRMask mutexRWait .rsema fuel old
      = some (old - old / 2 ^ 23 % 2 ^ 20 * 2 ^ 23,
          List.replicate (old / 2 ^ 23 % 2 ^ 20) (Event.Semrelease .rsema)) := by
  induction fuel with
  | zero => intro old _ h; omega
  | succ fuel ih =>
    intro old hold hf
    rw [wakeLoop, and_mutexRMask]
    by_cases h0 : old / 2 ^ 23 % 2 ^ 20 = 0
    · rw [if_neg (by omega), h0]; simp
    · rw [if_pos (by omega)]
      have e : sub64 old mutexRWait = old - 2 ^ 23 := by
        rw [sub64, mutexRWait_eq]; omega
      have r : (old - 2 ^ 23) / 2 ^ 23 % 2 ^ 20 = old / 2 ^ 23 % 2 ^ 20 - 1 := by omega
      rw [e, ih (old - 2 ^ 23) (by omega) (by omega), r]
      obtain ⟨k, hk⟩ : ∃ k, old / 2 ^ 23 % 2 ^ 20 = k + 1 := ⟨_, (Nat.succ_pred h0).symm⟩
      rw [hk, List.replicate_succ]
      simp only [Nat.add_sub_cancel, Option.some.injEq, Prod.mk.injEq, and_true]
      omega

theorem wakeLoop_write (fuel : Nat) : ∀ old : Nat, old < 2 ^ 64 → old / 2 ^ 43 % 2 ^ 20 < fuel →
    wakeLoop mutexWMask mutexWWait .wsema fuel old
      = some (old - old / 2 ^ 43 % 2 ^ 20 * 2 ^ 43,
          List.replicate (old / 2 ^ 43 % 2 ^ 20) (Event.Semrelease .wsema)) := by
  induction fuel with
  | zero => intro old _ h; omega
  | succ fuel ih =>
    intro old hold hf
    rw [wakeLoop, and_mutexWMask]
    by_cases h0 : old / 2 ^ 43 % 2 ^ 20 = 0
    · rw [if_neg (by omega), h0]; simp
    · rw [if_pos (by omega)]
      have e : sub64 old mutexWWait = old - 2 ^ 43 := by
        rw [sub64, mutexWWait_eq]; omega
      have r : (old - 2 ^ 43) / 2 ^ 43 % 2 ^ 20 = old / 2 ^ 43 % 2 ^ 20 - 1 := by omega
      rw [e, ih (old - 2 ^ 43) (by omega) (by omega), r]
      obtain ⟨k, hk⟩ : ∃ k, old / 2 ^ 43 % 2 ^ 20 = k + 1 := ⟨_, (Nat.succ_pred h0).symm⟩
      rw [hk, List.replicate_succ]
      simp only [Nat.add_sub_cancel, Option.some.injEq, Prod.mk.injEq, and_true]
      omega

/-- The two wake-up loops of `IncrefAndClose` end within the fuel on every 64-bit word:
the read loop makes one release per read waiter, the write loop one per write waiter. -/
theorem wakeLoops_eq (s : Nat) (hs : s < 2 ^ 64) :
    wakeLoop mutexRMask mutexRWait .rsema wakeFuel s
      = some (s - s / 2 ^ 23 % 2 ^ 20 * 2 ^ 23,
          List.replicate (waiters true s) (Event.Semrelease .rsema)) ∧
    wakeLoop mutexWMask mutexWWait .wsema wakeFuel (s - s / 2 ^ 23 % 2 ^ 20 * 2 ^ 23)
      = some (s - s / 2 ^ 23 % 2 ^ 20 * 2 ^ 23 - s / 2 ^ 43 % 2 ^ 20 * 2 ^ 43,
          List.replicate (waiters false s) (Event.Semrelease .wsema)) := by
  constructor
  · rw [wakeLoop_read _ s hs (by rw [wakeFuel]; omega), waiters_true_eq]
  · rw [wakeLoop_write _ _ (by omega) (by rw [wakeFuel]; omega), waiters_false_eq]
    have : (s - s / 2 ^ 23 % 2 ^ 20 * 2 ^ 23) / 2 ^ 43 % 2 ^ 20 = s / 2 ^ 43 % 2 ^ 20 := by
      omega
    rw [this]

/-- The step of `IncrefAndClose` in closed form on a 64-bit word. -/
theorem IncrefAndClose_eq (s : Nat) (hs : s < 2 ^ 64) :
    IncrefAndClose s =
      if s % 2 = 1 then some { state := s, events := [], ctl := .ret false }
      else if s / 8 % 2 ^ 20 = 2 ^ 20 - 1 then
        some { state := s, events := [], ctl := .panic inconsistent }
      else some
        { state := (s + 9) % 2 ^ 23 + s / 2 ^ 63 % 2 * 2 ^ 63
          events := List.replicate (waiters true s) (Event.Semrelease .rsema)
            ++ List.replicate (waiters false s) (Event.Semrelease .wsema)
          ctl := .ret true } := by
  rw [IncrefAndClose, and_mutexClosed]
  by_cases hc : s % 2 = 1
  · rw [if_pos (by omega), if_pos hc]
  · rw [if_neg (by omega), if_neg hc]
    have e : add64 (s ||| mutexClosed) mutexRef = (s + 9) % 2 ^ 64 := by
      rw [or_mutexClosed s (by omega), add64, mutexRef_eq]
    simp only [e, and_mutexRefMask, andNot_waitMasks]
    by_cases hr : s / 8 % 2 ^ 20 = 2 ^ 20 - 1
    · rw [if_pos (by omega), if_pos hr]
    · rw [if_neg (by omega), if_neg hr, (wakeLoops_eq s hs).1]
      simp only [(wakeLoops_eq s hs).2]
      congr 2
      omega

/-- C2. `IncrefAndClose` on an open state with `ref_count < 2^20-1` returns true;
the new state is closed, has the reference count one larger, both waiter counts
zero and both lock bits unchanged; it releases the read semaphore once per read
waiter and then the write semaphore once per write waiter, and nothing else.  On a
closed state it returns false, changes nothing and releases nothing. -/
theorem IncrefAndClose_spec (s : Nat) (hs : s < 2 ^ 64) :
    (closed s = false → refCount s < 2 ^ 20 - 1 →
      ∃ st, IncrefAndClose s = some st ∧ st.ctl = .ret true ∧
        st.events = List.replicate (waiters true s) (Event.Semrelease .rsema)
          ++ List.replicate (waiters false s) (Event.Semrelease .wsema) ∧
        st.events.count (Event.Semrelease .rsema) = waiters true s ∧
        st.events.count (Event.Semrelease .wsema) = waiters false s ∧
        closed st.state = true ∧
        refCount st.state = refCount s + 1 ∧
        waiters true st.state = 0 ∧ waiters false st.state = 0 ∧
        locked true st.state = locked true s ∧ locked false st.state = locked false s) ∧
    (closed s = true →
      IncrefAndClose s = some { state := s, events := [], ctl := .ret false }) := by
  rw [IncrefAndClose_eq s hs]
  simp only [closed_eq, refCount_eq, locked_true_eq, locked_false_eq, waiters_true_eq,
    waiters_false_eq, decide_eq_true_eq, decide_eq_false_iff_not, decide_eq_decide]
  refine ⟨?_, ?_⟩
  · intro h hr
    rw [if_neg h, if_neg (by omega)]
    refine ⟨_, rfl, rfl, rfl, ?_, ?_, ?_, ?_, ?_, ?_, ?_, ?_⟩
    · simp [List.count_replicate]
    · simp [List.count_replicate]
    all_goals (simp only []; omega)
  · intro h
    rw [if_pos h]

/-- Instance of `IncrefAndClose_spec` at an open state with both locks held, two
references, one read waiter and one write waiter. -/
theorem IncrefAndClose_spec_witness :
    (8796101410838 : Nat) < 2 ^ 64 ∧
      ∃ st, IncrefAndClose 8796101410838 = some st ∧ st.ctl = .ret true ∧
        st.events = [Event.Semrelease .rsema, Event.Semrelease .wsema] :=
  ⟨by decide,
    let ⟨st, h1, h2, h3, _⟩ :=
      (IncrefAndClose_spec 8796101410838 (by decide)).1 (by decide) (by decide)
    ⟨st, h1, h2, h3.trans (by decide)⟩⟩

/-- C3. `Decref` on a state with `ref_count > 0` leaves the state `s - mutexRef`
(a true subtraction) and returns true exactly when that new state is closed with
reference count zero; the result depends on the closed bit and the reference count
only, not on the lock bits or the waiter counts. -/
theorem Decref_spec (s : Nat) (hs : s < 2 ^ 64) (hr : 0 < refCount s) :
    mutexRef ≤ s ∧
    Decref s = { state := s - mutexRef, events := [],
                 ctl := .ret (closed (s - mutexRef) && decide (refCount (s - mutexRef) = 0)) } ∧
    (∀ s2, s2 < 2 ^ 64 → closed s2 = closed s → refCount s2 = refCount s →
      (Decref s2).ctl = (Decref s).ctl) := by
  have key : ∀ x, x < 2 ^ 64 → 0 < refCount x →
      8 ≤ x ∧ Decref x =
        ⟨x - 8, [], .ret (decide (x % 2 = 1 ∧ x / 8 % 2 ^ 20 = 1))⟩ := by
    intro x hx hxr
    rw [refCount_eq] at hxr
    simp only [Decref, and_mutexRefMask, and_closedRef, sub64, mutexRef_eq]
    rw [if_neg (by omega), mutexClosed_eq]
    have e : (x + (2 ^ 64 - 8 % 2 ^ 64)) % 2 ^ 64 = x - 8 := by omega
    have d : decide ((x - 8) % 2 + (x - 8) / 8 % 2 ^ 20 * 8 = 1)
        = decide (x % 2 = 1 ∧ x / 8 % 2 ^ 20 = 1) := by
      rw [decide_eq_decide]; omega
    rw [e, d]
    exact ⟨by omega, rfl⟩
  obtain ⟨h8, hD⟩ := key s hs hr
  rw [mutexRef_eq]
  refine ⟨h8, ?_, ?_⟩
  · rw [hD, closed_eq, refCount_eq]
    have d : decide (s % 2 = 1 ∧ s / 8 % 2 ^ 20 = 1)
        = (decide ((s - 8) % 2 = 1) && decide ((s - 8) / 8 % 2 ^ 20 = 0)) := by
      rw [← Bool.decide_and, decide_eq_decide]
      rw [refCount_eq] at hr
      omega
    rw [d]
  · intro s2 hs2 hc hrc
    rw [hD, (key s2 hs2 (by omega)).2]
    rw [closed_eq, closed_eq, decide_eq_decide] at hc
    rw [refCount_eq, refCount_eq] at hrc
    have d : decide (s2 % 2 = 1 ∧ s2 / 8 % 2 ^ 20 = 1)
        = decide (s % 2 = 1 ∧ s / 8 % 2 ^ 20 = 1) := by
      rw [decide_eq_decide]; omega
    rw [d]

/-- Instance of `Decref_spec`: dropping the last reference of a closed descriptor. -/
theorem Decref_spec_witness :
    (9 : Nat) < 2 ^ 64 ∧ 0 < refCount 9 ∧
      Decref 9 = { state := 9 - mutexRef, events := [],
                   ctl := .ret (closed (9 - mutexRef) && decide (refCount (9 - mutexRef) = 0)) } :=
  ⟨by decide, by decide, (Decref_spec 9 (by decide) (by decide)).2.1⟩

end fdMutex

namespace fdMutex

/-! ### The operations in arithmetic form -/

theorem Incref_eq (s : Nat) (hs : s < 2 ^ 64) :
    Incref s =
      if s % 2 = 1 then ⟨s, [], .ret false⟩
      else if s / 8 % 2 ^ 20 = 2 ^ 20 - 1 then ⟨s, [], .panic inconsistent⟩
      else ⟨s + 8, [], .ret true⟩ := by
  simp only [Incref, and_mutexClosed, and_mutexRefMask, add64, mutexRef_eq]
  by_cases hc : s % 2 = 1
  · rw [if_pos (by omega), if_pos hc]
  · rw [if_neg (by omega), if_neg hc]
    by_cases hr : s / 8 % 2 ^ 20 = 2 ^ 20 - 1
    · rw [if_pos (by omega), if_pos hr]
    · have e : (s + 8) % 2 ^ 64 = s + 8 := by omega
      rw [if_neg (by omega), if_neg hr, e]

theorem Decref_eq (s : Nat) (hs : s < 2 ^ 64) :
    Decref s =
      if s / 8 % 2 ^ 20 = 0 then ⟨s, [], .panic inconsistent⟩
      else ⟨s - 8, [], .ret (decide (s % 2 = 1 ∧ s / 8 % 2 ^ 20 = 1))⟩ := by
  simp only [Decref, and_mutexRefMask, and_closedRef, sub64, mutexRef_eq]
  by_cases hr : s / 8 % 2 ^ 20 = 0
  · rw [if_pos (by omega), if_pos hr]
  · rw [if_neg (by omega), if_neg hr, mutexClosed_eq]
    have e : (s + (2 ^ 64 - 8 % 2 ^ 64)) % 2 ^ 64 = s - 8 := by omega
    have d : decide ((s - 8) % 2 + (s - 8) / 8 % 2 ^ 20 * 8 = 1)
        = decide (s % 2 = 1 ∧ s / 8 % 2 ^ 20 = 1) := by
      rw [decide_eq_decide]; omega
    rw [e, d]

theorem RWLock_true_eq (s : Nat) (hs : s < 2 ^ 64) :
    RWLock true s =
      if s % 2 = 1 then ⟨s, [], .ret false⟩
      else if s / 2 % 2 = 0 then
        if s / 8 % 2 ^ 20 = 2 ^ 20 - 1 then ⟨s, [], .panic inconsistent⟩
        else ⟨s + 2 + 8, [], .ret true⟩
      else
        if s / 2 ^ 23 % 2 ^ 20 = 2 ^ 20 - 1 then ⟨s, [], .panic inconsistent⟩
        else ⟨s + 2 ^ 23, [Event.Semacquire .rsema], .retry⟩ := by
  simp only [RWLock, mutexBit, mutexWait, mutexMask, mutexSema, if_true, and_mutexClosed,
    and_mutexRLock, and_mutexRefMask, and_mutexRMask, add64, mutexRef_eq, mutexRWait_eq]
  by_cases hc : s % 2 = 1
  · rw [if_pos (by omega), if_pos hc]
  · rw [if_neg (by omega), if_neg hc]
    by_cases hb : s / 2 % 2 = 0
    · rw [if_pos (by omega), if_pos hb, or_mutexRLock s hb]
      by_cases hr : s / 8 % 2 ^ 20 = 2 ^ 20 - 1
      · rw [if_pos (by omega), if_pos hr]
      · have e : (s + 2 + 8) % 2 ^ 64 = s + 2 + 8 := by omega
        rw [if_neg (by omega), if_neg hr, e]
    · rw [if_neg (by omega), if_neg hb]
      by_cases hw : s / 2 ^ 23 % 2 ^ 20 = 2 ^ 20 - 1
      · rw [if_pos (by omega), if_pos hw]
      · have e : (s + 2 ^ 23) % 2 ^ 64 = s + 2 ^ 23 := by omega
        rw [if_neg (by omega), if_neg hw, e]

theorem RWLock_false_eq (s : Nat) (hs : s < 2 ^ 64) :
    RWLock false s =
      if s % 2 = 1 then ⟨s, [], .ret false⟩
      else if s / 4 % 2 = 0 then
        if s / 8 % 2 ^ 20 = 2 ^ 20 - 1 then ⟨s, [], .panic inconsistent⟩
        else ⟨s + 4 + 8, [], .ret true⟩
      else
        if s / 2 ^ 43 % 2 ^ 20 = 2 ^ 20 - 1 then ⟨s, [], .panic inconsistent⟩
        else ⟨s + 2 ^ 43, [Event.Semacquire .wsema], .retry⟩ := by
  simp only [RWLock, mutexBit, mutexWait, mutexMask, mutexSema, Bool.false_eq_true, if_false,
    and_mutexClosed, and_mutexWLock, and_mutexRefMask, and_mutexWMask, add64, mutexRef_eq,
    mutexWWait_eq]
  by_cases hc : s % 2 = 1
  · rw [if_pos (by omega), if_pos hc]
  · rw [if_neg (by omega), if_neg hc]
    by_cases hb : s / 4 % 2 = 0
    · rw [if_pos (by omega), if_pos hb, or_mutexWLock s hb]
      by_cases hr : s / 8 % 2 ^ 20 = 2 ^ 20 - 1
      · rw [if_pos (by omega), if_pos hr]
      · have e : (s + 4 + 8) % 2 ^ 64 = s + 4 + 8 := by omega
        rw [if_neg (by omega), if_neg hr, e]
    · rw [if_neg (by omega), if_neg hb]
      by_cases hw : s / 2 ^ 43 % 2 ^ 20 = 2 ^ 20 - 1
      · rw [if_pos (by omega), if_pos hw]
      · have e : (s + 2 ^ 43) % 2 ^ 64 = s + 2 ^ 43 := by omega
        rw [if_neg (by omega), if_neg hw, e]

theorem RWUnlock_true_eq (s : Nat) (hs : s < 2 ^ 64) :
    RWUnlock true s =
      if s / 2 % 2 = 0 ∨ s / 8 % 2 ^ 20 = 0 then ⟨s, [], .panic inconsistent⟩
      else if s / 2 ^ 23 % 2 ^ 20 = 0 then
        ⟨s - 2 - 8, [], .ret (decide (s % 2 = 1 ∧ s / 8 % 2 ^ 20 = 1))⟩
      else
        ⟨s - 2 - 8 - 2 ^ 23, [Event.Semrelease .rsema],
          .ret (decide (s % 2 = 1 ∧ s / 8 % 2 ^ 20 = 1))⟩ := by
  simp only [RWUnlock, mutexBit, mutexWait, mutexMask, mutexSema, if_true,
    and_mutexRLock, and_mutexRefMask, and_mutexRMask, and_closedRef, andNot_mutexRLock, sub64,
    mutexRef_eq, mutexRWait_eq]
  by_cases hp : s / 2 % 2 = 0 ∨ s / 8 % 2 ^ 20 = 0
  · rw [if_pos (by omega), if_pos hp]
  · rw [if_neg (by omega), if_neg hp, mutexClosed_eq]
    have e : (s % 2 + s / 4 % 2 ^ 62 * 4 + (2 ^ 64 - 8 % 2 ^ 64)) % 2 ^ 64 = s - 2 - 8 := by
      omega
    rw [e]
    by_cases hw : s / 2 ^ 23 % 2 ^ 20 = 0
    · have d : decide ((s - 2 - 8) % 2 + (s - 2 - 8) / 8 % 2 ^ 20 * 8 = 1)
          = decide (s % 2 = 1 ∧ s / 8 % 2 ^ 20 = 1) := by
        rw [decide_eq_decide]; omega
      simp only [if_neg (show ¬ s / 2 ^ 23 % 2 ^ 20 * 2 ^ 23 ≠ 0 by omega), if_pos hw, d]
    · have e2 : (s - 2 - 8 + (2 ^ 64 - 2 ^ 23 % 2 ^ 64)) % 2 ^ 64 = s - 2 - 8 - 2 ^ 23 := by
        omega
      have d : decide ((s - 2 - 8 - 2 ^ 23) % 2 + (s - 2 - 8 - 2 ^ 23) / 8 % 2 ^ 20 * 8 = 1)
          = decide (s % 2 = 1 ∧ s / 8 % 2 ^ 20 = 1) := by
        rw [decide_eq_decide]; omega
      simp only [if_pos (show s / 2 ^ 23 % 2 ^ 20 * 2 ^ 23 ≠ 0 by omega), if_neg hw, e2, d]

theorem RWUnlock_false_eq (s : Nat) (hs : s < 2 ^ 64) :
    RWUnlock false s =
      if s / 4 % 2 = 0 ∨ s / 8 % 2 ^ 20 = 0 then ⟨s, [], .panic inconsistent⟩
      else if s / 2 ^ 43 % 2 ^ 20 = 0 then
        ⟨s - 4 - 8, [], .ret (decide (s % 2 = 1 ∧ s / 8 % 2 ^ 20 = 1))⟩
      else
        ⟨s - 4 - 8 - 2 ^ 43, [Event.Semrelease .wsema],
          .ret (decide (s % 2 = 1 ∧ s / 8 % 2 ^ 20 = 1))⟩ := by
  simp only [RWUnlock, mutexBit, mutexWait, mutexMask, mutexSema, Bool.false_eq_true, if_false,
    and_mutexWLock, and_mutexRefMask, and_mutexWMask, and_closedRef, andNot_mutexWLock, sub64,
    mutexRef_eq, mutexWWait_eq]
  by_cases hp : s / 4 % 2 = 0 ∨ s / 8 % 2 ^ 20 = 0
  · rw [if_pos (by omega), if_pos hp]
  · rw [if_neg (by omega), if_neg hp, mutexClosed_eq]
    have e : (s % 4 + s / 8 % 2 ^ 61 * 8 + (2 ^ 64 - 8 % 2 ^ 64)) % 2 ^ 64 = s - 4 - 8 := by
      omega
    rw [e]
    by_cases hw : s / 2 ^ 43 % 2 ^ 20 = 0
    · have d : decide ((s - 4 - 8) % 2 + (s - 4 - 8) / 8 % 2 ^ 20 * 8 = 1)
          = decide (s % 2 = 1 ∧ s / 8 % 2 ^ 20 = 1) := by
        rw [decide_eq_decide]; omega
      simp only [if_neg (show ¬ s / 2 ^ 43 % 2 ^ 20 * 2 ^ 43 ≠ 0 by omega), if_pos hw, d]
    · have e2 : (s - 4 - 8 + (2 ^ 64 - 2 ^ 43 % 2 ^ 64)) % 2 ^ 64 = s - 4 - 8 - 2 ^ 43 := by
        omega
      have d : decide ((s - 4 - 8 - 2 ^ 43) % 2 + (s - 4 - 8 - 2 ^ 43) / 8 % 2 ^ 20 * 8 = 1)
          = decide (s % 2 = 1 ∧ s / 8 % 2 ^ 20 = 1) := by
        rw [decide_eq_decide]; omega
      simp only [if_pos (show s / 2 ^ 43 % 2 ^ 20 * 2 ^ 43 ≠ 0 by omega), if_neg hw, e2, d]

end fdMutex

namespace fdMutex

/-- C4, as stated, fails when the reference count is full: on the open state whose
reference count is `2^20-1` and whose read-lock bit is clear, `RWLock(true)` does not
set the bit and return true, it panics; and on the open state with the read lock
held and `2^20-1` read waiters it does not park, it panics. -/
theorem RWLock_overflow_counterexample :
    (mutexRefMask < 2 ^ 64 ∧ closed mutexRefMask = false ∧ locked true mutexRefMask = false ∧
      RWLock true mutexRefMask
        = { state := mutexRefMask, events := [], ctl := .panic inconsistent } ∧
      (RWLock true mutexRefMask).ctl ≠ .ret true) ∧
    (mutexRLock + mutexRMask < 2 ^ 64 ∧ closed (mutexRLock + mutexRMask) = false ∧
      locked true (mutexRLock + mutexRMask) = true ∧
      RWLock true (mutexRLock + mutexRMask)
        = { state := mutexRLock + mutexRMask, events := [], ctl := .panic inconsistent }) := by
  decide

/-- C4 (amended). First iteration of `RWLock(read)` on any 64-bit state `s`, for
both modes.  Closed: returns false, state unchanged, no parking.  Open with the
mode's lock bit clear and `ref_count < 2^20-1`: the state becomes
`s + mutexBit + mutexRef`, i.e. the bit is set, one reference is added, no other
field changes, and it returns true without parking; with `ref_count = 2^20-1` it
panics and writes nothing.  Open with the mode's lock bit set and fewer than
`2^20-1` waiters of that mode: the state becomes `s + mutexWait`, i.e. only that
mode's waiter count grows by one, and it parks on that mode's semaphore before
retrying; with `2^20-1` waiters it panics and writes nothing. -/
theorem RWLock_spec (read : Bool) (s : Nat) (hs : s < 2 ^ 64) :
    (closed s = true → RWLock read s = { state := s, events := [], ctl := .ret false }) ∧
    (closed s = false → locked read s = false → refCount s < 2 ^ 20 - 1 →
      RWLock read s
        = { state := s + mutexBit read + mutexRef, events := [], ctl := .ret true } ∧
      locked read (s + mutexBit read + mutexRef) = true ∧
      refCount (s + mutexBit read + mutexRef) = refCount s + 1 ∧
      closed (s + mutexBit read + mutexRef) = false ∧
      locked (!read) (s + mutexBit read + mutexRef) = locked (!read) s ∧
      (∀ m, waiters m (s + mutexBit read + mutexRef) = waiters m s)) ∧
    (closed s = false → locked read s = false → refCount s = 2 ^ 20 - 1 →
      RWLock read s = { state := s, events := [], ctl := .panic inconsistent }) ∧
    (closed s = false → locked read s = true → waiters read s < 2 ^ 20 - 1 →
      RWLock read s
        = { state := s + mutexWait read,
            events := [Event.Semacquire (if read then Sema.rsema else Sema.wsema)],
            ctl := .retry } ∧
      waiters read (s + mutexWait read) = waiters read s + 1 ∧
      waiters (!read) (s + mutexWait read) = waiters (!read) s ∧
      refCount (s + mutexWait read) = refCount s ∧
      closed (s + mutexWait read) = false ∧
      (∀ m, locked m (s + mutexWait read) = locked m s)) ∧
    (closed s = false → locked read s = true → waiters read s = 2 ^ 20 - 1 →
      RWLock read s = { state := s, events := [], ctl := .panic inconsistent }) := by
  cases read
  · rw [RWLock_false_eq s hs]
    simp only [closed_eq, refCount_eq, locked_true_eq, locked_false_eq, waiters_true_eq,
      waiters_false_eq, Bool.forall_bool, decide_eq_true_eq, decide_eq_false_iff_not,
      decide_eq_decide, mutexBit, mutexWait, mutexRef_eq, mutexWLock_eq, mutexWWait_eq,
      Bool.false_eq_true, if_false, Bool.not_false]
    refine ⟨?_, ?_, ?_, ?_, ?_⟩
    · intro h; rw [if_pos h]
    · intro h hl hr
      rw [if_neg h, if_pos (by omega), if_neg (by omega)]
      refine ⟨rfl, ?_, ?_, ?_, ?_, ?_, ?_⟩ <;> omega
    · intro h hl hr
      rw [if_neg h, if_pos (by omega), if_pos hr]
    · intro h hl hw
      rw [if_neg h, if_neg (by omega), if_neg (by omega)]
      refine ⟨rfl, ?_, ?_, ?_, ?_, ?_, ?_⟩ <;> omega
    · intro h hl hw
      rw [if_neg h, if_neg (by omega), if_pos hw]
  · rw [RWLock_true_eq s hs]
    simp only [closed_eq, refCount_eq, locked_true_eq, locked_false_eq, waiters_true_eq,
      waiters_false_eq, Bool.forall_bool, decide_eq_true_eq, decide_eq_false_iff_not,
      decide_eq_decide, mutexBit, mutexWait, mutexRef_eq, mutexRLock_eq, mutexRWait_eq,
      if_true, Bool.not_true]
    refine ⟨?_, ?_, ?_, ?_, ?_⟩
    · intro h; rw [if_pos h]
    · intro h hl hr
      rw [if_neg h, if_pos (by omega), if_neg (by omega)]
      refine ⟨rfl, ?_, ?_, ?_, ?_, ?_, ?_⟩ <;> omega
    · intro h hl hr
      rw [if_neg h, if_pos (by omega), if_pos hr]
    · intro h hl hw
      rw [if_neg h, if_neg (by omega), if_neg (by omega)]
      refine ⟨rfl, ?_, ?_, ?_, ?_, ?_, ?_⟩ <;> omega
    · intro h hl hw
      rw [if_neg h, if_neg (by omega), if_pos hw]

/-- Instance of `RWLock_spec`: taking the free read lock of the zero state. -/
theorem RWLock_spec_witness :
    (0 : Nat) < 2 ^ 64 ∧
      RWLock true 0 = { state := 0 + mutexBit true + mutexRef, events := [], ctl := .ret true } :=
  ⟨by decide, ((RWLock_spec true 0 (by decide)).2.1 (by decide) (by decide) (by decide)).1⟩

end fdMutex

namespace fdMutex

/-- C5. `RWUnlock(read)` on a state whose lock bit for that mode is set and whose
reference count is positive: the new state has that lock bit clear and the reference
count one smaller; if the mode had waiters, its waiter count drops by exactly one and
exactly one release is made on that mode's semaphore, otherwise the count stays zero
and no release is made; the other mode's lock bit and waiter count and the closed bit
are unchanged; the result is true exactly when the new state is closed with reference
count zero. -/
theorem RWUnlock_spec (read : Bool) (s : Nat) (hs : s < 2 ^ 64)
    (hl : locked read s = true) (hr : 0 < refCount s) :
    locked read (RWUnlock read s).state = false ∧
    refCount (RWUnlock read s).state + 1 = refCount s ∧
    (waiters read s ≠ 0 →
      waiters read (RWUnlock read s).state + 1 = waiters read s ∧
      (RWUnlock read s).events = [Event.Semrelease (if read then Sema.rsema else Sema.wsema)]) ∧
    (waiters read s = 0 →
      waiters read (RWUnlock read s).state = 0 ∧ (RWUnlock read s).events = []) ∧
    locked (!read) (RWUnlock read s).state = locked (!read) s ∧
    waiters (!read) (RWUnlock read s).state = waiters (!read) s ∧
    closed (RWUnlock read s).state = closed s ∧
    (RWUnlock read s).ctl = .ret (closed (RWUnlock read s).state
      && decide (refCount (RWUnlock read s).state = 0)) := by
  cases read
  · rw [RWUnlock_false_eq s hs]
    simp only [closed_eq, refCount_eq, locked_true_eq, locked_false_eq, waiters_true_eq,
      waiters_false_eq, decide_eq_true_eq, decide_eq_false_iff_not,
      decide_eq_decide, Bool.false_eq_true, if_false, Bool.not_false, ← Bool.decide_and] at *
    rw [if_neg (by omega)]
    split_ifs with hw
    · refine ⟨?_, ?_, ?_, ?_, ?_, ?_, ?_, ?_⟩ <;> simp only [] <;>
        first | omega | (intro; omega) | (intro; exact ⟨by omega, trivial⟩) |
          (simp only [Ctl.ret.injEq, decide_eq_decide]; omega)
    · refine ⟨?_, ?_, ?_, ?_, ?_, ?_, ?_, ?_⟩ <;> simp only [] <;>
        first | omega | (intro; omega) | (intro; exact ⟨by omega, trivial⟩) |
          (simp only [Ctl.ret.injEq, decide_eq_decide]; omega)
  · rw [RWUnlock_true_eq s hs]
    simp only [closed_eq, refCount_eq, locked_true_eq, locked_false_eq, waiters_true_eq,
      waiters_false_eq, decide_eq_true_eq, decide_eq_false_iff_not,
      decide_eq_decide, if_true, Bool.not_true, ← Bool.decide_and] at *
    rw [if_neg (by omega)]
    split_ifs with hw
    · refine ⟨?_, ?_, ?_, ?_, ?_, ?_, ?_, ?_⟩ <;> simp only [] <;>
        first | omega | (intro; omega) | (intro; exact ⟨by omega, trivial⟩) |
          (simp only [Ctl.ret.injEq, decide_eq_decide]; omega)
    · refine ⟨?_, ?_, ?_, ?_, ?_, ?_, ?_, ?_⟩ <;> simp only [] <;>
        first | omega | (intro; omega) | (intro; exact ⟨by omega, trivial⟩) |
          (simp only [Ctl.ret.injEq, decide_eq_decide]; omega)

/-- Instance of `RWUnlock_spec`: the reader unlocks while one reader waits. -/
theorem RWUnlock_spec_witness :
    (8388618 : Nat) < 2 ^ 64 ∧ locked true 8388618 = true ∧ 0 < refCount 8388618 ∧
      locked true (RWUnlock true 8388618).state = false ∧
      refCount (RWUnlock true 8388618).state + 1 = refCount 8388618 :=
  ⟨by decide, by decide, by decide,
    (RWUnlock_spec true 8388618 (by decide) (by decide) (by decide)).1,
    (RWUnlock_spec true 8388618 (by decide) (by decide) (by decide)).2.1⟩

end fdMutex

namespace fdMutex

/-- The step taken by `IncrefAndClose` on a 64-bit word; it always exists. -/
theorem IncrefAndClose_some (s : Nat) (hs : s < 2 ^ 64) :
    IncrefAndClose s = some
      (if s % 2 = 1 then { state := s, events := [], ctl := .ret false }
      else if s / 8 % 2 ^ 20 = 2 ^ 20 - 1 then
        { state := s, events := [], ctl := .panic inconsistent }
      else
        { state := (s + 9) % 2 ^ 23 + s / 2 ^ 63 % 2 * 2 ^ 63
          events := List.replicate (waiters true s) (Event.Semrelease .rsema)
            ++ List.replicate (waiters false s) (Event.Semrelease .wsema)
          ctl := .ret true }) := by
  rw [IncrefAndClose_eq s hs]
  split_ifs <;> rfl

/-- Every operation keeps the state word below `2^64`, and keeps a closed state closed. -/
theorem step_bound_closed (op : Op) (s : Nat) (hs : s < 2 ^ 64) :
    ∃ st, op.run s = some st ∧ st.state < 2 ^ 64 ∧ (closed s = true → closed st.state = true) := by
  cases op with
  | Incref =>
    refine ⟨_, rfl, ?_⟩
    rw [Incref_eq s hs]
    simp only [closed_eq, decide_eq_true_eq]
    split_ifs <;> (simp only []; omega)
  | IncrefAndClose =>
    refine ⟨_, IncrefAndClose_some s hs, ?_⟩
    simp only [closed_eq, decide_eq_true_eq]
    split_ifs <;> (simp only []; omega)
  | Decref =>
    refine ⟨_, rfl, ?_⟩
    rw [Decref_eq s hs]
    simp only [closed_eq, decide_eq_true_eq]
    split_ifs <;> (simp only []; omega)
  | RWLock read =>
    refine ⟨_, rfl, ?_⟩
    cases read
    · rw [RWLock_false_eq s hs]
      simp only [closed_eq, decide_eq_true_eq]
      split_ifs <;> (simp only []; omega)
    · rw [RWLock_true_eq s hs]
      simp only [closed_eq, decide_eq_true_eq]
      split_ifs <;> (simp only []; omega)
  | RWUnlock read =>
    refine ⟨_, rfl, ?_⟩
    cases read
    · rw [RWUnlock_false_eq s hs]
      simp only [closed_eq, decide_eq_true_eq]
      split_ifs <;> (simp only []; omega)
    · rw [RWUnlock_true_eq s hs]
      simp only [closed_eq, decide_eq_true_eq]
      split_ifs <;> (simp only []; omega)


/-- The states along a trace stay below `2^64`; from a closed state they stay closed. -/
theorem trace_bound_closed (ops : List Op) : ∀ (s : Nat) (steps : List Step), s < 2 ^ 64 →
    trace ops s = some steps →
    finalState s steps < 2 ^ 64 ∧ (closed s = true → closed (finalState s steps) = true) := by
  induction ops with
  | nil =>
    intro s steps hs h
    simp only [trace, Option.some.injEq] at h
    subst h
    exact ⟨hs, id⟩
  | cons op ops ih =>
    intro s steps hs h
    obtain ⟨st, hrun, hb, hc⟩ := step_bound_closed op s hs
    simp only [trace, hrun] at h
    split_ifs at h
    cases htr : trace ops st.state with
    | none => simp [htr] at h
    | some sts =>
      simp only [htr, Option.some.injEq] at h
      subst h
      obtain ⟨h1, h2⟩ := ih st.state sts hb htr
      exact ⟨h1, fun c => h2 (hc c)⟩

/-- C8. Closed is sticky: on every 64-bit state with the closed bit set, each of
`Incref`, `IncrefAndClose`, `Decref`, `RWLock(true/false)`, `RWUnlock(true/false)`
completes its iteration, and if it does not panic the resulting state has the
closed bit set. -/
theorem closed_sticky (op : Op) (s : Nat) (hs : s < 2 ^ 64) (hc : closed s = true) :
    ∃ st, op.run s = some st ∧ (Ctl.isPanic st.ctl = false → closed st.state = true) := by
  obtain ⟨st, hrun, _, h⟩ := step_bound_closed op s hs
  exact ⟨st, hrun, fun _ => h hc⟩

/-- Instance of `closed_sticky`: `Decref` on a closed state holding two references. -/
theorem closed_sticky_witness :
    (17 : Nat) < 2 ^ 64 ∧ closed 17 = true ∧
      ∃ st, Op.Decref.run 17 = some st ∧ (Ctl.isPanic st.ctl = false → closed st.state = true) :=
  ⟨by decide, by decide, closed_sticky .Decref 17 (by decide) (by decide)⟩

/-- C6. Close-drain.  From a state with both locks held, at least one read waiter
and at least one write waiter, an `IncrefAndClose` that returns true releases the
read semaphore once per read waiter and the write semaphore once per write waiter;
and in the resulting state and in every state reached from it by any sequence of
operations, `RWLock(true)`, `RWLock(false)` and `Incref` return false, leave the
state (hence every waiter count) unchanged and do not park. -/
theorem close_drain (s : Nat) (hs : s < 2 ^ 64)
    (hR : locked true s = true) (hW : locked false s = true)
    (hr : 0 < waiters true s) (hw : 0 < waiters false s)
    (st : Step) (hrun : IncrefAndClose s = some st) (hret : st.ctl = .ret true) :
    st.events = List.replicate (waiters true s) (Event.Semrelease .rsema)
      ++ List.replicate (waiters false s) (Event.Semrelease .wsema) ∧
    st.events.count (Event.Semrelease .rsema) = waiters true s ∧
    st.events.count (Event.Semrelease .wsema) = waiters false s ∧
    Event.Semrelease .rsema ∈ st.events ∧ Event.Semrelease .wsema ∈ st.events ∧
    locked true st.state = true ∧ locked false st.state = true ∧
    ∀ (ops : List Op) (steps : List Step), trace ops st.state = some steps →
      RWLock true (finalState st.state steps)
        = { state := finalState st.state steps, events := [], ctl := .ret false } ∧
      RWLock false (finalState st.state steps)
        = { state := finalState st.state steps, events := [], ctl := .ret false } ∧
      Incref (finalState st.state steps)
        = { state := finalState st.state steps, events := [], ctl := .ret false } := by
  rw [IncrefAndClose_some s hs, Option.some.injEq] at hrun
  have hopen : ¬ s % 2 = 1 := by
    intro h; rw [if_pos h] at hrun; subst hrun; simp at hret
  have hnov : ¬ s / 8 % 2 ^ 20 = 2 ^ 20 - 1 := by
    intro h; rw [if_neg hopen, if_pos h] at hrun; subst hrun; simp at hret
  rw [if_neg hopen, if_neg hnov] at hrun
  subst hrun
  refine ⟨rfl, by simp [List.count_replicate], by simp [List.count_replicate],
    by simp [List.mem_replicate, Nat.pos_iff_ne_zero.mp hr],
    by simp [List.mem_replicate, Nat.pos_iff_ne_zero.mp hw], ?_, ?_, ?_⟩
  · rw [locked_true_eq, decide_eq_true_eq] at hR ⊢
    simp only []; omega
  · rw [locked_false_eq, decide_eq_true_eq] at hW ⊢
    simp only []; omega
  intro ops steps htr
  simp only [] at htr ⊢
  have hb : (s + 9) % 2 ^ 23 + s / 2 ^ 63 % 2 * 2 ^ 63 < 2 ^ 64 := by omega
  have hcl : closed ((s + 9) % 2 ^ 23 + s / 2 ^ 63 % 2 * 2 ^ 63) = true := by
    rw [closed_eq, decide_eq_true_eq]; omega
  obtain ⟨h1, h2⟩ := trace_bound_closed ops _ steps hb htr
  have hc := h2 hcl
  rw [closed_eq, decide_eq_true_eq] at hc
  refine ⟨?_, ?_, ?_⟩
  · rw [RWLock_true_eq _ h1, if_pos hc]
  · rw [RWLock_false_eq _ h1, if_pos hc]
  · rw [Incref_eq _ h1, if_pos hc]


/-- Instance of `close_drain`: both locks held, two references, one parked reader and
one parked writer. -/
theorem close_drain_witness :
    (8796101410838 : Nat) < 2 ^ 64 ∧
    locked true 8796101410838 = true ∧ locked false 8796101410838 = true ∧
    0 < waiters true 8796101410838 ∧ 0 < waiters false 8796101410838 ∧
    IncrefAndClose 8796101410838
      = some ⟨31, [Event.Semrelease .rsema, Event.Semrelease .wsema], .ret true⟩ ∧
    ∀ (ops : List Op) (steps : List Step), trace ops 31 = some steps →
      RWLock true (finalState 31 steps)
        = { state := finalState 31 steps, events := [], ctl := .ret false } ∧
      RWLock false (finalState 31 steps)
        = { state := finalState 31 steps, events := [], ctl := .ret false } ∧
      Incref (finalState 31 steps)
        = { state := finalState 31 steps, events := [], ctl := .ret false } :=
  ⟨by decide, by decide, by decide, by decide, by decide, by decide,
    (close_drain 8796101410838 (by decide) (by decide) (by decide) (by decide) (by decide)
      ⟨31, [Event.Semrelease .rsema, Event.Semrelease .wsema], .ret true⟩
      (by decide) rfl).2.2.2.2.2.2.2⟩

/-- C9. The reference count never underflows.  On every state with `ref_count = 0`,
`Decref`, `RWUnlock(true)` and `RWUnlock(false)` panic with
"net: inconsistent fdMutex" and leave the state as it was.  On every state with
`ref_count > 0` on which they do not panic, the new reference count is exactly one
less and nothing is borrowed: `Decref` leaves the closed bit, both lock bits and both
waiter counts as they were; `RWUnlock(read)` leaves the closed bit and the other
mode's lock bit and waiter count as they were, and of its own mode only clears the
lock bit and takes one waiter off when there is one. -/
theorem refCount_no_underflow (s : Nat) (hs : s < 2 ^ 64) :
    (refCount s = 0 →
      inconsistent = "net: inconsistent fdMutex" ∧
      Decref s = { state := s, events := [], ctl := .panic inconsistent } ∧
      RWUnlock true s = { state := s, events := [], ctl := .panic inconsistent } ∧
      RWUnlock false s = { state := s, events := [], ctl := .panic inconsistent }) ∧
    (0 < refCount s →
      (Ctl.isPanic (Decref s).ctl = false ∧
        refCount (Decref s).state + 1 = refCount s ∧
        closed (Decref s).state = closed s ∧
        ∀ m, locked m (Decref s).state = locked m s ∧
          waiters m (Decref s).state = waiters m s) ∧
      ∀ read, Ctl.isPanic (RWUnlock read s).ctl = false →
        refCount (RWUnlock read s).state + 1 = refCount s ∧
        closed (RWUnlock read s).state = closed s ∧
        locked (!read) (RWUnlock read s).state = locked (!read) s ∧
        waiters (!read) (RWUnlock read s).state = waiters (!read) s ∧
        locked read (RWUnlock read s).state = false ∧
        waiters read (RWUnlock read s).state = waiters read s - 1) := by
  rw [Decref_eq s hs, RWUnlock_true_eq s hs]
  simp only [closed_eq, refCount_eq, locked_true_eq, locked_false_eq, waiters_true_eq,
    waiters_false_eq, Bool.forall_bool, decide_eq_true_eq, decide_eq_false_iff_not,
    decide_eq_decide, Bool.not_true, Bool.not_false]
  rw [RWUnlock_false_eq s hs, RWUnlock_true_eq s hs]
  refine ⟨?_, ?_⟩
  · intro h
    rw [if_pos h, if_pos (Or.inr h), if_pos (Or.inr h)]
    exact ⟨rfl, rfl, rfl, rfl⟩
  · intro h
    rw [if_neg (by omega)]
    refine ⟨⟨rfl, ?_, ?_, ⟨?_, ?_⟩, ?_, ?_⟩, ?_, ?_⟩
    · simp only []; omega
    · simp only []; omega
    · simp only []; omega
    · simp only []; omega
    · simp only []; omega
    · simp only []; omega
    · split_ifs with h1 h2
      · intro hp; simp [Ctl.isPanic] at hp
      · intro _; simp only [decide_eq_false_iff_not]
        refine ⟨?_, ?_, ?_, ?_, ?_, ?_⟩ <;> omega
      · intro _; simp only [decide_eq_false_iff_not]
        refine ⟨?_, ?_, ?_, ?_, ?_, ?_⟩ <;> omega
    · split_ifs with h1 h2
      · intro hp; simp [Ctl.isPanic] at hp
      · intro _; simp only [decide_eq_false_iff_not]
        refine ⟨?_, ?_, ?_, ?_, ?_, ?_⟩ <;> omega
      · intro _; simp only [decide_eq_false_iff_not]
        refine ⟨?_, ?_, ?_, ?_, ?_, ?_⟩ <;> omega

/-- Instance of `refCount_no_underflow`: with no reference held, `Decref` panics. -/
theorem refCount_no_underflow_witness :
    (6 : Nat) < 2 ^ 64 ∧ refCount 6 = 0 ∧
      Decref 6 = { state := 6, events := [], ctl := .panic inconsistent } :=
  ⟨by decide, by decide, ((refCount_no_underflow 6 (by decide)).1 (by decide)).2.1⟩

end fdMutex


namespace fdMutex

/-- An `RWLock(m)` iteration that returns true goes from the bit clear to the bit set. -/
theorem RWLock_true_transition (m : Bool) (s : Nat) (hs : s < 2 ^ 64)
    (h : (RWLock m s).ctl = .ret true) :
    locked m s = false ∧ locked m (RWLock m s).state = true := by
  cases m
  · rw [RWLock_false_eq s hs] at h ⊢
    simp only [locked_false_eq, decide_eq_true_eq, decide_eq_false_iff_not]
    split_ifs at h ⊢ <;> first | (simp at h; done) | (simp only []; omega)
  · rw [RWLock_true_eq s hs] at h ⊢
    simp only [locked_true_eq, decide_eq_true_eq, decide_eq_false_iff_not]
    split_ifs at h ⊢ <;> first | (simp at h; done) | (simp only []; omega)

/-- Only `RWUnlock(m)` clears the lock bit of mode `m`. -/
theorem only_RWUnlock_clears (op : Op) (m : Bool) (s : Nat) (st : Step) (hs : s < 2 ^ 64)
    (hrun : op.run s = some st) (h1 : locked m s = true) (h2 : locked m st.state = false) :
    op = .RWUnlock m := by
  cases op with
  | Incref =>
    simp only [Op.run, Option.some.injEq] at hrun; subst hrun
    exfalso
    rw [Incref_eq s hs] at h2
    cases m <;>
      simp only [locked_true_eq, locked_false_eq, decide_eq_true_eq,
        decide_eq_false_iff_not] at h1 h2 <;>
      split_ifs at h2 <;> simp only [] at h2 <;> omega
  | IncrefAndClose =>
    simp only [Op.run, IncrefAndClose_some s hs, Option.some.injEq] at hrun; subst hrun
    exfalso
    cases m <;>
      simp only [locked_true_eq, locked_false_eq, decide_eq_true_eq,
        decide_eq_false_iff_not] at h1 h2 <;>
      split_ifs at h2 <;> simp only [] at h2 <;> omega
  | Decref =>
    simp only [Op.run, Option.some.injEq] at hrun; subst hrun
    exfalso
    rw [Decref_eq s hs] at h2
    cases m <;>
      simp only [locked_true_eq, locked_false_eq, decide_eq_true_eq,
        decide_eq_false_iff_not] at h1 h2 <;>
      split_ifs at h2 <;> simp only [] at h2 <;> omega
  | RWLock read =>
    simp only [Op.run, Option.some.injEq] at hrun; subst hrun
    exfalso
    cases read
    · rw [RWLock_false_eq s hs] at h2
      cases m <;>
        simp only [locked_true_eq, locked_false_eq, decide_eq_true_eq,
          decide_eq_false_iff_not] at h1 h2 <;>
        split_ifs at h2 <;> simp only [] at h2 <;> omega
    · rw [RWLock_true_eq s hs] at h2
      cases m <;>
        simp only [locked_true_eq, locked_false_eq, decide_eq_true_eq,
          decide_eq_false_iff_not] at h1 h2 <;>
        split_ifs at h2 <;> simp only [] at h2 <;> omega
  | RWUnlock read =>
    simp only [Op.run, Option.some.injEq] at hrun; subst hrun
    cases read
    · cases m
      · rfl
      · exfalso
        rw [RWUnlock_false_eq s hs] at h2
        simp only [locked_true_eq, locked_false_eq, decide_eq_true_eq,
          decide_eq_false_iff_not] at h1 h2
        split_ifs at h2 <;> simp only [] at h2 <;> omega
    · cases m
      · exfalso
        rw [RWUnlock_true_eq s hs] at h2
        simp only [locked_true_eq, locked_false_eq, decide_eq_true_eq,
          decide_eq_false_iff_not] at h1 h2
        split_ifs at h2 <;> simp only [] at h2 <;> omega
      · rfl

/-- From a state where the lock of mode `m` is held, a later successful `RWLock(m)`
is preceded by an `RWUnlock(m)`. -/
theorem unlock_before_relock (m : Bool) (ops : List Op) :
    ∀ (s : Nat) (steps : List Step) (j : Nat), s < 2 ^ 64 → trace ops s = some steps →
      locked m s = true → ops[j]? = some (.RWLock m) →
      (steps[j]?).map Step.ctl = some (.ret true) →
      ∃ k, k < j ∧ ops[k]? = some (.RWUnlock m) := by
  induction ops with
  | nil => intro s steps j _ _ _ h; simp at h
  | cons op ops ih =>
    intro s steps j hs htr hl hj hret
    obtain ⟨st, hrun, hb, -⟩ := step_bound_closed op s hs
    simp only [trace, hrun] at htr
    split_ifs at htr
    cases htr' : trace ops st.state with
    | none => simp [htr'] at htr
    | some sts =>
      simp only [htr', Option.some.injEq] at htr
      subst htr
      cases j with
      | zero =>
        exfalso
        simp only [List.getElem?_cons_zero, Option.some.injEq, Option.map_some'] at hj hret
        subst hj
        simp only [Op.run, Option.some.injEq] at hrun
        subst hrun
        have := (RWLock_true_transition m s hs hret).1
        rw [hl] at this
        exact Bool.noConfusion this
      | succ j =>
        simp only [List.getElem?_cons_succ] at hj hret
        by_cases hop : op = .RWUnlock m
        · exact ⟨0, Nat.succ_pos _, by simp [hop]⟩
        · have hl' : locked m st.state = true := by
            by_contra hc
            exact hop (only_RWUnlock_clears op m s st hs hrun hl (by simpa using hc))
          obtain ⟨k, hk, hk'⟩ := ih st.state sts j hb htr' hl' hj hret
          exact ⟨k + 1, Nat.succ_lt_succ hk, by simpa using hk'⟩

/-- Between two successful `RWLock(m)` iterations of a trace there is an `RWUnlock(m)`. -/
theorem unlock_between_locks (m : Bool) (ops : List Op) :
    ∀ (s : Nat) (steps : List Step) (i j : Nat), s < 2 ^ 64 → trace ops s = some steps →
      i < j →
      ops[i]? = some (.RWLock m) → (steps[i]?).map Step.ctl = some (.ret true) →
      ops[j]? = some (.RWLock m) → (steps[j]?).map Step.ctl = some (.ret true) →
      ∃ k, i < k ∧ k < j ∧ ops[k]? = some (.RWUnlock m) := by
  induction ops with
  | nil => intro s steps i j _ _ _ h; simp at h
  | cons op ops ih =>
    intro s steps i j hs htr hij hi hireT hj hjret
    obtain ⟨st, hrun, hb, -⟩ := step_bound_closed op s hs
    simp only [trace, hrun] at htr
    split_ifs at htr
    cases htr' : trace ops st.state with
    | none => simp [htr'] at htr
    | some sts =>
      simp only [htr', Option.some.injEq] at htr
      subst htr
      obtain ⟨j, rfl⟩ : ∃ j', j = j' + 1 := ⟨j - 1, by omega⟩
      simp only [List.getElem?_cons_succ] at hj hjret
      cases i with
      | zero =>
        simp only [List.getElem?_cons_zero, Option.some.injEq, Option.map_some'] at hi hireT
        subst hi
        simp only [Op.run, Option.some.injEq] at hrun
        subst hrun
        have hl := (RWLock_true_transition m s hs hireT).2
        obtain ⟨k, hk, hk'⟩ := unlock_before_relock m ops _ sts j hb htr' hl hj hjret
        exact ⟨k + 1, Nat.succ_pos _, Nat.succ_lt_succ hk, by simpa using hk'⟩
      | succ i =>
        simp only [List.getElem?_cons_succ] at hi hireT
        obtain ⟨k, hk1, hk2, hk'⟩ :=
          ih st.state sts i j hb htr' (Nat.lt_of_succ_lt_succ hij) hi hireT hj hjret
        exact ⟨k + 1, Nat.succ_lt_succ hk1, Nat.succ_lt_succ hk2, by simpa using hk'⟩


/-- C7, as stated, fails when the reference count is full: on an open state whose
read-lock bit is clear (write lock held) and whose reference count is `2^20-1`,
`RWLock(true)` does not succeed, it panics; symmetrically for `RWLock(false)`. -/
theorem RWLock_independent_counterexample :
    (mutexRefMask + mutexWLock < 2 ^ 64 ∧ closed (mutexRefMask + mutexWLock) = false ∧
      locked true (mutexRefMask + mutexWLock) = false ∧
      (RWLock true (mutexRefMask + mutexWLock)).ctl = .panic inconsistent ∧
      (RWLock true (mutexRefMask + mutexWLock)).ctl ≠ .ret true) ∧
    (mutexRefMask + mutexRLock < 2 ^ 64 ∧ closed (mutexRefMask + mutexRLock) = false ∧
      locked false (mutexRefMask + mutexRLock) = false ∧
      (RWLock false (mutexRefMask + mutexRLock)).ctl = .panic inconsistent ∧
      (RWLock false (mutexRefMask + mutexRLock)).ctl ≠ .ret true) := by
  decide

/-- C7 (amended). At most one holder per mode.  An `RWLock(m)` iteration returns true
only by a transition from a state whose lock bit for `m` is clear to one where it is
set; only `RWUnlock(m)` ever clears that bit; hence in every trace from the zero
state there is an `RWUnlock(m)` between two successful `RWLock(m)`.  The two modes
are independent: on an open state with `ref_count < 2^20-1` and the read bit clear
`RWLock(true)` succeeds whether or not the write bit is set, symmetrically for
`RWLock(false)`, and in general the outcome of `RWLock(m)` depends only on the closed
bit, the reference count and the lock bit and waiter count of mode `m`. -/
theorem one_holder_per_mode :
    (∀ (m : Bool) (s : Nat), s < 2 ^ 64 → (RWLock m s).ctl = .ret true →
      locked m s = false ∧ locked m (RWLock m s).state = true) ∧
    (∀ (op : Op) (m : Bool) (s : Nat) (st : Step), s < 2 ^ 64 → op.run s = some st →
      locked m s = true → locked m st.state = false → op = .RWUnlock m) ∧
    (∀ (m : Bool) (ops : List Op) (steps : List Step) (i j : Nat),
      trace ops 0 = some steps → i < j →
      ops[i]? = some (.RWLock m) → (steps[i]?).map Step.ctl = some (.ret true) →
      ops[j]? = some (.RWLock m) → (steps[j]?).map Step.ctl = some (.ret true) →
      ∃ k, i < k ∧ k < j ∧ ops[k]? = some (.RWUnlock m)) ∧
    (∀ (s : Nat), s < 2 ^ 64 → closed s = false → refCount s < 2 ^ 20 - 1 →
      (locked true s = false → (RWLock true s).ctl = .ret true) ∧
      (locked false s = false → (RWLock false s).ctl = .ret true)) ∧
    (∀ (m : Bool) (s1 s2 : Nat), s1 < 2 ^ 64 → s2 < 2 ^ 64 → closed s1 = closed s2 →
      refCount s1 = refCount s2 → locked m s1 = locked m s2 →
      waiters m s1 = waiters m s2 → (RWLock m s1).ctl = (RWLock m s2).ctl) := by
  refine ⟨RWLock_true_transition, only_RWUnlock_clears, ?_, ?_, ?_⟩
  · intro m ops steps i j htr
    exact unlock_between_locks m ops 0 steps i j (by decide) htr
  · intro s hs hc hr
    rw [RWLock_true_eq s hs, RWLock_false_eq s hs]
    simp only [closed_eq, refCount_eq, locked_true_eq, locked_false_eq, decide_eq_true_eq,
      decide_eq_false_iff_not] at *
    constructor
    · intro hl
      rw [if_neg hc, if_pos (by omega), if_neg (by omega)]
    · intro hl
      rw [if_neg hc, if_pos (by omega), if_neg (by omega)]
  · intro m s1 s2 h1 h2 hc hr hl hw
    cases m
    · rw [RWLock_false_eq s1 h1, RWLock_false_eq s2 h2]
      simp only [closed_eq, refCount_eq, locked_false_eq, waiters_false_eq,
        decide_eq_decide] at hc hr hl hw
      split_ifs <;> first | rfl | omega
    · rw [RWLock_true_eq s1 h1, RWLock_true_eq s2 h2]
      simp only [closed_eq, refCount_eq, locked_true_eq, waiters_true_eq,
        decide_eq_decide] at hc hr hl hw
      split_ifs <;> first | rfl | omega

end fdMutex


/-! ## The timer heap (`runtime/time.go`) -/

namespace runtime

/-! ### Heap order under an exchange -/

theorem swapFn_at_c (g : Nat → Int) (i c : Nat) : swapFn g i c c = g i := by
  simp [swapFn]

theorem swapFn_at_i (g : Nat → Int) (i c : Nat) (h : i ≠ c) : swapFn g i c i = g c := by
  simp [swapFn, h]

theorem swapFn_other (g : Nat → Int) (i c j : Nat) (h1 : j ≠ i) (h2 : j ≠ c) :
    swapFn g i c j = g j := by
  simp [swapFn, h1, h2]

/-- When `siftdownTimer` stops: the invariant with no smaller child is heap order. -/
theorem DownInvF_heap {g : Nat → Int} {n i : Nat} (h : DownInvF g n i)
    (hc : ∀ j, 0 < j → j < n → (j - 1) / 4 = i → g i ≤ g j) : HeapOrdF g n := by
  intro j hj hn
  by_cases hp : (j - 1) / 4 = i
  · rw [hp]; exact hc j hj hn hp
  · exact h.1 j hj hn hp

/-- When `siftdownTimer` continues: exchanging `i` with its smallest child `c` moves the
invariant down to `c`. -/
theorem DownInvF_step {g : Nat → Int} {n i c : Nat} (h : DownInvF g n i)
    (hc0 : 0 < c) (hcn : c < n) (hpc : (c - 1) / 4 = i)
    (hmin : ∀ j, 0 < j → j < n → (j - 1) / 4 = i → g c ≤ g j)
    (hlt : g c < g i) : DownInvF (swapFn g i c) n c := by
  have hic : i ≠ c := by omega
  constructor
  · intro j hj hn hp
    by_cases hjc : j = c
    · subst hjc
      rw [hpc, swapFn_at_c, swapFn_at_i g i j hic]
      exact Int.le_of_lt hlt
    · by_cases hpi : (j - 1) / 4 = i
      · rw [hpi, swapFn_at_i g i c hic, swapFn_other g i c j (by omega) hjc]
        exact hmin j hj hn hpi
      · by_cases hji : j = i
        · subst hji
          rw [swapFn_at_i g j c hic, swapFn_other g j c _ (by omega) (by omega)]
          exact h.2 hj c hc0 hcn hpc
        · rw [swapFn_other g i c j hji hjc, swapFn_other g i c _ hpi hp]
          exact h.1 j hj hn hpi
  · intro _ j hj hn hp
    rw [hpc, swapFn_at_i g i c hic, swapFn_other g i c j (by omega) (by omega)]
    have := h.1 j hj hn (by omega)
    rw [hp] at this
    exact this

/-- When `siftupTimer` stops: the invariant with the parent not larger is heap order. -/
theorem UpInvF_heap {g : Nat → Int} {n i : Nat} (h : UpInvF g n i)
    (hp : 0 < i → g ((i - 1) / 4) ≤ g i) : HeapOrdF g n := by
  intro j hj hn
  by_cases hji : j = i
  · subst hji; exact hp hj
  · exact h.1 j hj hn hji

/-- When `siftupTimer` continues: exchanging `i` with its larger parent moves the
invariant up to the parent. -/
theorem UpInvF_step {g : Nat → Int} {n i : Nat} (h : UpInvF g n i)
    (hi0 : 0 < i) (hin : i < n) (hlt : g i < g ((i - 1) / 4)) :
    UpInvF (swapFn g i ((i - 1) / 4)) n ((i - 1) / 4) := by
  have hip : i ≠ (i - 1) / 4 := by omega
  constructor
  · intro j hj hn hjp
    by_cases hji : j = i
    · subst hji
      rw [swapFn_at_c, swapFn_at_i g j _ hip]
      exact Int.le_of_lt hlt
    · by_cases hpp : (j - 1) / 4 = (i - 1) / 4
      · rw [hpp, swapFn_at_c, swapFn_other g i _ j hji hjp]
        have := h.1 j hj hn hji
        rw [hpp] at this
        exact Int.le_trans (Int.le_of_lt hlt) this
      · by_cases hpi : (j - 1) / 4 = i
        · rw [hpi, swapFn_at_i g i _ hip, swapFn_other g i _ j hji hjp]
          exact h.2 hi0 j hj hn hpi
        · rw [swapFn_other g i _ j hji hjp, swapFn_other g i _ _ hpi hpp]
          exact h.1 j hj hn hji
  · intro hp0 j hj hn hpj
    rw [swapFn_other g i _ _ (by omega) (by omega)]
    have hpp := h.1 ((i - 1) / 4) hp0 (by omega) (by omega)
    by_cases hji : j = i
    · subst hji
      rw [swapFn_at_i g j _ hip]
      exact hpp
    · rw [swapFn_other g i _ j hji (by omega)]
      have := h.1 j hj hn hji
      rw [hpj] at this
      exact Int.le_trans hpp this

/-- In a heap the root has the least key. -/
theorem HeapOrdF_root_le {g : Nat → Int} {n : Nat} (h : HeapOrdF g n) :
    ∀ j, j < n → g 0 ≤ g j := by
  intro j
  induction j using Nat.strong_induction_on with
  | _ j ih =>
    intro hn
    by_cases hj : j = 0
    · subst hj; exact Int.le_refl _
    · exact Int.le_trans (ih ((j - 1) / 4) (by omega) (by omega)) (h j (by omega) hn)


/-! ### Frame lemmas for the assignments -/

theorem sameData_refl (st : Timers) : sameData st st := fun _ => ⟨rfl, rfl, rfl, rfl, rfl⟩

theorem sameData_trans {a b c : Timers} (h1 : sameData a b) (h2 : sameData b c) :
    sameData a c := by
  intro x
  obtain ⟨p1, p2, p3, p4, p5⟩ := h1 x
  obtain ⟨q1, q2, q3, q4, q5⟩ := h2 x
  exact ⟨q1.trans p1, q2.trans p2, q3.trans p3, q4.trans p4, q5.trans p5⟩

theorem sameFlags_refl (st : Timers) : sameFlags st st := ⟨rfl, rfl, rfl⟩

theorem sameFlags_trans {a b c : Timers} (h1 : sameFlags a b) (h2 : sameFlags b c) :
    sameFlags a c :=
  ⟨h2.1.trans h1.1, h2.2.1.trans h1.2.1, h2.2.2.trans h1.2.2⟩

theorem setI_sameData (st : Timers) (p : Nat) (v : Int) : sameData st (setI st p v) := by
  intro a
  simp only [setI]
  split_ifs <;> exact ⟨rfl, rfl, rfl, rfl, rfl⟩

theorem setT_sameData (st : Timers) (k p : Nat) : sameData st (setT st k p) :=
  fun _ => ⟨rfl, rfl, rfl, rfl, rfl⟩

theorem setI_t (st : Timers) (p : Nat) (v : Int) : (setI st p v).t = st.t := rfl

theorem setT_t (st : Timers) (k p : Nat) : (setT st k p).t = st.t.set k p := rfl

theorem ptr_setI (st : Timers) (p : Nat) (v : Int) (j : Nat) :
    ptr (setI st p v) j = ptr st j := rfl

/-- The key at index `j` depends on the slice and on the `when` fields only. -/
theorem whenAt_congr {st1 st2 : Timers} (hd : sameData st1 st2) (j : Nat)
    (hp : ptr st2 j = ptr st1 j) : whenAt st2 j = whenAt st1 j := by
  rw [whenAt, whenAt, hp]; exact (hd _).1

theorem exchange_t (st : Timers) (i c tmp : Nat) :
    (exchange st i c tmp).t = (st.t.set i (ptr st c)).set c tmp := rfl

theorem exchange_sameData (st : Timers) (i c tmp : Nat) :
    sameData st (exchange st i c tmp) := by
  unfold exchange
  exact sameData_trans (sameData_trans (sameData_trans (setT_sameData _ _ _)
    (setI_sameData _ _ _)) (setT_sameData _ _ _)) (setI_sameData _ _ _)

theorem exchange_sameFlags (st : Timers) (i c tmp : Nat) :
    sameFlags st (exchange st i c tmp) := ⟨rfl, rfl, rfl⟩

theorem exchange_length (st : Timers) (i c tmp : Nat) :
    (exchange st i c tmp).t.length = st.t.length := by
  rw [exchange_t, List.length_set, List.length_set]

theorem ptr_exchange (st : Timers) (i c : Nat) (hi : i < st.t.length) (hc : c < st.t.length)
    (j : Nat) :
    ptr (exchange st i c (ptr st i)) j
      = if j = c then ptr st i else if j = i then ptr st c else ptr st j := by
  simp only [ptr, exchange_t, List.getD_eq_getElem?_getD, List.getElem?_set, List.length_set]
  by_cases h1 : j = c
  · subst h1; simp [hc]
  · by_cases h2 : j = i
    · subst h2; simp [hi, Ne.symm h1, h1]
    · simp [h1, h2, Ne.symm h1, Ne.symm h2]

theorem whenAt_exchange (st : Timers) (i c : Nat) (hi : i < st.t.length)
    (hc : c < st.t.length) :
    whenAt (exchange st i c (ptr st i)) = swapFn (whenAt st) i c := by
  funext j
  have hd := exchange_sameData st i c (ptr st i)
  simp only [whenAt, swapFn]
  rw [(hd _).1, ptr_exchange st i c hi hc j]
  split_ifs <;> rfl

/-- Exchanging two entries of the slice permutes it. -/
theorem exchange_perm (st : Timers) (i c : Nat) (hi : i < st.t.length)
    (hc : c < st.t.length) : (exchange st i c (ptr st i)).t.Perm st.t := by
  rw [exchange_t, List.perm_iff_count]
  intro a
  have e1 : ptr st c = st.t[c] := by
    simp [ptr, List.getD_eq_getElem?_getD, List.getElem?_eq_getElem hc]
  have e2 : ptr st i = st.t[i] := by
    simp [ptr, List.getD_eq_getElem?_getD, List.getElem?_eq_getElem hi]
  rw [List.count_set _ _ _ _ (by rw [List.length_set]; exact hc), List.count_set _ _ _ _ hi,
    e1, e2]
  have pi : st.t[i] = a → 0 < st.t.count a := fun h =>
    List.count_pos_iff.mpr (h ▸ List.getElem_mem hi)
  have pc : st.t[c] = a → 0 < st.t.count a := fun h =>
    List.count_pos_iff.mpr (h ▸ List.getElem_mem hc)
  simp only [List.getElem_set, beq_iff_eq]
  by_cases hic : i = c
  · subst hic
    simp only [if_true]
    by_cases h : st.t[i] = a
    · have := pi h; simp only [h, if_true]; omega
    · simp only [h, if_false]; omega
  · simp only [hic, if_false]
    by_cases h : st.t[i] = a <;> by_cases h' : st.t[c] = a
    · have := pi h; simp only [h, h', if_true]; omega
    · have := pi h; simp only [h, h', if_true, if_false]; omega
    · have := pc h'; simp only [h, h', if_true, if_false]; omega
    · simp only [h, h', if_false]; omega


/-! ### The sift loops restore heap order -/

/-- The child chosen by `siftdownTimer` is a child in range with the least key. -/
theorem smallestChild_spec (st : Timers) (n c : Nat) (hc : c < n) :
    c ≤ (smallestChild st n c).2 ∧ (smallestChild st n c).2 ≤ c + 3 ∧
    (smallestChild st n c).2 < n ∧
    (smallestChild st n c).1 = whenAt st (smallestChild st n c).2 ∧
    ∀ j, c ≤ j → j ≤ c + 3 → j < n → (smallestChild st n c).1 ≤ whenAt st j := by
  have cases4 : ∀ j, c ≤ j → j ≤ c + 3 → j = c ∨ j = c + 1 ∨ j = c + 2 ∨ j = c + 2 + 1 := by
    intro j h1 h2; omega
  unfold smallestChild
  simp only []
  split_ifs with h1 h2 h3 h4 h5 h6 h7 h8 h9 <;>
    refine ⟨by omega, by omega, by omega, rfl, ?_⟩ <;>
    intro j hj1 hj2 hjn <;>
    obtain rfl | rfl | rfl | rfl := cases4 j hj1 hj2 <;>
    simp only [not_and, not_lt] at * <;>
    omega

theorem siftupLoop_spec (fuel : Nat) : ∀ (i : Nat) (st : Timers), i < st.t.length → i < fuel →
    UpInvF (whenAt st) st.t.length i →
    ∃ st', siftupLoop (whenAt st i) (ptr st i) fuel i st = some st' ∧
      sameData st st' ∧ sameFlags st st' ∧ st'.t.Perm st.t ∧
      HeapOrdF (whenAt st') st'.t.length := by
  induction fuel with
  | zero => intro i st _ h; omega
  | succ fuel ih =>
    intro i st hi hf hinv
    rw [siftupLoop]
    by_cases h0 : i > 0
    · rw [if_pos h0]
      simp only []
      by_cases hge : whenAt st i ≥ whenAt st ((i - 1) / 4)
      · rw [if_pos hge]
        exact ⟨st, rfl, sameData_refl _, sameFlags_refl _, List.Perm.refl _,
          UpInvF_heap hinv (fun _ => hge)⟩
      · rw [if_neg hge]
        have hp : (i - 1) / 4 < st.t.length := by omega
        have hlen := exchange_length st i ((i - 1) / 4) (ptr st i)
        have hw := whenAt_exchange st i ((i - 1) / 4) hi hp
        have hptr := ptr_exchange st i ((i - 1) / 4) hi hp ((i - 1) / 4)
        rw [if_pos rfl] at hptr
        have hinv' : UpInvF (whenAt (exchange st i ((i - 1) / 4) (ptr st i)))
            (exchange st i ((i - 1) / 4) (ptr st i)).t.length ((i - 1) / 4) := by
          rw [hw, hlen]
          exact UpInvF_step hinv h0 hi (by omega)
        obtain ⟨st', h1, h2, h3, h4, h5⟩ :=
          ih ((i - 1) / 4) (exchange st i ((i - 1) / 4) (ptr st i)) (by omega) (by omega) hinv'
        rw [hptr, hw, swapFn_at_c] at h1
        exact ⟨st', h1, sameData_trans (exchange_sameData _ _ _ _) h2,
          sameFlags_trans (exchange_sameFlags _ _ _ _) h3,
          h4.trans (exchange_perm st i _ hi hp), h5⟩
    · rw [if_neg h0]
      exact ⟨st, rfl, sameData_refl _, sameFlags_refl _, List.Perm.refl _,
        UpInvF_heap hinv (fun h => absurd h h0)⟩

theorem siftdownLoop_spec (fuel : Nat) : ∀ (i : Nat) (st : Timers), i < st.t.length →
    st.t.length ≤ fuel + i → DownInvF (whenAt st) st.t.length i →
    ∃ st', siftdownLoop st.t.length (whenAt st i) (ptr st i) fuel i st = some st' ∧
      sameData st st' ∧ sameFlags st st' ∧ st'.t.Perm st.t ∧
      HeapOrdF (whenAt st') st'.t.length := by
  induction fuel with
  | zero => intro i st h1 h2; omega
  | succ fuel ih =>
    intro i st hi hf hinv
    rw [siftdownLoop]
    simp only []
    by_cases hcn : i * 4 + 1 ≥ st.t.length
    · rw [if_pos hcn]
      exact ⟨st, rfl, sameData_refl _, sameFlags_refl _, List.Perm.refl _,
        DownInvF_heap hinv (fun j hj hn hp => by omega)⟩
    · rw [if_neg hcn]
      obtain ⟨s1, s2, s3, s4, s5⟩ := smallestChild_spec st st.t.length (i * 4 + 1) (by omega)
      generalize smallestChild st st.t.length (i * 4 + 1) = wc at *
      obtain ⟨w, c⟩ := wc
      simp only [] at s1 s2 s3 s4 s5 ⊢
      have hmin : ∀ j, 0 < j → j < st.t.length → (j - 1) / 4 = i → w ≤ whenAt st j :=
        fun j hj hn hp => s5 j (by omega) (by omega) hn
      by_cases hge : w ≥ whenAt st i
      · rw [if_pos hge]
        exact ⟨st, rfl, sameData_refl _, sameFlags_refl _, List.Perm.refl _,
          DownInvF_heap hinv (fun j hj hn hp => Int.le_trans hge (hmin j hj hn hp))⟩
      · rw [if_neg hge]
        have hlen := exchange_length st i c (ptr st i)
        have hw := whenAt_exchange st i c hi s3
        have hptr := ptr_exchange st i c hi s3 c
        rw [if_pos rfl] at hptr
        have hinv' : DownInvF (whenAt (exchange st i c (ptr st i)))
            (exchange st i c (ptr st i)).t.length c := by
          rw [hw, hlen]
          exact DownInvF_step hinv (by omega) s3 (by omega) (fun j hj hn hp => s4 ▸ hmin j hj hn hp)
            (by rw [← s4]; omega)
        obtain ⟨st', h1, h2, h3, h4, h5⟩ :=
          ih c (exchange st i c (ptr st i)) (by omega) (by omega) hinv'
        rw [hptr, hw, swapFn_at_c, hlen] at h1
        exact ⟨st', h1, sameData_trans (exchange_sameData _ _ _ _) h2,
          sameFlags_trans (exchange_sameFlags _ _ _ _) h3,
          h4.trans (exchange_perm st i _ hi s3), h5⟩

/-! ### The operations on a heap in order -/

/-- The call `siftdownTimer(0)` on a non-empty heap that is in order except below the root
returns and leaves a heap in order holding the same pointers. -/
theorem siftdownTimer_zero_spec (st : Timers) (hn : 0 < st.t.length)
    (hinv : DownInvF (whenAt st) st.t.length 0) :
    ∃ st', siftdownTimer 0 st = .ok st' ∧ sameData st st' ∧ sameFlags st st' ∧
      st'.t.Perm st.t ∧ HeapOrdF (whenAt st') st'.t.length := by
  obtain ⟨st', h1, h2⟩ := siftdownLoop_spec (st.t.length + 1) 0 st hn (by omega) hinv
  refine ⟨st', ?_, h2⟩
  have hc : ¬ ((0 : Int) < 0 ∨ (st.t.length : Int) ≤ 0) := by omega
  simp only [siftdownTimer, if_neg hc, Int.toNat_zero, h1]

/-- The call `siftupTimer(i)` from an index in range, on a slice in order except above `i`,
returns and leaves a heap in order holding the same pointers. -/
theorem siftupTimer_spec (st : Timers) (i : Nat) (hi : i < st.t.length)
    (hinv : UpInvF (whenAt st) st.t.length i) :
    ∃ st', siftupTimer (i : Int) st = .ok st' ∧ sameData st st' ∧ sameFlags st st' ∧
      st'.t.Perm st.t ∧ HeapOrdF (whenAt st') st'.t.length := by
  obtain ⟨st', h1, h2⟩ := siftupLoop_spec (i + 1) i st hi (by omega) hinv
  refine ⟨st', ?_, h2⟩
  have hc : ¬ ((i : Int) < 0 ∨ (st.t.length : Int) ≤ (i : Int)) := by omega
  simp only [siftupTimer, if_neg hc, Int.toNat_ofNat, h1]

theorem wakeOnAdd_t (p : Nat) (st : Timers) : (wakeOnAdd p st).1.t = st.t := by
  unfold wakeOnAdd
  by_cases h : (st.mem p).i = 0 <;> cases h1 : st.sleeping <;> cases h2 : st.rescheduling <;>
    cases h3 : st.created <;> simp [h, h1, h2, h3]

theorem wakeOnAdd_mem (p : Nat) (st : Timers) : (wakeOnAdd p st).1.mem = st.mem := by
  unfold wakeOnAdd
  by_cases h : (st.mem p).i = 0 <;> cases h1 : st.sleeping <;> cases h2 : st.rescheduling <;>
    cases h3 : st.created <;> simp [h, h1, h2, h3]

/-- Adding a timer whose deadline is not negative to a heap in order: the call
returns, the data of every timer is unchanged, the slice holds the new pointer and
the old ones, and the heap is in order. -/
theorem addtimerLocked_spec (p : Nat) (st : Timers) (hw : 0 ≤ (st.mem p).when)
    (hheap : HeapOrdF (whenAt st) st.t.length) :
    ∃ st' evs, addtimerLocked p st = .ok (st', evs) ∧ sameData st st' ∧
      st'.t.Perm (p :: st.t) ∧ HeapOrdF (whenAt st') st'.t.length := by
  have hneg : ¬ (st.mem p).when < 0 := by omega
  let st3 : Timers := { setI st p st.t.length with t := st.t ++ [p] }
  have hd3 : sameData st st3 := setI_sameData st p st.t.length
  have hlen3 : st3.t.length = st.t.length + 1 := by simp [st3, setI_t]
  have hi3 : (st3.mem p).i = (st.t.length : Int) := by simp [st3, setI]
  have hptr3 : ∀ j, j < st.t.length → ptr st3 j = ptr st j := by
    intro j hj
    simp only [ptr, st3, List.getD_eq_getElem?_getD]
    rw [List.getElem?_append_left hj]
  have hinv : UpInvF (whenAt st3) st3.t.length st.t.length := by
    rw [hlen3]
    constructor
    · intro j hj hn hne
      rw [whenAt_congr hd3 j (hptr3 j (by omega)),
        whenAt_congr hd3 _ (hptr3 _ (by omega))]
      exact hheap j hj (by omega)
    · intro _ j hj hn hp
      omega
  obtain ⟨st4, h1, h2, h3, h4, h5⟩ := siftupTimer_spec st3 st.t.length (by omega) hinv
  refine ⟨(wakeOnAdd p st4).1, (wakeOnAdd p st4).2, ?_, ?_, ?_, ?_⟩
  · simp only [addtimerLocked, if_neg hneg]
    show (match siftupTimer (st3.mem p).i st3 with
      | .panic msg => Res.panic msg
      | .outOfFuel => Res.outOfFuel
      | .ok st => Res.ok (wakeOnAdd p st)) = _
    rw [hi3, h1]
  · intro a
    have := sameData_trans hd3 h2 a
    rw [wakeOnAdd_mem]
    exact this
  · rw [wakeOnAdd_t]
    refine h4.trans ?_
    show (st.t ++ [p]).Perm (p :: st.t)
    exact List.perm_append_singleton p st.t
  · have e : whenAt (wakeOnAdd p st4).1 = whenAt st4 := by
      funext j
      simp only [whenAt, ptr, wakeOnAdd_t, wakeOnAdd_mem]
    rw [e, wakeOnAdd_t]
    exact h5


/-- The key shown by index depends on the slice and the memory only. -/
theorem whenAt_eq_of {st1 st2 : Timers} (ht : st2.t = st1.t) (hd : sameData st1 st2) :
    whenAt st2 = whenAt st1 := by
  funext j
  exact whenAt_congr hd j (by rw [ptr, ptr, ht])

theorem addAll_spec (ps : List Nat) : ∀ (st : Timers),
    (∀ p ∈ ps, 0 ≤ (st.mem p).when) → HeapOrdF (whenAt st) st.t.length →
    ∃ st' evs, addAll ps st = .ok (st', evs) ∧ sameData st st' ∧
      st'.t.Perm (ps ++ st.t) ∧ HeapOrdF (whenAt st') st'.t.length := by
  induction ps with
  | nil =>
    intro st _ hh
    exact ⟨st, [], rfl, sameData_refl _, List.Perm.refl _, hh⟩
  | cons p ps ih =>
    intro st hw hh
    obtain ⟨st1, ev, h1, h2, h3, h4⟩ :=
      addtimerLocked_spec p st (hw p (List.mem_cons_self _ _)) hh
    have hw1 : ∀ q ∈ ps, 0 ≤ (st1.mem q).when := by
      intro q hq
      rw [(h2 q).1]
      exact hw q (List.mem_cons_of_mem _ hq)
    obtain ⟨st2, evs, k1, k2, k3, k4⟩ := ih st1 hw1 h4
    refine ⟨st2, ev ++ evs, ?_, sameData_trans h2 k2, ?_, k4⟩
    · simp only [addAll, h1, k1]
    · refine k3.trans ((List.Perm.append_left ps h3).trans ?_)
      simp

/-- Removing the root of a non-empty heap in order: the call returns, the data of
every timer is unchanged, the slice holds the old pointers except the root, and the
heap is in order. -/
theorem removeRoot_spec (st : Timers) (hn : 0 < st.t.length)
    (hheap : HeapOrdF (whenAt st) st.t.length) :
    ∃ st', removeRoot (ptr st 0) st = .ok st' ∧ sameData st st' ∧ sameFlags st st' ∧
      (ptr st 0 :: st'.t).Perm st.t ∧ HeapOrdF (whenAt st') st'.t.length := by
  obtain ⟨a, rest, ht⟩ : ∃ a rest, st.t = a :: rest := by
    cases h : st.t with
    | nil => rw [h] at hn; exact absurd hn (by decide)
    | cons a rest => exact ⟨a, rest, rfl⟩
  have hp0 : ptr st 0 = a := by simp [ptr, ht]
  have hlen : st.t.length = rest.length + 1 := by rw [ht]; rfl
  by_cases hlast : st.t.length - 1 > 0
  · -- the last entry replaces the root
    have hrl : 0 < rest.length := by omega
    let x := ptr st (st.t.length - 1)
    let st3 : Timers :=
      { setI (setT st 0 x) (ptr (setT st 0 x) 0) 0 with
        t := (setI (setT st 0 x) (ptr (setT st 0 x) 0) 0).t.take (st.t.length - 1) }
    have hd3 : sameData st st3 :=
      sameData_trans (setT_sameData st 0 x) (setI_sameData _ _ _)
    have hx : x = rest[rest.length - 1] := by
      show ptr st (st.t.length - 1) = _
      simp only [ptr, ht, List.length_cons, Nat.add_sub_cancel, List.getD_eq_getElem?_getD]
      obtain ⟨k, hk⟩ : ∃ k, rest.length = k + 1 := ⟨rest.length - 1, by omega⟩
      simp [hk, List.getElem?_eq_getElem]
    have ht3 : st3.t = x :: rest.take (rest.length - 1) := by
      show ((st.t.set 0 x).take (st.t.length - 1)) = _
      rw [ht, List.set_cons_zero, List.length_cons, Nat.add_sub_cancel]
      obtain ⟨k, hk⟩ : ∃ k, rest.length = k + 1 := ⟨rest.length - 1, by omega⟩
      rw [hk, List.take_succ_cons, Nat.add_sub_cancel]
    have hlen3 : st3.t.length = rest.length := by
      rw [ht3, List.length_cons, List.length_take]; omega
    have hptr3 : ∀ j, 0 < j → j < rest.length → ptr st3 j = ptr st j := by
      intro j hj hjn
      show st3.t.getD j 0 = st.t.getD j 0
      rw [ht3, ht]
      obtain ⟨k, hk⟩ : ∃ k, j = k + 1 := ⟨j - 1, by omega⟩
      subst hk
      simp only [List.getD_eq_getElem?_getD, List.getElem?_cons_succ]
      rw [List.getElem?_take_of_lt (by omega)]
    have hinv : DownInvF (whenAt st3) st3.t.length 0 := by
      rw [hlen3]
      constructor
      · intro j hj hn' hp
        rw [whenAt_congr hd3 j (hptr3 j hj hn'),
          whenAt_congr hd3 _ (hptr3 _ (by omega) (by omega))]
        exact hheap j hj (by omega)
      · intro h; exact absurd h (by decide)
    obtain ⟨st4, h1, h2, h3, h4, h5⟩ := siftdownTimer_zero_spec st3 (by omega) hinv
    refine ⟨setI st4 a (-1), ?_, ?_, ?_, ?_, ?_⟩
    · simp only [removeRoot, if_pos hlast]
      show (match siftdownTimer 0 st3 with
        | .ok s => Res.ok (setI s (ptr st 0) (-1))
        | .panic msg => Res.panic msg
        | .outOfFuel => Res.outOfFuel) = _
      rw [h1, hp0]
    · exact sameData_trans (sameData_trans hd3 h2) (setI_sameData _ _ _)
    · exact sameFlags_trans (sameFlags_trans ⟨rfl, rfl, rfl⟩ h3) ⟨rfl, rfl, rfl⟩
    · rw [hp0, setI_t, ht]
      refine List.Perm.cons a (h4.trans ?_)
      rw [ht3, hx]
      have e : rest = rest.take (rest.length - 1) ++ [rest[rest.length - 1]] := by
        conv_lhs => rw [← List.take_append_drop (rest.length - 1) rest]
        rw [List.drop_eq_getElem_cons (by omega), List.drop_eq_nil_of_le (by omega)]
      conv_rhs => rw [e]
      exact (List.perm_append_singleton _ _).symm
    · rw [whenAt_eq_of (setI_t st4 a (-1)) (setI_sameData st4 a (-1)), setI_t]
      exact h5
  · -- the root was the only entry
    have hr : rest = [] := by
      cases rest with
      | nil => rfl
      | cons b r => rw [hlen] at hlast; simp at hlast
    refine ⟨setI { st with t := st.t.take (st.t.length - 1) } a (-1), ?_, ?_, ?_, ?_, ?_⟩
    · simp only [removeRoot, if_neg hlast, hp0]
    · exact sameData_trans (fun _ => ⟨rfl, rfl, rfl, rfl, rfl⟩) (setI_sameData _ _ _)
    · exact ⟨rfl, rfl, rfl⟩
    · rw [hp0, setI_t, ht, hr]
      simp
    · intro j hj hn'
      rw [setI_t, ht, hr] at hn'
      simp at hn'


theorem fired_service (t f arg seq : Nat) (evs : List Ev) :
    fired ([Ev.unlock, Ev.call t f arg seq, Ev.lock] ++ evs) = t :: fired evs := rfl

/-- The `int64` subtraction of a clock value from an earlier non-negative deadline does
not wrap and is not positive. -/
theorem wrap64_delta (w now : Int) (h0 : 0 ≤ w) (h1 : w ≤ now) (h2 : now ≤ maxInt64) :
    wrap64 (w - now) = w - now ∧ ¬ wrap64 (w - now) > 0 := by
  have e : wrap64 (w - now) = w - now := by
    unfold wrap64; unfold maxInt64 at h2; omega
  rw [e]
  exact ⟨rfl, by omega⟩

/-- One pass of the inner loop of `timerproc` over a heap in order whose timers are
all one-shot and due: it returns with the heap empty, having invoked each timer
once, in non-decreasing order of deadline. -/
theorem timerprocLoop_spec (cb : Callback)
    (hcb : ∀ f a s st, (cb f a s st).t = st.t ∧ (cb f a s st).mem = st.mem)
    (now : Int) (hnow : now ≤ maxInt64) (fuel : Nat) : ∀ (st : Timers),
    st.t.length < fuel → HeapOrdF (whenAt st) st.t.length →
    (∀ a ∈ st.t, 0 ≤ (st.mem a).when ∧ (st.mem a).when ≤ now ∧ (st.mem a).period = 0) →
    ∃ r, timerprocLoop cb now fuel st = .ok r ∧ r.st.t = [] ∧ r.delta = -1 ∧
      (fired r.events).Perm st.t ∧
      (fired r.events).Pairwise (fun a b => (st.mem a).when ≤ (st.mem b).when) := by
  induction fuel with
  | zero => intro st h; omega
  | succ fuel ih =>
    intro st hf hheap hdue
    rw [timerprocLoop]
    by_cases hlen : st.t.length = 0
    · rw [if_pos hlen]
      have : st.t = [] := List.length_eq_zero.mp hlen
      refine ⟨_, rfl, this, rfl, ?_, ?_⟩
      · rw [this]; exact List.Perm.refl _
      · exact List.Pairwise.nil
    · rw [if_neg hlen]
      have hpos : 0 < st.t.length := Nat.pos_of_ne_zero hlen
      have hroot : ptr st 0 ∈ st.t := by
        have : ptr st 0 = st.t[0] := by
          simp [ptr, List.getD_eq_getElem?_getD, List.getElem?_eq_getElem hpos]
        rw [this]; exact List.getElem_mem hpos
      obtain ⟨hw0, hw1, hper⟩ := hdue _ hroot
      obtain ⟨st1, h1, h2, _, h4, h5⟩ := removeRoot_spec st hpos hheap
      simp only []
      rw [if_neg (wrap64_delta _ now hw0 hw1 hnow).2, if_neg (by omega), h1]
      simp only []
      obtain ⟨hct, hcm⟩ := hcb (st1.mem (ptr st 0)).f (st1.mem (ptr st 0)).arg
        (st1.mem (ptr st 0)).seq st1
      generalize cb (st1.mem (ptr st 0)).f (st1.mem (ptr st 0)).arg
        (st1.mem (ptr st 0)).seq st1 = st2 at hct hcm
      have hd2 : sameData st st2 := by
        intro a; rw [hcm]; exact h2 a
      have hsub : ∀ a ∈ st2.t, a ∈ st.t := by
        intro a ha
        rw [hct] at ha
        exact h4.mem_iff.mp (List.mem_cons_of_mem _ ha)
      have hlen2 : st2.t.length + 1 = st.t.length := by
        rw [hct]; exact h4.length_eq
      have hheap2 : HeapOrdF (whenAt st2) st2.t.length := by
        have : whenAt st2 = whenAt st1 := by
          funext j; simp only [whenAt, ptr, hct, hcm]
        rw [this, hct]; exact h5
      have hdue2 : ∀ a ∈ st2.t,
          0 ≤ (st2.mem a).when ∧ (st2.mem a).when ≤ now ∧ (st2.mem a).period = 0 := by
        intro a ha
        rw [(hd2 a).1, (hd2 a).2.1]
        exact hdue a (hsub a ha)
      obtain ⟨r, k1, k2, k3, k4, k5⟩ := ih st2 (by omega) hheap2 hdue2
      rw [k1]
      refine ⟨_, rfl, k2, k3, ?_, ?_⟩
      · simp only [fired_service]
        exact ((List.Perm.cons _ k4).trans (by rw [hct])).trans h4
      · simp only [fired_service]
        refine List.Pairwise.cons ?_ ?_
        · intro b hb
          have hb' : b ∈ st.t := hsub b (k4.mem_iff.mp hb)
          obtain ⟨j, hj, rfl⟩ := List.mem_iff_getElem.mp hb'
          have := HeapOrdF_root_le hheap j hj
          simp only [whenAt, ptr, List.getD_eq_getElem?_getD, List.getElem?_eq_getElem hj,
            Option.getD_some] at this
          simpa [ptr, List.getD_eq_getElem?_getD] using this
        · exact k5.imp (fun {a b} hab => by
            rw [(hd2 a).1, (hd2 b).1] at hab; exact hab)

/-! ### Firing order -/

/-- C10. Timer firing order.  One-shot timers (`period = 0`) at the addresses `ts`,
with deadlines that are not negative, are added with `addtimerLocked` to an empty
heap; the clock value `now` is at least every deadline and callbacks leave the heap
and the timer objects alone.  Then all the additions return, and with any fuel above
the number of timers the inner loop of `timerproc` returns: the heap is empty, the
callbacks invoked are those of the timers added, each exactly once, in non-decreasing
order of deadline, and in strictly ascending order when the deadlines are distinct.
The deadlines `[5,1,3,2,4]` fire as `[1,2,3,4,5]`. -/
theorem timer_firing_order (cb : Callback)
    (hcb : ∀ f a s st, (cb f a s st).t = st.t ∧ (cb f a s st).mem = st.mem)
    (st0 : Timers) (hempty : st0.t = []) (ts : List Nat) (now : Int)
    (hnow : now ≤ maxInt64)
    (hone : ∀ p ∈ ts, (st0.mem p).period = 0)
    (hdue : ∀ p ∈ ts, 0 ≤ (st0.mem p).when ∧ (st0.mem p).when ≤ now) :
    (∃ st1 evs, addAll ts st0 = .ok (st1, evs) ∧
      ∀ fuel, ts.length < fuel →
        ∃ r, timerprocLoop cb now fuel st1 = .ok r ∧ r.st.t = [] ∧
          (fired r.events).Perm ts ∧
          ((fired r.events).map (fun a => (st0.mem a).when)).Pairwise (fun x y => x ≤ y) ∧
          ((ts.map (fun a => (st0.mem a).when)).Nodup →
            ((fired r.events).map (fun a => (st0.mem a).when)).Pairwise (fun x y => x < y))) ∧
    firingOrder [5, 1, 3, 2, 4] 5 = some [1, 2, 3, 4, 5] := by
  refine ⟨?_, by decide⟩
  have hheap0 : HeapOrdF (whenAt st0) st0.t.length := by
    intro j _ hn; rw [hempty] at hn; exact absurd hn (by simp)
  obtain ⟨st1, evs, h1, h2, h3, h4⟩ := addAll_spec ts st0 (fun p hp => (hdue p hp).1) hheap0
  rw [hempty, List.append_nil] at h3
  refine ⟨st1, evs, h1, ?_⟩
  intro fuel hfuel
  have hdue1 : ∀ a ∈ st1.t,
      0 ≤ (st1.mem a).when ∧ (st1.mem a).when ≤ now ∧ (st1.mem a).period = 0 := by
    intro a ha
    have ha' := h3.mem_iff.mp ha
    rw [(h2 a).1, (h2 a).2.1]
    exact ⟨(hdue a ha').1, (hdue a ha').2, hone a ha'⟩
  obtain ⟨r, k1, k2, _, k4, k5⟩ :=
    timerprocLoop_spec cb hcb now hnow fuel st1 (by rw [h3.length_eq]; exact hfuel) h4 hdue1
  have hle : ((fired r.events).map (fun a => (st0.mem a).when)).Pairwise (fun x y => x ≤ y) := by
    rw [List.pairwise_map]
    exact k5.imp (fun {a b} hab => by rw [(h2 a).1, (h2 b).1] at hab; exact hab)
  refine ⟨r, k1, k2, k4.trans h3, hle, ?_⟩
  intro hnd
  have hnd' : ((fired r.events).map (fun a => (st0.mem a).when)).Nodup :=
    (((k4.trans h3).map _).nodup_iff).mpr hnd
  exact (hle.and hnd').imp (fun {x y} h => lt_of_le_of_ne h.1 h.2)

/-- Instance of `timer_firing_order`: five one-shot timers with the deadlines
`[5,1,3,2,4]`, the clock at 5, callbacks that do nothing. -/
theorem timer_firing_order_witness :
    (oneShots [5, 1, 3, 2, 4]).t = [] ∧ (5 : Int) ≤ maxInt64 ∧
    (∀ p ∈ [0, 1, 2, 3, 4], ((oneShots [5, 1, 3, 2, 4]).mem p).period = 0) ∧
    (∀ p ∈ [0, 1, 2, 3, 4], 0 ≤ ((oneShots [5, 1, 3, 2, 4]).mem p).when ∧
      ((oneShots [5, 1, 3, 2, 4]).mem p).when ≤ 5) ∧
    ∃ st1 evs, addAll [0, 1, 2, 3, 4] (oneShots [5, 1, 3, 2, 4]) = .ok (st1, evs) ∧
      ∃ r, timerprocLoop (fun _ _ _ s => s) 5 6 st1 = .ok r ∧ r.st.t = [] ∧
        (fired r.events).Perm [0, 1, 2, 3, 4] :=
  have h := (timer_firing_order (fun _ _ _ s => s) (fun _ _ _ _ => ⟨rfl, rfl⟩)
    (oneShots [5, 1, 3, 2, 4]) rfl [0, 1, 2, 3, 4] 5 (by decide) (by decide) (by decide)).1
  ⟨rfl, by decide, by decide, by decide,
    let ⟨st1, evs, h1, h2⟩ := h
    let ⟨r, k1, k2, k3, _⟩ := h2 6 (by decide)
    ⟨st1, evs, h1, r, k1, k2, k3⟩⟩

end runtime

namespace runtime

/-! ### The back-pointer invariant under the sifts -/

theorem ptr_eq_getElem (st : Timers) {k : Nat} (h : k < st.t.length) : ptr st k = st.t[k] := by
  simp [ptr, List.getD_eq_getElem?_getD, List.getElem?_eq_getElem h]

theorem ptr_mem (st : Timers) {k : Nat} (h : k < st.t.length) : ptr st k ∈ st.t := by
  rw [ptr_eq_getElem st h]; exact List.getElem_mem h

theorem mem_iff_ptr (st : Timers) (a : Nat) :
    a ∈ st.t ↔ ∃ k, k < st.t.length ∧ ptr st k = a := by
  constructor
  · intro h
    obtain ⟨k, hk, e⟩ := List.mem_iff_getElem.mp h
    exact ⟨k, hk, by rw [ptr_eq_getElem st hk]; exact e⟩
  · rintro ⟨k, hk, rfl⟩
    exact ptr_mem st hk

/-- Under the back-pointer invariant no timer is in the heap twice. -/
theorem BackPtr_inj {st : Timers} (h : BackPtr st) {a b : Nat} (ha : a < st.t.length)
    (hb : b < st.t.length) (e : ptr st a = ptr st b) : a = b := by
  have h1 := h a ha
  have h2 := h b hb
  rw [e] at h1
  have := h1.symm.trans h2
  omega

theorem BackPtr_nodup {st : Timers} (h : BackPtr st) : st.t.Nodup := by
  rw [List.nodup_iff_injective_get]
  intro a b e
  apply Fin.ext
  apply BackPtr_inj h a.isLt b.isLt
  rw [ptr_eq_getElem st a.isLt, ptr_eq_getElem st b.isLt]
  exact e

theorem Sifted_refl (st : Timers) : Sifted st st :=
  ⟨sameData_refl _, sameFlags_refl _, List.Perm.refl _, id, fun _ _ => rfl⟩

theorem Sifted_trans {a b c : Timers} (h1 : Sifted a b) (h2 : Sifted b c) : Sifted a c := by
  obtain ⟨p1, p2, p3, p4, p5⟩ := h1
  obtain ⟨q1, q2, q3, q4, q5⟩ := h2
  refine ⟨sameData_trans p1 q1, sameFlags_trans p2 q2, q3.trans p3, fun h => q4 (p4 h), ?_⟩
  intro x hx
  rw [q5 x (fun h => hx (p3.mem_iff.mp h)), p5 x hx]

/-- The memory after the four assignments of an exchange. -/
theorem exchange_mem (st : Timers) (i c : Nat) (hi : i < st.t.length) (hc : c < st.t.length)
    (a : Nat) :
    (exchange st i c (ptr st i)).mem a
      = if a = ptr st i then { st.mem a with i := (c : Int) }
        else if a = ptr st c then { st.mem a with i := (i : Int) } else st.mem a := by
  have e1 : ptr (setT st i (ptr st c)) i = ptr st c := by
    simp [ptr, setT, List.getD_eq_getElem?_getD, List.getElem?_set, hi]
  have e2 : ptr (setT (setI (setT st i (ptr st c)) (ptr st c) i) c (ptr st i)) c = ptr st i := by
    simp [ptr, setT, setI, List.getD_eq_getElem?_getD, List.getElem?_set, hc]
  unfold exchange
  simp only [e1, e2]
  simp only [setI, setT]
  by_cases h3 : ptr st i = ptr st c
  · by_cases h1 : a = ptr st i
    · subst h1; simp [h3]
    · have h2 : ¬ a = ptr st c := fun e => h1 (e.trans h3.symm)
      simp [h1, h2]
  · by_cases h1 : a = ptr st i
    · subst h1; simp [h3]
    · by_cases h2 : a = ptr st c
      · subst h2; simp [h1]
      · simp [h1, h2]

theorem exchange_Sifted (st : Timers) (i c : Nat) (hi : i < st.t.length)
    (hc : c < st.t.length) : Sifted st (exchange st i c (ptr st i)) := by
  refine ⟨exchange_sameData _ _ _ _, exchange_sameFlags _ _ _ _, exchange_perm st i c hi hc,
    ?_, ?_⟩
  · intro hbp k hk
    rw [exchange_length] at hk
    rw [ptr_exchange st i c hi hc k, exchange_mem st i c hi hc]
    by_cases h1 : k = c
    · subst h1; simp
    · rw [if_neg h1]
      by_cases h2 : k = i
      · subst h2
        rw [if_pos rfl]
        have : ptr st c ≠ ptr st k := fun e => h1 (BackPtr_inj hbp hk hc e.symm)
        simp [this]
      · rw [if_neg h2]
        have n1 : ptr st k ≠ ptr st i := fun e => h2 (BackPtr_inj hbp hk hi e)
        have n2 : ptr st k ≠ ptr st c := fun e => h1 (BackPtr_inj hbp hk hc e)
        simp only [n1, n2, if_false]
        exact hbp k hk
  · intro a ha
    rw [exchange_mem st i c hi hc]
    have n1 : a ≠ ptr st i := fun e => ha (e ▸ ptr_mem st hi)
    have n2 : a ≠ ptr st c := fun e => ha (e ▸ ptr_mem st hc)
    simp only [n1, n2, if_false]

/-- The loop of `siftupTimer` returns for every key and every slice. -/
theorem siftupLoop_total (w : Int) (fuel : Nat) : ∀ (i : Nat) (st : Timers),
    i < st.t.length → i < fuel →
    ∃ st', siftupLoop w (ptr st i) fuel i st = some st' ∧ Sifted st st' := by
  induction fuel with
  | zero => intro i st _ h; omega
  | succ fuel ih =>
    intro i st hi hf
    rw [siftupLoop]
    by_cases h0 : i > 0
    · rw [if_pos h0]
      simp only []
      by_cases hge : w ≥ whenAt st ((i - 1) / 4)
      · rw [if_pos hge]; exact ⟨st, rfl, Sifted_refl _⟩
      · rw [if_neg hge]
        have hp : (i - 1) / 4 < st.t.length := by omega
        have hptr := ptr_exchange st i ((i - 1) / 4) hi hp ((i - 1) / 4)
        rw [if_pos rfl] at hptr
        obtain ⟨st', h1, h2⟩ := ih ((i - 1) / 4) (exchange st i ((i - 1) / 4) (ptr st i))
          (by rw [exchange_length]; exact hp) (by omega)
        rw [hptr] at h1
        exact ⟨st', h1, Sifted_trans (exchange_Sifted st i _ hi hp) h2⟩
    · rw [if_neg h0]; exact ⟨st, rfl, Sifted_refl _⟩

/-- The loop of `siftdownTimer` returns for every key and every slice. -/
theorem siftdownLoop_total (w : Int) (fuel : Nat) : ∀ (i : Nat) (st : Timers),
    i < st.t.length → st.t.length ≤ fuel + i →
    ∃ st', siftdownLoop st.t.length w (ptr st i) fuel i st = some st' ∧ Sifted st st' := by
  induction fuel with
  | zero => intro i st h1 h2; omega
  | succ fuel ih =>
    intro i st hi hf
    rw [siftdownLoop]
    simp only []
    by_cases hcn : i * 4 + 1 ≥ st.t.length
    · rw [if_pos hcn]; exact ⟨st, rfl, Sifted_refl _⟩
    · rw [if_neg hcn]
      obtain ⟨s1, s2, s3, -, -⟩ := smallestChild_spec st st.t.length (i * 4 + 1) (by omega)
      generalize smallestChild st st.t.length (i * 4 + 1) = wc at *
      obtain ⟨wv, c⟩ := wc
      simp only [] at s1 s2 s3 ⊢
      by_cases hge : wv ≥ w
      · rw [if_pos hge]; exact ⟨st, rfl, Sifted_refl _⟩
      · rw [if_neg hge]
        have hptr := ptr_exchange st i c hi s3 c
        rw [if_pos rfl] at hptr
        obtain ⟨st', h1, h2⟩ := ih c (exchange st i c (ptr st i))
          (by rw [exchange_length]; exact s3) (by rw [exchange_length]; omega)
        rw [hptr, exchange_length] at h1
        exact ⟨st', h1, Sifted_trans (exchange_Sifted st i _ hi s3) h2⟩

/-! ### The sift functions on any slice -/

theorem HeapOrdF_downInv {g : Nat → Int} {n : Nat} (h : HeapOrdF g n) (i : Nat) :
    DownInvF g n i := by
  refine ⟨fun j hj hn _ => h j hj hn, ?_⟩
  intro hi j hj hn hp
  have h1 := h i hi (by omega)
  have h2 := h j hj hn
  rw [hp] at h2
  exact Int.le_trans h1 h2

theorem HeapOrdF_upInv {g : Nat → Int} {n : Nat} (h : HeapOrdF g n) (i : Nat) :
    UpInvF g n i := by
  refine ⟨fun j hj hn _ => h j hj hn, ?_⟩
  intro hi j hj hn hp
  have h1 := h i hi (by omega)
  have h2 := h j hj hn
  rw [hp] at h2
  exact Int.le_trans h1 h2

/-- The call `siftupTimer(i)` with `i` in range returns; it keeps what a sift keeps,
restores heap order from the sift-up invariant, and changes nothing when the entry is
at the root or not below its parent. -/
theorem siftupTimer_run (st : Timers) (i : Nat) (hi : i < st.t.length) :
    ∃ st', siftupTimer (i : Int) st = .ok st' ∧ Sifted st st' ∧
      (UpInvF (whenAt st) st.t.length i → HeapOrdF (whenAt st') st'.t.length) ∧
      ((0 < i → whenAt st i ≥ whenAt st ((i - 1) / 4)) → st' = st) := by
  obtain ⟨st', h1, h2⟩ := siftupLoop_total (whenAt st i) (i + 1) i st hi (by omega)
  have hc : ¬ ((i : Int) < 0 ∨ (st.t.length : Int) ≤ (i : Int)) := by omega
  refine ⟨st', ?_, h2, ?_, ?_⟩
  · simp only [siftupTimer, if_neg hc, Int.toNat_ofNat, h1]
  · intro hinv
    obtain ⟨st2, k1, -, -, -, k5⟩ := siftupLoop_spec (i + 1) i st hi (by omega) hinv
    rw [h1] at k1
    cases k1
    exact k5
  · intro hno
    rw [siftupLoop] at h1
    by_cases h0 : i > 0
    · rw [if_pos h0] at h1
      simp only [] at h1
      rw [if_pos (hno h0)] at h1
      exact (Option.some.inj h1).symm
    · rw [if_neg h0] at h1
      exact (Option.some.inj h1).symm

/-- The call `siftdownTimer(i)` with `i` in range returns; it keeps what a sift keeps
and restores heap order from the sift-down invariant. -/
theorem siftdownTimer_run (st : Timers) (i : Nat) (hi : i < st.t.length) :
    ∃ st', siftdownTimer (i : Int) st = .ok st' ∧ Sifted st st' ∧
      (DownInvF (whenAt st) st.t.length i → HeapOrdF (whenAt st') st'.t.length) := by
  obtain ⟨st', h1, h2⟩ :=
    siftdownLoop_total (whenAt st i) (st.t.length + 1) i st hi (by omega)
  have hc : ¬ ((i : Int) < 0 ∨ (st.t.length : Int) ≤ (i : Int)) := by omega
  refine ⟨st', ?_, h2, ?_⟩
  · simp only [siftdownTimer, if_neg hc, Int.toNat_ofNat, h1]
  · intro hinv
    obtain ⟨st2, k1, -, -, -, k5⟩ :=
      siftdownLoop_spec (st.t.length + 1) i st hi (by omega) hinv
    rw [h1] at k1
    cases k1
    exact k5

/-- The key function is the same in two states with the same slice whose `when`
fields agree on the slice. -/
theorem whenAt_eq_on {st1 st2 : Timers} (ht : st2.t = st1.t)
    (hw : ∀ a ∈ st1.t, (st2.mem a).when = (st1.mem a).when) (k : Nat)
    (hk : k < st1.t.length) : whenAt st2 k = whenAt st1 k := by
  have e : ptr st2 k = ptr st1 k := by rw [ptr, ptr, ht]
  rw [whenAt, whenAt, e]
  exact hw _ (ptr_mem st1 hk)

theorem Sifted_length {st1 st2 : Timers} (h : Sifted st1 st2) :
    st2.t.length = st1.t.length := h.2.2.1.length_eq


/-! ### `addtimerLocked` -/

theorem enqueue_t (p : Nat) (st : Timers) : (enqueue p st).t = st.t ++ [p] := by
  unfold enqueue; split_ifs <;> rfl

theorem enqueue_length (p : Nat) (st : Timers) :
    (enqueue p st).t.length = st.t.length + 1 := by
  rw [enqueue_t]; simp

theorem enqueue_sameFlags (p : Nat) (st : Timers) : sameFlags st (enqueue p st) := by
  unfold enqueue; split_ifs <;> exact ⟨rfl, rfl, rfl⟩

theorem enqueue_mem_ne (p : Nat) (st : Timers) (a : Nat) (h : a ≠ p) :
    (enqueue p st).mem a = st.mem a := by
  unfold enqueue; split_ifs <;> simp [setI, setWhen, h]

theorem enqueue_mem_self (p : Nat) (st : Timers) :
    (enqueue p st).mem p =
      { st.mem p with
        i := (st.t.length : Int)
        when := if (st.mem p).when < 0 then maxInt64 else (st.mem p).when } := by
  unfold enqueue; split_ifs with h <;> simp [setI, setWhen, h]

theorem ptr_enqueue_lt (p : Nat) (st : Timers) {k : Nat} (hk : k < st.t.length) :
    ptr (enqueue p st) k = ptr st k := by
  simp only [ptr, enqueue_t, List.getD_eq_getElem?_getD]
  rw [List.getElem?_append_left hk]

theorem ptr_enqueue_last (p : Nat) (st : Timers) : ptr (enqueue p st) st.t.length = p := by
  simp [ptr, enqueue_t, List.getD_eq_getElem?_getD]

theorem whenAt_enqueue_lt (p : Nat) (st : Timers) (hp : p ∉ st.t) {k : Nat}
    (hk : k < st.t.length) : whenAt (enqueue p st) k = whenAt st k := by
  rw [whenAt, whenAt, ptr_enqueue_lt p st hk,
    enqueue_mem_ne p st _ (fun e => hp (e ▸ ptr_mem st hk))]

theorem whenAt_enqueue_last (p : Nat) (st : Timers) :
    whenAt (enqueue p st) st.t.length
      = if (st.mem p).when < 0 then maxInt64 else (st.mem p).when := by
  rw [whenAt, ptr_enqueue_last, enqueue_mem_self]

theorem enqueue_upInv (p : Nat) (st : Timers) (hp : p ∉ st.t)
    (hheap : HeapOrdF (whenAt st) st.t.length) :
    UpInvF (whenAt (enqueue p st)) (enqueue p st).t.length st.t.length := by
  rw [enqueue_length]
  constructor
  · intro j hj hn hne
    rw [whenAt_enqueue_lt p st hp (show j < st.t.length by omega),
      whenAt_enqueue_lt p st hp (show (j - 1) / 4 < st.t.length by omega)]
    exact hheap j hj (by omega)
  · intro _ j hj hn hpj
    omega

theorem enqueue_backPtr (p : Nat) (st : Timers) (hp : p ∉ st.t) (hbp : BackPtr st) :
    BackPtr (enqueue p st) := by
  intro k hk
  rw [enqueue_length] at hk
  by_cases h : k = st.t.length
  · subst h
    rw [ptr_enqueue_last, enqueue_mem_self]
  · have hk' : k < st.t.length := by omega
    rw [ptr_enqueue_lt p st hk', enqueue_mem_ne p st _ (fun e => hp (e ▸ ptr_mem st hk'))]
    exact hbp k hk'

theorem addtimerLocked_eq (p : Nat) (st : Timers) :
    addtimerLocked p st =
      match siftupTimer (st.t.length : Int) (enqueue p st) with
      | .panic msg => .panic msg
      | .outOfFuel => .outOfFuel
      | .ok st => .ok (wakeOnAdd p st) := by
  have h : ((enqueue p st).mem p).i = (st.t.length : Int) := by rw [enqueue_mem_self]
  rw [← h]
  rfl

/-- Every call of `addtimerLocked` returns: the sift of the enqueued timer ends and
the wake-up code runs on its result. -/
theorem addtimerLocked_run (p : Nat) (st : Timers) :
    ∃ st4, siftupTimer (st.t.length : Int) (enqueue p st) = .ok st4 ∧
      addtimerLocked p st = .ok (wakeOnAdd p st4) ∧ Sifted (enqueue p st) st4 ∧
      (UpInvF (whenAt (enqueue p st)) (enqueue p st).t.length st.t.length →
        HeapOrdF (whenAt st4) st4.t.length) := by
  obtain ⟨st4, h1, h2, h3, -⟩ :=
    siftupTimer_run (enqueue p st) st.t.length (by rw [enqueue_length]; omega)
  refine ⟨st4, h1, ?_, h2, h3⟩
  rw [addtimerLocked_eq, h1]

theorem wakeOnAdd_created (p : Nat) (st : Timers) : (wakeOnAdd p st).1.created = true := by
  unfold wakeOnAdd
  by_cases h : (st.mem p).i = 0 <;> cases h1 : st.sleeping <;> cases h2 : st.rescheduling <;>
    cases h3 : st.created <;> simp [h, h1, h2, h3]

/-- What the end of `addtimerLocked` does when the new timer is at index 0. -/
theorem wakeOnAdd_root (p : Nat) (st : Timers) (h : (st.mem p).i = 0) :
    (wakeOnAdd p st).1.sleeping = false ∧ (wakeOnAdd p st).1.rescheduling = false ∧
    (wakeOnAdd p st).2 = (if st.sleeping then [Ev.notewakeup] else [])
      ++ (if st.rescheduling then [Ev.goready] else [])
      ++ (if st.created then [] else [Ev.goTimerproc]) := by
  unfold wakeOnAdd
  cases h1 : st.sleeping <;> cases h2 : st.rescheduling <;>
    cases h3 : st.created <;> simp [h, h1, h2, h3]

/-- What the end of `addtimerLocked` does when the new timer is not at index 0. -/
theorem wakeOnAdd_inner (p : Nat) (st : Timers) (h : (st.mem p).i ≠ 0) :
    (wakeOnAdd p st).1.sleeping = st.sleeping ∧
    (wakeOnAdd p st).1.rescheduling = st.rescheduling ∧
    (wakeOnAdd p st).2 = (if st.created then [] else [Ev.goTimerproc]) := by
  unfold wakeOnAdd
  cases h1 : st.sleeping <;> cases h2 : st.rescheduling <;>
    cases h3 : st.created <;> simp [h, h1, h2, h3]

theorem whenAt_wakeOnAdd (p : Nat) (st : Timers) : whenAt (wakeOnAdd p st).1 = whenAt st := by
  funext j
  simp only [whenAt, ptr, wakeOnAdd_t, wakeOnAdd_mem]

theorem wakeOnAdd_backPtr (p : Nat) (st : Timers) (h : BackPtr st) :
    BackPtr (wakeOnAdd p st).1 := by
  intro k hk
  rw [wakeOnAdd_t] at hk
  have := h k hk
  simpa only [ptr, wakeOnAdd_t, wakeOnAdd_mem] using this


/-! ### Moving the last entry into a gap -/

theorem moveLast_t (k : Nat) (st : Timers) :
    (moveLast k st).t = (st.t.set k (ptr st (st.t.length - 1))).take (st.t.length - 1) := rfl

theorem moveLast_length (k : Nat) (st : Timers) (hn : 0 < st.t.length) :
    (moveLast k st).t.length = st.t.length - 1 := by
  rw [moveLast_t, List.length_take, List.length_set]; omega

theorem moveLast_sameData (k : Nat) (st : Timers) : sameData st (moveLast k st) := by
  unfold moveLast
  exact sameData_trans (sameData_trans (setT_sameData _ _ _) (setI_sameData _ _ _))
    (fun _ => ⟨rfl, rfl, rfl, rfl, rfl⟩)

theorem moveLast_sameFlags (k : Nat) (st : Timers) : sameFlags st (moveLast k st) :=
  ⟨rfl, rfl, rfl⟩

theorem moveLast_mem (k : Nat) (st : Timers) (hk : k < st.t.length) (a : Nat) :
    (moveLast k st).mem a
      = if a = ptr st (st.t.length - 1) then { st.mem a with i := (k : Int) }
        else st.mem a := by
  have e : ptr (setT st k (ptr st (st.t.length - 1))) k = ptr st (st.t.length - 1) := by
    simp [ptr, setT, List.getD_eq_getElem?_getD, List.getElem?_set, hk]
  unfold moveLast
  simp only [e]
  simp only [setI, setT]

theorem ptr_moveLast (k : Nat) (st : Timers) {j : Nat} (hj : j < st.t.length - 1) :
    ptr (moveLast k st) j = if j = k then ptr st (st.t.length - 1) else ptr st j := by
  simp only [ptr, moveLast_t, List.getD_eq_getElem?_getD]
  rw [List.getElem?_take_of_lt hj, List.getElem?_set]
  by_cases h : j = k
  · subst h
    have : j < st.t.length := by omega
    simp [this]
  · simp [h, Ne.symm h]

theorem whenAt_moveLast (k : Nat) (st : Timers) {j : Nat} (hj : j < st.t.length - 1) :
    whenAt (moveLast k st) j = if j = k then whenAt st (st.t.length - 1) else whenAt st j := by
  rw [whenAt, (moveLast_sameData k st _).1, ptr_moveLast k st hj]
  split_ifs <;> rfl

/-- The slice before the move holds the entry that was at `k` and the entries after
the move. -/
theorem moveLast_perm (k : Nat) (st : Timers) (hk : k < st.t.length - 1) :
    (ptr st k :: (moveLast k st).t).Perm st.t := by
  have hkn : k < st.t.length := by omega
  have hl : st.t.length - 1 < st.t.length := by omega
  have hx : ptr st (st.t.length - 1) = st.t[st.t.length - 1] := ptr_eq_getElem st hl
  have hy : ptr st k = st.t[k] := ptr_eq_getElem st hkn
  have hsplit : st.t.set k (ptr st (st.t.length - 1))
      = (moveLast k st).t ++ [ptr st (st.t.length - 1)] := by
    rw [moveLast_t]
    conv_lhs => rw [← List.take_append_drop (st.t.length - 1)
      (st.t.set k (ptr st (st.t.length - 1)))]
    rw [List.drop_eq_getElem_cons (by rw [List.length_set]; exact hl),
      List.drop_eq_nil_of_le (by rw [List.length_set]; omega),
      List.getElem_set_ne (by omega), ← hx]
  rw [List.perm_iff_count]
  intro a
  have c1 := List.count_set (ptr st (st.t.length - 1)) a st.t k hkn
  rw [hsplit, List.count_append] at c1
  have pos : st.t[k] = a → 0 < st.t.count a := fun h =>
    List.count_pos_iff.mpr (h ▸ List.getElem_mem hkn)
  rw [List.count_cons, hy]
  simp only [List.count_cons, List.count_nil, beq_iff_eq] at c1 ⊢
  by_cases h : st.t[k] = a
  · have := pos h
    simp only [h, if_true] at c1 ⊢
    omega
  · simp only [h, if_false] at c1 ⊢
    omega

theorem moveLast_backPtr (k : Nat) (st : Timers) (hk : k < st.t.length - 1)
    (hbp : BackPtr st) : BackPtr (moveLast k st) := by
  intro j hj
  rw [moveLast_length k st (by omega)] at hj
  rw [ptr_moveLast k st hj, moveLast_mem k st (by omega)]
  by_cases h : j = k
  · subst h; simp
  · rw [if_neg h]
    have : ptr st j ≠ ptr st (st.t.length - 1) := fun e => by
      have := BackPtr_inj hbp (show j < st.t.length by omega)
        (show st.t.length - 1 < st.t.length by omega) e
      omega
    rw [if_neg this]
    exact hbp j (by omega)

/-- After the move the slice is in order except below `k`, when the entry moved in
is not below its parent. -/
theorem moveLast_downInv (k : Nat) (st : Timers) (hk : k < st.t.length - 1)
    (hheap : HeapOrdF (whenAt st) st.t.length)
    (hA : 0 < k → whenAt (moveLast k st) ((k - 1) / 4) ≤ whenAt (moveLast k st) k) :
    DownInvF (whenAt (moveLast k st)) (moveLast k st).t.length k := by
  rw [moveLast_length k st (by omega)]
  constructor
  · intro j hj hn hp
    by_cases h : j = k
    · subst h; exact hA hj
    · rw [whenAt_moveLast k st hn, whenAt_moveLast k st (show (j - 1) / 4 < _ by omega),
        if_neg h, if_neg hp]
      exact hheap j hj (by omega)
  · intro hk0 j hj hn hp
    rw [whenAt_moveLast k st hn, whenAt_moveLast k st (show (k - 1) / 4 < _ by omega),
      if_neg (by omega), if_neg (by omega)]
    have h1 := hheap k hk0 (by omega)
    have h2 := hheap j hj (by omega)
    rw [hp] at h2
    exact Int.le_trans h1 h2

/-- After the move the slice is in order except above `k`, when the entry moved in
is below its parent. -/
theorem moveLast_upInv (k : Nat) (st : Timers) (hk : k < st.t.length - 1)
    (hheap : HeapOrdF (whenAt st) st.t.length) (hk0 : 0 < k)
    (hB : whenAt (moveLast k st) k < whenAt (moveLast k st) ((k - 1) / 4)) :
    UpInvF (whenAt (moveLast k st)) (moveLast k st).t.length k := by
  rw [moveLast_length k st (by omega)]
  have hpk : whenAt (moveLast k st) ((k - 1) / 4) = whenAt st ((k - 1) / 4) := by
    rw [whenAt_moveLast k st (show (k - 1) / 4 < _ by omega), if_neg (by omega)]
  have hkk := hheap k hk0 (by omega)
  constructor
  · intro j hj hn hne
    rw [whenAt_moveLast k st hn, if_neg hne]
    by_cases hp : (j - 1) / 4 = k
    · rw [hp]
      have h2 := hheap j hj (by omega)
      rw [hp] at h2
      rw [hpk] at hB
      exact Int.le_trans (Int.le_of_lt hB) (Int.le_trans hkk h2)
    · rw [whenAt_moveLast k st (show (j - 1) / 4 < _ by omega), if_neg hp]
      exact hheap j hj (by omega)
  · intro _ j hj hn hp
    rw [hpk, whenAt_moveLast k st hn, if_neg (by omega)]
    have h2 := hheap j hj (by omega)
    rw [hp] at h2
    exact Int.le_trans hkk h2

/-! ### Unfolding `deltimer` and the one-shot branch -/

theorem deltimer_false (p : Nat) (st : Timers)
    (h : (st.mem p).i < 0 ∨ (st.mem p).i > (st.t.length : Int) - 1 ∨
      ptr st (st.mem p).i.toNat ≠ p) :
    deltimer p st = .ok (st, false) := by
  unfold deltimer
  simp only []
  rw [if_pos h]

theorem deltimer_last (p : Nat) (st : Timers) (hn : 0 < st.t.length)
    (hi : (st.mem p).i = ((st.t.length - 1 : Nat) : Int)) (hptr : ptr st (st.t.length - 1) = p) :
    deltimer p st = .ok ({ st with t := st.t.take (st.t.length - 1) }, true) := by
  have e : ((st.t.length : Int) - 1) = ((st.t.length - 1 : Nat) : Int) := by omega
  unfold deltimer
  simp only [hi, e, Int.toNat_ofNat]
  rw [if_neg (by simp [hptr])]
  simp

theorem deltimer_inner (p : Nat) (st : Timers) (k : Nat) (hk : k < st.t.length - 1)
    (hi : (st.mem p).i = (k : Int)) (hptr : ptr st k = p) :
    deltimer p st =
      match siftupTimer (k : Int) (moveLast k st) with
      | .panic msg => .panic msg
      | .outOfFuel => .outOfFuel
      | .ok s =>
        match siftdownTimer (k : Int) s with
        | .panic msg => .panic msg
        | .outOfFuel => .outOfFuel
        | .ok s' => .ok (s', true) := by
  have e : ((st.t.length : Int) - 1) = ((st.t.length - 1 : Nat) : Int) := by omega
  have ne : ¬ ((k : Int) = ((st.t.length - 1 : Nat) : Int)) := by omega
  unfold deltimer
  simp only [hi, e, Int.toNat_ofNat]
  rw [if_neg (by simp [hptr]; omega)]
  simp only [ne, ne_eq, not_false_eq_true, if_true]
  rfl

theorem removeRoot_single (t : Nat) (st : Timers) (h : ¬ st.t.length - 1 > 0) :
    removeRoot t st = .ok (setI { st with t := st.t.take (st.t.length - 1) } t (-1)) := by
  simp only [removeRoot, if_neg h]

theorem removeRoot_inner (t : Nat) (st : Timers) (h : st.t.length - 1 > 0) :
    removeRoot t st =
      match siftdownTimer 0 (moveLast 0 st) with
      | .ok s => .ok (setI s t (-1))
      | .panic msg => .panic msg
      | .outOfFuel => .outOfFuel := by
  simp only [removeRoot, if_pos h]
  rfl


/-! ### Dropping the last entry -/

theorem ptr_take (st : Timers) (m : Nat) {j : Nat} (hj : j < m) :
    ptr { st with t := st.t.take m } j = ptr st j := by
  simp only [ptr, List.getD_eq_getElem?_getD]
  rw [List.getElem?_take_of_lt hj]

theorem take_heapOrd (st : Timers) (m : Nat) (hm : m ≤ st.t.length)
    (hheap : HeapOrdF (whenAt st) st.t.length) :
    HeapOrdF (whenAt { st with t := st.t.take m }) ({ st with t := st.t.take m } : Timers).t.length := by
  intro j hj hn
  simp only [List.length_take] at hn
  have hjm : j < m := by omega
  have e1 : whenAt { st with t := st.t.take m } j = whenAt st j := by
    simp only [whenAt, ptr_take st m hjm]
  have e2 : whenAt { st with t := st.t.take m } ((j - 1) / 4) = whenAt st ((j - 1) / 4) := by
    simp only [whenAt, ptr_take st m (show (j - 1) / 4 < m by omega)]
  rw [e1, e2]
  exact hheap j hj (by omega)

theorem take_backPtr (st : Timers) (m : Nat) (hm : m ≤ st.t.length) (hbp : BackPtr st) :
    BackPtr { st with t := st.t.take m } := by
  intro j hn
  simp only [List.length_take] at hn
  have hjm : j < m := by omega
  rw [ptr_take st m hjm]
  exact hbp j (by omega)

theorem take_last_perm (st : Timers) (hn : 0 < st.t.length) :
    (ptr st (st.t.length - 1) :: st.t.take (st.t.length - 1)).Perm st.t := by
  have hl : st.t.length - 1 < st.t.length := by omega
  have e : st.t = st.t.take (st.t.length - 1) ++ [ptr st (st.t.length - 1)] := by
    conv_lhs => rw [← List.take_append_drop (st.t.length - 1) st.t]
    rw [List.drop_eq_getElem_cons hl, List.drop_eq_nil_of_le (by omega), ptr_eq_getElem st hl]
  conv_rhs => rw [e]
  exact (List.perm_append_singleton _ _).symm

/-! ### `deltimer` -/

/-- Every call of `deltimer` returns.  Either its test fails, and it returns false
with the state unchanged; or the timer is at index `t.i` of the heap, and it returns
true with the timer taken out of the slice, the other pointers kept, and the
back-pointer invariant and heap order kept. -/
theorem deltimer_run (p : Nat) (st : Timers) :
    (((st.mem p).i < 0 ∨ (st.mem p).i > (st.t.length : Int) - 1 ∨
        ptr st (st.mem p).i.toNat ≠ p) ∧ deltimer p st = .ok (st, false)) ∨
    (∃ (k : Nat) (st' : Timers), (st.mem p).i = (k : Int) ∧ k < st.t.length ∧ ptr st k = p ∧
      deltimer p st = .ok (st', true) ∧ (p :: st'.t).Perm st.t ∧
      sameData st st' ∧ sameFlags st st' ∧ (BackPtr st → BackPtr st') ∧
      (HeapOrdF (whenAt st) st.t.length → HeapOrdF (whenAt st') st'.t.length)) := by
  by_cases hc : (st.mem p).i < 0 ∨ (st.mem p).i > (st.t.length : Int) - 1 ∨
      ptr st (st.mem p).i.toNat ≠ p
  · exact Or.inl ⟨hc, deltimer_false p st hc⟩
  · right
    simp only [not_or, not_lt, not_not, gt_iff_lt] at hc
    obtain ⟨h0, h1, h2⟩ := hc
    obtain ⟨k, hk⟩ : ∃ k : Nat, (st.mem p).i = (k : Int) := ⟨(st.mem p).i.toNat, by omega⟩
    rw [hk, Int.toNat_ofNat] at h2
    have hkn : k < st.t.length := by omega
    by_cases hlast : k = st.t.length - 1
    · subst hlast
      refine ⟨_, _, hk, hkn, h2, deltimer_last p st (by omega) hk h2, ?_,
        fun _ => ⟨rfl, rfl, rfl, rfl, rfl⟩, ⟨rfl, rfl, rfl⟩,
        take_backPtr st _ (by omega), take_heapOrd st _ (by omega)⟩
      rw [← h2]
      exact take_last_perm st (by omega)
    · have hk' : k < st.t.length - 1 := by omega
      have hlen3 := moveLast_length k st (by omega)
      obtain ⟨st4, a1, a2, a3, a4⟩ := siftupTimer_run (moveLast k st) k (by omega)
      have hlen4 := Sifted_length a2
      obtain ⟨st5, b1, b2, b3⟩ := siftdownTimer_run st4 k (by omega)
      refine ⟨k, st5, hk, hkn, h2, ?_, ?_, ?_, ?_, ?_, ?_⟩
      · rw [deltimer_inner p st k hk' hk h2, a1]
        simp only []
        rw [b1]
      · have := (b2.2.2.1.trans a2.2.2.1)
        rw [← h2]
        exact (List.Perm.cons _ this).trans (moveLast_perm k st hk')
      · exact sameData_trans (moveLast_sameData k st) (sameData_trans a2.1 b2.1)
      · exact sameFlags_trans (moveLast_sameFlags k st) (sameFlags_trans a2.2.1 b2.2.1)
      · intro hbp
        exact b2.2.2.2.1 (a2.2.2.2.1 (moveLast_backPtr k st hk' hbp))
      · intro hheap
        apply b3
        by_cases hA : 0 < k →
            whenAt (moveLast k st) ((k - 1) / 4) ≤ whenAt (moveLast k st) k
        · have e := a4 hA
          rw [e]
          exact moveLast_downInv k st hk' hheap hA
        · have hk0 : 0 < k := by
            by_contra h; exact hA (fun h' => absurd h' h)
          have hB : whenAt (moveLast k st) k < whenAt (moveLast k st) ((k - 1) / 4) := by
            by_contra h; exact hA (fun _ => Int.not_lt.mp h)
          exact HeapOrdF_downInv (a3 (moveLast_upInv k st hk' hheap hk0 hB)) k


/-! ### The two branches of `timerproc` -/

theorem setI_backPtr_of_not_mem (st : Timers) (a : Nat) (v : Int) (ha : a ∉ st.t)
    (hbp : BackPtr st) : BackPtr (setI st a v) := by
  intro j hj
  rw [setI_t] at hj
  have hne : ptr st j ≠ a := fun e => ha (e ▸ ptr_mem st hj)
  rw [ptr_setI]
  simp only [setI, hne, if_false]
  exact hbp j hj

/-- The one-shot branch of `timerproc` on a non-empty heap returns: the root is taken
out of the slice and its index is -1, the other pointers are kept, and the
back-pointer invariant and heap order are kept. -/
theorem removeRoot_run (st : Timers) (hn : 0 < st.t.length) :
    ∃ st', removeRoot (ptr st 0) st = .ok st' ∧ (ptr st 0 :: st'.t).Perm st.t ∧
      sameData st st' ∧ sameFlags st st' ∧ (st'.mem (ptr st 0)).i = -1 ∧
      (BackPtr st → BackPtr st') ∧
      (HeapOrdF (whenAt st) st.t.length → HeapOrdF (whenAt st') st'.t.length) := by
  have hset : ∀ s : Timers, ((setI s (ptr st 0) (-1)).mem (ptr st 0)).i = -1 := by
    intro s; simp [setI]
  by_cases hlast : st.t.length - 1 > 0
  · obtain ⟨st4, b1, b2, b3⟩ :=
      siftdownTimer_run (moveLast 0 st) 0 (by rw [moveLast_length 0 st hn]; omega)
    have hperm : (ptr st 0 :: st4.t).Perm st.t :=
      (List.Perm.cons _ b2.2.2.1).trans (moveLast_perm 0 st hlast)
    refine ⟨setI st4 (ptr st 0) (-1), ?_, ?_, ?_, ?_, hset _, ?_, ?_⟩
    · rw [removeRoot_inner _ st hlast]
      have : siftdownTimer 0 (moveLast 0 st) = .ok st4 := b1
      rw [this]
    · exact hperm
    · exact sameData_trans (moveLast_sameData 0 st)
        (sameData_trans b2.1 (setI_sameData _ _ _))
    · exact sameFlags_trans (moveLast_sameFlags 0 st) (sameFlags_trans b2.2.1 ⟨rfl, rfl, rfl⟩)
    · intro hbp
      have h4 : BackPtr st4 := b2.2.2.2.1 (moveLast_backPtr 0 st hlast hbp)
      have hnd : (ptr st 0 :: st4.t).Nodup := (hperm.nodup_iff).mpr (BackPtr_nodup hbp)
      exact setI_backPtr_of_not_mem st4 _ _ (List.nodup_cons.mp hnd).1 h4
    · intro hheap
      rw [whenAt_eq_of (setI_t st4 _ _) (setI_sameData st4 _ _), setI_t]
      exact b3 (moveLast_downInv 0 st hlast hheap (fun h => absurd h (by decide)))
  · have hone : st.t.length - 1 = 0 := by omega
    refine ⟨_, removeRoot_single _ st hlast, ?_, ?_, ⟨rfl, rfl, rfl⟩, hset _, ?_, ?_⟩
    · rw [setI_t]
      have := take_last_perm st hn
      rw [hone] at this
      simpa [hone] using this
    · exact sameData_trans (fun _ => ⟨rfl, rfl, rfl, rfl, rfl⟩) (setI_sameData _ _ _)
    · intro _ j hj
      rw [setI_t] at hj
      simp [hone] at hj
    · intro _ j _ hj
      rw [setI_t] at hj
      simp [hone] at hj

theorem setWhen_t (st : Timers) (p : Nat) (v : Int) : (setWhen st p v).t = st.t := rfl

theorem setWhen_backPtr (st : Timers) (p : Nat) (v : Int) (hbp : BackPtr st) :
    BackPtr (setWhen st p v) := by
  intro j hj
  have := hbp j hj
  simp only [setWhen, ptr] at this ⊢
  split_ifs <;> exact this

theorem whenAt_setWhen_ne (st : Timers) (p : Nat) (v : Int) (j : Nat) (h : ptr st j ≠ p) :
    whenAt (setWhen st p v) j = whenAt st j := by
  simp only [whenAt, setWhen, ptr] at h ⊢
  rw [if_neg h]

/-- The periodic branch of `timerproc` on a non-empty heap returns for every `delta`:
the slice holds the same pointers, the back-pointer invariant is kept, and heap order
is kept when the root timer is in the heap once. -/
theorem rescheduleRoot_run (st : Timers) (hn : 0 < st.t.length) (delta : Int) :
    ∃ st', rescheduleRoot (ptr st 0) delta st = .ok st' ∧ st'.t.Perm st.t ∧
      sameFlags st st' ∧
      (st'.mem (ptr st 0)).when = wrap64 ((st.mem (ptr st 0)).when
        + wrap64 ((st.mem (ptr st 0)).period
          * wrap64 (1 + wrap64 ((wrap64 (-delta)).tdiv (st.mem (ptr st 0)).period)))) ∧
      (∀ a, a ≠ ptr st 0 → (st'.mem a).when = (st.mem a).when) ∧
      (∀ a, (st'.mem a).period = (st.mem a).period ∧ (st'.mem a).f = (st.mem a).f ∧
        (st'.mem a).arg = (st.mem a).arg ∧ (st'.mem a).seq = (st.mem a).seq) ∧
      (BackPtr st → BackPtr st') ∧
      ((∀ k, 0 < k → k < st.t.length → ptr st k ≠ ptr st 0) →
        HeapOrdF (whenAt st) st.t.length → HeapOrdF (whenAt st') st'.t.length) := by
  generalize hw : wrap64 ((st.mem (ptr st 0)).when
        + wrap64 ((st.mem (ptr st 0)).period
          * wrap64 (1 + wrap64 ((wrap64 (-delta)).tdiv (st.mem (ptr st 0)).period)))) = w
  have he : rescheduleRoot (ptr st 0) delta st = siftdownTimer 0 (setWhen st (ptr st 0) w) := by
    rw [← hw]; rfl
  obtain ⟨st', b1, b2, b3⟩ := siftdownTimer_run (setWhen st (ptr st 0) w) 0 hn
  refine ⟨st', he.trans b1, b2.2.2.1, b2.2.1, ?_, ?_, ?_, ?_, ?_⟩
  · rw [(b2.1 _).1]; simp [setWhen]
  · intro a ha
    rw [(b2.1 a).1]; simp [setWhen, ha]
  · intro a
    obtain ⟨-, h2, h3, h4, h5⟩ := b2.1 a
    rw [h2, h3, h4, h5]
    simp only [setWhen]
    split_ifs <;> exact ⟨rfl, rfl, rfl, rfl⟩
  · intro hbp
    exact b2.2.2.2.1 (setWhen_backPtr st _ _ hbp)
  · intro hroot hheap
    apply b3
    constructor
    · intro j hj hjn hp
      rw [whenAt_setWhen_ne st _ w j (hroot j hj hjn),
        whenAt_setWhen_ne st _ w _ (hroot _ (by omega) (by rw [setWhen_t] at hjn; omega))]
      exact hheap j hj hjn
    · intro h; exact absurd h (by decide)

/-! ### Invariants of the timer heap -/

theorem twoTimers_heapOrd (per : Int) :
    HeapOrdF (whenAt (twoTimers per)) (twoTimers per).t.length := by
  intro j hj hn
  have : j = 1 := by
    have : (twoTimers per).t.length = 2 := rfl
    omega
  subst this
  simp [whenAt, ptr, twoTimers]

theorem twoTimers_backPtr (per : Int) : BackPtr (twoTimers per) := by
  intro k hk
  have hk2 : k < 2 := hk
  have : k = 0 ∨ k = 1 := by omega
  rcases this with rfl | rfl <;> simp [ptr, twoTimers]

/-- C14. On a heap with the back-pointer invariant `deltimer(t)` returns, and returns
true exactly when `t` is an entry of the heap.  When it returns true the new heap
holds exactly the previous entries except `t`: it is one shorter, `t` is not in it,
no entry is in it twice, and with `t` put back it is a rearrangement of the old heap.
When it returns false the state is unchanged, and then `t.i < 0`, `t.i` is beyond the
last index, or `timers.t[t.i]` is a different timer. -/
theorem deltimer_spec (p : Nat) (st : Timers) (hbp : BackPtr st) :
    ∃ st' b, deltimer p st = .ok (st', b) ∧ (b = true ↔ p ∈ st.t) ∧
      (b = true → (p :: st'.t).Perm st.t ∧ st'.t.length + 1 = st.t.length ∧
        p ∉ st'.t ∧ st'.t.Nodup) ∧
      (b = false → st' = st ∧
        ((st.mem p).i < 0 ∨ (st.mem p).i > (st.t.length : Int) - 1 ∨
          ptr st (st.mem p).i.toNat ≠ p)) := by
  rcases deltimer_run p st with ⟨hc, h⟩ | ⟨k, st', hk, hkn, hptr, h, hperm, -⟩
  · refine ⟨st, false, h, ?_, ?_, fun _ => ⟨rfl, hc⟩⟩
    · constructor
      · intro hf; exact absurd hf (by decide)
      · intro hmem
        exfalso
        obtain ⟨k, hk, rfl⟩ := (mem_iff_ptr st p).mp hmem
        have hi := hbp k hk
        rcases hc with h1 | h1 | h1
        · omega
        · omega
        · rw [hi, Int.toNat_ofNat] at h1; exact h1 rfl
    · intro hf; exact absurd hf (by decide)
  · have hnd : (p :: st'.t).Nodup := (hperm.nodup_iff).mpr (BackPtr_nodup hbp)
    refine ⟨st', true, h, ?_, ?_, ?_⟩
    · exact ⟨fun _ => hptr ▸ ptr_mem st hkn, fun _ => rfl⟩
    · intro _
      have hl := hperm.length_eq
      rw [List.length_cons] at hl
      exact ⟨hperm, hl, (List.nodup_cons.mp hnd).1, (List.nodup_cons.mp hnd).2⟩
    · intro hf; exact absurd hf (by decide)

/-- Instance of `deltimer_spec` on the heap of two timers. -/
theorem deltimer_spec_witness :
    BackPtr (twoTimers 0) ∧
    ∃ st' b, deltimer 0 (twoTimers 0) = .ok (st', b) ∧ (b = true ↔ 0 ∈ (twoTimers 0).t) :=
  ⟨twoTimers_backPtr 0,
    let ⟨st', b, h1, h2, _⟩ := deltimer_spec 0 (twoTimers 0) (twoTimers_backPtr 0)
    ⟨st', b, h1, h2⟩⟩

/-- C15, as stated, fails: on the heap of two timers, `deltimer` of the timer at
address 5, which was never added, does not panic; it returns false. -/
theorem deltimer_unregistered_counterexample :
    5 ∉ (twoTimers 0).t ∧ Res.isPanic (deltimer 5 (twoTimers 0)) = false ∧
    returned (deltimer 5 (twoTimers 0)) = some false ∧
    returned (stopTimer 5 (twoTimers 0)) = some false := by
  decide

/-- C15 (amended). Cancelling a timer that was never registered is not fatal: for
every heap and every timer `t` that is not in it, `deltimer(t)` (`stopTimer`) returns
false and leaves the state unchanged; it does not panic. -/
theorem deltimer_unregistered (p : Nat) (st : Timers) (hp : p ∉ st.t) :
    deltimer p st = .ok (st, false) ∧ stopTimer p st = .ok (st, false) ∧
    Res.isPanic (deltimer p st) = false := by
  have h : deltimer p st = .ok (st, false) := by
    rcases deltimer_run p st with ⟨-, h⟩ | ⟨k, st', -, hkn, hptr, -⟩
    · exact h
    · exact absurd (hptr ▸ ptr_mem st hkn) hp
  exact ⟨h, h, by rw [h]; rfl⟩

/-- Instance of `deltimer_unregistered` on the heap of two timers. -/
theorem deltimer_unregistered_witness :
    5 ∉ (twoTimers 0).t ∧ Res.isPanic (deltimer 5 (twoTimers 0)) = false :=
  ⟨by decide, (deltimer_unregistered 5 (twoTimers 0) (by decide)).2.2⟩

/-! ### The periodic reschedule -/

theorem wrap64_id (x : Int) (h1 : -(2 ^ 63) ≤ x) (h2 : x < 2 ^ 63) : wrap64 x = x := by
  unfold wrap64; omega

/-- The deadline computed by the periodic branch of `timerproc`, without overflow:
it is `when + p*(1 + (now-when)/p)`, lies in `(now, now + p]`, and differs from `when`
by a positive multiple of the period. -/
theorem reschedule_deadline (w p now : Int) (hp : 0 < p) (h0 : 0 ≤ w) (h1 : w ≤ now)
    (h2 : now + p ≤ maxInt64) :
    wrap64 (w + wrap64 (p * wrap64 (1 + wrap64 ((wrap64 (-(wrap64 (w - now)))).tdiv p))))
      = w + p * (1 + (now - w).tdiv p) ∧
    now < w + p * (1 + (now - w).tdiv p) ∧
    w + p * (1 + (now - w).tdiv p) ≤ now + p ∧
    ∃ m, 0 < m ∧ w + p * (1 + (now - w).tdiv p) - w = m * p := by
  have hmax : now + p ≤ 2 ^ 63 - 1 := h2
  have ht : (now - w).tdiv p = (now - w) / p := Int.tdiv_eq_ediv (by omega) (by omega)
  have hq0 : 0 ≤ (now - w) / p := Int.ediv_nonneg (by omega) (by omega)
  have hdm := Int.ediv_add_emod (now - w) p
  have hr0 : 0 ≤ (now - w) % p := Int.emod_nonneg _ (by omega)
  have hr1 : (now - w) % p < p := Int.emod_lt_of_pos _ hp
  generalize (now - w) / p = q at *
  generalize (now - w) % p = r at *
  have hqle : q ≤ p * q := by nlinarith
  have e1 : wrap64 (w - now) = w - now := wrap64_id _ (by omega) (by omega)
  have e2 : wrap64 (-(w - now)) = now - w := by
    rw [wrap64_id _ (by omega) (by omega)]; omega
  rw [e1, e2, ht]
  have e3 : wrap64 q = q := wrap64_id _ (by omega) (by omega)
  have e4 : wrap64 (1 + q) = 1 + q := wrap64_id _ (by omega) (by omega)
  have hmul : p * (1 + q) = p + p * q := by ring
  have e5 : wrap64 (p * (1 + q)) = p * (1 + q) :=
    wrap64_id _ (by rw [hmul]; omega) (by rw [hmul]; omega)
  have e6 : wrap64 (w + p * (1 + q)) = w + p * (1 + q) :=
    wrap64_id _ (by rw [hmul]; omega) (by rw [hmul]; omega)
  rw [e3, e4, e5, e6]
  refine ⟨rfl, by rw [hmul]; omega, by rw [hmul]; omega, 1 + q, by omega, by ring⟩


/-- C13. Periodic reschedule.  The root of the heap is a timer with period `p > 0`
and deadline `w`, `0 <= w <= now`, and `now + p <= 2^63-1`.  The deadline
`w + p*(1 + (now-w)/p)` (truncating division) is above `now`, at most `now + p`, and
a positive multiple of `p` after `w`.  The periodic branch of `timerproc` returns and
stores exactly this deadline; the timer stays in the heap, which holds the same
timers; and this iteration of the loop makes one callback invocation, that of the
timer, between an unlock and a lock.  With `w = 0`, `p = 10`, `now = 35` the new
deadline is 40 and the pass fires the timer once. -/
theorem periodic_reschedule (cb : Callback) (st : Timers) (now w p : Int)
    (hn : 0 < st.t.length) (hw : (st.mem (ptr st 0)).when = w)
    (hp : (st.mem (ptr st 0)).period = p) (hpos : 0 < p) (h0 : 0 ≤ w) (h1 : w ≤ now)
    (h2 : now + p ≤ maxInt64) :
    now < w + p * (1 + (now - w).tdiv p) ∧
    w + p * (1 + (now - w).tdiv p) ≤ now + p ∧
    (∃ m, 0 < m ∧ w + p * (1 + (now - w).tdiv p) - w = m * p) ∧
    (∃ st', rescheduleRoot (ptr st 0) (wrap64 (w - now)) st = .ok st' ∧
      (st'.mem (ptr st 0)).when = w + p * (1 + (now - w).tdiv p) ∧
      ptr st 0 ∈ st'.t ∧ st'.t.Perm st.t ∧
      (st'.mem (ptr st 0)).f = (st.mem (ptr st 0)).f ∧
      (st'.mem (ptr st 0)).arg = (st.mem (ptr st 0)).arg ∧
      (st'.mem (ptr st 0)).seq = (st.mem (ptr st 0)).seq ∧
      ∀ fuel, timerprocLoop cb now (fuel + 1) st =
        match timerprocLoop cb now fuel
          (cb (st'.mem (ptr st 0)).f (st'.mem (ptr st 0)).arg (st'.mem (ptr st 0)).seq st') with
        | .panic msg => .panic msg
        | .outOfFuel => .outOfFuel
        | .ok r => .ok ⟨r.st, r.delta,
            [Ev.unlock, Ev.call (ptr st 0) (st'.mem (ptr st 0)).f (st'.mem (ptr st 0)).arg
              (st'.mem (ptr st 0)).seq, Ev.lock] ++ r.events⟩) ∧
    summary 0 (timerprocLoop (fun _ _ _ s => s) 35 2 (oneTimer 0 10))
      = some ([0], 40, 5, [0]) := by
  obtain ⟨n1, n2, n3, n4⟩ := reschedule_deadline w p now hpos h0 h1 h2
  refine ⟨n2, n3, n4, ?_, by decide⟩
  obtain ⟨st', r1, r2, -, r4, -, r6, -, -⟩ := rescheduleRoot_run st hn (wrap64 (w - now))
  rw [hw, hp, n1] at r4
  refine ⟨st', r1, r4, r2.mem_iff.mpr (ptr_mem st hn), r2, (r6 _).2.1, (r6 _).2.2.1,
    (r6 _).2.2.2, ?_⟩
  intro fuel
  rw [timerprocLoop]
  rw [if_neg (by omega)]
  simp only []
  rw [hw, if_neg (wrap64_delta w now h0 h1 (by omega)).2, hp, if_pos hpos]
  simp only [r1]

/-- Instance of `periodic_reschedule`: one timer with deadline 0 and period 10, the
clock at 35. -/
theorem periodic_reschedule_witness :
    0 < (oneTimer 0 10).t.length ∧ (0 : Int) < 10 ∧ (35 : Int) + 10 ≤ maxInt64 ∧
    (35 : Int) < 0 + 10 * (1 + ((35 : Int) - 0).tdiv 10) ∧
    (0 : Int) + 10 * (1 + ((35 : Int) - 0).tdiv 10) ≤ 35 + 10 :=
  have h := periodic_reschedule (fun _ _ _ s => s) (oneTimer 0 10) 35 0 10 (by decide) rfl rfl
    (by decide) (by decide) (by decide) (by decide)
  ⟨by decide, by decide, by decide, h.1, h.2.1⟩

/-! ### Deadline clamping -/

/-- What `addtimerLocked` stores: the clamped deadline for the timer added, the old
deadline for every other timer. -/
theorem addtimerLocked_when (p : Nat) (st : Timers) :
    ∃ st' evs, addtimerLocked p st = .ok (st', evs) ∧
      (st'.mem p).when = (if (st.mem p).when < 0 then 2 ^ 63 - 1 else (st.mem p).when) ∧
      (∀ a, a ≠ p → (st'.mem a).when = (st.mem a).when) ∧
      st'.t.Perm (p :: st.t) := by
  obtain ⟨st4, -, h2, h3, -⟩ := addtimerLocked_run p st
  refine ⟨(wakeOnAdd p st4).1, (wakeOnAdd p st4).2, h2, ?_, ?_, ?_⟩
  · rw [wakeOnAdd_mem, (h3.1 p).1, enqueue_mem_self]; rfl
  · intro a ha
    rw [wakeOnAdd_mem, (h3.1 a).1, enqueue_mem_ne p st a ha]
  · rw [wakeOnAdd_t]
    refine h3.2.2.1.trans ?_
    rw [enqueue_t]
    exact List.perm_append_singleton p st.t

/-- The deadlines in the heap stay in `[0, 2^63-1]` under `addtimerLocked`. -/
theorem addtimerLocked_range (p : Nat) (st st' : Timers) (evs : List Ev)
    (h : addtimerLocked p st = .ok (st', evs)) (hp : (st.mem p).when ≤ 2 ^ 63 - 1)
    (hall : ∀ a ∈ st.t, 0 ≤ (st.mem a).when ∧ (st.mem a).when ≤ 2 ^ 63 - 1) :
    ∀ a ∈ st'.t, 0 ≤ (st'.mem a).when ∧ (st'.mem a).when ≤ 2 ^ 63 - 1 := by
  obtain ⟨st2, evs2, k1, k2, k3, k4⟩ := addtimerLocked_when p st
  rw [h] at k1
  cases k1
  intro a ha
  by_cases hap : a = p
  · subst hap
    rw [k2]
    split_ifs with hneg
    · constructor <;> norm_num
    · exact ⟨by omega, hp⟩
  · rw [k3 a hap]
    rcases List.mem_cons.mp (k4.mem_iff.mp ha) with h' | h'
    · exact absurd h' hap
    · exact hall a h'

/-- A heap filled by `addtimerLocked` alone has all its deadlines in `[0, 2^63-1]`. -/
theorem addAll_range (ps : List Nat) : ∀ (st : Timers),
    (∀ p ∈ ps, (st.mem p).when ≤ 2 ^ 63 - 1) →
    (∀ a ∈ st.t, 0 ≤ (st.mem a).when ∧ (st.mem a).when ≤ 2 ^ 63 - 1) →
    ∃ st' evs, addAll ps st = .ok (st', evs) ∧
      ∀ a ∈ st'.t, 0 ≤ (st'.mem a).when ∧ (st'.mem a).when ≤ 2 ^ 63 - 1 := by
  induction ps with
  | nil => intro st _ h; exact ⟨st, [], rfl, h⟩
  | cons p ps ih =>
    intro st hps hall
    obtain ⟨st1, ev, k1, k2, k3, k4⟩ := addtimerLocked_when p st
    have hr := addtimerLocked_range p st st1 ev k1 (hps p (List.mem_cons_self _ _)) hall
    have hps1 : ∀ q ∈ ps, (st1.mem q).when ≤ 2 ^ 63 - 1 := by
      intro q hq
      by_cases hqp : q = p
      · subst hqp
        rw [k2]
        split_ifs
        · norm_num
        · exact hps q (List.mem_cons_self _ _)
      · rw [k3 q hqp]; exact hps q (List.mem_cons_of_mem _ hq)
    obtain ⟨st2, evs, j1, j2⟩ := ih st1 hps1 hr
    exact ⟨st2, ev ++ evs, by simp only [addAll, k1, j1], j2⟩

/-- Deadline clamping by `addtimerLocked` and `time.when`.  Every call of
`addtimerLocked` returns and stores for the
timer added the deadline `2^63-1` when its `when` is negative and its `when`
unchanged otherwise, leaving the deadlines of the other timers alone; so when the
deadlines in the heap are in `[0, 2^63-1]` before the call they are so after it, and
every deadline in a heap filled from the empty heap by `addtimerLocked` is in
`[0, 2^63-1]`.
And `time.when(d)`, for a clock value `now >= 0`, returns `now` when `d <= 0`,
`now + d` when `d > 0` and the sum fits in `int64`, and `2^63-1` when `d > 0` and
`now + d` wraps to a negative `int64`; it never returns a negative value. -/
theorem deadline_clamping :
    (∀ (p : Nat) (st : Timers), ∃ st' evs, addtimerLocked p st = .ok (st', evs) ∧
      (st'.mem p).when = (if (st.mem p).when < 0 then 2 ^ 63 - 1 else (st.mem p).when) ∧
      (∀ a, a ≠ p → (st'.mem a).when = (st.mem a).when) ∧
      st'.t.Perm (p :: st.t) ∧
      ((st.mem p).when ≤ 2 ^ 63 - 1 →
        (∀ a ∈ st.t, 0 ≤ (st.mem a).when ∧ (st.mem a).when ≤ 2 ^ 63 - 1) →
        ∀ a ∈ st'.t, 0 ≤ (st'.mem a).when ∧ (st'.mem a).when ≤ 2 ^ 63 - 1)) ∧
    (∀ (ps : List Nat) (st : Timers), st.t = [] →
      (∀ p ∈ ps, (st.mem p).when ≤ 2 ^ 63 - 1) →
      ∃ st' evs, addAll ps st = .ok (st', evs) ∧
        ∀ a ∈ st'.t, 0 ≤ (st'.mem a).when ∧ (st'.mem a).when ≤ 2 ^ 63 - 1) ∧
    (∀ now d : Int, 0 ≤ now → now ≤ 2 ^ 63 - 1 → -(2 ^ 63) ≤ d → d ≤ 2 ^ 63 - 1 →
      (d ≤ 0 → time.when now d = now) ∧
      (0 < d → now + d ≤ 2 ^ 63 - 1 → time.when now d = now + d) ∧
      (0 < d → 2 ^ 63 - 1 < now + d →
        wrap64 (now + d) < 0 ∧ time.when now d = 2 ^ 63 - 1) ∧
      0 ≤ time.when now d) := by
  refine ⟨?_, ?_, ?_⟩
  · intro p st
    obtain ⟨st', evs, k1, k2, k3, k4⟩ := addtimerLocked_when p st
    exact ⟨st', evs, k1, k2, k3, k4, addtimerLocked_range p st st' evs k1⟩
  · intro ps st hempty hps
    exact addAll_range ps st hps (by rw [hempty]; intro a ha; exact absurd ha (List.not_mem_nil a))
  · intro now d hn0 hn1 hd0 hd1
    unfold time.when wrap64
    refine ⟨?_, ?_, ?_, ?_⟩
    · intro h; rw [if_pos h]
    · intro h hs
      rw [if_neg (by omega)]
      simp only []
      rw [if_neg (by omega)]
      omega
    · intro h hs
      rw [if_neg (by omega)]
      simp only []
      rw [if_pos (by omega)]
      exact ⟨by omega, rfl⟩
    · by_cases h : d ≤ 0
      · rw [if_pos h]; exact hn0
      · rw [if_neg h]
        simp only []
        split_ifs <;> omega

/-! ### Where the new timer ends -/

/-- Under the sift-up invariant at `i` the root key is least among the indices
below `i`. -/
theorem UpInvF_root_le {g : Nat → Int} {n i : Nat} (h : UpInvF g n i) (hi : i < n) :
    ∀ j, j < i → g 0 ≤ g j := by
  intro j
  induction j using Nat.strong_induction_on with
  | _ j ih =>
    intro hj
    by_cases h0 : j = 0
    · subst h0; exact Int.le_refl _
    · exact Int.le_trans (ih ((j - 1) / 4) (by omega) (by omega))
        (h.1 j (by omega) (by omega) (by omega))

/-- The loop of `siftupTimer` leaves the sifted timer's `i` equal to its index, and
that index is 0 exactly when the timer started at the root or its key is below the
root key. -/
theorem siftupLoop_index (fuel : Nat) : ∀ (i : Nat) (st st' : Timers),
    i < st.t.length → i < fuel → UpInvF (whenAt st) st.t.length i →
    (st.mem (ptr st i)).i = (i : Int) →
    siftupLoop (whenAt st i) (ptr st i) fuel i st = some st' →
    ∃ k : Nat, (st'.mem (ptr st i)).i = (k : Int) ∧ ptr st' k = ptr st i ∧
      (k = 0 ↔ (i = 0 ∨ whenAt st i < whenAt st 0)) := by
  induction fuel with
  | zero => intro i st st' _ h; omega
  | succ fuel ih =>
    intro i st st' hi hf hinv hidx hrun
    rw [siftupLoop] at hrun
    by_cases h0 : i > 0
    · rw [if_pos h0] at hrun
      simp only [] at hrun
      have hroot := UpInvF_root_le hinv hi ((i - 1) / 4) (by omega)
      by_cases hge : whenAt st i ≥ whenAt st ((i - 1) / 4)
      · rw [if_pos hge] at hrun
        cases hrun
        refine ⟨i, hidx, rfl, ?_⟩
        constructor
        · intro h; omega
        · rintro (h | h)
          · omega
          · omega
      · rw [if_neg hge] at hrun
        have hp : (i - 1) / 4 < st.t.length := by omega
        have hlen := exchange_length st i ((i - 1) / 4) (ptr st i)
        have hw := whenAt_exchange st i ((i - 1) / 4) hi hp
        have hptr := ptr_exchange st i ((i - 1) / 4) hi hp ((i - 1) / 4)
        rw [if_pos rfl] at hptr
        have hinv' : UpInvF (whenAt (exchange st i ((i - 1) / 4) (ptr st i)))
            (exchange st i ((i - 1) / 4) (ptr st i)).t.length ((i - 1) / 4) := by
          rw [hw, hlen]
          exact UpInvF_step hinv h0 hi (by omega)
        have hidx' : ((exchange st i ((i - 1) / 4) (ptr st i)).mem
            (ptr (exchange st i ((i - 1) / 4) (ptr st i)) ((i - 1) / 4))).i
              = (((i - 1) / 4 : Nat) : Int) := by
          rw [hptr, exchange_mem st i _ hi hp, if_pos rfl]
        have hrun' : siftupLoop
            (whenAt (exchange st i ((i - 1) / 4) (ptr st i)) ((i - 1) / 4))
            (ptr (exchange st i ((i - 1) / 4) (ptr st i)) ((i - 1) / 4)) fuel ((i - 1) / 4)
            (exchange st i ((i - 1) / 4) (ptr st i)) = some st' := by
          rw [hptr, hw, swapFn_at_c]; exact hrun
        obtain ⟨k, k1, k2, k3⟩ := ih ((i - 1) / 4) _ st' (by rw [hlen]; exact hp) (by omega)
          hinv' hidx' hrun'
        rw [hptr] at k1 k2
        refine ⟨k, k1, k2, ?_⟩
        rw [k3, hw, swapFn_at_c]
        by_cases hp0 : (i - 1) / 4 = 0
        · constructor
          · intro _; right; rw [hp0] at hge; omega
          · intro _; left; exact hp0
        · rw [swapFn_other (whenAt st) i _ 0 (by omega) (by omega)]
          constructor
          · rintro (h | h)
            · exact absurd h hp0
            · right; exact h
          · rintro (h | h)
            · omega
            · right; exact h
    · rw [if_neg h0] at hrun
      cases hrun
      have : i = 0 := by omega
      subst this
      exact ⟨0, hidx, rfl, by simp⟩


theorem siftupTimer_ok_loop (st st' : Timers) (i : Nat) (hi : i < st.t.length)
    (h : siftupTimer (i : Int) st = .ok st') :
    siftupLoop (whenAt st i) (ptr st i) (i + 1) i st = some st' := by
  obtain ⟨s, h1, -⟩ := siftupLoop_total (whenAt st i) (i + 1) i st hi (by omega)
  have hc : ¬ ((i : Int) < 0 ∨ (st.t.length : Int) ≤ (i : Int)) := by omega
  simp only [siftupTimer, if_neg hc, Int.toNat_ofNat, h1] at h
  cases h
  exact h1

/-- C17. `addtimerLocked` wakes the processing worker exactly when the timer added
becomes the new minimum.  On a heap in order (whose root has the least deadline), for
a timer not yet in the heap, the call returns with `t.i` equal to the index `k` where
the timer now is, and `k = 0` exactly when the heap was empty or the stored
(clamped) deadline is strictly below the previous root deadline.  When `k = 0`, both
`sleeping` and `rescheduling` are false afterwards, one `notewakeup` was issued if
`sleeping` was true and none otherwise, one `goready` if `rescheduling` was true and
none otherwise.  When `k != 0` neither flag changes and no `notewakeup` or `goready`
is issued. -/
theorem addtimerLocked_wakes (p : Nat) (st : Timers) (hp : p ∉ st.t)
    (hheap : HeapOrdF (whenAt st) st.t.length) :
    (∀ j, j < st.t.length → whenAt st 0 ≤ whenAt st j) ∧
    ∃ (st' : Timers) (evs : List Ev) (k : Nat), addtimerLocked p st = .ok (st', evs) ∧
      (st'.mem p).i = (k : Int) ∧ ptr st' k = p ∧
      (k = 0 ↔ (st.t = [] ∨
        (if (st.mem p).when < 0 then maxInt64 else (st.mem p).when) < whenAt st 0)) ∧
      (k = 0 → st'.sleeping = false ∧ st'.rescheduling = false ∧
        evs.count Ev.notewakeup = (if st.sleeping then 1 else 0) ∧
        evs.count Ev.goready = (if st.rescheduling then 1 else 0)) ∧
      (k ≠ 0 → st'.sleeping = st.sleeping ∧ st'.rescheduling = st.rescheduling ∧
        Ev.notewakeup ∉ evs ∧ Ev.goready ∉ evs) := by
  refine ⟨HeapOrdF_root_le hheap, ?_⟩
  obtain ⟨st4, s1, h2, h3, -⟩ := addtimerLocked_run p st
  have hlen : st.t.length < (enqueue p st).t.length := by rw [enqueue_length]; omega
  have hloop := siftupTimer_ok_loop (enqueue p st) st4 st.t.length hlen s1
  have hidx : ((enqueue p st).mem (ptr (enqueue p st) st.t.length)).i
      = (st.t.length : Int) := by
    rw [ptr_enqueue_last, enqueue_mem_self]
  obtain ⟨k, k1, k2, k3⟩ := siftupLoop_index (st.t.length + 1) st.t.length (enqueue p st) st4
    hlen (by omega) (enqueue_upInv p st hp hheap) hidx hloop
  rw [ptr_enqueue_last] at k1 k2
  rw [whenAt_enqueue_last] at k3
  have hfl := sameFlags_trans (enqueue_sameFlags p st) h3.2.1
  refine ⟨(wakeOnAdd p st4).1, (wakeOnAdd p st4).2, k, h2, ?_, ?_, ?_, ?_, ?_⟩
  · rw [wakeOnAdd_mem]; exact k1
  · simp only [ptr, wakeOnAdd_t] at k2 ⊢; exact k2
  · rw [k3]
    by_cases hn : st.t.length = 0
    · have : st.t = [] := List.length_eq_zero.mp hn
      simp [hn, this]
    · have hne : st.t ≠ [] := fun h => hn (by rw [h]; rfl)
      rw [whenAt_enqueue_lt p st hp (show 0 < st.t.length by omega)]
      simp only [hn, hne, false_or]
  · intro hk
    have hi0 : (st4.mem p).i = 0 := by rw [k1, hk]; rfl
    obtain ⟨w1, w2, w3⟩ := wakeOnAdd_root p st4 hi0
    refine ⟨w1, w2, ?_, ?_⟩
    · rw [w3, hfl.1, hfl.2.1]
      cases st.sleeping <;> cases st.rescheduling <;> cases st4.created <;> decide
    · rw [w3, hfl.1, hfl.2.1]
      cases st.sleeping <;> cases st.rescheduling <;> cases st4.created <;> decide
  · intro hk
    have hi0 : (st4.mem p).i ≠ 0 := by rw [k1]; omega
    obtain ⟨w1, w2, w3⟩ := wakeOnAdd_inner p st4 hi0
    refine ⟨w1.trans hfl.1, w2.trans hfl.2.1, ?_, ?_⟩
    · rw [w3]; cases st4.created <;> decide
    · rw [w3]; cases st4.created <;> decide

/-- Instance of `addtimerLocked_wakes`: a third timer is added to the heap of two
timers. -/
theorem addtimerLocked_wakes_witness :
    5 ∉ (twoTimers 0).t ∧ HeapOrdF (whenAt (twoTimers 0)) (twoTimers 0).t.length ∧
    ∃ (st' : Timers) (evs : List Ev) (k : Nat),
      addtimerLocked 5 (twoTimers 0) = .ok (st', evs) ∧ (st'.mem 5).i = (k : Int) ∧
      ptr st' k = 5 :=
  ⟨by decide, twoTimers_heapOrd 0,
    let ⟨st', evs, k, h1, h2, h3, _⟩ :=
      (addtimerLocked_wakes 5 (twoTimers 0) (by decide) (twoTimers_heapOrd 0)).2
    ⟨st', evs, k, h1, h2, h3⟩⟩

/-! ### Heap order and back-pointers when a timer is added twice -/

theorem deadlines_length (st : Timers) : (deadlines st).length = st.t.length := by
  unfold deadlines; rw [List.length_map]

theorem deadlines_get (st : Timers) (k : Nat) (hk : k < st.t.length) :
    (deadlines st)[k]? = some (whenAt st k) := by
  unfold deadlines whenAt ptr
  rw [List.getElem?_map, List.getD_eq_getElem?_getD, List.getElem?_eq_getElem hk]
  rfl

theorem indices_get (st : Timers) (k : Nat) (hk : k < st.t.length) :
    (indices st)[k]? = some (st.mem (ptr st k)).i := by
  unfold indices ptr
  rw [List.getElem?_map, List.getD_eq_getElem?_getD, List.getElem?_eq_getElem hk]
  rfl

/-- Heap order fails in a state whose deadlines show an entry below its parent. -/
theorem not_heapOrd_of_deadlines (st : Timers) (ws : List Int) (j : Nat) (a b : Int)
    (h : deadlines st = ws) (hj : 0 < j) (ha : ws[(j - 1) / 4]? = some a)
    (hb : ws[j]? = some b) (hab : b < a) : ¬ HeapOrdF (whenAt st) st.t.length := by
  intro ho
  have hlen : ws.length = st.t.length := by rw [← h, deadlines_length]
  have hjn : j < st.t.length := by
    rw [← hlen]
    by_contra hc
    rw [List.getElem?_eq_none (by omega)] at hb
    exact Option.noConfusion hb
  have h1 := deadlines_get st j hjn
  have h2 := deadlines_get st ((j - 1) / 4) (by omega)
  rw [h] at h1 h2
  rw [hb] at h1
  rw [ha] at h2
  have e1 : b = whenAt st j := Option.some.inj h1
  have e2 : a = whenAt st ((j - 1) / 4) := Option.some.inj h2
  have := ho j hj hjn
  omega

theorem whenAt_enqueue_nonneg (p : Nat) (st : Timers) (hp : 0 ≤ (st.mem p).when) {k : Nat}
    (hk : k < st.t.length) : whenAt (enqueue p st) k = whenAt st k := by
  rw [whenAt, whenAt, ptr_enqueue_lt p st hk]
  by_cases e : ptr st k = p
  · rw [e, enqueue_mem_self, if_neg (by omega)]
  · rw [enqueue_mem_ne p st _ e]

/-- The state before the sift of `addtimerLocked` is in heap order up to its last
entry when the timer added is not yet in the heap, or is in it with a deadline that
the call does not clamp. -/
theorem enqueue_upInv_or (p : Nat) (st : Timers) (hp : p ∉ st.t ∨ 0 ≤ (st.mem p).when)
    (hheap : HeapOrdF (whenAt st) st.t.length) :
    UpInvF (whenAt (enqueue p st)) (enqueue p st).t.length st.t.length := by
  rcases hp with hp | hp
  · exact enqueue_upInv p st hp hheap
  · rw [enqueue_length]
    constructor
    · intro j hj hn hne
      rw [whenAt_enqueue_nonneg p st hp (show j < st.t.length by omega),
        whenAt_enqueue_nonneg p st hp (show (j - 1) / 4 < st.t.length by omega)]
      exact hheap j hj (by omega)
    · intro _ j hj hn hpj
      omega

/-- Every call of `addtimerLocked` returns, and on a heap with the back-pointer
invariant the new heap has the invariant exactly when the timer was not yet in the
heap: a timer that is in the heap twice has one index only. -/
theorem addtimerLocked_backPtr (p : Nat) (st : Timers) (hbp : BackPtr st) :
    ∃ st' evs, addtimerLocked p st = .ok (st', evs) ∧ (BackPtr st' ↔ p ∉ st.t) := by
  obtain ⟨st4, -, h2, h3, -⟩ := addtimerLocked_run p st
  refine ⟨(wakeOnAdd p st4).1, (wakeOnAdd p st4).2, h2, ?_, ?_⟩
  · intro hb
    have hnd := BackPtr_nodup hb
    rw [wakeOnAdd_t] at hnd
    have hnd2 := (h3.2.2.1.nodup_iff).mp hnd
    rw [enqueue_t] at hnd2
    intro hm
    have := List.nodup_append.mp hnd2
    exact this.2.2 hm (List.mem_singleton_self p)
  · intro hp
    exact wakeOnAdd_backPtr p st4 (h3.2.2.2.1 (enqueue_backPtr p st hp hbp))

/-- C11, as stated, fails in two ways.  On the heap of the deadlines -5 and 3, in heap
order, `addtimerLocked` of the root timer, which is in the heap already, clamps its
deadline: the heap then reads `2^63-1, 3, 2^63-1` and the entry at index 1 is below
its parent.  On a heap in heap order that holds its periodic root timer a second time
at index 1, with the deadline 5 at index 5 below it, the periodic branch of
`timerproc` moves both entries of the root to the deadline 10 and `siftdownTimer(0)`
stops at once: the entry at index 5 is below its parent. -/
theorem heap_order_counterexample :
    (HeapOrdF (whenAt negativeRoot) negativeRoot.t.length ∧
      (stateOf (addtimerLocked 0 negativeRoot)).map deadlines
        = some [2 ^ 63 - 1, 3, 2 ^ 63 - 1] ∧
      ∃ st' evs, addtimerLocked 0 negativeRoot = .ok (st', evs) ∧
        ¬ HeapOrdF (whenAt st') st'.t.length) ∧
    (HeapOrdF (whenAt doubleRoot) doubleRoot.t.length ∧
      (Res.state (rescheduleRoot (ptr doubleRoot 0) 0 doubleRoot)).map deadlines
        = some [10, 10, 100, 100, 100, 5] ∧
      ∃ st', rescheduleRoot (ptr doubleRoot 0) 0 doubleRoot = .ok st' ∧
        ¬ HeapOrdF (whenAt st') st'.t.length) := by
  have k1 : (stateOf (addtimerLocked 0 negativeRoot)).map deadlines
      = some [2 ^ 63 - 1, 3, 2 ^ 63 - 1] := by decide
  have k2 : (Res.state (rescheduleRoot (ptr doubleRoot 0) 0 doubleRoot)).map deadlines
      = some [10, 10, 100, 100, 100, 5] := by decide
  refine ⟨⟨?_, k1, ?_⟩, ⟨?_, k2, ?_⟩⟩
  · intro j hj hn
    have hn2 : j < 2 := hn
    have : j = 1 := by omega
    subst this
    decide
  · obtain ⟨st', evs, h2, -⟩ := addtimerLocked_when 0 negativeRoot
    refine ⟨st', evs, h2, ?_⟩
    rw [h2] at k1
    exact not_heapOrd_of_deadlines _ _ 1 (2 ^ 63 - 1) 3 (Option.some.inj k1) (by decide)
      (by decide) (by decide) (by decide)
  · intro j hj hn
    have hn2 : j < 6 := hn
    have : j = 1 ∨ j = 2 ∨ j = 3 ∨ j = 4 ∨ j = 5 := by omega
    rcases this with rfl | rfl | rfl | rfl | rfl <;> decide
  · obtain ⟨st', h1, -⟩ := rescheduleRoot_run doubleRoot (by decide) 0
    refine ⟨st', h1, ?_⟩
    rw [h1] at k2
    exact not_heapOrd_of_deadlines _ _ 5 10 5 (Option.some.inj k2) (by decide)
      (by decide) (by decide) (by decide)

/-- C11 (amended). Heap order in the 4-ary layout is an invariant of the timer heap.
If `timers.t[(j-1)/4].when <= timers.t[j].when` for every index `j > 0`, then the same
holds after `addtimerLocked` of a timer that is not yet in the heap or whose `when` is
not negative, after every `deltimer` (whether it returns true or false), after the
removal of the root by the one-shot branch of `timerproc`, and after the periodic
branch of `timerproc` (the new deadline of the root followed by `siftdownTimer(0)`)
when the root timer is in the heap once; each of these calls returns. -/
theorem heap_order_invariant (st : Timers) (hheap : HeapOrdF (whenAt st) st.t.length) :
    (∀ p, p ∉ st.t ∨ 0 ≤ (st.mem p).when →
      ∃ st' evs, addtimerLocked p st = .ok (st', evs) ∧ HeapOrdF (whenAt st') st'.t.length) ∧
    (∀ p, ∃ st' b, deltimer p st = .ok (st', b) ∧ HeapOrdF (whenAt st') st'.t.length) ∧
    (0 < st.t.length →
      ∃ st', removeRoot (ptr st 0) st = .ok st' ∧ HeapOrdF (whenAt st') st'.t.length) ∧
    (0 < st.t.length → (∀ k, 0 < k → k < st.t.length → ptr st k ≠ ptr st 0) →
      ∀ delta, ∃ st', rescheduleRoot (ptr st 0) delta st = .ok st' ∧
        HeapOrdF (whenAt st') st'.t.length) := by
  refine ⟨?_, ?_, ?_, ?_⟩
  · intro p hp
    obtain ⟨st4, -, h2, -, h4⟩ := addtimerLocked_run p st
    refine ⟨(wakeOnAdd p st4).1, (wakeOnAdd p st4).2, h2, ?_⟩
    rw [whenAt_wakeOnAdd, wakeOnAdd_t]
    exact h4 (enqueue_upInv_or p st hp hheap)
  · intro p
    rcases deltimer_run p st with ⟨-, h⟩ | ⟨k, st', -, -, -, h, -, -, -, -, ho⟩
    · exact ⟨st, false, h, hheap⟩
    · exact ⟨st', true, h, ho hheap⟩
  · intro hn
    obtain ⟨st', h1, -, -, -, -, -, h7⟩ := removeRoot_run st hn
    exact ⟨st', h1, h7 hheap⟩
  · intro hn hroot delta
    obtain ⟨st', h1, -, -, -, -, -, -, h8⟩ := rescheduleRoot_run st hn delta
    exact ⟨st', h1, h8 hroot hheap⟩

/-- Instance of `heap_order_invariant`: on the heap of two timers, the timer at
address 1 is deleted, and the timer at address 0, whose deadline 10 is not negative,
is added a second time. -/
theorem heap_order_invariant_witness :
    HeapOrdF (whenAt (twoTimers 0)) (twoTimers 0).t.length ∧
    (∃ st' b, deltimer 1 (twoTimers 0) = .ok (st', b) ∧
      HeapOrdF (whenAt st') st'.t.length) ∧
    (0 ∉ (twoTimers 0).t ∨ 0 ≤ ((twoTimers 0).mem 0).when) ∧
    ∃ st' evs, addtimerLocked 0 (twoTimers 0) = .ok (st', evs) ∧
      HeapOrdF (whenAt st') st'.t.length :=
  ⟨twoTimers_heapOrd 0, (heap_order_invariant (twoTimers 0) (twoTimers_heapOrd 0)).2.1 1,
    Or.inr (by decide),
    (heap_order_invariant (twoTimers 0) (twoTimers_heapOrd 0)).1 0 (Or.inr (by decide))⟩

/-- C12, as stated, fails: on the heap that holds the timer at address 0 alone, with
`t.i = 0`, `addtimerLocked` of that timer appends it a second time and sets `t.i = 1`;
the entry at index 0 then has the index 1. -/
theorem back_pointer_counterexample :
    BackPtr (oneTimer 0 0) ∧
    (stateOf (addtimerLocked 0 (oneTimer 0 0))).map (fun st => (st.t, indices st))
      = some ([0, 0], [1, 1]) ∧
    ∃ st' evs, addtimerLocked 0 (oneTimer 0 0) = .ok (st', evs) ∧ ¬ BackPtr st' := by
  have hb : BackPtr (oneTimer 0 0) := by
    intro k hk
    have hk1 : k < 1 := hk
    have : k = 0 := by omega
    subst this
    rfl
  refine ⟨hb, by decide, ?_⟩
  obtain ⟨st', evs, h1, h2⟩ := addtimerLocked_backPtr 0 (oneTimer 0 0) hb
  exact ⟨st', evs, h1, fun h => h2.mp h (by decide)⟩

/-- C12 (amended). The back-pointer invariant of the timer heap.  If
`timers.t[k].i = k` for every index `k` of the heap, the same holds after
`addtimerLocked` of a timer that is not yet in the heap, and it fails after
`addtimerLocked` of a timer that is in the heap; it holds after every `deltimer`, and
after the one-shot branch and the periodic branch of `timerproc`; each of these calls
returns, and the timer removed by the one-shot branch has its index set to -1. -/
theorem back_pointer_invariant (st : Timers) (hbp : BackPtr st) :
    (∀ p, ∃ st' evs, addtimerLocked p st = .ok (st', evs) ∧ (BackPtr st' ↔ p ∉ st.t)) ∧
    (∀ p, ∃ st' b, deltimer p st = .ok (st', b) ∧ BackPtr st') ∧
    (0 < st.t.length →
      ∃ st', removeRoot (ptr st 0) st = .ok st' ∧ BackPtr st' ∧
        (st'.mem (ptr st 0)).i = -1) ∧
    (0 < st.t.length →
      ∀ delta, ∃ st', rescheduleRoot (ptr st 0) delta st = .ok st' ∧ BackPtr st') := by
  refine ⟨?_, ?_, ?_, ?_⟩
  · intro p
    exact addtimerLocked_backPtr p st hbp
  · intro p
    rcases deltimer_run p st with ⟨-, h⟩ | ⟨k, st', -, -, -, h, -, -, -, hb, -⟩
    · exact ⟨st, false, h, hbp⟩
    · exact ⟨st', true, h, hb hbp⟩
  · intro hn
    obtain ⟨st', h1, -, -, -, h5, h6, -⟩ := removeRoot_run st hn
    exact ⟨st', h1, h6 hbp, h5⟩
  · intro hn delta
    obtain ⟨st', h1, -, -, -, -, -, h7, -⟩ := rescheduleRoot_run st hn delta
    exact ⟨st', h1, h7 hbp⟩

/-- Instance of `back_pointer_invariant`: the root of the heap of two timers is
removed by the one-shot branch, and the timer at address 5 is added. -/
theorem back_pointer_invariant_witness :
    BackPtr (twoTimers 0) ∧ 0 < (twoTimers 0).t.length ∧
    (∃ st', removeRoot (ptr (twoTimers 0) 0) (twoTimers 0) = .ok st' ∧ BackPtr st' ∧
      (st'.mem (ptr (twoTimers 0) 0)).i = -1) ∧
    ∃ st' evs, addtimerLocked 5 (twoTimers 0) = .ok (st', evs) ∧ BackPtr st' :=
  ⟨twoTimers_backPtr 0, by decide,
    (back_pointer_invariant (twoTimers 0) (twoTimers_backPtr 0)).2.2.1 (by decide),
    let ⟨st', evs, h1, h2⟩ :=
      (back_pointer_invariant (twoTimers 0) (twoTimers_backPtr 0)).1 5
    ⟨st', evs, h1, h2.mpr (by decide)⟩⟩

/-! ### The deadline stored by the periodic branch -/

/-- C16. The periodic branch of `timerproc` stores a negative deadline.  The heap
holds one timer with the deadline 10 and the period `2^63-1`, both in
`[0, 2^63-1]`.  A pass of the inner loop with the clock at 10 services the timer and
stores `10 + (2^63-1)` wrapped around, the negative deadline `-2^63 + 9`, where
`addtimerLocked` would have stored `2^63-1`; the next `delta` wraps to `2^63-1`. -/
theorem reschedule_negative_deadline :
    (∀ a ∈ (oneTimer 10 maxInt64).t,
      0 ≤ ((oneTimer 10 maxInt64).mem a).when ∧
        ((oneTimer 10 maxInt64).mem a).when ≤ 2 ^ 63 - 1) ∧
    summary 0 (timerprocLoop (fun _ _ _ s => s) 10 2 (oneTimer 10 maxInt64))
      = some ([0], -(2 ^ 63) + 9, 2 ^ 63 - 1, [0]) ∧
    (Res.state (rescheduleRoot 0 0 (oneTimer 10 maxInt64))).map deadlines
      = some [-(2 ^ 63) + 9] ∧
    (stateOf (addtimerLocked 0 (oneShots [-(2 ^ 63) + 9]))).map deadlines
      = some [2 ^ 63 - 1] := by
  decide

end runtime

/-! ## `sync.Mutex` -/

namespace sync

theorem mutexLocked_eq : mutexLocked = 1 := rfl
theorem mutexWoken_eq : mutexWoken = 2 := rfl
theorem mutexWaiterShift_eq : mutexWaiterShift = 2 := rfl
theorem waiterUnit_eq : 1 <<< mutexWaiterShift = 4 := rfl
theorem lockedWoken_eq : mutexLocked ||| mutexWoken = 3 := rfl

theorem and_one (x : Nat) : x &&& 1 = x % 2 := Nat.and_one_is_mod x

theorem and_two (x : Nat) : x &&& 2 = x / 2 % 2 * 2 := by
  have h := fdMutex.and_window x 1 1
  simpa using h

theorem and_three (x : Nat) : x &&& 3 = x % 4 := by
  have h := fdMutex.and_window x 2 0
  simpa using h

theorem or_one (x : Nat) : x ||| 1 = x + (1 - x % 2) := by
  by_cases h : x % 2 = 0
  · have := fdMutex.or_two_pow x 0 (by simpa using h)
    simp only [pow_zero] at this
    omega
  · have h1 : x % 2 = 1 := by omega
    rw [h1]
    apply Nat.eq_of_testBit_eq
    intro j
    rw [Nat.testBit_or]
    cases j with
    | zero => simp [Nat.testBit_zero, h1]
    | succ j => simp [Nat.testBit_succ]

theorem or_two (x : Nat) : x ||| 2 = x + (2 - x / 2 % 2 * 2) := by
  by_cases h : x / 2 % 2 = 0
  · have := fdMutex.or_two_pow x 1 (by simpa using h)
    simp only [pow_one] at this
    omega
  · have h1 : x / 2 % 2 = 1 := by omega
    rw [h1]
    apply Nat.eq_of_testBit_eq
    intro j
    rw [Nat.testBit_or]
    have : (2 : Nat) = 2 ^ 1 := rfl
    rw [this, Nat.testBit_two_pow]
    by_cases hj : 1 = j
    · subst hj
      simp [Nat.testBit_to_div_mod, h1]
    · simp [hj]

theorem andNot32_two (x : Nat) : andNot32 x mutexWoken = x % 2 + x / 4 % 2 ^ 30 * 4 := by
  have h : (2 ^ 32 - 1) ^^^ mutexWoken = ((2 ^ 1 - 1) <<< 0) ||| ((2 ^ 30 - 1) <<< 2) := by decide
  rw [andNot32, h, fdMutex.and_two_windows _ _ _ _ _ (by decide)]; omega

theorem sar32_two_eq_zero (x : Nat) (hx : x < 2 ^ 32) :
    sar32 x mutexWaiterShift = 0 ↔ x / 4 = 0 := by
  unfold sar32
  rw [mutexWaiterShift_eq, Nat.shiftRight_eq_div_pow]
  split_ifs with h
  · simp
  · constructor
    · intro h0; simp at h0
    · intro h0; omega


theorem sub32_one_parity (s : Nat) : sub32 s mutexLocked % 2 = (s + 1) % 2 := by
  rw [sub32, mutexLocked_eq]; omega

theorem add32_sub32_one_parity (s : Nat) :
    add32 (sub32 s mutexLocked) mutexLocked % 2 = s % 2 := by
  rw [add32, sub32, mutexLocked_eq]; omega

theorem sub32_one (s : Nat) (h : s % 2 = 1) (hs : s < 2 ^ 32) : sub32 s mutexLocked = s - 1 := by
  rw [sub32, mutexLocked_eq]; omega

/-- The atomic add of `Unlock`: it panics exactly when the locked bit was clear. -/
theorem unlockStep_add (m : Mutex) :
    unlockStep .add m =
      if m.state % 2 = 0 then
        ⟨.panicked "sync: unlock of unlocked mutex",
          { m with state := sub32 m.state mutexLocked }, []⟩
      else ⟨.loop (sub32 m.state mutexLocked), { m with state := sub32 m.state mutexLocked }, []⟩ := by
  simp only [unlockStep]
  rw [mutexLocked_eq, and_one, ← mutexLocked_eq, add32_sub32_one_parity]

/-- No step of `Unlock` other than the atomic add panics. -/
theorem unlockStep_no_panic (pc : UnlockPc) (m : Mutex) (hpc : pc ≠ .add)
    (hp : ∀ msg, pc ≠ .panicked msg) (msg : String) : (unlockStep pc m).pc ≠ .panicked msg := by
  cases pc with
  | add => exact absurd rfl hpc
  | loop old =>
    simp only [unlockStep]
    split_ifs <;> simp
  | reload => simp [unlockStep]
  | returned => simp [unlockStep]
  | panicked msg' => exact absurd rfl (hp msg')

theorem Unlock_unlocked (m : Mutex) (h : m.state % 2 = 0) :
    Unlock m = ⟨.panicked "sync: unlock of unlocked mutex",
          { m with state := sub32 m.state mutexLocked }, []⟩ := by
  unfold Unlock
  simp only []
  rw [mutexLocked_eq, and_one, ← mutexLocked_eq, add32_sub32_one_parity, if_pos h]

theorem Unlock_locked (m : Mutex) (h : m.state % 2 = 1) :
    ∃ m' calls, Unlock m = ⟨.returned, m', calls⟩ := by
  have h1 : ¬ m.state % 2 = 0 := by omega
  unfold Unlock
  simp only []
  rw [mutexLocked_eq, and_one, ← mutexLocked_eq, add32_sub32_one_parity, if_neg h1]
  split_ifs <;> exact ⟨_, _, rfl⟩

/-- C20. `Mutex.Unlock` on a mutex that is not locked is fatal. For every state word
whose locked bit is clear, whatever the woken bit and the waiter count, the atomic add
of `Unlock` panics with "sync: unlock of unlocked mutex", `Unlock` makes no call to
`runtime_Semrelease` and the semaphore keeps its permits. For every state word whose
locked bit is set, the atomic add does not panic, no later step of `Unlock` panics
whatever other goroutines have written in between, and `Unlock` run without
interference returns. -/
theorem Unlock_of_unlocked_panics (m : Mutex) :
    (locked m.state = false →
      (unlockStep .add m).pc = .panicked "sync: unlock of unlocked mutex" ∧
      Unlock m = unlockStep .add m ∧
      (Unlock m).calls = [] ∧ (Unlock m).m.sema = m.sema) ∧
    (locked m.state = true →
      (∀ msg, (unlockStep .add m).pc ≠ .panicked msg) ∧
      (∀ pc m' msg, pc ≠ .add → (∀ msg', pc ≠ .panicked msg') →
        (unlockStep pc m').pc ≠ .panicked msg) ∧
      (Unlock m).pc = .returned) := by
  obtain ⟨s, sema⟩ := m
  constructor
  · intro h
    have h0 : s % 2 = 0 := by
      simpa [locked, mutexLocked_eq, and_one] using h
    rw [Unlock_unlocked _ h0, unlockStep_add, if_pos h0]
    exact ⟨rfl, rfl, rfl, rfl⟩
  · intro h
    have h1 : s % 2 = 1 := by
      have : ¬ s % 2 = 0 := by simpa [locked, mutexLocked_eq, and_one] using h
      omega
    refine ⟨?_, ?_, ?_⟩
    · intro msg
      rw [unlockStep_add, if_neg (show ¬ s % 2 = 0 by omega)]
      simp
    · intro pc m' msg hpc hp
      exact unlockStep_no_panic pc m' hpc hp msg
    · obtain ⟨m', calls, e⟩ := Unlock_locked ⟨s, sema⟩ h1
      rw [e]

/-- Instance of `Unlock_of_unlocked_panics` on the state words 14 (unlocked, woken, three
waiters) and 13 (locked, three waiters). -/
theorem Unlock_of_unlocked_panics_witness :
    locked 14 = false ∧
    (Unlock ⟨14, 0⟩).pc = .panicked "sync: unlock of unlocked mutex" ∧
    (Unlock ⟨14, 0⟩).calls = [] ∧
    locked 13 = true ∧ (Unlock ⟨13, 0⟩).pc = .returned :=
  ⟨by decide,
    ((Unlock_of_unlocked_panics ⟨14, 0⟩).1 (by decide)).2.1 ▸
      ((Unlock_of_unlocked_panics ⟨14, 0⟩).1 (by decide)).1,
    ((Unlock_of_unlocked_panics ⟨14, 0⟩).1 (by decide)).2.2.1,
    by decide,
    ((Unlock_of_unlocked_panics ⟨13, 0⟩).2 (by decide)).2.2⟩

end sync

namespace sync

theorem locked_iff (s : Nat) : locked s = true ↔ s % 2 = 1 := by
  simp only [locked, mutexLocked_eq, and_one, bne_iff_ne, ne_eq]; omega

theorem locked_false_iff (s : Nat) : locked s = false ↔ s % 2 = 0 := by
  simp only [locked, mutexLocked_eq, and_one, bne_eq_false_iff_eq]

theorem woken_iff (s : Nat) : woken s = true ↔ s / 2 % 2 = 1 := by
  simp only [woken, mutexWoken_eq, and_two, bne_iff_ne, ne_eq]; omega

theorem woken_false_iff (s : Nat) : woken s = false ↔ s / 2 % 2 = 0 := by
  simp only [woken, mutexWoken_eq, and_two, bne_eq_false_iff_eq]; omega

theorem waiters_eq (s : Nat) : waiters s = s / 4 % 2 ^ 30 := by
  simp only [waiters, mutexWaiterShift_eq, Nat.shiftRight_eq_div_pow]

theorem and_locked (x : Nat) : x &&& mutexLocked = x % 2 := and_one x
theorem and_woken (x : Nat) : x &&& mutexWoken = x / 2 % 2 * 2 := and_two x
theorem or_locked (x : Nat) : x ||| mutexLocked = x + (1 - x % 2) := or_one x
theorem or_woken (x : Nat) : x ||| mutexWoken = x + (2 - x / 2 % 2 * 2) := or_two x
theorem add32_four (x : Nat) : add32 x (1 <<< mutexWaiterShift) = (x + 4) % 2 ^ 32 := rfl

/-- The fast path of `Lock` (line 43). -/
theorem lockStep_fast (canSpin : Bool) (s sema : Nat) :
    lockStep canSpin .fast ⟨s, sema⟩ =
      if s = 0 then ⟨.returned, ⟨mutexLocked, sema⟩, []⟩ else ⟨.load false 0, ⟨s, sema⟩, []⟩ := by
  simp only [lockStep]

/-- The body of the loop of `Lock` from `old` on (lines 54-85), in arithmetic. -/
theorem lockStep_cas (canSpin awoke : Bool) (iter old s sema : Nat) :
    lockStep canSpin (.cas awoke iter old) ⟨s, sema⟩ =
      if old % 2 = 1 ∧ canSpin = true then
        if awoke = false ∧ old / 2 % 2 = 0 ∧ sar32 old mutexWaiterShift ≠ 0 ∧ s = old then
          ⟨.load true (iter + 1), ⟨old ||| mutexWoken, sema⟩, [Call.doSpin]⟩
        else ⟨.load awoke (iter + 1), ⟨s, sema⟩, [Call.doSpin]⟩
      else if old % 2 = 1 then
        if awoke = true ∧ (old + 4) % 2 ^ 32 / 2 % 2 = 0 then
          ⟨.panicked "sync: inconsistent mutex state", ⟨s, sema⟩, []⟩
        else if s = old then
          ⟨.park, ⟨if awoke = true then andNot32 ((old + 4) % 2 ^ 32) mutexWoken
            else (old + 4) % 2 ^ 32, sema⟩, [Call.Semacquire]⟩
        else ⟨.load awoke iter, ⟨s, sema⟩, []⟩
      else
        if awoke = true ∧ (old ||| mutexLocked) / 2 % 2 = 0 then
          ⟨.panicked "sync: inconsistent mutex state", ⟨s, sema⟩, []⟩
        else if s = old then
          ⟨.returned, ⟨if awoke = true then andNot32 (old ||| mutexLocked) mutexWoken
            else old ||| mutexLocked, sema⟩, []⟩
        else ⟨.load awoke iter, ⟨s, sema⟩, []⟩ := by
  simp only [lockStep, and_locked, and_woken, add32_four]
  by_cases h1 : old % 2 = 1
  · have h0 : old % 2 ≠ 0 := by omega
    by_cases hc : canSpin = true
    · simp only [h1, hc, ne_eq, one_ne_zero, not_false_eq_true, and_self, if_true,
        Nat.mul_eq_zero, OfNat.ofNat_ne_zero, or_false]
    · simp only [h1, hc, ne_eq, one_ne_zero, not_false_eq_true, and_false, if_false, if_true,
        Nat.mul_eq_zero, OfNat.ofNat_ne_zero, or_false, zero_ne_one]
  · have h0 : old % 2 = 0 := by omega
    simp only [h0, ne_eq, not_true_eq_false, false_and, if_false, zero_ne_one,
      Nat.mul_eq_zero, OfNat.ofNat_ne_zero, or_false]
    split_ifs <;> rfl


theorem andNot32_woken_parity (x : Nat) : andNot32 x mutexWoken % 2 = x % 2 := by
  rw [andNot32_two]; omega

theorem andNot32_woken_bit (x : Nat) : andNot32 x mutexWoken / 2 % 2 = 0 := by
  rw [andNot32_two]; omega

theorem andNot32_woken_waiters (x : Nat) :
    andNot32 x mutexWoken / 4 % 2 ^ 30 = x / 4 % 2 ^ 30 := by
  rw [andNot32_two]; omega

/-- C19, as stated, fails for the compare-and-swap of the spin branch (line 61): with
`old = 5` (locked, one waiter), `awoke = false` and `runtime_canSpin` true, on the state
word 5 that compare-and-swap succeeds and writes 7, which only sets the woken bit; the
waiter count stays 1 and `Lock` neither parks nor calls `runtime_Semacquire`, it goes
back to the head of the loop. -/
theorem Lock_spin_cas_counterexample :
    locked 5 = true ∧
    lockStep true (.cas false 0 5) ⟨5, 0⟩ = ⟨.load true 1, ⟨7, 0⟩, [Call.doSpin]⟩ ∧
    waiters 5 = 1 ∧ waiters 7 = 1 ∧
    (lockStep true (.cas false 0 5) ⟨5, 0⟩).pc ≠ .park ∧
    Call.Semacquire ∉ (lockStep true (.cas false 0 5) ⟨5, 0⟩).calls := by
  decide

/-- C19 (amended). `Mutex.Lock` acquires only from an unlocked state.
(a) On the zero-value state `Lock` returns at once leaving the state exactly
`mutexLocked`, with no call to `runtime_doSpin` or `runtime_Semacquire` and waiter
count 0.
(b) In every execution a step of `Lock` reaches its return only by a successful
compare-and-swap (the fast path on state 0, or the one of line 78 with `old` equal to
the current state) whose old value has the locked bit clear and whose new value has it
set.
(c) The compare-and-swap of line 78 whose old value has the locked bit set, when it
succeeds, does not make `Lock` return: it adds one to the waiter count (modulo
`2^30`), keeps the locked bit, clears the woken bit if the goroutine had been woken,
and `Lock` parks in `runtime_Semacquire`.
(d) The compare-and-swap of the spin branch (line 61), whose old value has the locked
bit set as well, neither makes `Lock` return nor adds a waiter nor parks: the step
calls `runtime_doSpin`, goes back to the head of the loop with `iter + 1`, and changes
the state word at most by setting the woken bit. -/
theorem Lock_acquires_only_unlocked :
    (∀ (canSpin : Bool) (sema : Nat),
      lockStep canSpin .fast ⟨0, sema⟩ = ⟨.returned, ⟨mutexLocked, sema⟩, []⟩ ∧
      waiters mutexLocked = 0) ∧
    (∀ (canSpin : Bool) (pc : LockPc) (m : Mutex), pc ≠ .returned →
      (lockStep canSpin pc m).pc = .returned →
      ((pc = .fast ∧ m.state = 0) ∨ ∃ awoke iter, pc = .cas awoke iter m.state) ∧
      locked m.state = false ∧ locked (lockStep canSpin pc m).m.state = true) ∧
    (∀ (awoke : Bool) (iter : Nat) (m : Mutex), locked m.state = true →
      (awoke = true → woken m.state = true) →
      (lockStep false (.cas awoke iter m.state) m).pc = .park ∧
      (lockStep false (.cas awoke iter m.state) m).calls = [Call.Semacquire] ∧
      (lockStep false (.cas awoke iter m.state) m).m.sema = m.sema ∧
      locked (lockStep false (.cas awoke iter m.state) m).m.state = true ∧
      waiters (lockStep false (.cas awoke iter m.state) m).m.state
        = (waiters m.state + 1) % 2 ^ 30 ∧
      woken (lockStep false (.cas awoke iter m.state) m).m.state
        = (woken m.state && !awoke)) ∧
    (∀ (awoke : Bool) (iter old : Nat) (m : Mutex), locked old = true →
      (∃ a, (lockStep true (.cas awoke iter old) m).pc = .load a (iter + 1)) ∧
      (lockStep true (.cas awoke iter old) m).calls = [Call.doSpin] ∧
      (lockStep true (.cas awoke iter old) m).m.sema = m.sema ∧
      locked (lockStep true (.cas awoke iter old) m).m.state = locked m.state ∧
      waiters (lockStep true (.cas awoke iter old) m).m.state = waiters m.state ∧
      ((lockStep true (.cas awoke iter old) m).m.state = m.state ∨
        (m.state = old ∧
          (lockStep true (.cas awoke iter old) m).m.state = old ||| mutexWoken))) := by
  refine ⟨?_, ?_, ?_, ?_⟩
  · intro canSpin sema
    exact ⟨by rw [lockStep_fast, if_pos rfl], by decide⟩
  · intro canSpin pc m hpc h
    obtain ⟨s, sema⟩ := m
    cases pc with
    | fast =>
      rw [lockStep_fast] at h ⊢
      by_cases h0 : s = 0
      · subst h0
        rw [if_pos rfl]
        exact ⟨Or.inl ⟨rfl, rfl⟩, (locked_false_iff _).mpr rfl, (locked_iff _).mpr rfl⟩
      · rw [if_neg h0] at h
        exact absurd h (by simp)
    | load awoke iter => exact absurd h (by simp [lockStep])
    | cas awoke iter old =>
      rw [lockStep_cas] at h
      split_ifs at h with c1 c2 c3 c4 c5 c6 c7 <;> try cases h
      all_goals
        subst c7
        refine ⟨Or.inr ⟨_, _, rfl⟩, (locked_false_iff _).mpr (by dsimp only; omega), ?_⟩
        rw [lockStep_cas, if_neg c1, if_neg c3, if_neg c6, if_pos rfl, locked_iff]
        dsimp only
        split_ifs
        first
          | (rw [andNot32_woken_parity, or_locked]; omega)
          | (rw [or_locked]; omega)
    | park =>
      simp only [lockStep] at h
      split at h <;> exact absurd h (by simp)
    | returned => exact absurd rfl hpc
    | panicked msg => exact absurd h (by simp [lockStep])
  · intro awoke iter m hl hw
    obtain ⟨s, sema⟩ := m
    have hl1 : s % 2 = 1 := (locked_iff s).mp hl
    dsimp only at hw ⊢
    rw [lockStep_cas]
    rw [if_neg (by simp), if_pos hl1, if_pos rfl]
    cases awoke with
    | false =>
      rw [if_neg (by simp)]
      refine ⟨rfl, rfl, rfl, ?_, ?_, ?_⟩
      · rw [locked_iff]
        dsimp only
        rw [if_neg Bool.false_ne_true]
        omega
      · rw [waiters_eq, waiters_eq]
        dsimp only
        rw [if_neg Bool.false_ne_true]
        omega
      · rw [Bool.not_false, Bool.and_true]
        dsimp only
        rw [if_neg Bool.false_ne_true]
        rcases Bool.eq_false_or_eq_true (woken s) with h | h
        · rw [h, woken_iff]
          have := (woken_iff s).mp h
          omega
        · rw [h, woken_false_iff]
          have := (woken_false_iff s).mp h
          omega
    | true =>
      have hw1 : s / 2 % 2 = 1 := (woken_iff s).mp (hw rfl)
      rw [if_neg (by omega)]
      refine ⟨rfl, rfl, rfl, ?_, ?_, ?_⟩
      · rw [locked_iff]
        dsimp only
        rw [if_pos rfl]
        rw [andNot32_woken_parity]; omega
      · rw [waiters_eq, waiters_eq]
        dsimp only
        rw [if_pos rfl]
        rw [andNot32_woken_waiters]; omega
      · rw [Bool.not_true, Bool.and_false, woken_false_iff]
        dsimp only
        rw [if_pos rfl]
        exact andNot32_woken_bit _
  · intro awoke iter old m hl
    obtain ⟨s, sema⟩ := m
    have hl1 : old % 2 = 1 := (locked_iff old).mp hl
    rw [lockStep_cas, if_pos ⟨hl1, rfl⟩]
    split_ifs with c
    · obtain ⟨-, hw, -, rfl⟩ := c
      refine ⟨⟨_, rfl⟩, rfl, rfl, ?_, ?_, Or.inr ⟨rfl, rfl⟩⟩
      · show locked (s ||| mutexWoken) = locked s
        rw [hl, locked_iff, or_woken]; omega
      · show waiters (s ||| mutexWoken) = waiters s
        rw [waiters_eq, waiters_eq, or_woken]; omega
    · exact ⟨⟨_, rfl⟩, rfl, rfl, rfl, rfl, Or.inl rfl⟩

/-- Instance of `Lock_acquires_only_unlocked`: the compare-and-swap of line 78 on the
state word 13 (locked, three waiters) parks with four waiters; on the state word 4
(unlocked, one waiter) it makes `Lock` return with the locked bit set. -/
theorem Lock_acquires_only_unlocked_witness :
    (locked 13 = true ∧ (lockStep false (.cas false 0 13) ⟨13, 0⟩).pc = .park ∧
      waiters (lockStep false (.cas false 0 13) ⟨13, 0⟩).m.state = (waiters 13 + 1) % 2 ^ 30) ∧
    ((lockStep false (.cas false 0 4) ⟨4, 0⟩).pc = .returned ∧
      locked 4 = false ∧ locked (lockStep false (.cas false 0 4) ⟨4, 0⟩).m.state = true) ∧
    (locked 5 = true ∧ (lockStep true (.cas false 0 5) ⟨5, 0⟩).calls = [Call.doSpin]) :=
  ⟨⟨by decide,
      (Lock_acquires_only_unlocked.2.2.1 false 0 ⟨13, 0⟩ (by decide) (by decide)).1,
      (Lock_acquires_only_unlocked.2.2.1 false 0 ⟨13, 0⟩ (by decide) (by decide)).2.2.2.2.1⟩,
    ⟨by decide,
      (Lock_acquires_only_unlocked.2.1 false (.cas false 0 4) ⟨4, 0⟩ (by decide)
        (by decide)).2⟩,
    ⟨by decide, (Lock_acquires_only_unlocked.2.2.2 false 0 5 ⟨5, 0⟩ (by decide)).2.1⟩⟩

end sync

namespace sync

/-- The step of `Lock` inside `runtime_Semacquire` (line 82). -/
theorem lockStep_park (canSpin : Bool) (s sema : Nat) :
    lockStep canSpin .park ⟨s, sema⟩ =
      if sema > 0 then ⟨.load true 0, ⟨s, sema - 1⟩, []⟩ else ⟨.park, ⟨s, sema⟩, []⟩ := by
  simp only [lockStep, runtime_Semacquire]
  split_ifs <;> rfl

/-- A step of `Lock` flips the locked bit exactly when it makes `Lock` return, and then
from clear to set. -/
theorem lockStep_parity (canSpin : Bool) (pc : LockPc) (s sema : Nat) (hpc : pc ≠ .returned) :
    ((lockStep canSpin pc ⟨s, sema⟩).pc = .returned →
      s % 2 = 0 ∧ (lockStep canSpin pc ⟨s, sema⟩).m.state % 2 = 1) ∧
    ((lockStep canSpin pc ⟨s, sema⟩).pc ≠ .returned →
      (lockStep canSpin pc ⟨s, sema⟩).m.state % 2 = s % 2) := by
  cases pc with
  | fast =>
    rw [lockStep_fast]
    by_cases h0 : s = 0
    · subst h0
      rw [if_pos rfl]
      exact ⟨fun _ => ⟨rfl, rfl⟩, fun h => absurd rfl h⟩
    · rw [if_neg h0]
      exact ⟨fun h => LockPc.noConfusion h, fun _ => rfl⟩
  | load awoke iter => exact ⟨fun h => LockPc.noConfusion h, fun _ => rfl⟩
  | cas awoke iter old =>
    rw [lockStep_cas]
    split_ifs with c1 c2 c3 c4 c5 c6 c7 c8 c9
    all_goals dsimp only
    all_goals constructor
    all_goals intro h
    all_goals first
      | cases h
      | exact absurd rfl h
      | skip
    all_goals first
      | rfl
      | (refine ⟨by omega, ?_⟩; rw [andNot32_woken_parity, or_locked]; omega)
      | (refine ⟨by omega, ?_⟩; rw [or_locked]; omega)
      | (rw [andNot32_woken_parity]; omega)
      | (rw [or_woken]; omega)
      | omega
  | park =>
    rw [lockStep_park]
    by_cases hs : sema > 0
    · rw [if_pos hs]
      exact ⟨fun h => LockPc.noConfusion h, fun _ => rfl⟩
    · rw [if_neg hs]
      exact ⟨fun h => LockPc.noConfusion h, fun _ => rfl⟩
  | returned => exact absurd rfl hpc
  | panicked msg => exact ⟨fun h => LockPc.noConfusion h, fun _ => rfl⟩


theorem sub32_four_parity (x : Nat) : sub32 x (1 <<< mutexWaiterShift) % 2 = x % 2 := by
  have h : (1 : Nat) <<< mutexWaiterShift = 4 := rfl
  rw [h, sub32]; omega

/-- The loop of `Unlock` from `old` on (lines 112-124). -/
theorem unlockStep_loop (old s sema : Nat) :
    unlockStep (.loop old) ⟨s, sema⟩ =
      if sar32 old mutexWaiterShift = 0 ∨ old &&& (mutexLocked ||| mutexWoken) ≠ 0 then
        ⟨.returned, ⟨s, sema⟩, []⟩
      else if s = old then
        ⟨.returned, ⟨(sub32 old (1 <<< mutexWaiterShift)) ||| mutexWoken, sema + 1⟩,
          [Call.Semrelease]⟩
      else ⟨.reload, ⟨s, sema⟩, []⟩ := by
  simp only [unlockStep, runtime_Semrelease]

/-- A step of `Unlock` flips the locked bit exactly when it is the atomic add, and no
step leads back to the atomic add. -/
theorem unlockStep_parity (pc : UnlockPc) (s sema : Nat) :
    (unlockStep pc ⟨s, sema⟩).m.state % 2 = (if pc = .add then (s + 1) % 2 else s % 2) ∧
    (unlockStep pc ⟨s, sema⟩).pc ≠ .add := by
  cases pc with
  | add =>
    rw [unlockStep_add, if_pos rfl]
    dsimp only
    split_ifs
    · exact ⟨sub32_one_parity s, fun h => UnlockPc.noConfusion h⟩
    · exact ⟨sub32_one_parity s, fun h => UnlockPc.noConfusion h⟩
  | loop old =>
    rw [unlockStep_loop, if_neg (fun h => UnlockPc.noConfusion h)]
    split_ifs with c1 c2
    · exact ⟨rfl, fun h => UnlockPc.noConfusion h⟩
    · refine ⟨?_, fun h => UnlockPc.noConfusion h⟩
      dsimp only
      rw [or_woken, c2]
      have := sub32_four_parity old
      omega
    · exact ⟨rfl, fun h => UnlockPc.noConfusion h⟩
  | reload => exact ⟨rfl, fun h => UnlockPc.noConfusion h⟩
  | returned => exact ⟨rfl, fun h => UnlockPc.noConfusion h⟩
  | panicked msg => exact ⟨rfl, fun h => UnlockPc.noConfusion h⟩

theorem holding_lock (pc : LockPc) (rounds : Nat) :
    holding ⟨.lock pc, rounds⟩ = true ↔ pc = .returned := by
  cases pc <;> simp [holding]

theorem holding_unlock (pc : UnlockPc) (rounds : Nat) :
    holding ⟨.unlock pc, rounds⟩ = true ↔ pc = .add := by
  cases pc <;> simp [holding]

theorem workerStep_lock (M : Nat) (cs : Bool) (pc : LockPc) (rounds : Nat) (m : Mutex)
    (c : Nat) (hpc : pc ≠ .returned) :
    workerStep M cs ⟨.lock pc, rounds⟩ m c =
      (⟨.lock (lockStep cs pc m).pc, rounds⟩, (lockStep cs pc m).m, c) := by
  cases pc with
  | returned => exact absurd rfl hpc
  | _ => rfl

theorem workerStep_unlock (M : Nat) (cs : Bool) (pc : UnlockPc) (rounds : Nat) (m : Mutex)
    (c : Nat) (hpc : pc ≠ .returned) :
    workerStep M cs ⟨.unlock pc, rounds⟩ m c =
      (⟨.unlock (unlockStep pc m).pc, rounds⟩, (unlockStep pc m).m, c) := by
  cases pc with
  | returned => exact absurd rfl hpc
  | _ => rfl

/-- What one step of a worker does to the locked bit, the counter and its own count
of rounds. -/
theorem workerStep_spec (M : Nat) (cs : Bool) (w : Worker) (s sema c : Nat) :
    ∃ w' s' sema' c',
      workerStep M cs w ⟨s, sema⟩ c = (w', ⟨s', sema'⟩, c') ∧
      (s' % 2 = if holding w = holding w' then s % 2 else (s + 1) % 2) ∧
      (holding w = false → holding w' = true → s % 2 = 0) ∧
      (∀ tmp, w.pc = .write tmp → c' = tmp + 1 ∧ w'.rounds = w.rounds + 1) ∧
      ((∀ tmp, w.pc ≠ .write tmp) → c' = c ∧ w'.rounds = w.rounds) ∧
      (∀ tmp, w'.pc = .write tmp → tmp = c') := by
  obtain ⟨pc, rounds⟩ := w
  cases pc with
  | idle =>
    by_cases h : rounds < M
    · refine ⟨⟨.lock .fast, rounds⟩, s, sema, c, ?_, rfl, ?_, ?_, ?_, ?_⟩
      · simp only [workerStep, if_pos h]
      · intro _ h2; exact absurd h2 (by simp [holding])
      · intro tmp h2; exact WorkerPc.noConfusion h2
      · intro _; exact ⟨rfl, rfl⟩
      · intro tmp h2; exact WorkerPc.noConfusion h2
    · refine ⟨⟨.idle, rounds⟩, s, sema, c, ?_, rfl, ?_, ?_, ?_, ?_⟩
      · simp only [workerStep, if_neg h]
      · intro _ h2; exact absurd h2 (by simp [holding])
      · intro tmp h2; exact WorkerPc.noConfusion h2
      · intro _; exact ⟨rfl, rfl⟩
      · intro tmp h2; exact WorkerPc.noConfusion h2
  | lock lpc =>
    by_cases hr : lpc = .returned
    · subst hr
      refine ⟨⟨.read, rounds⟩, s, sema, c, rfl, rfl, ?_, ?_, ?_, ?_⟩
      · intro h2; exact absurd h2 (by simp [holding])
      · intro tmp h2; exact WorkerPc.noConfusion h2
      · intro _; exact ⟨rfl, rfl⟩
      · intro tmp h2; exact WorkerPc.noConfusion h2
    · have hw : holding ⟨.lock lpc, rounds⟩ = false := by
        rw [← Bool.not_eq_true, holding_lock]; exact hr
      obtain ⟨p1, p2⟩ := lockStep_parity cs lpc s sema hr
      refine ⟨⟨.lock (lockStep cs lpc ⟨s, sema⟩).pc, rounds⟩,
        (lockStep cs lpc ⟨s, sema⟩).m.state, (lockStep cs lpc ⟨s, sema⟩).m.sema, c,
        workerStep_lock M cs lpc rounds _ c hr, ?_, ?_, ?_, ?_, ?_⟩
      · by_cases h2 : (lockStep cs lpc ⟨s, sema⟩).pc = .returned
        · have hw2 : holding ⟨.lock (lockStep cs lpc ⟨s, sema⟩).pc, rounds⟩ = true :=
            (holding_lock _ _).mpr h2
          rw [hw, hw2, if_neg (by decide)]
          have := p1 h2
          omega
        · have hw2 : holding ⟨.lock (lockStep cs lpc ⟨s, sema⟩).pc, rounds⟩ = false := by
            rw [← Bool.not_eq_true, holding_lock]; exact h2
          rw [hw, hw2, if_pos rfl]
          exact p2 h2
      · intro _ h2
        exact (p1 ((holding_lock _ _).mp h2)).1
      · intro tmp h2; exact WorkerPc.noConfusion h2
      · intro _; exact ⟨rfl, rfl⟩
      · intro tmp h2; exact WorkerPc.noConfusion h2
  | read =>
    refine ⟨⟨.write c, rounds⟩, s, sema, c, rfl, rfl, ?_, ?_, ?_, ?_⟩
    · intro h2; exact absurd h2 (by simp [holding])
    · intro tmp h2; exact WorkerPc.noConfusion h2
    · intro _; exact ⟨rfl, rfl⟩
    · intro tmp h2
      exact (WorkerPc.write.inj h2).symm
  | write t =>
    refine ⟨⟨.unlock .add, rounds + 1⟩, s, sema, t + 1, rfl, rfl, ?_, ?_, ?_, ?_⟩
    · intro h2; exact absurd h2 (by simp [holding])
    · intro tmp h2
      rw [WorkerPc.write.inj h2]
      exact ⟨rfl, rfl⟩
    · intro h2; exact absurd rfl (h2 t)
    · intro tmp h2; exact WorkerPc.noConfusion h2
  | unlock upc =>
    by_cases hr : upc = .returned
    · subst hr
      refine ⟨⟨.idle, rounds⟩, s, sema, c, rfl, rfl, ?_, ?_, ?_, ?_⟩
      · intro _ h2; exact absurd h2 (by simp [holding])
      · intro tmp h2; exact WorkerPc.noConfusion h2
      · intro _; exact ⟨rfl, rfl⟩
      · intro tmp h2; exact WorkerPc.noConfusion h2
    · obtain ⟨p1, p2⟩ := unlockStep_parity upc s sema
      have hw2 : holding ⟨.unlock (unlockStep upc ⟨s, sema⟩).pc, rounds⟩ = false := by
        rw [← Bool.not_eq_true, holding_unlock]; exact p2
      refine ⟨⟨.unlock (unlockStep upc ⟨s, sema⟩).pc, rounds⟩,
        (unlockStep upc ⟨s, sema⟩).m.state, (unlockStep upc ⟨s, sema⟩).m.sema, c,
        workerStep_unlock M cs upc rounds _ c hr, ?_, ?_, ?_, ?_, ?_⟩
      · rw [hw2, p1]
        by_cases ha : upc = .add
        · rw [if_pos ha, (holding_unlock upc rounds).mpr ha, if_neg (by decide)]
        · have hw : holding ⟨.unlock upc, rounds⟩ = false := by
            rw [← Bool.not_eq_true, holding_unlock]; exact ha
          rw [if_neg ha, hw, if_pos rfl]
      · intro _ h2
        rw [hw2] at h2
        exact absurd h2 (by simp [holding])
      · intro tmp h2; exact WorkerPc.noConfusion h2
      · intro _; exact ⟨rfl, rfl⟩
      · intro tmp h2; exact WorkerPc.noConfusion h2


theorem holding_write (w : Worker) (t : Nat) (h : w.pc = .write t) : holding w = true := by
  obtain ⟨pc, rounds⟩ := w
  dsimp only at h
  subst h
  rfl

theorem totalRounds_update (workers : Nat → Worker) (i : Nat) (w' : Worker) (N : Nat) :
    totalRounds (Function.update workers i w') N + (if i < N then (workers i).rounds else 0)
      = totalRounds workers N + (if i < N then w'.rounds else 0) := by
  induction N with
  | zero => simp [totalRounds]
  | succ n ih =>
    simp only [totalRounds]
    by_cases h1 : i < n
    · have h2 : i < n + 1 := by omega
      have h3 : n ≠ i := by omega
      rw [if_pos h1] at ih
      rw [if_pos h2, if_pos h2, Function.update_noteq h3]
      rw [if_pos h1] at ih
      omega
    · rw [if_neg h1, if_neg h1] at ih
      by_cases h2 : i = n
      · subst h2
        rw [if_pos (Nat.lt_succ_self _), if_pos (Nat.lt_succ_self _), Function.update_same]
        omega
      · have h3 : ¬ i < n + 1 := by omega
        have h4 : n ≠ i := fun h => h2 h.symm
        rw [if_neg h3, if_neg h3, Function.update_noteq h4]
        omega

theorem World.step_eq (N M : Nat) (s : World) (i : Nat) (cs : Bool) (hi : i < N)
    (w' : Worker) (m' : Mutex) (c' : Nat)
    (hw : workerStep M cs (s.workers i) s.m s.counter = (w', m', c')) :
    World.step N M s i cs = ⟨m', c', Function.update s.workers i w'⟩ := by
  unfold World.step
  rw [if_pos hi, hw]

theorem World.step_ge (N M : Nat) (s : World) (i : Nat) (cs : Bool) (hi : ¬ i < N) :
    World.step N M s i cs = s := by
  unfold World.step
  rw [if_neg hi]

/-- The invariant holds initially. -/
theorem World.Inv_init (N : Nat) : World.Inv N World.init := by
  refine ⟨?_, ?_, ?_, ?_⟩
  · intro i j h; exact absurd h (by simp [World.init, holding])
  · constructor
    · intro h; exact absurd h (by simp [World.init])
    · rintro ⟨i, h⟩; exact absurd h (by simp [World.init, holding])
  · show 0 = totalRounds (fun _ => ⟨.idle, 0⟩) N
    induction N with
    | zero => rfl
    | succ n ih => simp only [totalRounds]; omega
  · intro i tmp h; exact absurd h (by simp [World.init])

/-- Every step of every worker keeps the invariant. -/
theorem World.Inv_step (N M : Nat) (s : World) (i : Nat) (cs : Bool) (h : World.Inv N s) :
    World.Inv N (World.step N M s i cs) := by
  by_cases hi : i < N
  swap
  · rw [World.step_ge N M s i cs hi]; exact h
  obtain ⟨m, counter, workers⟩ := s
  obtain ⟨st, sema⟩ := m
  obtain ⟨ha, hb, hc, hd⟩ := h
  dsimp only at ha hb hc hd
  obtain ⟨w', s', sema', c', hw, p1, p2, p3, p4, p5⟩ :=
    workerStep_spec M cs (workers i) st sema counter
  rw [World.step_eq N M _ i cs hi w' ⟨s', sema'⟩ c' hw]
  have hne : ∀ j, j ≠ i → Function.update workers i w' j = workers j :=
    fun j hj => Function.update_noteq hj _ _
  have hsame : Function.update workers i w' i = w' := Function.update_same _ _ _
  refine ⟨?_, ?_, ?_, ?_⟩
  · intro j k hj hk
    dsimp only at hj hk
    by_cases e1 : j = i
    · by_cases e2 : k = i
      · rw [e1, e2]
      · exfalso
        rw [e1, hsame] at hj
        rw [hne k e2] at hk
        rcases Bool.eq_false_or_eq_true (holding (workers i)) with hh | hh
        · exact e2 (ha k i hk hh)
        · have := p2 hh hj
          have := hb.mpr ⟨k, hk⟩
          omega
    · by_cases e2 : k = i
      · exfalso
        rw [e2, hsame] at hk
        rw [hne j e1] at hj
        rcases Bool.eq_false_or_eq_true (holding (workers i)) with hh | hh
        · exact e1 (ha j i hj hh)
        · have := p2 hh hk
          have := hb.mpr ⟨j, hj⟩
          omega
      · rw [hne j e1] at hj
        rw [hne k e2] at hk
        exact ha j k hj hk
  · dsimp only
    rcases Bool.eq_false_or_eq_true (holding (workers i)) with hh | hh
    · rcases Bool.eq_false_or_eq_true (holding w') with hh' | hh'
      · rw [hh, hh', if_pos rfl] at p1
        rw [p1, hb]
        exact ⟨fun _ => ⟨i, by rw [hsame]; exact hh'⟩, fun _ => ⟨i, hh⟩⟩
      · rw [hh, hh', if_neg (by decide)] at p1
        have hst : st % 2 = 1 := hb.mpr ⟨i, hh⟩
        constructor
        · intro h1; omega
        · rintro ⟨j, hj⟩
          exfalso
          by_cases e : j = i
          · rw [e, hsame, hh'] at hj
            exact absurd hj (by decide)
          · rw [hne j e] at hj
            exact e (ha j i hj hh)
    · rcases Bool.eq_false_or_eq_true (holding w') with hh' | hh'
      · have hst := p2 hh hh'
        rw [hh, hh', if_neg (by decide)] at p1
        constructor
        · intro _; exact ⟨i, by rw [hsame]; exact hh'⟩
        · intro _; omega
      · rw [hh, hh', if_pos rfl] at p1
        rw [p1, hb]
        constructor
        · rintro ⟨j, hj⟩
          have e : j ≠ i := by
            intro e; rw [e, hh] at hj; exact absurd hj (by decide)
          exact ⟨j, by rw [hne j e]; exact hj⟩
        · rintro ⟨j, hj⟩
          have e : j ≠ i := by
            intro e; rw [e, hsame, hh'] at hj; exact absurd hj (by decide)
          rw [hne j e] at hj
          exact ⟨j, hj⟩
  · dsimp only
    have hu := totalRounds_update workers i w' N
    rw [if_pos hi, if_pos hi] at hu
    by_cases hwr : ∃ tmp, (workers i).pc = .write tmp
    · obtain ⟨tmp, htmp⟩ := hwr
      have h1 := p3 tmp htmp
      have h2 := hd i tmp htmp
      omega
    · have h1 := p4 (fun tmp htmp => hwr ⟨tmp, htmp⟩)
      omega
  · intro j tmp hj
    dsimp only at hj ⊢
    by_cases e : j = i
    · rw [e, hsame] at hj
      exact p5 tmp hj
    · rw [hne j e] at hj
      have h1 := hd j tmp hj
      have hnw : ∀ t, (workers i).pc ≠ .write t := by
        intro t ht
        exact e (ha j i (holding_write _ _ hj) (holding_write _ _ ht))
      rw [(p4 hnw).1]
      exact h1

/-- The invariant holds after every interleaving. -/
theorem World.Inv_run (N M : Nat) (sched : List (Nat × Bool)) (s : World)
    (h : World.Inv N s) : World.Inv N (World.run N M s sched) := by
  induction sched generalizing s with
  | nil => exact h
  | cons a rest ih =>
    obtain ⟨i, cs⟩ := a
    exact ih _ (World.Inv_step N M s i cs h)

theorem totalRounds_finished (N M : Nat) (workers : Nat → Worker)
    (h : ∀ i, i < N → finished M (workers i) = true) : totalRounds workers N = N * M := by
  induction N with
  | zero => simp [totalRounds]
  | succ n ih =>
    have h1 := ih (fun i hi => h i (by omega))
    have h2 := h n (by omega)
    simp only [finished, Bool.and_eq_true, decide_eq_true_eq] at h2
    simp only [totalRounds, h1, h2.2]
    ring


/-- C18. Mutual exclusion of `sync.Mutex`. `N` workers run `Lock(); counter++;
Unlock()` `M` times each on one zero-value `Mutex`, every access to shared memory
being one atomic step (sequentially consistent memory), and the scheduler interleaves
their steps in any order, `runtime_canSpin` answering anything. After every
interleaving, no two different workers are between the return of their `Lock` and the
atomic add of their following `Unlock`; and whenever all workers have finished their
`M` increments the shared counter equals `N * M`. -/
theorem mutual_exclusion (N M : Nat) (sched : List (Nat × Bool)) :
    (∀ i j, holding ((World.run N M World.init sched).workers i) = true →
      holding ((World.run N M World.init sched).workers j) = true → i = j) ∧
    ((∀ i, i < N → finished M ((World.run N M World.init sched).workers i) = true) →
      (World.run N M World.init sched).counter = N * M) := by
  obtain ⟨ha, -, hc, -⟩ := World.Inv_run N M sched World.init (World.Inv_init N)
  exact ⟨ha, fun h => by rw [hc]; exact totalRounds_finished N M _ h⟩

/-- Instance of `mutual_exclusion` on the contended interleaving of two workers: after
its first eight steps worker 0 holds the mutex while worker 1 is parked with the state
word 5; at its end both workers have finished and the counter is 2. -/
theorem mutual_exclusion_witness :
    (holding ((World.run 2 1 World.init (contended.take 8)).workers 0) = true ∧
      (World.run 2 1 World.init (contended.take 8)).workers 1 = ⟨.lock .park, 0⟩ ∧
      (World.run 2 1 World.init (contended.take 8)).m.state = 5) ∧
    (0 : Nat) = 0 ∧
    (∀ i, i < 2 → finished 1 ((World.run 2 1 World.init contended).workers i) = true) ∧
    (World.run 2 1 World.init contended).counter = 2 * 1 :=
  ⟨⟨by decide, by decide, by decide⟩,
    (mutual_exclusion 2 1 (contended.take 8)).1 0 0 (by decide) (by decide),
    by decide, (mutual_exclusion 2 1 contended).2 (by decide)⟩

end sync

namespace sync

theorem sub32_four (x : Nat) (h : 4 ≤ x) (hx : x < 2 ^ 32) :
    sub32 x (1 <<< mutexWaiterShift) = x - 4 := by
  have h4 : (1 : Nat) <<< mutexWaiterShift = 4 := rfl
  rw [h4, sub32]; omega

/-- The call `Unlock` run without interference on a locked state word, in arithmetic. -/
theorem Unlock_eq (s sema : Nat) (hs : s < 2 ^ 32) (h1 : s % 2 = 1) :
    Unlock ⟨s, sema⟩ =
      if s / 4 = 0 ∨ s / 2 % 2 = 1 then ⟨.returned, ⟨s - 1, sema⟩, []⟩
      else ⟨.returned, ⟨s - 3, sema + 1⟩, [Call.Semrelease]⟩ := by
  have h0 : ¬ s % 2 = 0 := by omega
  unfold Unlock
  simp only []
  rw [and_locked, add32_sub32_one_parity, if_neg h0, sub32_one s h1 hs]
  by_cases c : s / 4 = 0 ∨ s / 2 % 2 = 1
  · have c' : sar32 (s - 1) mutexWaiterShift = 0 ∨
        (s - 1) &&& (mutexLocked ||| mutexWoken) ≠ 0 := by
      rw [sar32_two_eq_zero (s - 1) (by omega), lockedWoken_eq, and_three]; omega
    rw [if_pos c, if_pos c']
  · have c' : ¬ (sar32 (s - 1) mutexWaiterShift = 0 ∨
        (s - 1) &&& (mutexLocked ||| mutexWoken) ≠ 0) := by
      rw [sar32_two_eq_zero (s - 1) (by omega), lockedWoken_eq, and_three]; omega
    rw [if_neg c, if_neg c', sub32_four (s - 1) (by omega) (by omega), or_woken,
      runtime_Semrelease]
    have e : s - 1 - 4 + (2 - (s - 1 - 4) / 2 % 2 * 2) = s - 3 := by omega
    rw [e]

/-- Without interference `Unlock` is the atomic add followed by one turn of the loop. -/
theorem Unlock_eq_steps (s sema : Nat) (h1 : s % 2 = 1) :
    unlockStep .add ⟨s, sema⟩ = ⟨.loop (sub32 s mutexLocked), ⟨sub32 s mutexLocked, sema⟩, []⟩ ∧
    Unlock ⟨s, sema⟩ = unlockStep (.loop (sub32 s mutexLocked)) ⟨sub32 s mutexLocked, sema⟩ := by
  have h0 : ¬ s % 2 = 0 := by omega
  refine ⟨by rw [unlockStep_add, if_neg h0], ?_⟩
  rw [unlockStep_loop, if_pos rfl]
  unfold Unlock
  simp only []
  rw [and_locked, add32_sub32_one_parity, if_neg h0, runtime_Semrelease]

/-- C21. `Mutex.Unlock` hand-off, run without interference on a 32-bit state word with
the locked bit set. If the waiter count is positive and the woken bit is clear,
`Unlock` returns after exactly one call of `runtime_Semrelease` (one more permit on the
semaphore), and the final state has the locked bit clear, the woken bit set and one
waiter less. If the waiter count is 0 or the woken bit is set, `Unlock` returns without
any call of `runtime_Semrelease`, and the final state is the old one with only the
locked bit cleared. -/
theorem Unlock_handoff (m : Mutex) (hs : m.state < 2 ^ 32) (hl : locked m.state = true) :
    (0 < waiters m.state ∧ woken m.state = false →
      (Unlock m).pc = .returned ∧ (Unlock m).calls = [Call.Semrelease] ∧
      (Unlock m).m.sema = m.sema + 1 ∧
      locked (Unlock m).m.state = false ∧ woken (Unlock m).m.state = true ∧
      waiters (Unlock m).m.state = waiters m.state - 1) ∧
    (waiters m.state = 0 ∨ woken m.state = true →
      Unlock m = ⟨.returned, ⟨m.state - 1, m.sema⟩, []⟩ ∧
      locked (m.state - 1) = false ∧ woken (m.state - 1) = woken m.state ∧
      waiters (m.state - 1) = waiters m.state) := by
  obtain ⟨s, sema⟩ := m
  dsimp only at hs hl ⊢
  have h1 : s % 2 = 1 := (locked_iff s).mp hl
  rw [Unlock_eq s sema hs h1, waiters_eq]
  constructor
  · rintro ⟨hw, hk⟩
    have hk0 := (woken_false_iff s).mp hk
    rw [if_neg (by omega)]
    refine ⟨rfl, rfl, rfl, ?_, ?_, ?_⟩
    · dsimp only; rw [locked_false_iff]; omega
    · dsimp only; rw [woken_iff]; omega
    · dsimp only; rw [waiters_eq]; omega
  · intro h
    have hc : s / 4 = 0 ∨ s / 2 % 2 = 1 := by
      rcases h with h | h
      · left; omega
      · right; exact (woken_iff s).mp h
    rw [if_pos hc]
    refine ⟨rfl, (locked_false_iff _).mpr (by omega), ?_, ?_⟩
    · rcases Bool.eq_false_or_eq_true (woken s) with hk | hk
      · rw [hk, woken_iff]; have := (woken_iff s).mp hk; omega
      · rw [hk, woken_false_iff]; have := (woken_false_iff s).mp hk; omega
    · rw [waiters_eq]; omega

/-- Instance of `Unlock_handoff` on the state words 13 (locked, three waiters: one is
handed the wake-up) and 15 (locked and woken: nobody is woken). -/
theorem Unlock_handoff_witness :
    (13 < 2 ^ 32 ∧ locked 13 = true ∧ 0 < waiters 13 ∧ woken 13 = false ∧
      (Unlock ⟨13, 0⟩).calls = [Call.Semrelease] ∧
      waiters (Unlock ⟨13, 0⟩).m.state = waiters 13 - 1) ∧
    (15 < 2 ^ 32 ∧ locked 15 = true ∧ woken 15 = true ∧
      Unlock ⟨15, 0⟩ = ⟨.returned, ⟨15 - 1, 0⟩, []⟩) :=
  ⟨⟨by decide, by decide, by decide, by decide,
      ((Unlock_handoff ⟨13, 0⟩ (by decide) (by decide)).1 ⟨by decide, by decide⟩).2.1,
      ((Unlock_handoff ⟨13, 0⟩ (by decide) (by decide)).1
        ⟨by decide, by decide⟩).2.2.2.2.2⟩,
    ⟨by decide, by decide, by decide,
      ((Unlock_handoff ⟨15, 0⟩ (by decide) (by decide)).2 (Or.inr (by decide))).1⟩⟩

end sync

/-! ## `sync.Cond` -/

namespace sync

/-- The copy check in closed form. -/
theorem check_eq (a v : Nat) :
    copyChecker.check a v =
      if v = a then .ok v else if v = 0 then .ok a else .panic "sync.Cond is copied" := by
  unfold copyChecker.check CompareAndSwapUintptr
  by_cases h1 : v = a
  · rw [if_neg (not_not.mpr h1), if_pos h1]
  · rw [if_pos h1, if_neg h1]
    by_cases h2 : v = 0
    · rw [if_pos h2, if_pos h2]
      simp
    · rw [if_neg h2, if_neg h2]
      simp [h1]


theorem sub32_pred (w : Nat) (h0 : w ≠ 0) (hw : w < 2 ^ 32) : sub32 w 1 = w - 1 := by
  rw [sub32]; omega

theorem sub32_zero (w : Nat) (hw : w < 2 ^ 32) : sub32 w 0 = w := by
  rw [sub32]; omega

theorem sub32_pred_diff (w : Nat) (h0 : w ≠ 0) (hw : w < 2 ^ 32) :
    sub32 w (sub32 w 1) = 1 := by
  rw [sub32_pred w h0 hw, sub32]; omega

/-- The loop of `signalImpl` without interference: one turn. -/
theorem signalLoop_eq (all : Bool) (fuel : Nat) (c : Cond) (hf : 0 < fuel)
    (hw : c.waiters < 2 ^ 32) :
    signalLoop all fuel c =
      if c.waiters = 0 then .ok (c, [])
      else if all = true then
        .ok (⟨c.sema + c.waiters, 0, c.checker⟩, [CondCall.Syncsemrelease c.waiters])
      else .ok (⟨c.sema + 1, c.waiters - 1, c.checker⟩, [CondCall.Syncsemrelease 1]) := by
  obtain ⟨fuel, rfl⟩ : ∃ k, fuel = k + 1 := ⟨fuel - 1, by omega⟩
  obtain ⟨sema, w, chk⟩ := c
  dsimp only at hw ⊢
  unfold signalLoop
  dsimp only
  by_cases h0 : w = 0
  · rw [if_pos h0, if_pos h0]
  · rw [if_neg h0, if_neg h0, if_pos rfl]
    cases all with
    | true =>
      rw [if_pos rfl, if_pos rfl, sub32_zero w hw, runtime_Syncsemrelease]
    | false =>
      rw [if_neg Bool.false_ne_true, if_neg Bool.false_ne_true, sub32_pred_diff w h0 hw,
        sub32_pred w h0 hw, runtime_Syncsemrelease]

/-- The method `signalImpl` on a `Cond` that passes the copy check. -/
theorem signalImpl_eq (all : Bool) (a fuel : Nat) (c : Cond)
    (hc : c.checker = 0 ∨ c.checker = a) :
    signalImpl all a fuel c = signalLoop all fuel { c with checker := a } := by
  obtain ⟨sema, w, chk⟩ := c
  dsimp only at hc ⊢
  unfold signalImpl
  dsimp only
  rw [check_eq]
  by_cases h1 : chk = a
  · rw [if_pos h1, h1]
  · have h2 : chk = 0 := by
      rcases hc with h | h
      · exact h
      · exact absurd h h1
    rw [if_neg h1, if_pos h2]

/-- The method `signalImpl` on a copy: it panics before anything else. -/
theorem signalImpl_copied (all : Bool) (a fuel : Nat) (c : Cond)
    (h0 : c.checker ≠ 0) (ha : c.checker ≠ a) :
    signalImpl all a fuel c = .panic "sync.Cond is copied" := by
  unfold signalImpl
  rw [check_eq, if_neg ha, if_neg h0]

/-- C22. Wake-up counts of `Cond`, run without interference on a `Cond` located at
address `a` that is not a copy (its checker holds 0 or `a`) and whose `uint32` waiter
counter is `W`. `Signal` with `W >= 1` leaves the counter at `W - 1` and makes one call
`runtime_Syncsemrelease(1)`: one permit more on the semaphore. `Broadcast` with
`W >= 1` leaves the counter at 0 and makes one call `runtime_Syncsemrelease(W)`: `W`
permits more. With `W = 0` both leave the counter at 0 and the semaphore as it is, and
make no call. In all cases the permits released equal the decrease of the counter. -/
theorem signal_counts (a fuel : Nat) (c : Cond) (hf : 0 < fuel) (hw : c.waiters < 2 ^ 32)
    (hc : c.checker = 0 ∨ c.checker = a) :
    (1 ≤ c.waiters →
      Signal a fuel c = .ok (⟨c.sema + 1, c.waiters - 1, a⟩, [CondCall.Syncsemrelease 1]) ∧
      Broadcast a fuel c
        = .ok (⟨c.sema + c.waiters, 0, a⟩, [CondCall.Syncsemrelease c.waiters])) ∧
    (c.waiters = 0 →
      Signal a fuel c = .ok (⟨c.sema, 0, a⟩, []) ∧
      Broadcast a fuel c = .ok (⟨c.sema, 0, a⟩, [])) ∧
    (∀ (all : Bool), ∃ c' calls, signalImpl all a fuel c = .ok (c', calls) ∧
      c'.waiters ≤ c.waiters ∧ c'.sema - c.sema = c.waiters - c'.waiters ∧
      c.sema ≤ c'.sema ∧
      (calls = [] ∧ c'.sema = c.sema ∨
        calls = [CondCall.Syncsemrelease (c.waiters - c'.waiters)])) := by
  obtain ⟨sema, w, chk⟩ := c
  dsimp only at hw hc ⊢
  have e : ∀ all, signalImpl all a fuel ⟨sema, w, chk⟩ =
      if w = 0 then .ok (⟨sema, w, a⟩, [])
      else if all = true then .ok (⟨sema + w, 0, a⟩, [CondCall.Syncsemrelease w])
      else .ok (⟨sema + 1, w - 1, a⟩, [CondCall.Syncsemrelease 1]) := by
    intro all
    rw [signalImpl_eq all a fuel _ hc, signalLoop_eq all fuel _ hf hw]
  refine ⟨?_, ?_, ?_⟩
  · intro h1
    have h0 : ¬ w = 0 := by omega
    constructor
    · unfold Signal
      rw [e, if_neg h0, if_neg Bool.false_ne_true]
    · unfold Broadcast
      rw [e, if_neg h0, if_pos rfl]
  · intro h0
    constructor
    · unfold Signal
      rw [e, if_pos h0, h0]
    · unfold Broadcast
      rw [e, if_pos h0, h0]
  · intro all
    rw [e]
    by_cases h0 : w = 0
    · rw [if_pos h0]
      exact ⟨_, _, rfl, le_refl _, by dsimp only; omega, le_refl _, Or.inl ⟨rfl, rfl⟩⟩
    · rw [if_neg h0]
      cases all with
      | true =>
        rw [if_pos rfl]
        exact ⟨_, _, rfl, Nat.zero_le _, by dsimp only; omega, by dsimp only; omega,
          Or.inr rfl⟩
      | false =>
        rw [if_neg Bool.false_ne_true]
        refine ⟨_, _, rfl, Nat.sub_le _ _, by dsimp only; omega, by dsimp only; omega,
          Or.inr ?_⟩
        dsimp only
        have : w - (w - 1) = 1 := by omega
        rw [this]

/-- Instance of `signal_counts` on a `Cond` at address 64 with three waiters. -/
theorem signal_counts_witness :
    (0 < 1 ∧ 3 < 2 ^ 32 ∧ ((0 : Nat) = 0 ∨ (0 : Nat) = 64) ∧ 1 ≤ 3) ∧
    Signal 64 1 ⟨0, 3, 0⟩ = .ok (⟨0 + 1, 3 - 1, 64⟩, [CondCall.Syncsemrelease 1]) ∧
    Broadcast 64 1 ⟨0, 3, 0⟩ = .ok (⟨0 + 3, 0, 64⟩, [CondCall.Syncsemrelease 3]) :=
  ⟨⟨by decide, by decide, Or.inl rfl, by decide⟩,
    ((signal_counts 64 1 ⟨0, 3, 0⟩ (by decide) (by decide) (Or.inl rfl)).1 (by decide)).1,
    ((signal_counts 64 1 ⟨0, 3, 0⟩ (by decide) (by decide) (Or.inl rfl)).1 (by decide)).2⟩


/-- The copy check of `Wait` in closed form. -/
theorem waitStep_check (a : Nat) (c : Cond) :
    waitStep a .check c =
      if c.checker = a then (.add, c, [CondCall.check])
      else if c.checker = 0 then (.add, { c with checker := a }, [CondCall.check])
      else (.panicked "sync.Cond is copied", c, []) := by
  obtain ⟨sema, w, chk⟩ := c
  simp only [waitStep]
  rw [check_eq]
  by_cases h1 : chk = a
  · rw [if_pos h1, if_pos h1]
  · rw [if_neg h1, if_neg h1]
    by_cases h2 : chk = 0
    · rw [if_pos h2, if_pos h2]
    · rw [if_neg h2, if_neg h2]

/-- The semaphore acquire of `Wait` in closed form. -/
theorem waitStep_acquire (a : Nat) (c : Cond) :
    waitStep a .acquire c =
      if 0 < c.sema then (.lock, { c with sema := c.sema - 1 }, [CondCall.Syncsemacquire])
      else (.acquire, c, []) := by
  simp only [waitStep, runtime_Syncsemacquire]
  by_cases h : c.sema > 0
  · rw [if_pos h, if_pos h]
  · rw [if_neg h, if_neg h]

/-- Every step of `Wait` appends its calls to the trace of its program point. -/
theorem waitStep_trace (a : Nat) (pc : WaitPc) (c : Cond) :
    waitTrace (waitStep a pc c).1 = waitTrace pc ++ (waitStep a pc c).2.2 := by
  cases pc with
  | check => rw [waitStep_check]; split_ifs <;> rfl
  | acquire => rw [waitStep_acquire]; split_ifs <;> rfl
  | _ => rfl

theorem waitRun_trace (a : Nat) (env : List (Cond → Cond)) (pc : WaitPc) (c : Cond) :
    (waitRun a env pc c (waitTrace pc)).2.2 = waitTrace (waitRun a env pc c (waitTrace pc)).1 := by
  induction env generalizing pc c with
  | nil => rfl
  | cons e rest ih =>
    rw [waitRun, ← waitStep_trace]
    exact ih _ _

theorem waitRun_panicked (a : Nat) (env : List (Cond → Cond)) (msg : String) (c : Cond)
    (tr : List CondCall) :
    (waitRun a env (.panicked msg) c tr).1 = .panicked msg ∧
    (waitRun a env (.panicked msg) c tr).2.2 = tr := by
  induction env generalizing c tr with
  | nil => exact ⟨rfl, rfl⟩
  | cons e rest ih =>
    have hs : waitStep a (.panicked msg) (e c) = (.panicked msg, e c, []) := rfl
    rw [waitRun, hs]
    dsimp only
    rw [List.append_nil]
    exact ih _ _

/-- C23. `Cond.Wait`, whatever the other goroutines do to the `Cond` between its
steps: the calls it has made are determined by the statement it has reached, and when
it has returned they are, in this order and each exactly once, the copy check, the
increment of the waiter counter by one, `L.Unlock`, the acquire on the semaphore and
`L.Lock`. The increment adds one to the `uint32` counter. A step makes `Wait` return
only from the statement `L.Lock`, which is reached only from the semaphore acquire,
and the acquire completes only by taking a permit that was there. -/
theorem Wait_order (a : Nat) (env : List (Cond → Cond)) (c : Cond) :
    (waitRun a env .check c []).2.2 = waitTrace (waitRun a env .check c []).1 ∧
    ((waitRun a env .check c []).1 = .returned →
      (waitRun a env .check c []).2.2 =
        [CondCall.check, CondCall.AddUint32 1, CondCall.LUnlock, CondCall.Syncsemacquire,
          CondCall.LLock]) ∧
    (∀ (c' : Cond), (waitStep a .add c').2.1.waiters = (c'.waiters + 1) % 2 ^ 32) ∧
    (∀ (pc : WaitPc) (c' : Cond), pc ≠ .returned → (waitStep a pc c').1 = .returned →
      pc = .lock ∧ (waitStep a pc c').2.2 = [CondCall.LLock]) ∧
    (∀ (pc : WaitPc) (c' : Cond), (waitStep a pc c').1 = .lock →
      pc = .acquire ∧ 0 < c'.sema ∧ (waitStep a pc c').2.1.sema + 1 = c'.sema) := by
  have h1 := waitRun_trace a env .check c
  refine ⟨h1, ?_, ?_, ?_, ?_⟩
  · intro h
    have h2 : (waitRun a env .check c []).2.2 = waitTrace (waitRun a env .check c []).1 := h1
    rw [h2, h]
    rfl
  · intro c'
    rfl
  · intro pc c' hpc h
    cases pc with
    | check =>
      rw [waitStep_check] at h
      split_ifs at h
    | acquire =>
      rw [waitStep_acquire] at h
      split_ifs at h
    | lock => exact ⟨rfl, rfl⟩
    | returned => exact absurd rfl hpc
    | add => exact absurd h (by simp [waitStep])
    | unlock => exact absurd h (by simp [waitStep])
    | panicked msg => exact absurd h (by simp [waitStep])
  · intro pc c' h
    cases pc with
    | check =>
      rw [waitStep_check] at h
      split_ifs at h
    | acquire =>
      rw [waitStep_acquire] at h ⊢
      by_cases hs : 0 < c'.sema
      · rw [if_pos hs]
        exact ⟨rfl, hs, by dsimp only; omega⟩
      · rw [if_neg hs] at h
        exact absurd h (by simp)
    | lock => exact absurd h (by simp [waitStep])
    | returned => exact absurd h (by simp [waitStep])
    | add => exact absurd h (by simp [waitStep])
    | unlock => exact absurd h (by simp [waitStep])
    | panicked msg => exact absurd h (by simp [waitStep])

/-- Instance of `Wait_order`: a `Wait` on a fresh `Cond` at address 64 that gets its
permit from another goroutine before its fourth step has returned after five steps;
with no permit it is still blocked in the acquire. -/
theorem Wait_order_witness :
    (waitRun 64 [id, id, id, releaseOne, id] .check ⟨0, 0, 0⟩ []).1 = .returned ∧
    (waitRun 64 [id, id, id, releaseOne, id] .check ⟨0, 0, 0⟩ []).2.2 =
      [CondCall.check, CondCall.AddUint32 1, CondCall.LUnlock, CondCall.Syncsemacquire,
        CondCall.LLock] ∧
    (waitRun 64 [id, id, id, id, id, id] .check ⟨0, 0, 0⟩ []).1 = .acquire :=
  ⟨by decide,
    (Wait_order 64 [id, id, id, releaseOne, id] ⟨0, 0, 0⟩).2.1 (by decide),
    by decide⟩

/-- C24. Copy detection of `Cond`. On a checker located at address `a` and holding
`v`, `copyChecker.check` panics, with "sync.Cond is copied", if and only if `v != 0`
and `v != a`; if `v = 0` it stores `a` and does not panic; if `v = a` it changes
nothing. Hence, for an address `a` other than nil, after a first use at `a` of a fresh
`Cond` (by `Wait`, `Signal` or `Broadcast`) the checker holds `a`, and on every byte
copy located at another address `b`, whose checker holds `a`, `Wait`, `Signal` and
`Broadcast` panic in the copy check, before any other call. -/
theorem copy_detection (a v : Nat) :
    ((∃ msg, copyChecker.check a v = .panic msg) ↔ v ≠ 0 ∧ v ≠ a) ∧
    (v ≠ 0 → v ≠ a → copyChecker.check a v = .panic "sync.Cond is copied") ∧
    (v = 0 → copyChecker.check a v = .ok a) ∧
    (v = a → copyChecker.check a v = .ok v) ∧
    (∀ (c : Cond) (all : Bool) (fuel : Nat), c.checker = 0 → 0 < fuel → c.waiters < 2 ^ 32 →
      (waitStep a .check c).2.1.checker = a ∧
      ∃ c' calls, signalImpl all a fuel c = .ok (c', calls) ∧ c'.checker = a) ∧
    (∀ (b : Nat) (c : Cond) (env : List (Cond → Cond)) (fuel : Nat),
      a ≠ 0 → b ≠ a → c.checker = a →
      waitStep b .check c = (.panicked "sync.Cond is copied", c, []) ∧
      (waitRun b (id :: env) .check c []).1 = .panicked "sync.Cond is copied" ∧
      (waitRun b (id :: env) .check c []).2.2 = [] ∧
      Signal b fuel c = .panic "sync.Cond is copied" ∧
      Broadcast b fuel c = .panic "sync.Cond is copied") := by
  refine ⟨?_, ?_, ?_, ?_, ?_, ?_⟩
  · rw [check_eq]
    constructor
    · rintro ⟨msg, h⟩
      by_cases h1 : v = a
      · rw [if_pos h1] at h; exact absurd h (by simp)
      · rw [if_neg h1] at h
        by_cases h2 : v = 0
        · rw [if_pos h2] at h; exact absurd h (by simp)
        · exact ⟨h2, h1⟩
    · rintro ⟨h2, h1⟩
      rw [if_neg h1, if_neg h2]
      exact ⟨_, rfl⟩
  · intro h2 h1
    rw [check_eq, if_neg h1, if_neg h2]
  · intro h2
    rw [check_eq]
    by_cases h1 : v = a
    · rw [if_pos h1, h1]
    · rw [if_neg h1, if_pos h2]
  · intro h1
    rw [check_eq, if_pos h1]
  · intro c all fuel hc hf hw
    obtain ⟨sema, w, chk⟩ := c
    dsimp only at hc hw
    subst hc
    constructor
    · rw [waitStep_check]
      by_cases h1 : (0 : Nat) = a
      · rw [if_pos h1]; exact h1
      · rw [if_neg h1, if_pos rfl]
    · rw [signalImpl_eq all a fuel _ (Or.inl rfl), signalLoop_eq all fuel _ hf hw]
      split_ifs <;> exact ⟨_, _, rfl, rfl⟩
  · intro b c env fuel ha hb hc
    have h0 : c.checker ≠ 0 := by rw [hc]; exact ha
    have h1 : c.checker ≠ b := by rw [hc]; exact fun h => hb h.symm
    have hstep : waitStep b .check c = (.panicked "sync.Cond is copied", c, []) := by
      rw [waitStep_check, if_neg h1, if_neg h0]
    have hrun : waitRun b (id :: env) .check c [] =
        waitRun b env (.panicked "sync.Cond is copied") c [] := by
      rw [waitRun, id, hstep]
      rfl
    refine ⟨hstep, ?_, ?_, signalImpl_copied false b fuel c h0 h1,
      signalImpl_copied true b fuel c h0 h1⟩
    · rw [hrun]; exact (waitRun_panicked b env _ c []).1
    · rw [hrun]; exact (waitRun_panicked b env _ c []).2

/-- Instance of `copy_detection`: a `Cond` first used at address 64 and copied to
address 128. -/
theorem copy_detection_witness :
    copyChecker.check 64 0 = .ok 64 ∧
    copyChecker.check 128 64 = .panic "sync.Cond is copied" ∧
    Signal 128 1 ⟨0, 3, 64⟩ = .panic "sync.Cond is copied" ∧
    waitStep 128 .check ⟨0, 3, 64⟩ = (.panicked "sync.Cond is copied", ⟨0, 3, 64⟩, []) :=
  ⟨(copy_detection 64 0).2.2.1 rfl,
    (copy_detection 128 64).2.1 (by decide) (by decide),
    ((copy_detection 64 0).2.2.2.2.2 128 ⟨0, 3, 64⟩ [] 1 (by decide) (by decide) rfl).2.2.2.1,
    ((copy_detection 64 0).2.2.2.2.2 128 ⟨0, 3, 64⟩ [] 1 (by decide) (by decide) rfl).1⟩

end sync

/-! ## `sync.Pool` -/

namespace sync

theorem indexLocal_set_self (shards : List poolLocal) (i : Nat) (l : poolLocal)
    (h : i < shards.length) : indexLocal (shards.set i l) i = l := by
  rw [indexLocal, List.getD_eq_getElem?_getD, List.getElem?_set_self h]
  rfl

theorem indexLocal_set_ne (shards : List poolLocal) (i j : Nat) (l : poolLocal)
    (h : i ≠ j) : indexLocal (shards.set i l) j = indexLocal shards j := by
  rw [indexLocal, indexLocal, List.getD_eq_getElem?_getD, List.getD_eq_getElem?_getD,
    List.getElem?_set_ne h]

theorem indexLocal_replicate (n i : Nat) :
    indexLocal (List.replicate n ⟨none, []⟩) i = ⟨none, []⟩ := by
  rw [indexLocal, List.getD_eq_getElem?_getD, List.getElem?_replicate]
  split_ifs <;> rfl

theorem set_indexLocal_self (shards : List poolLocal) (i : Nat) :
    shards.set i (indexLocal shards i) = shards := by
  by_cases h : i < shards.length
  · apply List.ext_getElem?
    intro j
    by_cases e : i = j
    · subst e
      rw [List.getElem?_set_self h, indexLocal, List.getD_eq_getElem?_getD,
        List.getElem?_eq_getElem h]
      rfl
    · rw [List.getElem?_set_ne e]
  · exact List.set_eq_of_length_le (by omega)

theorem Pools.store_pool (st : Pools) (p i : Nat) (l : poolLocal) :
    (st.store p i l).pool p = { (st.pool p) with shards := (st.pool p).shards.set i l } := by
  unfold Pools.store
  exact Function.update_same _ _ _

theorem Pools.store_allPools (st : Pools) (p i : Nat) (l : poolLocal) :
    (st.store p i l).allPools = st.allPools := rfl

theorem pop_nil (l : poolLocal) (h : l.shared = []) : l.pop = (l, none) := by
  unfold poolLocal.pop
  rw [if_neg (by rw [h]; decide)]

theorem pop_concat (l : poolLocal) (ys : List (Option Nat)) (y : Option Nat)
    (h : l.shared = ys ++ [y]) : l.pop = ({ l with shared := ys }, y) := by
  unfold poolLocal.pop
  have hlen : l.shared.length = ys.length + 1 := by rw [h, List.length_append]; rfl
  rw [if_pos (by omega), hlen, Nat.add_sub_cancel, h, List.take_left,
    List.getD_eq_getElem?_getD, List.getElem?_concat_length]
  rfl

theorem pop_priv (l : poolLocal) : l.pop.1.priv = l.priv := by
  unfold poolLocal.pop
  split_ifs <;> rfl

/-- With a worker index inside the shard array, `pin` changes nothing. -/
theorem pin_of_lt (procs pid p : Nat) (st : Pools) (h : pid < (st.pool p).localSize) :
    Pool.pin procs pid p st = st := by
  unfold Pool.pin
  rw [if_pos h]

/-- Otherwise `pin` replaces the shard array by a fresh one of `procs` empty shards. -/
theorem pin_fresh (procs pid p : Nat) (st : Pools) (h : ¬ pid < (st.pool p).localSize) :
    (Pool.pin procs pid p st).pool p =
      ⟨List.replicate procs ⟨none, []⟩, false, procs, (st.pool p).New⟩ := by
  unfold Pool.pin Pool.pinSlow
  rw [if_neg h, if_neg h]
  exact Function.update_same _ _ _

/-- After `pin` the worker has its shard, and its private slot is empty unless it was
the worker's shard before and occupied. -/
theorem pin_spec (procs pid p : Nat) (st : Pools) (hp : pid < procs)
    (hlen : (st.pool p).shards.length = (st.pool p).localSize) :
    pid < ((Pool.pin procs pid p st).pool p).localSize ∧
    ((Pool.pin procs pid p st).pool p).shards.length
      = ((Pool.pin procs pid p st).pool p).localSize ∧
    ((Pool.pin procs pid p st).pool p).New = (st.pool p).New ∧
    (pid < (st.pool p).localSize → Pool.pin procs pid p st = st) ∧
    (¬ pid < (st.pool p).localSize →
      ((Pool.pin procs pid p st).pool p).shards = List.replicate procs ⟨none, []⟩) := by
  by_cases h : pid < (st.pool p).localSize
  · rw [pin_of_lt procs pid p st h]
    exact ⟨h, hlen, rfl, fun _ => rfl, fun h2 => absurd h h2⟩
  · rw [pin_fresh procs pid p st h]
    exact ⟨hp, List.length_replicate _ _, rfl, fun h2 => absurd h2 h, fun _ => rfl⟩

/-- The fast path of `Get`: a non-nil private item is returned. -/
theorem Get_private (procs pid p : Nat) (st : Pools) (x : Nat)
    (hpid : pid < (st.pool p).localSize)
    (hx : (indexLocal (st.pool p).shards pid).priv = some x) :
    (Pool.Get procs pid p st).x = some x ∧ (Pool.Get procs pid p st).newCalls = 0 ∧
    (Pool.Get procs pid p st).st =
      st.store p pid { (indexLocal (st.pool p).shards pid) with priv := none } := by
  unfold Pool.Get
  rw [pin_of_lt procs pid p st hpid]
  dsimp only
  rw [if_pos (by rw [hx]; simp)]
  exact ⟨hx, rfl, rfl⟩

/-- A `Put` into an empty private slot fills it. -/
theorem Put_private (procs pid p : Nat) (st : Pools) (x : Nat)
    (hpid : pid < (st.pool p).localSize)
    (hx : (indexLocal (st.pool p).shards pid).priv = none) :
    Pool.Put procs pid p (some x) st =
      st.store p pid { (indexLocal (st.pool p).shards pid) with priv := some x } := by
  unfold Pool.Put
  rw [if_neg (by simp), pin_of_lt procs pid p st hpid]
  dsimp only
  rw [if_pos hx]

/-- A `Put` into an occupied private slot appends to the shared list. -/
theorem Put_shared (procs pid p : Nat) (st : Pools) (x : Nat)
    (hpid : pid < (st.pool p).localSize)
    (hx : (indexLocal (st.pool p).shards pid).priv ≠ none) :
    Pool.Put procs pid p (some x) st =
      st.store p pid { (indexLocal (st.pool p).shards pid) with
        shared := (indexLocal (st.pool p).shards pid).shared ++ [some x] } := by
  unfold Pool.Put
  rw [if_neg (by simp), pin_of_lt procs pid p st hpid]
  dsimp only
  rw [if_neg hx]

/-- C25, as stated, fails when the private slot of the worker's shard is occupied: on
a pool whose only shard holds the item 7 in its private slot, `Put(5)` followed by
`Get()` on the same worker returns 7; the item 5 stays on the shared list. -/
theorem Put_Get_counterexample :
    (Pool.Get 1 0 1 (Pool.Put 1 0 1 (some 5) busyPool)).x = some 7 ∧
    (indexLocal ((Pool.Get 1 0 1 (Pool.Put 1 0 1 (some 5) busyPool)).st.pool 1).shards 0).shared
      = [some 5] := by
  decide

/-- The method `Put` on a non-nil item, after its `pin`. -/
theorem Put_eq (procs pid p : Nat) (st : Pools) (x : Nat) :
    Pool.Put procs pid p (some x) st =
      if (indexLocal ((Pool.pin procs pid p st).pool p).shards pid).priv = none then
        (Pool.pin procs pid p st).store p pid
          { (indexLocal ((Pool.pin procs pid p st).pool p).shards pid) with priv := some x }
      else
        (Pool.pin procs pid p st).store p pid
          { (indexLocal ((Pool.pin procs pid p st).pool p).shards pid) with
            shared := (indexLocal ((Pool.pin procs pid p st).pool p).shards pid).shared
              ++ [some x] } := by
  unfold Pool.Put
  rw [if_neg (fun h => Option.noConfusion h)]

/-- C25 (amended). Round trip of `Put` and `Get` through the private slot: for every
pool, every worker `pid` below `GOMAXPROCS` and every non-nil item `x`, if the private
slot of the worker's shard is empty (as it is when the worker has no shard yet and
`pin` makes a fresh array), then `Put(x)` immediately followed by `Get()` on the same
worker returns exactly `x`, without a call of `New`. -/
theorem Put_Get_round_trip (procs pid p : Nat) (st : Pools) (x : Nat) (hp : pid < procs)
    (hlen : (st.pool p).shards.length = (st.pool p).localSize)
    (hpriv : pid < (st.pool p).localSize → (indexLocal (st.pool p).shards pid).priv = none) :
    (Pool.Get procs pid p (Pool.Put procs pid p (some x) st)).x = some x ∧
    (Pool.Get procs pid p (Pool.Put procs pid p (some x) st)).newCalls = 0 := by
  obtain ⟨h1, h2, -, h4, h5⟩ := pin_spec procs pid p st hp hlen
  have hnone : (indexLocal ((Pool.pin procs pid p st).pool p).shards pid).priv = none := by
    by_cases h : pid < (st.pool p).localSize
    · rw [h4 h]; exact hpriv h
    · rw [h5 h, indexLocal_replicate]
  rw [Put_eq, if_pos hnone]
  have hpid2 : pid < (((Pool.pin procs pid p st).store p pid
      { (indexLocal ((Pool.pin procs pid p st).pool p).shards pid) with
        priv := some x }).pool p).localSize := by
    rw [Pools.store_pool]; exact h1
  have hx2 : (indexLocal (((Pool.pin procs pid p st).store p pid
      { (indexLocal ((Pool.pin procs pid p st).pool p).shards pid) with
        priv := some x }).pool p).shards pid).priv = some x := by
    rw [Pools.store_pool]
    dsimp only
    rw [indexLocal_set_self _ _ _ (by omega)]
  obtain ⟨r1, r2, -⟩ := Get_private procs pid p _ x hpid2 hx2
  exact ⟨r1, r2⟩

/-- Instance of `Put_Get_round_trip` on a pool that has no shard array yet. -/
theorem Put_Get_round_trip_witness :
    (Pool.Get 2 1 1 (Pool.Put 2 1 1 (some 5) ⟨fun _ => ⟨[], true, 0, none⟩, []⟩)).x = some 5 :=
  (Put_Get_round_trip 2 1 1 ⟨fun _ => ⟨[], true, 0, none⟩, []⟩ 5 (by decide) rfl
    (fun h => absurd h (by decide))).1


/-- The loop of `getSlow` finds nothing when the shared lists it visits are empty. -/
theorem steal_none (pid size : Nat) (n i : Nat) (shards : List poolLocal)
    (h : ∀ j, i ≤ j → j < i + n → (indexLocal shards ((pid + j + 1) % size)).shared = []) :
    Pool.steal pid size n i shards = (shards, none) := by
  induction n generalizing i with
  | zero => rfl
  | succ n ih =>
    unfold Pool.steal
    rw [if_neg (by rw [h i (le_refl _) (by omega)]; decide)]
    exact ih (i + 1) (fun j h1 h2 => h j (by omega) (by omega))

/-- The loop of `getSlow` pops from the first non-empty shared list it visits. -/
theorem steal_found (pid size : Nat) (n i k : Nat) (shards : List poolLocal)
    (hik : i ≤ k) (hk : k < i + n)
    (h : ∀ j, i ≤ j → j < k → (indexLocal shards ((pid + j + 1) % size)).shared = [])
    (hne : 1 ≤ (indexLocal shards ((pid + k + 1) % size)).shared.length) :
    Pool.steal pid size n i shards =
      (shards.set ((pid + k + 1) % size) (indexLocal shards ((pid + k + 1) % size)).pop.1,
        (indexLocal shards ((pid + k + 1) % size)).pop.2) := by
  induction n generalizing i with
  | zero => omega
  | succ n ih =>
    unfold Pool.steal
    by_cases e : i = k
    · subst e
      rw [if_pos hne]
    · rw [if_neg (by rw [h i (le_refl _) (by omega)]; decide)]
      exact ih (i + 1) (by omega) (by omega) (fun j h1 h2 => h j (by omega) h2)

/-- The loop of `getSlow` never touches a private slot. -/
theorem steal_priv (pid size : Nat) (n i : Nat) (shards : List poolLocal) (j : Nat) :
    (indexLocal (Pool.steal pid size n i shards).1 j).priv = (indexLocal shards j).priv := by
  induction n generalizing i with
  | zero => rfl
  | succ n ih =>
    unfold Pool.steal
    split_ifs with h
    · dsimp only
      by_cases e : (pid + i + 1) % size = j
      · by_cases hl : (pid + i + 1) % size < shards.length
        · rw [← e, indexLocal_set_self _ _ _ hl, pop_priv]
        · rw [List.set_eq_of_length_le (by omega)]
      · rw [indexLocal_set_ne _ _ _ _ e]
    · exact ih (i + 1)

/-- The method `getSlow` in terms of its loop. -/
theorem getSlow_spec (pid p : Nat) (st : Pools) (sh : List poolLocal) (y : Option Nat)
    (hs : Pool.steal pid (st.pool p).localSize (st.pool p).localSize 0 (st.pool p).shards
      = (sh, y)) :
    ((Pool.getSlow pid p st).st.pool p).shards = sh ∧
    (y ≠ none → (Pool.getSlow pid p st).x = y ∧ (Pool.getSlow pid p st).newCalls = 0) ∧
    (y = none → ∀ v, (st.pool p).New = some v →
      (Pool.getSlow pid p st).x = v ∧ (Pool.getSlow pid p st).newCalls = 1) ∧
    (y = none → (st.pool p).New = none →
      (Pool.getSlow pid p st).x = none ∧ (Pool.getSlow pid p st).newCalls = 0) := by
  unfold Pool.getSlow
  dsimp only
  rw [hs]
  dsimp only
  cases hN : (st.pool p).New with
  | none =>
    dsimp only
    refine ⟨?_, ?_, ?_, ?_⟩
    · rw [Function.update_same]
    · intro _; exact ⟨rfl, rfl⟩
    · intro _ v hv; exact Option.noConfusion hv
    · intro hy _; exact ⟨hy, rfl⟩
  | some v =>
    dsimp only
    by_cases hy : y = none
    · rw [if_pos hy]
      refine ⟨?_, ?_, ?_, ?_⟩
      · dsimp only; rw [Function.update_same]
      · intro h; exact absurd hy h
      · intro _ w hw; rw [Option.some.inj hw]; exact ⟨rfl, rfl⟩
      · intro _ h; exact Option.noConfusion h
    · rw [if_neg hy]
      refine ⟨?_, ?_, ?_, ?_⟩
      · dsimp only; rw [Function.update_same]
      · intro _; exact ⟨rfl, rfl⟩
      · intro h; exact absurd h hy
      · intro h; exact absurd h hy


/-- The method `Get` of a worker that has its shard, after the private slot. -/
theorem Get_eq (procs pid p : Nat) (st : Pools) (hpid : pid < (st.pool p).localSize) :
    Pool.Get procs pid p st =
      if (indexLocal (st.pool p).shards pid).priv ≠ none then
        ⟨st.store p pid { (indexLocal (st.pool p).shards pid) with priv := none },
          (indexLocal (st.pool p).shards pid).priv, 0⟩
      else if (poolLocal.pop ⟨none, (indexLocal (st.pool p).shards pid).shared⟩).2 ≠ none then
        ⟨st.store p pid (poolLocal.pop ⟨none, (indexLocal (st.pool p).shards pid).shared⟩).1,
          (poolLocal.pop ⟨none, (indexLocal (st.pool p).shards pid).shared⟩).2, 0⟩
      else
        Pool.getSlow pid p
          (st.store p pid (poolLocal.pop ⟨none, (indexLocal (st.pool p).shards pid).shared⟩).1)
    := by
  unfold Pool.Get
  rw [pin_of_lt procs pid p st hpid]

/-- The slow path of `Get` when the caller's shard is empty: the shard array is the
one before the call, and `getSlow` runs its loop on it. -/
theorem Get_slow (procs pid p : Nat) (st : Pools) (hpid : pid < (st.pool p).localSize)
    (hpriv : (indexLocal (st.pool p).shards pid).priv = none)
    (hsh : (indexLocal (st.pool p).shards pid).shared = []) :
    Pool.Get procs pid p st = Pool.getSlow pid p (st.store p pid ⟨none, []⟩) ∧
    ((st.store p pid ⟨none, []⟩).pool p) = st.pool p := by
  have hl : indexLocal (st.pool p).shards pid = ⟨none, []⟩ := by
    rw [← hpriv, ← hsh]
  constructor
  · rw [Get_eq procs pid p st hpid, if_neg (by rw [hpriv]; simp), hsh,
      pop_nil ⟨none, []⟩ rfl, if_neg (by simp)]
  · rw [Pools.store_pool, ← hl, set_indexLocal_self]

/-- A `Get` on a pool in which the caller's private slot and all shared lists are empty:
the result of one call of `New`, or nil. -/
theorem Get_empty (procs pid p : Nat) (st : Pools) (hpid : pid < (st.pool p).localSize)
    (hpriv : (indexLocal (st.pool p).shards pid).priv = none)
    (hempty : ∀ j, j < (st.pool p).localSize → (indexLocal (st.pool p).shards j).shared = []) :
    ((Pool.Get procs pid p st).st.pool p).shards = (st.pool p).shards ∧
    (∀ v, (st.pool p).New = some v →
      (Pool.Get procs pid p st).x = v ∧ (Pool.Get procs pid p st).newCalls = 1) ∧
    ((st.pool p).New = none →
      (Pool.Get procs pid p st).x = none ∧ (Pool.Get procs pid p st).newCalls = 0) := by
  have hsh := hempty pid hpid
  obtain ⟨e1, e2⟩ := Get_slow procs pid p st hpid hpriv hsh
  have hs := steal_none pid (st.pool p).localSize (st.pool p).localSize 0
    (st.pool p).shards (fun j _ _ => hempty _ (Nat.mod_lt _ (by omega)))
  rw [e1]
  obtain ⟨g1, -, g3, g4⟩ := getSlow_spec pid p (st.store p pid ⟨none, []⟩)
    (st.pool p).shards none (by rw [e2]; exact hs)
  exact ⟨g1, fun v hv => g3 rfl v (by rw [e2]; exact hv),
    fun hN => g4 rfl (by rw [e2]; exact hN)⟩

/-- The method `Get` starts with `pin`, and a second `pin` changes nothing. -/
theorem Get_pin (procs pid p : Nat) (st : Pools)
    (h : pid < ((Pool.pin procs pid p st).pool p).localSize) :
    Pool.Get procs pid p st = Pool.Get procs pid p (Pool.pin procs pid p st) := by
  unfold Pool.Get
  rw [pin_of_lt procs pid p (Pool.pin procs pid p st) h]

/-- Lookup order of `Pool.Get` for a worker `pid` that has its shard: the private
item, else the last element of the own shared list, else the last element of the first
non-empty shared list among the other shards, else the result of `New`, else nil. -/
theorem Get_of_shard (procs pid p : Nat) (st : Pools)
    (hpid : pid < (st.pool p).localSize)
    (hlen : (st.pool p).shards.length = (st.pool p).localSize) :
    (∀ x, (indexLocal (st.pool p).shards pid).priv = some x →
      (Pool.Get procs pid p st).x = some x ∧ (Pool.Get procs pid p st).newCalls = 0 ∧
      ((Pool.Get procs pid p st).st.pool p).shards = (st.pool p).shards.set pid
        ⟨none, (indexLocal (st.pool p).shards pid).shared⟩) ∧
    (∀ ys y, (indexLocal (st.pool p).shards pid).priv = none →
      (indexLocal (st.pool p).shards pid).shared = ys ++ [some y] →
      (Pool.Get procs pid p st).x = some y ∧ (Pool.Get procs pid p st).newCalls = 0 ∧
      ((Pool.Get procs pid p st).st.pool p).shards = (st.pool p).shards.set pid ⟨none, ys⟩) ∧
    (∀ d ys y, (indexLocal (st.pool p).shards pid).priv = none →
      (indexLocal (st.pool p).shards pid).shared = [] →
      1 ≤ d → d < (st.pool p).localSize →
      (∀ j, 1 ≤ j → j < d →
        (indexLocal (st.pool p).shards ((pid + j) % (st.pool p).localSize)).shared = []) →
      (indexLocal (st.pool p).shards ((pid + d) % (st.pool p).localSize)).shared
        = ys ++ [some y] →
      (Pool.Get procs pid p st).x = some y ∧ (Pool.Get procs pid p st).newCalls = 0 ∧
      ((Pool.Get procs pid p st).st.pool p).shards =
        (st.pool p).shards.set ((pid + d) % (st.pool p).localSize)
          ⟨(indexLocal (st.pool p).shards ((pid + d) % (st.pool p).localSize)).priv, ys⟩) ∧
    ((indexLocal (st.pool p).shards pid).priv = none →
      (∀ j, j < (st.pool p).localSize → (indexLocal (st.pool p).shards j).shared = []) →
      ((Pool.Get procs pid p st).st.pool p).shards = (st.pool p).shards ∧
      (∀ v, (st.pool p).New = some v →
        (Pool.Get procs pid p st).x = v ∧ (Pool.Get procs pid p st).newCalls = 1) ∧
      ((st.pool p).New = none →
        (Pool.Get procs pid p st).x = none ∧ (Pool.Get procs pid p st).newCalls = 0)) ∧
    (indexLocal ((Pool.Get procs pid p st).st.pool p).shards pid).priv = none := by
  have hpl : pid < (st.pool p).shards.length := by omega
  refine ⟨?_, ?_, ?_, ?_, ?_⟩
  · intro x hx
    obtain ⟨r1, r2, r3⟩ := Get_private procs pid p st x hpid hx
    refine ⟨r1, r2, ?_⟩
    rw [r3, Pools.store_pool]
  · intro ys y hpriv hsh
    rw [Get_eq procs pid p st hpid, if_neg (by rw [hpriv]; simp), hsh,
      pop_concat ⟨none, ys ++ [some y]⟩ ys (some y) rfl, if_pos (by simp)]
    refine ⟨rfl, rfl, ?_⟩
    dsimp only
    rw [Pools.store_pool]
  · intro d ys y hpriv hsh hd1 hd2 hempty hfound
    obtain ⟨e1, e2⟩ := Get_slow procs pid p st hpid hpriv hsh
    have hs := steal_found pid (st.pool p).localSize (st.pool p).localSize 0 (d - 1)
      (st.pool p).shards (Nat.zero_le _) (by omega)
      (fun j _ h2 => by
        have := hempty (j + 1) (by omega) (by omega)
        rw [← Nat.add_assoc] at this
        exact this)
      (by
        have e : pid + (d - 1) + 1 = pid + d := by omega
        rw [e, hfound, List.length_append]
        exact Nat.le_add_left _ _)
    have e : pid + (d - 1) + 1 = pid + d := by omega
    rw [e, pop_concat _ ys (some y) hfound] at hs
    dsimp only at hs
    rw [e1]
    obtain ⟨g1, g2, -, -⟩ := getSlow_spec pid p (st.store p pid ⟨none, []⟩)
      ((st.pool p).shards.set ((pid + d) % (st.pool p).localSize)
        ⟨(indexLocal (st.pool p).shards ((pid + d) % (st.pool p).localSize)).priv, ys⟩)
      (some y) (by rw [e2]; exact hs)
    exact ⟨(g2 (by simp)).1, (g2 (by simp)).2, g1⟩
  · intro hpriv hempty
    exact Get_empty procs pid p st hpid hpriv hempty
  · rw [Get_eq procs pid p st hpid]
    split_ifs with c1 c2
    · dsimp only
      rw [Pools.store_pool]
      dsimp only
      rw [indexLocal_set_self _ _ _ hpl]
    · dsimp only
      rw [Pools.store_pool]
      dsimp only
      rw [indexLocal_set_self _ _ _ hpl, pop_priv]
    · obtain ⟨g1, -⟩ := getSlow_spec pid p
        (st.store p pid (poolLocal.pop ⟨none, (indexLocal (st.pool p).shards pid).shared⟩).1)
        _ _ rfl
      rw [g1, steal_priv, Pools.store_pool]
      dsimp only
      rw [indexLocal_set_self _ _ _ hpl, pop_priv]

/-- A `Get` by a worker that has no shard yet: `pin` replaces the shard array by
`procs` empty shards, and the result is that of one call of `New`, or nil. -/
theorem Get_fresh (procs pid p : Nat) (st : Pools) (h : ¬ pid < (st.pool p).localSize)
    (hp : pid < procs) :
    ((Pool.Get procs pid p st).st.pool p).shards = List.replicate procs ⟨none, []⟩ ∧
    (∀ v, (st.pool p).New = some v →
      (Pool.Get procs pid p st).x = v ∧ (Pool.Get procs pid p st).newCalls = 1) ∧
    ((st.pool p).New = none →
      (Pool.Get procs pid p st).x = none ∧ (Pool.Get procs pid p st).newCalls = 0) := by
  have hq := pin_fresh procs pid p st h
  have hlt : pid < ((Pool.pin procs pid p st).pool p).localSize := by rw [hq]; exact hp
  rw [Get_pin procs pid p st hlt]
  obtain ⟨e1, e2, e3⟩ := Get_empty procs pid p (Pool.pin procs pid p st) hlt
    (by rw [hq]; dsimp only; rw [indexLocal_replicate])
    (fun j _ => by rw [hq]; dsimp only; rw [indexLocal_replicate])
  rw [hq] at e1 e2 e3
  exact ⟨e1, e2, e3⟩

/-- C27, as stated, fails when the worker has no shard yet: on the pool of three
shards whose third shard holds the items 4 and 9 in its shared list, with
`GOMAXPROCS` raised to 4, `Get` on worker 3 makes `pin` replace the array by four
fresh shards and returns nil (`New` is nil), not the item 9 of the first non-empty
shared list among the other shards; that list is dropped. -/
theorem Get_fresh_array_counterexample :
    (indexLocal (stealPool.pool 1).shards 2).shared = [some 4, some 9] ∧
    (stealPool.pool 1).New = none ∧
    (Pool.Get 4 3 1 stealPool).x = none ∧
    ((Pool.Get 4 3 1 stealPool).st.pool 1).shards
      = [⟨none, []⟩, ⟨none, []⟩, ⟨none, []⟩, ⟨none, []⟩] := by
  decide

/-- C27 (amended). Lookup order of `Pool.Get` on worker `pid`, without interference.
When the worker has its shard (`pid < localSize`, the array having `localSize`
shards), `Get` returns the private item of the caller's shard if that is non-nil,
emptying the slot; otherwise the last element of the caller's shared list if the list
is non-empty, removing it; otherwise the last element of the first non-empty shared
list among the other shards, taken in the order `pid+1, pid+2, ...` modulo the number
of shards, removing it; otherwise, all shared lists being empty, the result of one
call of `New` if `New` is non-nil, and nil with no call otherwise.  When the worker has
no shard yet (`localSize <= pid < GOMAXPROCS`), `pin` replaces the array by
`GOMAXPROCS` empty shards, which drops the items of all shards, and `Get` returns the
result of one call of `New` if `New` is non-nil, and nil with no call otherwise.  In
every case the private slot of the caller's shard is nil afterwards. -/
theorem Get_lookup_order (procs pid p : Nat) (st : Pools) :
    (pid < (st.pool p).localSize →
      (st.pool p).shards.length = (st.pool p).localSize →
      ((∀ x, (indexLocal (st.pool p).shards pid).priv = some x →
        (Pool.Get procs pid p st).x = some x ∧ (Pool.Get procs pid p st).newCalls = 0 ∧
        ((Pool.Get procs pid p st).st.pool p).shards = (st.pool p).shards.set pid
          ⟨none, (indexLocal (st.pool p).shards pid).shared⟩) ∧
      (∀ ys y, (indexLocal (st.pool p).shards pid).priv = none →
        (indexLocal (st.pool p).shards pid).shared = ys ++ [some y] →
        (Pool.Get procs pid p st).x = some y ∧ (Pool.Get procs pid p st).newCalls = 0 ∧
        ((Pool.Get procs pid p st).st.pool p).shards = (st.pool p).shards.set pid ⟨none, ys⟩) ∧
      (∀ d ys y, (indexLocal (st.pool p).shards pid).priv = none →
        (indexLocal (st.pool p).shards pid).shared = [] →
        1 ≤ d → d < (st.pool p).localSize →
        (∀ j, 1 ≤ j → j < d →
          (indexLocal (st.pool p).shards ((pid + j) % (st.pool p).localSize)).shared = []) →
        (indexLocal (st.pool p).shards ((pid + d) % (st.pool p).localSize)).shared
          = ys ++ [some y] →
        (Pool.Get procs pid p st).x = some y ∧ (Pool.Get procs pid p st).newCalls = 0 ∧
        ((Pool.Get procs pid p st).st.pool p).shards =
          (st.pool p).shards.set ((pid + d) % (st.pool p).localSize)
            ⟨(indexLocal (st.pool p).shards ((pid + d) % (st.pool p).localSize)).priv, ys⟩) ∧
      ((indexLocal (st.pool p).shards pid).priv = none →
        (∀ j, j < (st.pool p).localSize → (indexLocal (st.pool p).shards j).shared = []) →
        ((Pool.Get procs pid p st).st.pool p).shards = (st.pool p).shards ∧
        (∀ v, (st.pool p).New = some v →
          (Pool.Get procs pid p st).x = v ∧ (Pool.Get procs pid p st).newCalls = 1) ∧
        ((st.pool p).New = none →
          (Pool.Get procs pid p st).x = none ∧ (Pool.Get procs pid p st).newCalls = 0)) ∧
      (indexLocal ((Pool.Get procs pid p st).st.pool p).shards pid).priv = none)) ∧
    (¬ pid < (st.pool p).localSize → pid < procs →
      ((Pool.Get procs pid p st).st.pool p).shards = List.replicate procs ⟨none, []⟩ ∧
      (∀ v, (st.pool p).New = some v →
        (Pool.Get procs pid p st).x = v ∧ (Pool.Get procs pid p st).newCalls = 1) ∧
      ((st.pool p).New = none →
        (Pool.Get procs pid p st).x = none ∧ (Pool.Get procs pid p st).newCalls = 0) ∧
      (indexLocal ((Pool.Get procs pid p st).st.pool p).shards pid).priv = none) := by
  refine ⟨fun hpid hlen => Get_of_shard procs pid p st hpid hlen, fun h hp => ?_⟩
  obtain ⟨e1, e2, e3⟩ := Get_fresh procs pid p st h hp
  refine ⟨e1, e2, e3, ?_⟩
  rw [e1, indexLocal_replicate]

/-- Instance of `Get_lookup_order`: worker 0 of a pool of three shards steals the last
item of the shared list of shard 2, the first non-empty one after its own. -/
theorem Get_lookup_order_witness :
    (Pool.Get 3 0 1 stealPool).x = some 9 ∧
    ((Pool.Get 3 0 1 stealPool).st.pool 1).shards
      = [⟨none, []⟩, ⟨none, []⟩, ⟨some 3, [some 4]⟩] :=
  have h := ((Get_lookup_order 3 0 1 stealPool).1 (by decide) (by decide)).2.2.1 2 [some 4] 9
    (by decide) (by decide) (by decide) (by decide)
    (fun j h1 h2 => by
      have e : j = 1 := by omega
      subst e
      decide)
    (by decide)
  ⟨h.1, h.2.2⟩

theorem clearShards_length (n i : Nat) (shards : List poolLocal) :
    (clearShards n i shards).length = shards.length := by
  induction n generalizing i shards with
  | zero => rfl
  | succ n ih => rw [clearShards, ih, List.length_set]

theorem clearShards_get (n i j : Nat) (shards : List poolLocal) :
    (clearShards n i shards)[j]? =
      if i ≤ j ∧ j < i + n ∧ j < shards.length then some ⟨none, []⟩ else shards[j]? := by
  induction n generalizing i shards with
  | zero =>
    rw [clearShards, if_neg (by omega)]
  | succ n ih =>
    rw [clearShards, ih, List.length_set, List.getElem?_set]
    by_cases e : i = j
    · subst e
      by_cases hl : i < shards.length
      · rw [if_neg (by omega), if_pos rfl, if_pos hl, if_pos ⟨le_refl _, by omega, hl⟩]
      · rw [if_neg (by omega), if_pos rfl, if_neg hl, if_neg (by omega)]
        exact (List.getElem?_eq_none (by omega)).symm
    · rw [if_neg e]
      by_cases c : i + 1 ≤ j ∧ j < i + 1 + n ∧ j < shards.length
      · rw [if_pos c, if_pos ⟨by omega, by omega, c.2.2⟩]
      · rw [if_neg c, if_neg (by omega)]

/-- After the inner loops of `poolCleanup` every shard of the array is empty. -/
theorem clearShards_all (shards : List poolLocal) (l : poolLocal)
    (h : l ∈ clearShards shards.length 0 shards) : l = ⟨none, []⟩ := by
  obtain ⟨j, hj⟩ := List.mem_iff_getElem?.mp h
  rw [clearShards_get] at hj
  by_cases c : 0 ≤ j ∧ j < 0 + shards.length ∧ j < shards.length
  · rw [if_pos c] at hj
    exact (Option.some.inj hj).symm
  · rw [if_neg c, List.getElem?_eq_none (by omega)] at hj
    exact Option.noConfusion hj

theorem sweep_sweep (q : Pool) : q.sweep.sweep = q.sweep := rfl

/-- The outer loop of `poolCleanup`: the registered pools are swept, the others are
not touched. -/
theorem sweep_foldl (ps : List Nat) (pool : Nat → Pool) (a : Nat) :
    (ps.foldl (fun pool p => Function.update pool p (pool p).sweep) pool) a =
      if a ∈ ps then (pool a).sweep else pool a := by
  induction ps generalizing pool with
  | nil => simp
  | cons p ps ih =>
    rw [List.foldl_cons, ih]
    by_cases e : a = p
    · subst e
      rw [Function.update_same, sweep_sweep]
      simp
    · rw [Function.update_noteq e]
      simp [e]

/-- C26. Pool sweep. After `poolCleanup`, the registry `allPools` is empty and for
every pool that was registered, whose array has `localSize` shards, the pointer `local`
is nil, `localSize` is 0 and every shard of the former array has an empty private slot
and an empty shared list. Whatever the pool held before the sweep, the next `Get` on it,
by any worker below `GOMAXPROCS`, returns nil without a call of `New` when `New` is nil,
and the result of one call of `New` when `New` is non-nil. -/
theorem poolCleanup_spec (st : Pools) (p procs pid : Nat) (hp : p ∈ st.allPools)
    (hlen : (st.pool p).shards.length = (st.pool p).localSize) (hpid : pid < procs) :
    (poolCleanup st).allPools = [] ∧
    ((poolCleanup st).pool p).localNil = true ∧
    ((poolCleanup st).pool p).localSize = 0 ∧
    ((poolCleanup st).pool p).shards.length = (st.pool p).shards.length ∧
    (∀ l, l ∈ ((poolCleanup st).pool p).shards → l = ⟨none, []⟩) ∧
    ((st.pool p).New = none →
      (Pool.Get procs pid p (poolCleanup st)).x = none ∧
      (Pool.Get procs pid p (poolCleanup st)).newCalls = 0) ∧
    (∀ v, (st.pool p).New = some v →
      (Pool.Get procs pid p (poolCleanup st)).x = v ∧
      (Pool.Get procs pid p (poolCleanup st)).newCalls = 1) := by
  have hq : (poolCleanup st).pool p = (st.pool p).sweep := by
    unfold poolCleanup
    dsimp only
    rw [sweep_foldl, if_pos hp]
  have hfresh : ¬ pid < ((poolCleanup st).pool p).localSize := by
    rw [hq]; exact Nat.not_lt_zero _
  have h1 := pin_fresh procs pid p (poolCleanup st) hfresh
  have hN : ((poolCleanup st).pool p).New = (st.pool p).New := by rw [hq]; rfl
  have hpid1 : pid < ((Pool.pin procs pid p (poolCleanup st)).pool p).localSize := by
    rw [h1]; exact hpid
  have hg := Get_empty procs pid p (Pool.pin procs pid p (poolCleanup st)) hpid1
    (by rw [h1]; dsimp only; rw [indexLocal_replicate])
    (fun j _ => by rw [h1]; dsimp only; rw [indexLocal_replicate])
  rw [← Get_pin procs pid p (poolCleanup st) hpid1] at hg
  have hN1 : ((Pool.pin procs pid p (poolCleanup st)).pool p).New = (st.pool p).New := by
    rw [h1]; exact hN
  rw [hN1] at hg
  refine ⟨rfl, by rw [hq]; rfl, by rw [hq]; rfl, ?_, ?_, hg.2.2, hg.2.1⟩
  · rw [hq]
    exact clearShards_length _ _ _
  · intro l hl
    rw [hq] at hl
    have hl2 : l ∈ clearShards (st.pool p).shards.length 0 (st.pool p).shards := by
      rw [hlen]; exact hl
    exact clearShards_all _ l hl2

/-- Instance of `poolCleanup_spec`: after the sweep of the registered pool at address 1,
whose third shard held three items, `Get` by worker 0 returns nil. -/
theorem poolCleanup_spec_witness :
    (1 ∈ stealPool.allPools ∧ (0 : Nat) < 3) ∧
    ((poolCleanup stealPool).pool 1).shards = [⟨none, []⟩, ⟨none, []⟩, ⟨none, []⟩] ∧
    (Pool.Get 3 0 1 (poolCleanup stealPool)).x = none :=
  ⟨⟨by decide, by decide⟩, by decide,
    ((poolCleanup_spec stealPool 1 3 0 (by decide) (by decide) (by decide)).2.2.2.2.2.1
      rfl).1⟩

end sync

/-! ## `runtime.fixalloc` -/

namespace runtime

theorem FixAllocChunk_eq : _FixAllocChunk = 16384 := rfl

theorem storeWord_at (mem : Nat → Nat) (a v i : Nat) (hi : i < 8) :
    storeWord mem a v (a + i) = v / 2 ^ (8 * i) % 256 := by
  unfold storeWord
  rw [if_pos ⟨Nat.le_add_right _ _, by omega⟩, Nat.add_sub_cancel_left]

theorem storeWord_off (mem : Nat → Nat) (a v b : Nat) (h : b < a ∨ a + 8 ≤ b) :
    storeWord mem a v b = mem b := by
  unfold storeWord
  rw [if_neg (by omega)]

/-- A pointer that has been stored is read back. -/
theorem loadWord_storeWord_same (mem : Nat → Nat) (a v : Nat) (hv : v < 2 ^ 64) :
    loadWord (storeWord mem a v) a = v := by
  unfold loadWord
  have h0 := storeWord_at mem a v 0 (by omega)
  rw [Nat.add_zero] at h0
  rw [h0, storeWord_at mem a v 1 (by omega), storeWord_at mem a v 2 (by omega),
    storeWord_at mem a v 3 (by omega), storeWord_at mem a v 4 (by omega),
    storeWord_at mem a v 5 (by omega), storeWord_at mem a v 6 (by omega),
    storeWord_at mem a v 7 (by omega)]
  norm_num
  omega

/-- A store does not change the word at an address eight bytes or more away. -/
theorem loadWord_storeWord_disjoint (mem : Nat → Nat) (a v b : Nat)
    (h : a + 8 ≤ b ∨ b + 8 ≤ a) : loadWord (storeWord mem a v) b = loadWord mem b := by
  unfold loadWord
  rw [storeWord_off mem a v b (by omega), storeWord_off mem a v (b + 1) (by omega),
    storeWord_off mem a v (b + 2) (by omega), storeWord_off mem a v (b + 3) (by omega),
    storeWord_off mem a v (b + 4) (by omega), storeWord_off mem a v (b + 5) (by omega),
    storeWord_off mem a v (b + 6) (by omega), storeWord_off mem a v (b + 7) (by omega)]

/-- The free-list branch of `fixAlloc_Alloc` (lines 64-69). -/
theorem Alloc_list (chunks : Nat → Nat) (s fst arg list chunk nchunk inuse stat : Nat)
    (mem : Nat → Nat) (n : Nat) (hs : s ≠ 0) (hl : list ≠ 0) :
    fixAlloc_Alloc chunks ⟨⟨s, fst, arg, list, chunk, nchunk, inuse, stat⟩, mem, n⟩ =
      .ok ⟨⟨s, fst, arg, loadWord mem list, chunk, nchunk, (inuse + s) % 2 ^ 64, stat⟩,
          mem, n⟩
        list [] := by
  unfold fixAlloc_Alloc
  rw [if_neg hs, if_pos hl]

/-- The carving branch of `fixAlloc_Alloc` (lines 70-83) when a chunk is obtained, for
a block size that fits in a chunk. -/
theorem Alloc_carve_new (chunks : Nat → Nat) (s fst arg chunk nchunk inuse stat : Nat)
    (mem : Nat → Nat) (n : Nat) (hs : s ≠ 0) (hsC : s ≤ _FixAllocChunk)
    (hc : chunks n + _FixAllocChunk < 2 ^ 64) (h1 : nchunk < s) :
    fixAlloc_Alloc chunks ⟨⟨s, fst, arg, 0, chunk, nchunk, inuse, stat⟩, mem, n⟩ =
      .ok ⟨⟨s, fst, arg, 0, chunks n + s, _FixAllocChunk - s, (inuse + s) % 2 ^ 64, stat⟩,
          mem, n + 1⟩ (chunks n)
        ([FixCall.persistentalloc _FixAllocChunk]
          ++ if fst ≠ 0 then [FixCall.first arg (chunks n)] else []) := by
  rw [FixAllocChunk_eq] at hsC hc
  unfold fixAlloc_Alloc
  dsimp only
  rw [if_neg hs, if_neg (fun h => h rfl), if_pos h1]
  unfold carve
  dsimp only
  have e1 : (chunks n + s) % 2 ^ 64 = chunks n + s := by omega
  have e2 : (_FixAllocChunk + (2 ^ 32 - s % 2 ^ 32)) % 2 ^ 32 = _FixAllocChunk - s := by
    rw [FixAllocChunk_eq]; omega
  rw [e1, e2]

/-- The carving branch of `fixAlloc_Alloc` when the current chunk has room. -/
theorem Alloc_carve_old (chunks : Nat → Nat) (s fst arg chunk nchunk inuse stat : Nat)
    (mem : Nat → Nat) (n : Nat) (hs : s ≠ 0)
    (hn : nchunk ≤ _FixAllocChunk) (hcur : chunk + nchunk < 2 ^ 64) (h1 : ¬ nchunk < s) :
    fixAlloc_Alloc chunks ⟨⟨s, fst, arg, 0, chunk, nchunk, inuse, stat⟩, mem, n⟩ =
      .ok ⟨⟨s, fst, arg, 0, chunk + s, nchunk - s, (inuse + s) % 2 ^ 64, stat⟩, mem, n⟩
        chunk ([] ++ if fst ≠ 0 then [FixCall.first arg chunk] else []) := by
  rw [FixAllocChunk_eq] at hn
  unfold fixAlloc_Alloc
  dsimp only
  rw [if_neg hs, if_neg (fun h => h rfl), if_neg h1]
  unfold carve
  dsimp only
  have e1 : (chunk + s) % 2 ^ 64 = chunk + s := by omega
  have e2 : (nchunk + (2 ^ 32 - s % 2 ^ 32)) % 2 ^ 32 = nchunk - s := by omega
  rw [e1, e2]

/-- The function `fixAlloc_Free` in closed form. -/
theorem Free_eq (s fst arg list chunk nchunk inuse stat : Nat) (mem : Nat → Nat)
    (n p : Nat) :
    fixAlloc_Free ⟨⟨s, fst, arg, list, chunk, nchunk, inuse, stat⟩, mem, n⟩ p =
      ⟨⟨s, fst, arg, p, chunk, nchunk, (inuse + (2 ^ 64 - s % 2 ^ 64)) % 2 ^ 64, stat⟩,
        storeWord mem p list, n⟩ := rfl

/-- A store at `p` keeps a free list whose blocks have their link words off the word
at `p`. -/
theorem Chain_store (mem : Nat → Nat) (p v q : Nat) (stk : List Nat)
    (hp : ∀ x, x ∈ stk → p + 8 ≤ x ∨ x + 8 ≤ p)
    (h : Chain mem q stk) : Chain (storeWord mem p v) q stk := by
  induction stk generalizing q with
  | nil => exact h
  | cons x xs ih =>
    obtain ⟨h1, h2, h3⟩ := h
    refine ⟨h1, h2, ?_⟩
    rw [loadWord_storeWord_disjoint mem p v x (hp x (List.mem_cons_self _ _))]
    exact ih _ (fun y hy => hp y (List.mem_cons_of_mem _ hy)) h3

/-- C29, as stated, fails for blocks smaller than a pointer.  On a fresh allocator of
4-byte blocks the blocks 4096 and 4100 are carved, then freed in this order: the link
stored at 4100 overwrites the upper half of the link stored at 4096.  The next two
calls of `fixAlloc_Alloc` return 4100 and 4096, the two freed blocks; the free list
should now be empty, but `f.list` is `4096 * 2^32`, and the third call returns this
address from the free list, a block that was never freed, instead of carving. -/
theorem free_list_small_blocks_counterexample :
    (fixRun adjacentChunks [.alloc, .alloc, .free 4096, .free 4100, .alloc, .alloc, .alloc]
        (fixAlloc_Init emptyHeap 4 0 0 0)).map (fun r => r.2)
      = some [⟨false, 4096, [FixCall.persistentalloc _FixAllocChunk]⟩, ⟨false, 4100, []⟩,
          ⟨true, 4100, []⟩, ⟨true, 4096, []⟩, ⟨true, 4096 * 2 ^ 32, []⟩] := by
  decide

/-- C29 (amended). The free list of `fixalloc` is a stack that is preferred over
carving.  For every allocator with a non-zero block size and every non-nil block `p`,
`fixAlloc_Free(p)` followed by `fixAlloc_Alloc` returns `p`, makes no call (no chunk is
obtained, `first` is not invoked), and leaves `chunk`, `nchunk` and (`f.list` being a
pointer, below `2^64`) the free list as they were before the two calls.
`fixAlloc_Free` never changes `chunk` or `nchunk`.  More generally, when the free list
links the blocks `stk`, top first: `fixAlloc_Free(p)` of a block whose link, the
pointer-size word of 8 bytes at `p`, overlaps the link of no block of the list (as is
the case for blocks of at least 8 bytes that do not overlap) makes it `p :: stk`; and
while the list is a non-empty `x :: stk`, `fixAlloc_Alloc` returns its top `x`, the
block freed last among those not yet allocated again, leaves the list `stk` and does
not change `chunk` or `nchunk`. -/
theorem free_list_is_stack (chunks : Nat → Nat) (h : FixHeap) (p : Nat)
    (hs : h.f.size ≠ 0) (hp : p ≠ 0) :
    (∃ h1, fixAlloc_Alloc chunks (fixAlloc_Free h p) = .ok h1 p [] ∧
      h1.f.chunk = h.f.chunk ∧ h1.f.nchunk = h.f.nchunk ∧ h1.nchunks = h.nchunks ∧
      (h.f.list < 2 ^ 64 → h1.f.list = h.f.list)) ∧
    ((fixAlloc_Free h p).f.chunk = h.f.chunk ∧ (fixAlloc_Free h p).f.nchunk = h.f.nchunk ∧
      (fixAlloc_Free h p).nchunks = h.nchunks) ∧
    (∀ stk, h.f.list < 2 ^ 64 → Chain h.mem h.f.list stk →
      (∀ x, x ∈ stk → p + 8 ≤ x ∨ x + 8 ≤ p) →
      Chain (fixAlloc_Free h p).mem (fixAlloc_Free h p).f.list (p :: stk)) ∧
    (∀ x stk, Chain h.mem h.f.list (x :: stk) →
      ∃ h1, fixAlloc_Alloc chunks h = .ok h1 x [] ∧ Chain h1.mem h1.f.list stk ∧
        h1.f.chunk = h.f.chunk ∧ h1.f.nchunk = h.f.nchunk ∧ h1.nchunks = h.nchunks) := by
  obtain ⟨⟨s, fst, arg, list, chunk, nchunk, inuse, stat⟩, mem, n⟩ := h
  dsimp only at hs ⊢
  refine ⟨?_, ⟨rfl, rfl, rfl⟩, ?_, ?_⟩
  · rw [Free_eq, Alloc_list chunks _ _ _ _ _ _ _ _ _ _ hs hp]
    refine ⟨⟨⟨s, fst, arg, loadWord (storeWord mem p list) p, chunk, nchunk,
      ((inuse + (2 ^ 64 - s % 2 ^ 64)) % 2 ^ 64 + s) % 2 ^ 64, stat⟩,
      storeWord mem p list, n⟩, rfl, rfl, rfl, rfl, ?_⟩
    intro hl
    exact loadWord_storeWord_same mem p list hl
  · intro stk hl hc hps
    rw [Free_eq]
    dsimp only
    refine ⟨rfl, hp, ?_⟩
    rw [loadWord_storeWord_same mem p list hl]
    exact Chain_store mem p list list stk hps hc
  · intro x stk hc
    obtain ⟨h1, h2, h3⟩ := hc
    have hl : list ≠ 0 := by rw [h1]; exact h2
    rw [Alloc_list chunks _ _ _ _ _ _ _ _ _ _ hs hl]
    subst h1
    exact ⟨⟨⟨s, fst, arg, loadWord mem list, chunk, nchunk, (inuse + s) % 2 ^ 64, stat⟩,
      mem, n⟩, rfl, h3, rfl, rfl, rfl⟩

/-- Instance of `free_list_is_stack`: on a fresh allocator of 8-byte blocks, freeing
the block at 4096 and allocating returns 4096 and obtains no chunk; and freeing 4104
after 4096 gives the free list 4104, 4096. -/
theorem free_list_is_stack_witness :
    (∃ h1, fixAlloc_Alloc adjacentChunks
        (fixAlloc_Free (fixAlloc_Init emptyHeap 8 0 0 0) 4096) = .ok h1 4096 [] ∧
      h1.f.chunk = 0 ∧ h1.f.nchunk = 0 ∧ h1.nchunks = 0) ∧
    Chain (fixAlloc_Free (fixAlloc_Free (fixAlloc_Init emptyHeap 8 0 0 0) 4096) 4104).mem
      (fixAlloc_Free (fixAlloc_Free (fixAlloc_Init emptyHeap 8 0 0 0) 4096) 4104).f.list
      [4104, 4096] :=
  ⟨(let ⟨h1, e, c1, c2, c3, _⟩ :=
      (free_list_is_stack adjacentChunks (fixAlloc_Init emptyHeap 8 0 0 0) 4096
        (by decide) (by decide)).1
    ⟨h1, e, c1, c2, c3⟩),
    (free_list_is_stack adjacentChunks
      (fixAlloc_Free (fixAlloc_Init emptyHeap 8 0 0 0) 4096) 4104
      (by decide) (by decide)).2.2.1 [4096] (by decide)
      ⟨rfl, by decide, (by decide : loadWord _ 4096 = 0)⟩
      (fun x hx => by
        have e : x = 4096 := List.mem_singleton.mp hx
        subst e
        decide)⟩

end runtime

namespace runtime

/-- A carving call of `fixAlloc_Alloc` keeps the invariant of the carved blocks and
returns a block that is new, inside a chunk and not nil. -/
theorem Alloc_carve_inv (chunks : Nat → Nat) (K : Nat) (hg : GoodChunks chunks K)
    (h : FixHeap) (cv : List Nat) (hs : 0 < h.f.size) (hsC : h.f.size ≤ _FixAllocChunk)
    (hl : h.f.list = 0) (hinv : Carved chunks h cv) (hK : h.nchunks < K) :
    ∃ h1 v pre, fixAlloc_Alloc chunks h =
        .ok h1 v (pre ++ if h.f.first ≠ 0 then [FixCall.first h.f.arg v] else []) ∧
      (pre = [] ∨ pre = [FixCall.persistentalloc _FixAllocChunk]) ∧
      Carved chunks h1 (v :: cv) ∧ h1.f.size = h.f.size ∧ h1.f.first = h.f.first ∧
      h1.f.arg = h.f.arg ∧ h1.f.list = 0 ∧ h1.mem = h.mem ∧ v ≠ 0 ∧ v ∉ cv ∧
      h1.nchunks ≤ h.nchunks + 1 ∧ h.nchunks ≤ h1.nchunks := by
  obtain ⟨⟨s, fst, arg, list, chunk, nchunk, inuse, stat⟩, mem, n⟩ := h
  obtain ⟨i1, i2, i3, i4⟩ := hinv
  dsimp only at hs hsC hl i1 i2 i3 i4 hK ⊢
  subst hl
  obtain ⟨g1, g2⟩ := hg
  have hC : _FixAllocChunk = 16384 := rfl
  by_cases h1 : nchunk < s
  · have gn := g1 n hK
    refine ⟨_, _, _, Alloc_carve_new chunks s fst arg chunk nchunk inuse stat mem n
      (by omega) hsC gn.2 h1, Or.inr rfl, ⟨?_, ?_, ?_, ?_⟩, rfl, rfl, rfl, rfl, rfl,
      by omega, ?_, le_refl _, Nat.le_succ _⟩
    · dsimp only; omega
    · dsimp only
      right
      refine ⟨by omega, ?_, ?_⟩
      · rw [Nat.add_sub_cancel]; omega
      · rw [Nat.add_sub_cancel]; omega
    · intro a ha
      dsimp only
      rcases List.mem_cons.mp ha with e | ha
      · subst e
        exact ⟨n, by omega, le_refl _, by omega, fun _ _ => le_refl _⟩
      · obtain ⟨k, k1, k2, k3, -⟩ := i3 a ha
        exact ⟨k, by omega, k2, k3, fun e => by omega⟩
    · dsimp only
      refine List.pairwise_cons.mpr ⟨?_, i4⟩
      intro a ha
      obtain ⟨k, k1, k2, k3, -⟩ := i3 a ha
      have := g2 k n (by omega) hK (by omega)
      omega
    · intro ha
      obtain ⟨k, k1, k2, k3, -⟩ := i3 _ ha
      have := g2 k n (by omega) hK (by omega)
      omega
  · have hn0 : nchunk ≠ 0 := by omega
    obtain ⟨j1, j2, j3⟩ : 0 < n ∧ chunks (n - 1) ≤ chunk ∧
        chunk + nchunk = chunks (n - 1) + _FixAllocChunk := by
      rcases i2 with h0 | h0
      · exact absurd h0 hn0
      · exact h0
    have gn := g1 (n - 1) (by omega)
    refine ⟨_, _, _, Alloc_carve_old chunks s fst arg chunk nchunk inuse stat mem n
      (by omega) i1 (by omega) h1, Or.inl rfl, ⟨?_, ?_, ?_, ?_⟩, rfl, rfl, rfl, rfl, rfl,
      by omega, ?_, Nat.le_succ _, le_refl _⟩
    · dsimp only; omega
    · dsimp only
      right
      exact ⟨j1, by omega, by omega⟩
    · intro a ha
      dsimp only
      rcases List.mem_cons.mp ha with e | ha
      · subst e
        exact ⟨n - 1, by omega, j2, by omega, fun _ _ => le_refl _⟩
      · obtain ⟨k, k1, k2, k3, k4⟩ := i3 a ha
        refine ⟨k, k1, k2, k3, fun e _ => ?_⟩
        have := k4 e hn0
        omega
    · dsimp only
      refine List.pairwise_cons.mpr ⟨?_, i4⟩
      intro a ha
      obtain ⟨k, k1, k2, k3, k4⟩ := i3 a ha
      by_cases e : k + 1 = n
      · have := k4 e hn0
        omega
      · have := g2 k (n - 1) (by omega) (by omega) (by omega)
        omega
    · intro ha
      obtain ⟨k, k1, k2, k3, k4⟩ := i3 _ ha
      by_cases e : k + 1 = n
      · have := k4 e hn0
        omega
      · have := g2 k (n - 1) (by omega) (by omega) (by omega)
        omega


end runtime

namespace runtime

theorem adjacentChunks_good : GoodChunks adjacentChunks (2 ^ 40) := by
  have hC : _FixAllocChunk = 16384 := rfl
  constructor
  · intro k hk
    unfold adjacentChunks
    omega
  · intro i j hi hj hij
    unfold adjacentChunks
    omega

theorem Carved_init (chunks : Nat → Nat) (h0 : FixHeap) (s fst arg stat : Nat) :
    FixInv chunks (fixAlloc_Init h0 s fst arg stat) [] [] [] := by
  refine ⟨⟨Nat.zero_le _, Or.inl rfl, ?_, List.Pairwise.nil⟩, Or.inl rfl, ?_, ?_, ?_⟩
  all_goals intro a ha; exact absurd ha (List.not_mem_nil _)

/-- Consecutive calls of `fixAlloc_Alloc` on an empty free list carve all their blocks. -/
theorem allocN_inv (chunks : Nat → Nat) (K : Nat) (hg : GoodChunks chunks K) (s : Nat)
    (hs : 0 < s) (hsC : s ≤ _FixAllocChunk) (N : Nat) :
    ∀ (h : FixHeap) (cv : List Nat), h.f.size = s → h.f.list = 0 → Carved chunks h cv →
      h.nchunks + N ≤ K →
      ∃ h1 recs, fixRun chunks (List.replicate N FixOp.alloc) h = some (h1, recs) ∧
        recs.length = N ∧ h1.f.size = s ∧
        Carved chunks h1 ((recs.map FixRec.ret).reverse ++ cv) ∧
        h1.nchunks ≤ h.nchunks + N := by
  induction N with
  | zero =>
    intro h cv e1 _ hinv _
    exact ⟨h, [], rfl, rfl, e1, hinv, le_refl _⟩
  | succ N ih =>
    intro h cv e1 hl hinv hK
    obtain ⟨h1, v, pre, a1, -, a3, a4, -, -, a7, -, -, -, a11, -⟩ :=
      Alloc_carve_inv chunks K hg h cv (by omega) (by omega) hl hinv (by omega)
    obtain ⟨h2, recs, r1, r2, r3, r4, r5⟩ := ih h1 (v :: cv) (by omega) a7 a3 (by omega)
    refine ⟨h2, ⟨decide (h.f.list ≠ 0), v, pre ++ if h.f.first ≠ 0
      then [FixCall.first h.f.arg v] else []⟩ :: recs, ?_, ?_, r3, ?_, by omega⟩
    · simp only [List.replicate_succ, fixRun, a1, r1]
    · rw [List.length_cons, r2]
    · rw [List.map_cons, List.reverse_cons, List.append_assoc]
      exact r4

/-- C28, as stated, fails for block sizes above `_FixAllocChunk`: a fresh allocator of
blocks of 20000 bytes, on adjacent chunks of 16 KiB from address 4096 on, returns the
blocks 4096 and 24096; the range of the first one, `[4096, 24096)`, lies inside no
chunk, and the second call obtains no chunk at all. -/
theorem fixAlloc_oversize_counterexample :
    (0 < 20000 ∧ GoodChunks adjacentChunks (2 ^ 40)) ∧
    (fixRun adjacentChunks [.alloc, .alloc] (fixAlloc_Init emptyHeap 20000 0 0 0)).map
        (fun r => r.2) =
      some [⟨false, 4096, [FixCall.persistentalloc _FixAllocChunk]⟩, ⟨false, 24096, []⟩] ∧
    ¬ ∃ k, adjacentChunks k ≤ 4096 ∧ 4096 + 20000 ≤ adjacentChunks k + _FixAllocChunk := by
  refine ⟨⟨by decide, adjacentChunks_good⟩, by decide, ?_⟩
  rintro ⟨k, h1, h2⟩
  have hC : _FixAllocChunk = 16384 := rfl
  unfold adjacentChunks at h1 h2
  omega

/-- C28 (amended). Allocator block distinctness: for every block size `s` with
`0 < s <= _FixAllocChunk` and every `N`, starting from a freshly initialised `fixalloc`
whose backing allocator returns pairwise disjoint chunks of `_FixAllocChunk` bytes,
`N` consecutive calls of `fixAlloc_Alloc` with no `fixAlloc_Free` in between all
return; the `N` blocks are pairwise distinct, their ranges `[p, p+s)` are pairwise
non-overlapping, and each lies inside one chunk. -/
theorem fixAlloc_blocks_distinct (chunks : Nat → Nat) (K : Nat) (hg : GoodChunks chunks K)
    (h0 : FixHeap) (s fst arg stat N : Nat) (hs : 0 < s) (hsC : s ≤ _FixAllocChunk)
    (hK : h0.nchunks + N ≤ K) :
    ∃ h recs, fixRun chunks (List.replicate N FixOp.alloc) (fixAlloc_Init h0 s fst arg stat)
        = some (h, recs) ∧
      recs.length = N ∧
      (recs.map FixRec.ret).Pairwise (fun a b => a ≠ b ∧ (a + s ≤ b ∨ b + s ≤ a)) ∧
      ∀ a, a ∈ recs.map FixRec.ret →
        ∃ k, k < K ∧ chunks k ≤ a ∧ a + s ≤ chunks k + _FixAllocChunk := by
  obtain ⟨h, recs, r1, r2, r3, r4, r5⟩ :=
    allocN_inv chunks K hg s hs hsC N (fixAlloc_Init h0 s fst arg stat) [] rfl rfl
      (Carved_init chunks h0 s fst arg stat).1 hK
  rw [List.append_nil] at r4
  obtain ⟨-, -, i3, i4⟩ := r4
  refine ⟨h, recs, r1, r2, ?_, ?_⟩
  · have hp := List.pairwise_reverse.mp i4
    refine hp.imp ?_
    intro a b hab
    rw [r3] at hab
    exact ⟨by omega, by omega⟩
  · intro a ha
    obtain ⟨k, k1, k2, k3, -⟩ := i3 a (List.mem_reverse.mpr ha)
    rw [r3] at k3
    have hn : h.nchunks ≤ K := le_trans r5 hK
    exact ⟨k, by omega, k2, k3⟩


/-- Instance of `fixAlloc_blocks_distinct`: three blocks of 8192 bytes on adjacent
chunks are 4096, 12288 and 20480. -/
theorem fixAlloc_blocks_distinct_witness :
    (fixRun adjacentChunks (List.replicate 3 FixOp.alloc)
        (fixAlloc_Init emptyHeap 8192 0 0 0)).map (fun r => r.2.map FixRec.ret)
      = some [4096, 12288, 20480] ∧
    ∃ h recs, fixRun adjacentChunks (List.replicate 3 FixOp.alloc)
        (fixAlloc_Init emptyHeap 8192 0 0 0) = some (h, recs) ∧ recs.length = 3 ∧
      (recs.map FixRec.ret).Pairwise (fun a b => a ≠ b ∧ (a + 8192 ≤ b ∨ b + 8192 ≤ a)) :=
  ⟨by decide,
    let ⟨h, recs, e, l, p, _⟩ :=
      fixAlloc_blocks_distinct adjacentChunks (2 ^ 40) adjacentChunks_good emptyHeap
        8192 0 0 0 3 (by decide) (by decide) (by decide)
    ⟨h, recs, e, l, p⟩⟩

end runtime

/-! ## Reference accounting of `fdMutex` -/

namespace fdMutex

theorem accounted_iff (s : Nat) (a : Account) :
    Accounted s a ↔ s < 2 ^ 64 ∧ s / 8 % 2 ^ 20 = s / 2 % 2 + s / 4 % 2 + a.refs ∧
      s / 2 % 2 = a.rlock.toNat ∧ s / 4 % 2 = a.wlock.toNat := by
  unfold Accounted lockBits
  rw [refCount_eq, locked_true_eq, locked_false_eq]
  have h1 : (if decide (s / 2 % 2 = 1) = true then 1 else 0) = s / 2 % 2 := by
    by_cases h : s / 2 % 2 = 1
    · simp [h]
    · have : s / 2 % 2 = 0 := by omega
      simp [this]
  have h2 : (if decide (s / 4 % 2 = 1) = true then 1 else 0) = s / 4 % 2 := by
    by_cases h : s / 4 % 2 = 1
    · simp [h]
    · have : s / 4 % 2 = 0 := by omega
      simp [this]
  rw [h1, h2]
  have e1 : (a.rlock = decide (s / 2 % 2 = 1)) ↔ s / 2 % 2 = a.rlock.toNat := by
    cases a.rlock <;> simp
  have e2 : (a.wlock = decide (s / 4 % 2 = 1)) ↔ s / 4 % 2 = a.wlock.toNat := by
    cases a.wlock <;> simp
  rw [e1, e2]


theorem word_add8 (s : Nat) (hs : s < 2 ^ 64) (h : ¬ s / 8 % 2 ^ 20 = 2 ^ 20 - 1) :
    s + 8 < 2 ^ 64 ∧ (s + 8) / 8 % 2 ^ 20 = s / 8 % 2 ^ 20 + 1 ∧
    (s + 8) / 2 % 2 = s / 2 % 2 ∧ (s + 8) / 4 % 2 = s / 4 % 2 := by
  refine ⟨?_, ?_, ?_, ?_⟩ <;> omega

theorem word_close (s : Nat) (_hs : s < 2 ^ 64) (hc : ¬ s % 2 = 1)
    (h : ¬ s / 8 % 2 ^ 20 = 2 ^ 20 - 1) :
    (s + 9) % 2 ^ 23 + s / 2 ^ 63 % 2 * 2 ^ 63 < 2 ^ 64 ∧
    ((s + 9) % 2 ^ 23 + s / 2 ^ 63 % 2 * 2 ^ 63) / 8 % 2 ^ 20 = s / 8 % 2 ^ 20 + 1 ∧
    ((s + 9) % 2 ^ 23 + s / 2 ^ 63 % 2 * 2 ^ 63) / 2 % 2 = s / 2 % 2 ∧
    ((s + 9) % 2 ^ 23 + s / 2 ^ 63 % 2 * 2 ^ 63) / 4 % 2 = s / 4 % 2 := by
  refine ⟨?_, ?_, ?_, ?_⟩ <;> omega

theorem word_sub8 (s : Nat) (h : ¬ s / 8 % 2 ^ 20 = 0) :
    (s - 8) / 8 % 2 ^ 20 + 1 = s / 8 % 2 ^ 20 ∧
    (s - 8) / 2 % 2 = s / 2 % 2 ∧ (s - 8) / 4 % 2 = s / 4 % 2 ∧ s - 8 ≤ s := by
  refine ⟨?_, ?_, ?_, ?_⟩ <;> omega

theorem word_lock (s b : Nat) (hb : b = 2 ∨ b = 4) (hs : s < 2 ^ 64)
    (hbit : s / b % 2 = 0) (h : ¬ s / 8 % 2 ^ 20 = 2 ^ 20 - 1) :
    s + b + 8 < 2 ^ 64 ∧ (s + b + 8) / 8 % 2 ^ 20 = s / 8 % 2 ^ 20 + 1 ∧
    (s + b + 8) / b % 2 = 1 ∧ (s + b + 8) / (6 - b) % 2 = s / (6 - b) % 2 := by
  rcases hb with rfl | rfl <;> (refine ⟨?_, ?_, ?_, ?_⟩ <;> omega)

theorem word_wait (s k : Nat) (hk : k = 23 ∨ k = 43) (hs : s < 2 ^ 64)
    (h : ¬ s / 2 ^ k % 2 ^ 20 = 2 ^ 20 - 1) :
    s + 2 ^ k < 2 ^ 64 ∧ (s + 2 ^ k) / 8 % 2 ^ 20 = s / 8 % 2 ^ 20 ∧
    (s + 2 ^ k) / 2 % 2 = s / 2 % 2 ∧ (s + 2 ^ k) / 4 % 2 = s / 4 % 2 := by
  rcases hk with rfl | rfl <;> (refine ⟨?_, ?_, ?_, ?_⟩ <;> omega)

theorem word_unlock (s b : Nat) (hb : b = 2 ∨ b = 4)
    (hbit : s / b % 2 = 1) (h : ¬ s / 8 % 2 ^ 20 = 0) :
    (s - b - 8) / 8 % 2 ^ 20 + 1 = s / 8 % 2 ^ 20 ∧
    (s - b - 8) / b % 2 = 0 ∧ (s - b - 8) / (6 - b) % 2 = s / (6 - b) % 2 ∧ s - b - 8 ≤ s := by
  rcases hb with rfl | rfl <;> (refine ⟨?_, ?_, ?_, ?_⟩ <;> omega)

theorem word_unlock_wake (s b k : Nat) (hb : b = 2 ∧ k = 23 ∨ b = 4 ∧ k = 43)
    (hbit : s / b % 2 = 1) (h : ¬ s / 8 % 2 ^ 20 = 0) (hw : ¬ s / 2 ^ k % 2 ^ 20 = 0) :
    (s - b - 8 - 2 ^ k) / 8 % 2 ^ 20 + 1 = s / 8 % 2 ^ 20 ∧
    (s - b - 8 - 2 ^ k) / b % 2 = 0 ∧
    (s - b - 8 - 2 ^ k) / (6 - b) % 2 = s / (6 - b) % 2 ∧ s - b - 8 - 2 ^ k ≤ s := by
  rcases hb with ⟨rfl, rfl⟩ | ⟨rfl, rfl⟩ <;> (refine ⟨?_, ?_, ?_, ?_⟩ <;> omega)

theorem accounted_Incref (s : Nat) (a : Account) (h : Accounted s a) :
    Ctl.isPanic (Incref s).ctl = false →
      Accounted (Incref s).state (a.update .Incref (Incref s).ctl) := by
  rw [accounted_iff] at h
  obtain ⟨hs, hr, hrl, hwl⟩ := h
  rw [Incref_eq s hs]
  intro hp
  rw [accounted_iff]
  split_ifs at hp ⊢ with h1 h2
  · exact ⟨hs, hr, hrl, hwl⟩
  · exact absurd hp (by simp [Ctl.isPanic])
  · obtain ⟨a1, a2, a3, a4⟩ := word_add8 s hs h2
    simp only [Account.update, if_true]
    rw [a2, a3, a4]
    exact ⟨a1, by omega, hrl, hwl⟩

theorem accounted_IncrefAndClose (s : Nat) (a : Account) (h : Accounted s a) :
    ∃ st, IncrefAndClose s = some st ∧
      (Ctl.isPanic st.ctl = false → Accounted st.state (a.update .IncrefAndClose st.ctl)) := by
  rw [accounted_iff] at h
  obtain ⟨hs, hr, hrl, hwl⟩ := h
  refine ⟨_, IncrefAndClose_some s hs, ?_⟩
  intro hp
  rw [accounted_iff]
  split_ifs at hp ⊢ with h1 h2
  · exact ⟨hs, hr, hrl, hwl⟩
  · exact absurd hp (by simp [Ctl.isPanic])
  · obtain ⟨a1, a2, a3, a4⟩ := word_close s hs h1 h2
    simp only [Account.update, if_true]
    rw [a2, a3, a4]
    exact ⟨a1, by omega, hrl, hwl⟩

theorem accounted_Decref (s : Nat) (a : Account) (h : Accounted s a)
    (hal : a.allows .Decref = true) :
    Ctl.isPanic (Decref s).ctl = false ∧
      Accounted (Decref s).state (a.update .Decref (Decref s).ctl) := by
  rw [accounted_iff] at h
  obtain ⟨hs, hr, hrl, hwl⟩ := h
  have hpos : 0 < a.refs := by simpa [Account.allows] using hal
  have h1 : ¬ s / 8 % 2 ^ 20 = 0 := by omega
  rw [Decref_eq s hs, if_neg h1, accounted_iff]
  obtain ⟨a1, a2, a3, a4⟩ := word_sub8 s h1
  simp only [Account.update]
  rw [a2, a3]
  exact ⟨rfl, by omega, by omega, hrl, hwl⟩

theorem accounted_RWLock (read : Bool) (s : Nat) (a : Account) (h : Accounted s a) :
    Ctl.isPanic (RWLock read s).ctl = false →
      Accounted (RWLock read s).state (a.update (.RWLock read) (RWLock read s).ctl) := by
  rw [accounted_iff] at h
  obtain ⟨hs, hr, hrl, hwl⟩ := h
  intro hp
  rw [accounted_iff]
  cases read
  · rw [RWLock_false_eq s hs] at hp ⊢
    split_ifs at hp ⊢ with h1 h2 h3 h4
    · exact ⟨hs, hr, hrl, hwl⟩
    · exact absurd hp (by simp [Ctl.isPanic])
    · obtain ⟨a1, a2, a3, a4⟩ := word_lock s 4 (Or.inr rfl) hs h2 h3
      simp only [Account.update, if_true, Bool.false_eq_true, if_false, Bool.toNat_true]
      rw [a2, a3, a4]
      exact ⟨a1, by omega, hrl, rfl⟩
    · exact absurd hp (by simp [Ctl.isPanic])
    · obtain ⟨a1, a2, a3, a4⟩ := word_wait s 43 (Or.inr rfl) hs h4
      simp only [Account.update, reduceCtorEq, if_false]
      rw [a2, a3, a4]
      exact ⟨a1, hr, hrl, hwl⟩
  · rw [RWLock_true_eq s hs] at hp ⊢
    split_ifs at hp ⊢ with h1 h2 h3 h4
    · exact ⟨hs, hr, hrl, hwl⟩
    · exact absurd hp (by simp [Ctl.isPanic])
    · obtain ⟨a1, a2, a3, a4⟩ := word_lock s 2 (Or.inl rfl) hs h2 h3
      simp only [Account.update, if_true, Bool.toNat_true]
      rw [a2, a3, a4]
      exact ⟨a1, by omega, rfl, hwl⟩
    · exact absurd hp (by simp [Ctl.isPanic])
    · obtain ⟨a1, a2, a3, a4⟩ := word_wait s 23 (Or.inl rfl) hs h4
      simp only [Account.update, reduceCtorEq, if_false]
      rw [a2, a3, a4]
      exact ⟨a1, hr, hrl, hwl⟩

theorem accounted_RWUnlock (read : Bool) (s : Nat) (a : Account) (h : Accounted s a)
    (hal : a.allows (.RWUnlock read) = true) :
    Ctl.isPanic (RWUnlock read s).ctl = false ∧
      Accounted (RWUnlock read s).state (a.update (.RWUnlock read) (RWUnlock read s).ctl) := by
  rw [accounted_iff] at h
  obtain ⟨hs, hr, hrl, hwl⟩ := h
  rw [accounted_iff]
  cases read
  · have hheld : a.wlock = true := by simpa [Account.allows, Account.held] using hal
    rw [hheld, Bool.toNat_true] at hwl
    have h1 : ¬ (s / 4 % 2 = 0 ∨ s / 8 % 2 ^ 20 = 0) := by omega
    rw [RWUnlock_false_eq s hs, if_neg h1]
    split_ifs with h2
    · obtain ⟨a1, a2, a3, a4⟩ := word_unlock s 4 (Or.inr rfl) hwl (by omega)
      simp only [Account.update, Bool.false_eq_true, if_false, Bool.toNat_false]
      rw [a2, a3]
      exact ⟨rfl, by omega, by omega, hrl, rfl⟩
    · obtain ⟨a1, a2, a3, a4⟩ := word_unlock_wake s 4 43 (Or.inr ⟨rfl, rfl⟩) hwl (by omega) h2
      simp only [Account.update, Bool.false_eq_true, if_false, Bool.toNat_false]
      rw [a2, a3]
      exact ⟨rfl, by omega, by omega, hrl, rfl⟩
  · have hheld : a.rlock = true := by simpa [Account.allows, Account.held] using hal
    rw [hheld, Bool.toNat_true] at hrl
    have h1 : ¬ (s / 2 % 2 = 0 ∨ s / 8 % 2 ^ 20 = 0) := by omega
    rw [RWUnlock_true_eq s hs, if_neg h1]
    split_ifs with h2
    · obtain ⟨a1, a2, a3, a4⟩ := word_unlock s 2 (Or.inl rfl) hrl (by omega)
      simp only [Account.update, if_true, Bool.toNat_false]
      rw [a2, a3]
      exact ⟨rfl, by omega, by omega, rfl, hwl⟩
    · obtain ⟨a1, a2, a3, a4⟩ := word_unlock_wake s 2 23 (Or.inl ⟨rfl, rfl⟩) hrl (by omega) h2
      simp only [Account.update, if_true, Bool.toNat_false]
      rw [a2, a3]
      exact ⟨rfl, by omega, by omega, rfl, hwl⟩

/-- One operation allowed by the account, on a state that agrees with it: the
iteration completes; if it panics it is not `Decref` or `RWUnlock`; otherwise the new
state agrees with the new account. -/
theorem accounted_step (op : Op) (s : Nat) (a : Account) (h : Accounted s a)
    (hal : a.allows op = true) :
    ∃ st, op.run s = some st ∧
      (Ctl.isPanic st.ctl = true → op ≠ .Decref ∧ ∀ m, op ≠ .RWUnlock m) ∧
      (Ctl.isPanic st.ctl = false → Accounted st.state (a.update op st.ctl)) := by
  cases op with
  | Incref =>
    exact ⟨_, rfl, fun _ => ⟨fun e => Op.noConfusion e, fun m e => Op.noConfusion e⟩,
      accounted_Incref s a h⟩
  | IncrefAndClose =>
    obtain ⟨st, h1, h2⟩ := accounted_IncrefAndClose s a h
    exact ⟨st, h1, fun _ => ⟨fun e => Op.noConfusion e, fun m e => Op.noConfusion e⟩, h2⟩
  | Decref =>
    obtain ⟨h1, h2⟩ := accounted_Decref s a h hal
    exact ⟨_, rfl, fun hp => absurd hp (by rw [h1]; decide), fun _ => h2⟩
  | RWLock read =>
    exact ⟨_, rfl, fun _ => ⟨fun e => Op.noConfusion e, fun m e => Op.noConfusion e⟩,
      accounted_RWLock read s a h⟩
  | RWUnlock read =>
    obtain ⟨h1, h2⟩ := accounted_RWUnlock read s a h hal
    exact ⟨_, rfl, fun hp => absurd hp (by rw [h1]; decide), fun _ => h2⟩

/-- A matched run from a state that agrees with its account: the run completes, every
state reached agrees with the account, and only `Incref`, `IncrefAndClose` or `RWLock`
can end it with a panic. -/
theorem accounts_spec (ops : List Op) : ∀ (s : Nat) (a : Account), Accounted s a →
    Matched ops s a = true →
    ∃ recs, accounts ops s a = some recs ∧ ∀ rec ∈ recs,
      (Ctl.isPanic rec.2.1.ctl = false → Accounted rec.2.1.state rec.2.2) ∧
      (Ctl.isPanic rec.2.1.ctl = true → rec.1 ≠ .Decref ∧ ∀ m, rec.1 ≠ .RWUnlock m) := by
  induction ops with
  | nil => intro s a _ _; exact ⟨[], rfl, fun rec h => absurd h (List.not_mem_nil _)⟩
  | cons op ops ih =>
    intro s a hacc hm
    rw [Matched, Bool.and_eq_true] at hm
    obtain ⟨hal, hm⟩ := hm
    obtain ⟨st, hrun, hp1, hp2⟩ := accounted_step op s a hacc hal
    rw [accounts, hrun]
    rw [hrun] at hm
    simp only [] at hm ⊢
    by_cases hp : Ctl.isPanic st.ctl = true
    · rw [if_pos hp]
      refine ⟨_, rfl, ?_⟩
      intro rec hrec
      rw [List.mem_singleton] at hrec
      subst hrec
      exact ⟨fun h => absurd hp (by simp only [h]; decide), fun _ => hp1 hp⟩
    · rw [if_neg hp] at hm ⊢
      have hp' : Ctl.isPanic st.ctl = false := by simpa using hp
      obtain ⟨recs, e, hrecs⟩ := ih st.state (a.update op st.ctl) (hp2 hp') hm
      rw [e]
      refine ⟨_, rfl, ?_⟩
      intro rec hrec
      rcases List.mem_cons.mp hrec with rfl | h
      · exact ⟨fun _ => hp2 hp', fun h => absurd h hp⟩
      · exact hrecs rec h

/-- C38. Reference accounting of `fdMutex`.  In every sequence of operations from
the zero state in which each `Decref` has an unreleased reference of a successful
`Incref` or `IncrefAndClose` and each `RWUnlock(mode)` follows a successful
`RWLock(mode)` not yet unlocked, the run completes, and after every operation that
does not panic the reference count is the number of lock bits set plus the number of
unreleased references, each lock bit is set exactly when that lock is held, and a
lock bit set implies a reference count of at least 1.  An operation that panics in
such a run is never `Decref` or `RWUnlock`. -/
theorem reference_accounting (ops : List Op)
    (hm : Matched ops 0 ⟨0, false, false⟩ = true) :
    ∃ recs, accounts ops 0 ⟨0, false, false⟩ = some recs ∧ ∀ rec ∈ recs,
      (Ctl.isPanic rec.2.1.ctl = false →
        refCount rec.2.1.state = lockBits rec.2.1.state + rec.2.2.refs ∧
        (∀ m, rec.2.2.held m = locked m rec.2.1.state) ∧
        (∀ m, locked m rec.2.1.state = true → 1 ≤ refCount rec.2.1.state)) ∧
      (Ctl.isPanic rec.2.1.ctl = true → rec.1 ≠ .Decref ∧ ∀ m, rec.1 ≠ .RWUnlock m) := by
  have h0 : Accounted 0 ⟨0, false, false⟩ := by
    refine ⟨by decide, by decide, by decide, by decide⟩
  obtain ⟨recs, e, h⟩ := accounts_spec ops 0 _ h0 hm
  refine ⟨recs, e, fun rec hrec => ⟨fun hp => ?_, (h rec hrec).2⟩⟩
  obtain ⟨-, h2, h3, h4⟩ := (h rec hrec).1 hp
  refine ⟨h2, ?_, ?_⟩
  · intro m
    cases m
    · simpa [Account.held] using h4
    · simpa [Account.held] using h3
  · intro m hl
    have hb : 1 ≤ lockBits rec.2.1.state := by
      unfold lockBits
      cases m
      · rw [hl]; simp
      · rw [hl]; simp
    omega

/-- Instance of `reference_accounting`: read lock, a reference, close, release of the
reference, read unlock. -/
theorem reference_accounting_witness :
    Matched [.RWLock true, .Incref, .IncrefAndClose, .Decref, .Decref, .RWUnlock true] 0
      ⟨0, false, false⟩ = true ∧
    (accounts [.RWLock true, .Incref, .IncrefAndClose, .Decref, .Decref, .RWUnlock true] 0
      ⟨0, false, false⟩).map (fun recs => recs.map (fun rec => refCount rec.2.1.state))
      = some [1, 2, 3, 2, 1, 0] ∧
    ∃ recs, accounts
        [.RWLock true, .Incref, .IncrefAndClose, .Decref, .Decref, .RWUnlock true] 0
        ⟨0, false, false⟩ = some recs ∧
      ∀ rec ∈ recs, Ctl.isPanic rec.2.1.ctl = false →
        refCount rec.2.1.state = lockBits rec.2.1.state + rec.2.2.refs :=
  ⟨by decide, by decide,
    let ⟨recs, h1, h2⟩ := reference_accounting
      [.RWLock true, .Incref, .IncrefAndClose, .Decref, .Decref, .RWUnlock true] (by decide)
    ⟨recs, h1, fun rec hrec hp => ((h2 rec hrec).1 hp).1⟩⟩

end fdMutex

/-! ## Stopping a timer twice -/

namespace runtime

/-- A call of `deltimer(t)` on a heap with the back-pointer invariant does not write
`t.i`: the timer taken out keeps the index it had in the heap. -/
theorem deltimer_keeps_index (p : Nat) (st : Timers) (hbp : BackPtr st) :
    ∀ st' b, deltimer p st = .ok (st', b) → (st'.mem p).i = (st.mem p).i := by
  intro st' b h
  rcases deltimer_run p st with ⟨-, h0⟩ | ⟨k, st1, hk, hkn, hptr, h1, -⟩
  · rw [h0] at h
    cases h
    rfl
  · by_cases hlast : k = st.t.length - 1
    · subst hlast
      rw [deltimer_last p st (by omega) hk hptr] at h
      cases h
      rfl
    · have hk' : k < st.t.length - 1 := by omega
      obtain ⟨st4, a1, a2, -⟩ := siftupTimer_run (moveLast k st) k
        (by rw [moveLast_length k st (by omega)]; omega)
      obtain ⟨st5, b1, b2, -⟩ := siftdownTimer_run st4 k
        (by rw [Sifted_length a2, moveLast_length k st (by omega)]; omega)
      rw [deltimer_inner p st k hk' hk hptr, a1] at h
      simp only [] at h
      rw [b1] at h
      cases h
      have hperm := moveLast_perm k st hk'
      rw [hptr] at hperm
      have hnd : (p :: (moveLast k st).t).Nodup := (hperm.nodup_iff).mpr (BackPtr_nodup hbp)
      have hp3 : p ∉ (moveLast k st).t := (List.nodup_cons.mp hnd).1
      have hp4 : p ∉ st4.t := fun hm => hp3 (a2.2.2.1.mem_iff.mp hm)
      rw [b2.2.2.2.2 p hp4, a2.2.2.2.2 p hp3, moveLast_mem k st hkn p]
      have hne : p ≠ ptr st (st.t.length - 1) := by
        intro e
        have := BackPtr_inj hbp hkn (by omega : st.t.length - 1 < st.t.length) (hptr.trans e)
        omega
      rw [if_neg hne]

/-- C31. Stopping a timer twice.  On a heap with the back-pointer invariant,
`stopTimer(t)` returns true when `t` is in the heap and false, leaving the state
unchanged, when it is not.  After a `stopTimer(t)` that returned true the field `t.i`
still holds the old index, the back-pointer invariant holds, `t` is out of the heap,
and a second `stopTimer(t)` returns false and changes nothing.  After the one-shot
branch of `timerproc` has taken the root `t` out of the heap, `t.i` is -1 and
`stopTimer(t)` returns false and changes nothing. -/
theorem stopTimer_twice (p : Nat) (st : Timers) (hbp : BackPtr st) :
    (p ∈ st.t → ∃ st1, stopTimer p st = .ok (st1, true) ∧ (st1.mem p).i = (st.mem p).i ∧
      0 ≤ (st1.mem p).i ∧ BackPtr st1 ∧ p ∉ st1.t ∧ stopTimer p st1 = .ok (st1, false)) ∧
    (p ∉ st.t → stopTimer p st = .ok (st, false)) ∧
    (0 < st.t.length → p = ptr st 0 →
      ∃ st2, removeRoot p st = .ok st2 ∧ (st2.mem p).i = -1 ∧ BackPtr st2 ∧ p ∉ st2.t ∧
        stopTimer p st2 = .ok (st2, false)) := by
  have hout : ∀ s : Timers, p ∉ s.t → stopTimer p s = .ok (s, false) := by
    intro s hp
    rcases deltimer_run p s with ⟨-, h⟩ | ⟨k, st', -, hkn, hptr, -⟩
    · exact h
    · exact absurd (hptr ▸ ptr_mem s hkn) hp
  refine ⟨?_, hout st, ?_⟩
  · intro hmem
    rcases deltimer_run p st with ⟨hc, -⟩ | ⟨k, st1, hk, hkn, hptr, h, hperm, -, -, hb, -⟩
    · exfalso
      obtain ⟨k, hk, rfl⟩ := (mem_iff_ptr st p).mp hmem
      have hi := hbp k hk
      rcases hc with h1 | h1 | h1
      · omega
      · omega
      · rw [hi, Int.toNat_ofNat] at h1; exact h1 rfl
    · have hnd : (p :: st1.t).Nodup := (hperm.nodup_iff).mpr (BackPtr_nodup hbp)
      have hp1 : p ∉ st1.t := (List.nodup_cons.mp hnd).1
      have hi := deltimer_keeps_index p st hbp st1 true h
      exact ⟨st1, h, hi, by rw [hi, hk]; omega, hb hbp, hp1, hout st1 hp1⟩
  · intro hn hp
    subst hp
    obtain ⟨st2, h1, hperm, -, -, hi, hb, -⟩ := removeRoot_run st hn
    have hnd : (ptr st 0 :: st2.t).Nodup := (hperm.nodup_iff).mpr (BackPtr_nodup hbp)
    have hp2 : ptr st 0 ∉ st2.t := (List.nodup_cons.mp hnd).1
    exact ⟨st2, h1, hi, hb hbp, hp2, hout st2 hp2⟩

/-- Instance of `stopTimer_twice` on the heap of two timers: the first stop of the
timer at address 1 returns true, the second false. -/
theorem stopTimer_twice_witness :
    BackPtr (twoTimers 0) ∧ 1 ∈ (twoTimers 0).t ∧
    ∃ st1, stopTimer 1 (twoTimers 0) = .ok (st1, true) ∧
      (st1.mem 1).i = ((twoTimers 0).mem 1).i ∧ stopTimer 1 st1 = .ok (st1, false) :=
  ⟨twoTimers_backPtr 0, by decide,
    let ⟨st1, h1, h2, _, _, _, h6⟩ :=
      (stopTimer_twice 1 (twoTimers 0) (twoTimers_backPtr 0)).1 (by decide)
    ⟨st1, h1, h2, h6⟩⟩

end runtime

/-! ## Termination of a pass of `timerproc` -/

namespace runtime

/-- In a slice without repetition the root pointer occurs at index 0 only. -/
theorem ptr_root_unique (st : Timers) (hnd : st.t.Nodup) :
    ∀ k, 0 < k → k < st.t.length → ptr st k ≠ ptr st 0 := by
  intro k hk hkn e
  rw [ptr_eq_getElem st hkn, ptr_eq_getElem st (by omega : 0 < st.t.length)] at e
  have := (List.Nodup.getElem_inj_iff hnd).mp e
  omega

/-- Every deadline in a heap in order is at least the deadline of the root. -/
theorem root_le_of_mem (st : Timers) (hheap : HeapOrdF (whenAt st) st.t.length) (a : Nat)
    (ha : a ∈ st.t) : (st.mem (ptr st 0)).when ≤ (st.mem a).when := by
  obtain ⟨j, hj, rfl⟩ := (mem_iff_ptr st a).mp ha
  exact HeapOrdF_root_le hheap j hj

/-- One pass of the inner loop of `timerproc` from a heap in order without
repetition, with `L` a list without repetition that holds every due timer: the loop
returns within `L.length + 1` iterations, it services timers of `L` that were due,
each once, and it leaves the heap empty or with every deadline after `now`. -/
theorem timerprocLoop_pass (cb : Callback)
    (hcb : ∀ f a s st, (cb f a s st).t = st.t ∧ (cb f a s st).mem = st.mem)
    (now : Int) (h0 : 0 ≤ now) (hnow : now ≤ maxInt64) (fuel : Nat) :
    ∀ (st : Timers) (L : List Nat), L.Nodup →
    (∀ a ∈ st.t, (st.mem a).when ≤ now → a ∈ L) → L.length < fuel → st.t.Nodup →
    HeapOrdF (whenAt st) st.t.length →
    (∀ a ∈ st.t, 0 ≤ (st.mem a).when ∧ (st.mem a).when ≤ maxInt64) →
    (∀ a ∈ st.t, 0 < (st.mem a).period → (st.mem a).when ≤ now →
      now + (st.mem a).period ≤ maxInt64) →
    ∃ r, timerprocLoop cb now fuel st = .ok r ∧ (fired r.events).Nodup ∧
      (∀ a ∈ fired r.events, a ∈ L ∧ a ∈ st.t ∧ (st.mem a).when ≤ now) ∧
      ((r.st.t = [] ∧ r.delta = -1) ∨
        (r.st.t ≠ [] ∧ r.delta = whenAt r.st 0 - now ∧ 0 < r.delta ∧
          ∀ a ∈ r.st.t, now < (r.st.mem a).when)) := by
  induction fuel with
  | zero => intro st L _ _ h; omega
  | succ fuel ih =>
    intro st L hL hdue hfuel hnd hheap hrange hper
    rw [timerprocLoop]
    by_cases hlen : st.t.length = 0
    · rw [if_pos hlen]
      exact ⟨_, rfl, List.nodup_nil, fun a ha => absurd ha (List.not_mem_nil a),
        Or.inl ⟨List.length_eq_zero.mp hlen, rfl⟩⟩
    · rw [if_neg hlen]
      have hpos : 0 < st.t.length := Nat.pos_of_ne_zero hlen
      have hroot : ptr st 0 ∈ st.t := ptr_mem st hpos
      obtain ⟨hw0, hw1⟩ := hrange _ hroot
      have hmax : maxInt64 = 2 ^ 63 - 1 := rfl
      have hdelta : wrap64 ((st.mem (ptr st 0)).when - now) = (st.mem (ptr st 0)).when - now :=
        wrap64_id _ (by omega) (by omega)
      simp only []
      by_cases hd : wrap64 ((st.mem (ptr st 0)).when - now) > 0
      · rw [if_pos hd]
        refine ⟨_, rfl, List.nodup_nil, fun a ha => absurd ha (List.not_mem_nil a), Or.inr ?_⟩
        refine ⟨fun e => hlen (by rw [e]; rfl), hdelta, hd, ?_⟩
        intro a ha
        show now < (st.mem a).when
        have := root_le_of_mem st hheap a ha
        have hd2 : (st.mem (ptr st 0)).when - now > 0 := by rw [← hdelta]; exact hd
        omega
      · rw [if_neg hd]
        have hdueRoot : (st.mem (ptr st 0)).when ≤ now := by rw [hdelta] at hd; omega
        have hrootL : ptr st 0 ∈ L := hdue _ hroot hdueRoot
        -- the branch taken under the lock
        have hbranch : ∃ st1,
            (if (st.mem (ptr st 0)).period > 0
              then rescheduleRoot (ptr st 0) (wrap64 ((st.mem (ptr st 0)).when - now)) st
              else removeRoot (ptr st 0) st) = .ok st1 ∧
            st1.t.Nodup ∧ HeapOrdF (whenAt st1) st1.t.length ∧
            (∀ a ∈ st1.t, a ∈ st.t) ∧
            (∀ a, a ≠ ptr st 0 → (st1.mem a).when = (st.mem a).when) ∧
            (∀ a, (st1.mem a).period = (st.mem a).period) ∧
            (ptr st 0 ∈ st1.t → now < (st1.mem (ptr st 0)).when ∧
              (st1.mem (ptr st 0)).when ≤ maxInt64) := by
          by_cases hp : (st.mem (ptr st 0)).period > 0
          · rw [if_pos hp]
            obtain ⟨st1, r1, r2, -, r4, r5, r6, -, r8⟩ :=
              rescheduleRoot_run st hpos (wrap64 ((st.mem (ptr st 0)).when - now))
            have hov := hper _ hroot hp hdueRoot
            obtain ⟨n1, n2, n3, -⟩ := reschedule_deadline (st.mem (ptr st 0)).when
              (st.mem (ptr st 0)).period now hp hw0 hdueRoot hov
            rw [n1] at r4
            refine ⟨st1, r1, (r2.nodup_iff).mpr hnd, r8 (ptr_root_unique st hnd) hheap,
              fun a ha => r2.mem_iff.mp ha, r5, fun a => (r6 a).1, fun _ => ?_⟩
            rw [r4]
            exact ⟨n2, by omega⟩
          · rw [if_neg hp]
            obtain ⟨st1, r1, r2, r3, -, -, -, r7⟩ := removeRoot_run st hpos
            have hnd1 : (ptr st 0 :: st1.t).Nodup := (r2.nodup_iff).mpr hnd
            refine ⟨st1, r1, (List.nodup_cons.mp hnd1).2, r7 hheap,
              fun a ha => r2.mem_iff.mp (List.mem_cons_of_mem _ ha),
              fun a _ => (r3 a).1, fun a => (r3 a).2.1,
              fun hm => absurd hm (List.nodup_cons.mp hnd1).1⟩
        obtain ⟨st1, e1, hnd1, hheap1, hsub1, hwhen1, hper1, hroot1⟩ := hbranch
        rw [e1]
        simp only []
        obtain ⟨hct, hcm⟩ := hcb (st1.mem (ptr st 0)).f (st1.mem (ptr st 0)).arg
          (st1.mem (ptr st 0)).seq st1
        generalize cb (st1.mem (ptr st 0)).f (st1.mem (ptr st 0)).arg
          (st1.mem (ptr st 0)).seq st1 = st2 at hct hcm
        have hheap2 : HeapOrdF (whenAt st2) st2.t.length := by
          have : whenAt st2 = whenAt st1 := by
            funext j; simp only [whenAt, ptr, hct, hcm]
          rw [this, hct]; exact hheap1
        have hdue2 : ∀ a ∈ st2.t, (st2.mem a).when ≤ now → a ∈ L.erase (ptr st 0) := by
          intro a ha hw
          rw [hct] at ha
          rw [hcm] at hw
          have hne : a ≠ ptr st 0 := by
            intro e
            subst e
            have := (hroot1 ha).1
            omega
          rw [hwhen1 a hne] at hw
          exact (List.Nodup.mem_erase_iff hL).mpr ⟨hne, hdue a (hsub1 a ha) hw⟩
        have hlen2 : (L.erase (ptr st 0)).length < fuel := by
          rw [List.length_erase_of_mem hrootL]
          have : 0 < L.length := List.length_pos_of_mem hrootL
          omega
        have hrange2 : ∀ a ∈ st2.t, 0 ≤ (st2.mem a).when ∧ (st2.mem a).when ≤ maxInt64 := by
          intro a ha
          rw [hct] at ha
          rw [hcm]
          by_cases hne : a = ptr st 0
          · subst hne
            have := hroot1 ha
            exact ⟨by omega, this.2⟩
          · rw [hwhen1 a hne]
            exact hrange a (hsub1 a ha)
        have hper2 : ∀ a ∈ st2.t, 0 < (st2.mem a).period → (st2.mem a).when ≤ now →
            now + (st2.mem a).period ≤ maxInt64 := by
          intro a ha hp hw
          rw [hct] at ha
          rw [hcm] at hp hw ⊢
          have hne : a ≠ ptr st 0 := by
            intro e
            subst e
            have := (hroot1 ha).1
            omega
          rw [hper1 a] at hp ⊢
          rw [hwhen1 a hne] at hw
          exact hper a (hsub1 a ha) hp hw
        obtain ⟨r, k1, k2, k3, k4⟩ := ih st2 (L.erase (ptr st 0)) (hL.erase _) hdue2 hlen2
          (by rw [hct]; exact hnd1) hheap2 hrange2 hper2
        rw [k1]
        refine ⟨_, rfl, ?_, ?_, k4⟩
        · simp only [fired_service]
          refine List.nodup_cons.mpr ⟨?_, k2⟩
          intro hm
          exact ((List.Nodup.mem_erase_iff hL).mp (k3 _ hm).1).1 rfl
        · simp only [fired_service]
          intro a ha
          rcases List.mem_cons.mp ha with e | ha'
          · subst e
            exact ⟨hrootL, hroot, hdueRoot⟩
          · obtain ⟨m1, m2, m3⟩ := k3 a ha'
            have hne := ((List.Nodup.mem_erase_iff hL).mp m1).1
            rw [hct] at m2
            rw [hcm, hwhen1 a hne] at m3
            exact ⟨List.mem_of_mem_erase m1, hsub1 a m2, m3⟩

/-- C39. Termination of one pass of `timerproc`.  The heap holds `n` distinct timers
in heap order with deadlines in `[0, 2^63-1]`, the clock value `now` is in the same
range, callbacks leave the heap and the timer objects alone, and for every due
periodic timer `now + period` does not overflow.  Then the inner loop of `timerproc`
returns with any fuel above `n`; it makes at most `n` callback invocations, of timers
of the heap that were due, no timer twice; and at exit the heap is empty with
`delta = -1`, or `delta` is the deadline of the root minus `now`, it is positive, and
every deadline in the heap is after `now`. -/
theorem timerproc_pass_terminates (cb : Callback)
    (hcb : ∀ f a s st, (cb f a s st).t = st.t ∧ (cb f a s st).mem = st.mem)
    (now : Int) (h0 : 0 ≤ now) (hnow : now ≤ maxInt64) (st : Timers) (hnd : st.t.Nodup)
    (hheap : HeapOrdF (whenAt st) st.t.length)
    (hrange : ∀ a ∈ st.t, 0 ≤ (st.mem a).when ∧ (st.mem a).when ≤ maxInt64)
    (hper : ∀ a ∈ st.t, 0 < (st.mem a).period → (st.mem a).when ≤ now →
      now + (st.mem a).period ≤ maxInt64)
    (fuel : Nat) (hfuel : st.t.length < fuel) :
    ∃ r, timerprocLoop cb now fuel st = .ok r ∧ (fired r.events).length ≤ st.t.length ∧
      (fired r.events).Nodup ∧
      (∀ a ∈ fired r.events, a ∈ st.t ∧ (st.mem a).when ≤ now) ∧
      ((r.st.t = [] ∧ r.delta = -1) ∨
        (r.st.t ≠ [] ∧ r.delta = whenAt r.st 0 - now ∧ 0 < r.delta ∧
          ∀ a ∈ r.st.t, now < (r.st.mem a).when)) := by
  obtain ⟨r, k1, k2, k3, k4⟩ := timerprocLoop_pass cb hcb now h0 hnow fuel st st.t hnd
    (fun a ha _ => ha) hfuel hnd hheap hrange hper
  refine ⟨r, k1, ?_, k2, fun a ha => (k3 a ha).2, k4⟩
  exact (List.subperm_of_subset k2 (fun a ha => (k3 a ha).1)).length_le

/-- Instance of `timerproc_pass_terminates`: the heap of two one-shot timers with
the deadlines 10 and 20 and the clock at 15. -/
theorem timerproc_pass_terminates_witness :
    (twoTimers 0).t.Nodup ∧ (twoTimers 0).t.length < 3 ∧
    ∃ r, timerprocLoop (fun _ _ _ s => s) 15 3 (twoTimers 0) = .ok r ∧
      (fired r.events).length ≤ (twoTimers 0).t.length ∧ (fired r.events).Nodup :=
  ⟨by decide, by decide,
    let ⟨r, h1, h2, h3, _⟩ := timerproc_pass_terminates (fun _ _ _ s => s)
      (fun _ _ _ _ => ⟨rfl, rfl⟩) 15 (by decide) (by decide) (twoTimers 0) (by decide)
      (twoTimers_heapOrd 0) (by decide) (by decide) 3 (by decide)
    ⟨r, h1, h2, h3⟩⟩

end runtime

/-! ## The lock discipline of `timerproc` -/

namespace runtime

theorem lockHeld_append (evs1 evs2 : List Ev) : ∀ (h1 h2 : Bool),
    lockHeld h1 evs1 = some h2 → lockHeld h1 (evs1 ++ evs2) = lockHeld h2 evs2 := by
  induction evs1 with
  | nil =>
    intro h1 h2 h
    simp only [lockHeld, Option.some.injEq] at h
    subst h
    rfl
  | cons e evs ih =>
    intro h1 h2 h
    cases e <;> cases h1 <;> simp only [lockHeld, List.cons_append, if_true, if_false,
      Bool.false_eq_true] at h ⊢ <;> first | exact ih _ _ h | exact absurd h (by simp)

theorem lockHeld_service (cs : List (Nat × Nat × Nat × Nat)) :
    lockHeld true (cs.flatMap service) = some true := by
  induction cs with
  | nil => rfl
  | cons c cs ih =>
    rw [List.flatMap_cons]
    exact ih

/-- The branch that `timerproc` takes under the lock on a non-empty heap returns, and
leaves the callback, argument and sequence number of every timer as they are. -/
theorem timerproc_branch (st : Timers) (hn : 0 < st.t.length) (delta : Int) :
    ∃ st1, (if (st.mem (ptr st 0)).period > 0 then rescheduleRoot (ptr st 0) delta st
        else removeRoot (ptr st 0) st) = .ok st1 ∧
      ∀ a, (st1.mem a).f = (st.mem a).f ∧ (st1.mem a).arg = (st.mem a).arg ∧
        (st1.mem a).seq = (st.mem a).seq := by
  by_cases hp : (st.mem (ptr st 0)).period > 0
  · rw [if_pos hp]
    obtain ⟨st1, r1, -, -, -, -, r6, -⟩ := rescheduleRoot_run st hn delta
    exact ⟨st1, r1, fun a => (r6 a).2⟩
  · rw [if_neg hp]
    obtain ⟨st1, r1, -, r3, -⟩ := removeRoot_run st hn
    exact ⟨st1, r1, fun a => (r3 a).2.2⟩

/-- The inner loop of `timerproc` never panics, and the events of a pass that returns
are a sequence of services. -/
theorem timerprocLoop_events (cb : Callback) (now : Int) (fuel : Nat) : ∀ (st : Timers),
    Res.isPanic (timerprocLoop cb now fuel st) = false ∧
    ∃ cs : List (Nat × Nat × Nat × Nat), loopEvents (timerprocLoop cb now fuel st) = cs.flatMap service := by
  induction fuel with
  | zero => intro st; exact ⟨rfl, [], rfl⟩
  | succ fuel ih =>
    intro st
    rw [timerprocLoop]
    by_cases hlen : st.t.length = 0
    · rw [if_pos hlen]; exact ⟨rfl, [], rfl⟩
    · rw [if_neg hlen]
      simp only []
      by_cases hd : wrap64 ((st.mem (ptr st 0)).when - now) > 0
      · rw [if_pos hd]; exact ⟨rfl, [], rfl⟩
      · rw [if_neg hd]
        obtain ⟨st1, e1, -⟩ := timerproc_branch st (Nat.pos_of_ne_zero hlen)
          (wrap64 ((st.mem (ptr st 0)).when - now))
        rw [e1]
        simp only []
        obtain ⟨k1, cs, k2⟩ := ih (cb (st1.mem (ptr st 0)).f (st1.mem (ptr st 0)).arg
          (st1.mem (ptr st 0)).seq st1)
        cases hr : timerprocLoop cb now fuel (cb (st1.mem (ptr st 0)).f
            (st1.mem (ptr st 0)).arg (st1.mem (ptr st 0)).seq st1) with
        | panic msg => rw [hr] at k1; exact Bool.noConfusion k1
        | outOfFuel => exact ⟨rfl, [], rfl⟩
        | ok r =>
          rw [hr] at k2
          refine ⟨rfl, (ptr st 0, (st1.mem (ptr st 0)).f, (st1.mem (ptr st 0)).arg,
            (st1.mem (ptr st 0)).seq) :: cs, ?_⟩
          simp only [loopEvents] at k2 ⊢
          rw [List.flatMap_cons, ← k2]
          rfl

theorem timerprocPass_events (cb : Callback) (faketime now : Int) (fuel : Nat) (st : Timers) :
    Res.isPanic (timerprocPass cb faketime now fuel st) = false ∧
    (loopEvents (timerprocPass cb faketime now fuel st) = [] ∨
      ∃ cs : List (Nat × Nat × Nat × Nat), loopEvents (timerprocPass cb faketime now fuel st)
        = [Ev.lock] ++ cs.flatMap service ++ [Ev.unlock]) := by
  obtain ⟨k1, cs, k2⟩ := timerprocLoop_events cb now fuel { st with sleeping := false }
  unfold timerprocPass
  cases hr : timerprocLoop cb now fuel { st with sleeping := false } with
  | panic msg => rw [hr] at k1; exact Bool.noConfusion k1
  | outOfFuel => exact ⟨rfl, Or.inl rfl⟩
  | ok r =>
    rw [hr] at k2
    simp only [loopEvents] at k2
    simp only []
    split_ifs
    · exact ⟨rfl, Or.inr ⟨cs, by simp only [loopEvents, k2]⟩⟩
    · exact ⟨rfl, Or.inr ⟨cs, by simp only [loopEvents, k2]⟩⟩

theorem lockHeld_pass (cs : List (Nat × Nat × Nat × Nat)) (evs : List Ev)
    (h : lockHeld false evs = some false) :
    lockHeld false ([Ev.lock] ++ cs.flatMap service ++ [Ev.unlock] ++ evs) = some false := by
  have h1 : lockHeld false ([Ev.lock] ++ cs.flatMap service ++ [Ev.unlock]) = some false := by
    have : lockHeld true (cs.flatMap service ++ [Ev.unlock]) = some false := by
      rw [lockHeld_append _ _ true true (lockHeld_service cs)]
      rfl
    simpa [lockHeld] using this
  rw [lockHeld_append _ _ false false h1]
  exact h

theorem timerproc_events (cb : Callback) (faketime : Int) (fuel : Nat)
    (passes : List (Int × (Timers → Timers))) : ∀ (st : Timers),
    Res.isPanic (timerproc cb faketime fuel passes st) = false ∧
    lockHeld false (eventsOf (timerproc cb faketime fuel passes st)) = some false := by
  induction passes with
  | nil => intro st; exact ⟨rfl, rfl⟩
  | cons pe passes ih =>
    intro st
    obtain ⟨now, env⟩ := pe
    rw [timerproc]
    obtain ⟨k1, k2⟩ := timerprocPass_events cb faketime now fuel st
    cases hr : timerprocPass cb faketime now fuel st with
    | panic msg => rw [hr] at k1; exact Bool.noConfusion k1
    | outOfFuel => exact ⟨rfl, rfl⟩
    | ok r =>
      rw [hr] at k2
      simp only [loopEvents] at k2
      simp only []
      obtain ⟨m1, m2⟩ := ih (env r.st)
      cases hq : timerproc cb faketime fuel passes (env r.st) with
      | panic msg => rw [hq] at m1; exact Bool.noConfusion m1
      | outOfFuel => exact ⟨rfl, rfl⟩
      | ok q =>
        obtain ⟨s, evs⟩ := q
        rw [hq] at m2
        simp only [eventsOf] at m2 ⊢
        refine ⟨rfl, ?_⟩
        rcases k2 with k2 | ⟨cs, k2⟩
        · rw [k2]; exact m2
        · rw [k2]; exact lockHeld_pass cs evs m2

/-- C37. Timer callbacks run outside the heap lock.  For every callback behaviour,
clock values and interference between passes: `timerproc` and its inner loop never
panic; the events of a pass of the inner loop, which is entered with `timers.lock`
held, are a sequence of services `unlock, f(arg, seq), lock`, so the lock is held
again at the end; in the events of any number of passes of `timerproc` no callback
is invoked while the lock is held, the lock is never taken while held nor released
while free, and it is free at the end.  In each iteration that services the root `t`
the branch taken under the lock returns and leaves `t.f`, `t.arg`, `t.seq` as they
were at the head of the iteration, and the callback event carries exactly these
values, read before the unlock, whatever the callback does afterwards. -/
theorem callbacks_outside_lock (cb : Callback) (faketime : Int) (fuel : Nat) :
    (∀ now st, Res.isPanic (timerprocLoop cb now fuel st) = false ∧
      (∃ cs : List (Nat × Nat × Nat × Nat), loopEvents (timerprocLoop cb now fuel st) = cs.flatMap service) ∧
      lockHeld true (loopEvents (timerprocLoop cb now fuel st)) = some true) ∧
    (∀ passes st, Res.isPanic (timerproc cb faketime fuel passes st) = false ∧
      lockHeld false (eventsOf (timerproc cb faketime fuel passes st)) = some false) ∧
    (∀ now st, 0 < st.t.length → ¬ wrap64 ((st.mem (ptr st 0)).when - now) > 0 →
      ∃ st1, (if (st.mem (ptr st 0)).period > 0
          then rescheduleRoot (ptr st 0) (wrap64 ((st.mem (ptr st 0)).when - now)) st
          else removeRoot (ptr st 0) st) = .ok st1 ∧
        (st1.mem (ptr st 0)).f = (st.mem (ptr st 0)).f ∧
        (st1.mem (ptr st 0)).arg = (st.mem (ptr st 0)).arg ∧
        (st1.mem (ptr st 0)).seq = (st.mem (ptr st 0)).seq ∧
        timerprocLoop cb now (fuel + 1) st =
          match timerprocLoop cb now fuel (cb (st.mem (ptr st 0)).f (st.mem (ptr st 0)).arg
            (st.mem (ptr st 0)).seq st1) with
          | .panic msg => .panic msg
          | .outOfFuel => .outOfFuel
          | .ok r => .ok ⟨r.st, r.delta,
              service (ptr st 0, (st.mem (ptr st 0)).f, (st.mem (ptr st 0)).arg,
                (st.mem (ptr st 0)).seq) ++ r.events⟩) := by
  refine ⟨?_, ?_, ?_⟩
  · intro now st
    obtain ⟨k1, cs, k2⟩ := timerprocLoop_events cb now fuel st
    exact ⟨k1, ⟨cs, k2⟩, by rw [k2]; exact lockHeld_service cs⟩
  · intro passes st
    exact timerproc_events cb faketime fuel passes st
  · intro now st hn hd
    obtain ⟨st1, e1, e2⟩ := timerproc_branch st hn (wrap64 ((st.mem (ptr st 0)).when - now))
    refine ⟨st1, e1, (e2 _).1, (e2 _).2.1, (e2 _).2.2, ?_⟩
    rw [timerprocLoop, if_neg (by omega)]
    simp only []
    rw [if_neg hd, e1]
    simp only [(e2 _).1, (e2 _).2.1, (e2 _).2.2]
    rfl

/-- Instance of `callbacks_outside_lock`: one pass of `timerproc` over the heap of two
one-shot timers with the clock at 15 services the timer at address 0 between an unlock
and a lock. -/
theorem callbacks_outside_lock_witness :
    0 < (twoTimers 0).t.length ∧
    ¬ wrap64 (((twoTimers 0).mem (ptr (twoTimers 0) 0)).when - 15) > 0 ∧
    eventsOf (timerproc (fun _ _ _ s => s) 0 3 [(15, fun s => s)] (twoTimers 0))
      = [Ev.lock, Ev.unlock, Ev.call 0 0 0 0, Ev.lock, Ev.unlock] ∧
    lockHeld false (eventsOf (timerproc (fun _ _ _ s => s) 0 3 [(15, fun s => s)] (twoTimers 0)))
      = some false ∧
    ∃ st1, removeRoot (ptr (twoTimers 0) 0) (twoTimers 0) = .ok st1 ∧
      (st1.mem (ptr (twoTimers 0) 0)).f = ((twoTimers 0).mem (ptr (twoTimers 0) 0)).f :=
  ⟨by decide, by decide, by decide,
    ((callbacks_outside_lock (fun _ _ _ s => s) 0 3).2.1 [(15, fun s => s)] (twoTimers 0)).2,
    let ⟨st1, h1, h2, _⟩ := (callbacks_outside_lock (fun _ _ _ s => s) 0 3).2.2 15 (twoTimers 0)
      (by decide) (by decide)
    ⟨st1, h1, h2⟩⟩

end runtime

/-! ## The woken bit in `Mutex.Lock` -/

namespace sync

/-- C34, as stated, fails in the spin branch: with `awoke` true, `old = 1` (locked,
woken bit clear) and `runtime_canSpin` true, the iteration does not panic; it calls
`runtime_doSpin` and goes back to the head of the loop with `iter + 1`, leaving the
mutex as it is. -/
theorem Lock_awoke_spin_counterexample :
    woken 1 = false ∧
    lockStep true (.cas true 0 1) ⟨1, 0⟩ = ⟨.load true 1, ⟨1, 0⟩, [Call.doSpin]⟩ ∧
    (lockStep true (.cas true 0 1) ⟨1, 0⟩).pc ≠ .panicked "sync: inconsistent mutex state" := by
  decide

/-- C34 (amended). A woken waiter clears the woken bit.  In the slow path of
`Mutex.Lock`, for the iteration that has read `old` while the local `awoke` is true:
(a) the iteration either leaves the mutex as it is, or its compare-and-swap of line
78 succeeds (the state was still `old`) and the state word it installs has the woken
bit clear, `Lock` then returning or parking;
(b) if `old` has the woken bit clear and the iteration does not spin (`old` is
unlocked or `runtime_canSpin` is false), `Lock` panics with
"sync: inconsistent mutex state" and writes nothing;
(c) if `old` has the woken bit clear and the iteration spins (`old` is locked and
`runtime_canSpin` is true), it does not panic: it calls `runtime_doSpin`, writes
nothing and goes back to the head of the loop with `awoke` still true;
(d) when `runtime_Semacquire` returns, the goroutine is at the head of the loop with
`awoke = true` and `iter = 0`. -/
theorem awoke_clears_woken :
    (∀ (canSpin : Bool) (iter old : Nat) (m : Mutex),
      (lockStep canSpin (.cas true iter old) m).m = m ∨
      (m.state = old ∧ woken (lockStep canSpin (.cas true iter old) m).m.state = false ∧
        (lockStep canSpin (.cas true iter old) m).m.sema = m.sema ∧
        ((lockStep canSpin (.cas true iter old) m).pc = .returned ∨
          (lockStep canSpin (.cas true iter old) m).pc = .park))) ∧
    (∀ (canSpin : Bool) (iter old : Nat) (m : Mutex), woken old = false →
      ¬ (locked old = true ∧ canSpin = true) →
      lockStep canSpin (.cas true iter old) m
        = ⟨.panicked "sync: inconsistent mutex state", m, []⟩) ∧
    (∀ (iter old : Nat) (m : Mutex), woken old = false → locked old = true →
      lockStep true (.cas true iter old) m = ⟨.load true (iter + 1), m, [Call.doSpin]⟩) ∧
    (∀ (canSpin : Bool) (m : Mutex), 0 < m.sema →
      lockStep canSpin .park m = ⟨.load true 0, ⟨m.state, m.sema - 1⟩, []⟩) := by
  refine ⟨?_, ?_, ?_, ?_⟩
  · intro canSpin iter old m
    obtain ⟨s, sema⟩ := m
    rw [lockStep_cas]
    simp only [woken_false_iff]
    split_ifs with h1 h2
    · exact absurd h2.1 (by decide)
    · exact Or.inl rfl
    · exact Or.inl rfl
    · exact Or.inr ⟨by assumption, andNot32_woken_bit _, rfl, Or.inr rfl⟩
    · exact Or.inl rfl
    · exact Or.inl rfl
    · exact Or.inr ⟨by assumption, andNot32_woken_bit _, rfl, Or.inl rfl⟩
    · exact Or.inl rfl
  · intro canSpin iter old m hw hns
    obtain ⟨s, sema⟩ := m
    rw [woken_false_iff] at hw
    rw [locked_iff] at hns
    rw [lockStep_cas, if_neg hns]
    by_cases h1 : old % 2 = 1
    · rw [if_pos h1, if_pos ⟨rfl, by omega⟩]
    · rw [if_neg h1, or_locked, if_pos ⟨rfl, by omega⟩]
  · intro iter old m hw hl
    obtain ⟨s, sema⟩ := m
    rw [locked_iff] at hl
    rw [lockStep_cas, if_pos ⟨hl, rfl⟩, if_neg (fun h => absurd h.1 (by decide))]
  · intro canSpin m hs
    obtain ⟨s, sema⟩ := m
    rw [lockStep_park, if_pos hs]

/-- Instance of `awoke_clears_woken`: a woken waiter that reads the state 7 (locked,
woken, one waiter) without spinning registers again and parks, installing 9 (locked,
two waiters, woken bit clear); on the state 1 it panics. -/
theorem awoke_clears_woken_witness :
    woken 1 = false ∧ ¬ (locked 1 = true ∧ false = true) ∧
    lockStep false (.cas true 0 1) ⟨1, 0⟩ = ⟨.panicked "sync: inconsistent mutex state", ⟨1, 0⟩, []⟩ ∧
    (0 : Nat) < (Mutex.mk 9 1).sema ∧
    lockStep false .park ⟨9, 1⟩ = ⟨.load true 0, ⟨9, 0⟩, []⟩ :=
  ⟨by decide, by decide, awoke_clears_woken.2.1 false 0 1 ⟨1, 0⟩ (by decide) (by decide),
    by decide, awoke_clears_woken.2.2.2 false ⟨9, 1⟩ (by decide)⟩

end sync

/-! ## Placement by `Pool.Put` -/

namespace sync

/-- C35, as stated, fails when the worker has no shard yet: on a pool whose only shard
holds the item 7 in its private slot, with `GOMAXPROCS` raised to 2, `Put(5)` on
worker 1 makes `pin` replace the array by two fresh shards, so the shard of worker 0
changes: its item is dropped. -/
theorem Put_fresh_array_counterexample :
    indexLocal (busyPool.pool 1).shards 0 = ⟨some 7, []⟩ ∧
    indexLocal ((Pool.Put 2 1 1 (some 5) busyPool).pool 1).shards 0 = ⟨none, []⟩ ∧
    ((Pool.Put 2 1 1 (some 5) busyPool).pool 1).shards = [⟨none, []⟩, ⟨some 5, []⟩] := by
  decide

/-- C35 (amended). Placement by `Pool.Put` on worker `pid`, without interference.
`Put(nil)` changes nothing.  For a non-nil `x`, when the worker has its shard
(`pid < localSize`, the array having `localSize` shards): if the private slot of that
shard is nil then afterwards it holds `x` and the shared list is unchanged; if the
slot is occupied then it is unchanged and the shared list is the old list with `x`
appended at the end; no other shard of the pool changes, nor `localSize`, `New`, the
registry `allPools` or any other pool.  When the worker has no shard yet
(`localSize <= pid < GOMAXPROCS`) the array is replaced by `GOMAXPROCS` empty shards,
which drops the items of all shards, and `x` is put in the private slot of the new
shard `pid`. -/
theorem Put_placement (procs pid p : Nat) (st : Pools) (x : Nat) :
    Pool.Put procs pid p none st = st ∧
    (pid < (st.pool p).localSize → (st.pool p).shards.length = (st.pool p).localSize →
      ((indexLocal (st.pool p).shards pid).priv = none →
        indexLocal ((Pool.Put procs pid p (some x) st).pool p).shards pid
          = ⟨some x, (indexLocal (st.pool p).shards pid).shared⟩) ∧
      ((indexLocal (st.pool p).shards pid).priv ≠ none →
        indexLocal ((Pool.Put procs pid p (some x) st).pool p).shards pid
          = ⟨(indexLocal (st.pool p).shards pid).priv,
              (indexLocal (st.pool p).shards pid).shared ++ [some x]⟩) ∧
      (∀ j, j ≠ pid → indexLocal ((Pool.Put procs pid p (some x) st).pool p).shards j
          = indexLocal (st.pool p).shards j) ∧
      ((Pool.Put procs pid p (some x) st).pool p).shards.length = (st.pool p).shards.length ∧
      ((Pool.Put procs pid p (some x) st).pool p).localSize = (st.pool p).localSize ∧
      ((Pool.Put procs pid p (some x) st).pool p).localNil = (st.pool p).localNil ∧
      ((Pool.Put procs pid p (some x) st).pool p).New = (st.pool p).New ∧
      (Pool.Put procs pid p (some x) st).allPools = st.allPools ∧
      (∀ q, q ≠ p → (Pool.Put procs pid p (some x) st).pool q = st.pool q)) ∧
    (¬ pid < (st.pool p).localSize → pid < procs →
      ((Pool.Put procs pid p (some x) st).pool p).shards
        = (List.replicate procs ⟨none, []⟩).set pid ⟨some x, []⟩ ∧
      ((Pool.Put procs pid p (some x) st).pool p).localSize = procs) := by
  refine ⟨rfl, ?_, ?_⟩
  · intro hpid hlen
    have hstore : ∀ l : poolLocal,
        indexLocal ((st.store p pid l).pool p).shards pid = l ∧
        (∀ j, j ≠ pid → indexLocal ((st.store p pid l).pool p).shards j
          = indexLocal (st.pool p).shards j) ∧
        ((st.store p pid l).pool p).shards.length = (st.pool p).shards.length ∧
        ((st.store p pid l).pool p).localSize = (st.pool p).localSize ∧
        ((st.store p pid l).pool p).localNil = (st.pool p).localNil ∧
        ((st.store p pid l).pool p).New = (st.pool p).New ∧
        (st.store p pid l).allPools = st.allPools ∧
        (∀ q, q ≠ p → (st.store p pid l).pool q = st.pool q) := by
      intro l
      rw [Pools.store_pool]
      refine ⟨indexLocal_set_self _ _ _ (by omega),
        fun j hj => indexLocal_set_ne _ _ _ _ (Ne.symm hj), List.length_set _ _ _, rfl, rfl,
        rfl, rfl, ?_⟩
      intro q hq
      unfold Pools.store
      exact Function.update_noteq hq _ _
    by_cases hx : (indexLocal (st.pool p).shards pid).priv = none
    · rw [Put_private procs pid p st x hpid hx]
      obtain ⟨h1, h2⟩ := hstore { (indexLocal (st.pool p).shards pid) with priv := some x }
      exact ⟨fun _ => h1, fun h => absurd hx h, h2⟩
    · rw [Put_shared procs pid p st x hpid hx]
      obtain ⟨h1, h2⟩ := hstore { (indexLocal (st.pool p).shards pid) with
        shared := (indexLocal (st.pool p).shards pid).shared ++ [some x] }
      exact ⟨fun h => absurd h hx, fun _ => h1, h2⟩
  · intro hpid hp
    rw [Put_eq]
    have hfresh := pin_fresh procs pid p st hpid
    have hnone : (indexLocal ((Pool.pin procs pid p st).pool p).shards pid).priv = none := by
      rw [hfresh, indexLocal_replicate]
    rw [if_pos hnone, Pools.store_pool, hfresh]
    simp only [indexLocal_replicate, and_self]

/-- Instance of `Put_placement` on the pool whose only shard holds 7 in its private
slot: `Put(5)` on worker 0 appends 5 to the shared list. -/
theorem Put_placement_witness :
    0 < (busyPool.pool 1).localSize ∧
    (busyPool.pool 1).shards.length = (busyPool.pool 1).localSize ∧
    (indexLocal (busyPool.pool 1).shards 0).priv ≠ none ∧
    indexLocal ((Pool.Put 1 0 1 (some 5) busyPool).pool 1).shards 0 = ⟨some 7, [some 5]⟩ :=
  ⟨by decide, by decide, by decide,
    ((Put_placement 1 0 1 busyPool 5).2.1 (by decide) (by decide)).2.1 (by decide)⟩

end sync

/-! ## The scan order of `getSlow` -/

namespace sync

/-- The scan order visits every shard index once, starts after the caller's shard
and ends with it. -/
theorem scanOrder_perm (pid size : Nat) (hsize : 1 ≤ size) (hpid : pid < size) :
    (scanOrder pid size).Perm (List.range size) ∧ (scanOrder pid size).Nodup ∧
    (∀ k ∈ scanOrder pid size, k < size) ∧
    (scanOrder pid size).head? = some ((pid + 1) % size) ∧
    (scanOrder pid size).getLast? = some pid := by
  have hlt : ∀ k ∈ scanOrder pid size, k < size := by
    intro k hk
    obtain ⟨i, -, rfl⟩ := List.mem_map.mp hk
    exact Nat.mod_lt _ (by omega)
  have hnd : (scanOrder pid size).Nodup := by
    unfold scanOrder
    refine (List.nodup_map_iff_inj_on (List.nodup_range size)).mpr ?_
    intro i hi j hj e
    rw [List.mem_range] at hi hj
    have e1 : (pid + 1 + i) % size = (pid + 1 + j) % size := by
      have h1 : pid + 1 + i = pid + i + 1 := by omega
      have h2 : pid + 1 + j = pid + j + 1 := by omega
      rw [h1, h2]; exact e
    exact Nat.ModEq.eq_of_lt_of_lt (Nat.ModEq.add_left_cancel' (pid + 1) e1) hi hj
  have hlen : (scanOrder pid size).length = size := by
    unfold scanOrder; rw [List.length_map, List.length_range]
  refine ⟨?_, hnd, hlt, ?_, ?_⟩
  · have hsub : scanOrder pid size ⊆ List.range size := fun k hk =>
      List.mem_range.mpr (hlt k hk)
    have hsp := List.subperm_of_subset hnd hsub
    exact hsp.perm_of_length_le (by rw [hlen, List.length_range])
  · obtain ⟨m, rfl⟩ : ∃ m, size = m + 1 := ⟨size - 1, by omega⟩
    unfold scanOrder
    rw [List.range_succ_eq_map]
    rfl
  · obtain ⟨m, rfl⟩ : ∃ m, size = m + 1 := ⟨size - 1, by omega⟩
    unfold scanOrder
    rw [List.range_succ, List.map_append, List.map_singleton, List.getLast?_concat]
    congr 1
    have : pid + m + 1 = pid + (m + 1) := by omega
    rw [this, Nat.add_mod_right]
    exact Nat.mod_eq_of_lt hpid

/-- The loop of `getSlow` over shards whose shared lists are all empty. -/
theorem stealScan_none (pid size : Nat) (hsize : size ≠ 0) (n i : Nat)
    (shards : List poolLocal)
    (h : ∀ j, i ≤ j → j < i + n → (indexLocal shards ((pid + j + 1) % size)).shared = []) :
    Pool.stealScan pid size n i shards
      = .ok ((List.range' i n).map (fun j => (pid + j + 1) % size), shards, none) := by
  induction n generalizing i with
  | zero => rfl
  | succ n ih =>
    unfold Pool.stealScan
    rw [if_neg hsize, if_neg (by rw [h i (le_refl _) (by omega)]; decide),
      ih (i + 1) (fun j h1 h2 => h j (by omega) (by omega))]
    rfl

/-- The loop of `getSlow` stops at the first non-empty shared list it visits. -/
theorem stealScan_found (pid size : Nat) (hsize : size ≠ 0) (n i k : Nat)
    (shards : List poolLocal) (hik : i ≤ k) (hk : k < i + n)
    (h : ∀ j, i ≤ j → j < k → (indexLocal shards ((pid + j + 1) % size)).shared = [])
    (hne : 1 ≤ (indexLocal shards ((pid + k + 1) % size)).shared.length) :
    Pool.stealScan pid size n i shards =
      .ok ((List.range' i (k + 1 - i)).map (fun j => (pid + j + 1) % size),
        shards.set ((pid + k + 1) % size) (indexLocal shards ((pid + k + 1) % size)).pop.1,
        (indexLocal shards ((pid + k + 1) % size)).pop.2) := by
  induction n generalizing i with
  | zero => omega
  | succ n ih =>
    unfold Pool.stealScan
    rw [if_neg hsize]
    by_cases e : i = k
    · subst e
      rw [if_pos hne]
      have : i + 1 - i = 1 := by omega
      rw [this]
      rfl
    · rw [if_neg (by rw [h i (le_refl _) (by omega)]; decide),
        ih (i + 1) (by omega) (by omega) (fun j h1 h2 => h j (by omega) h2)]
      have : k + 1 - i = (k + 1 - (i + 1)) + 1 := by omega
      rw [this, List.range'_succ]
      rfl

/-- C36. The scan order of the steal in `getSlow`.  For `size >= 1` shards and a
caller index `pid < size`, the indices `(pid+i+1) mod size`, `i = 0..size-1`, are a
permutation of `0..size-1` without repetition, all in range, that starts at the shard
after the caller's and ends with the caller's own shard.  The loop returns, with the
same result as `Pool.steal`; it inspects the shards in this order and stops at the
first one whose shared list is not empty, having found the ones before it empty: it
pops the last element of that list and leaves everything else alone; when every
shared list is empty it inspects all `size` shards, changes nothing and finds
nothing.  For `size = 0` it inspects no shard and evaluates no remainder. -/
theorem steal_scan_order (pid size : Nat) (shards : List poolLocal) :
    (1 ≤ size → pid < size →
      ((scanOrder pid size).Perm (List.range size) ∧ (scanOrder pid size).Nodup ∧
        (∀ k ∈ scanOrder pid size, k < size) ∧
        (scanOrder pid size).head? = some ((pid + 1) % size) ∧
        (scanOrder pid size).getLast? = some pid) ∧
      ∃ ks sh x, Pool.stealScan pid size size 0 shards = .ok (ks, sh, x) ∧
        Pool.steal pid size size 0 shards = (sh, x) ∧
        ks <+: scanOrder pid size ∧
        (((∀ k ∈ scanOrder pid size, (indexLocal shards k).shared = []) ∧
            ks = scanOrder pid size ∧ sh = shards ∧ x = none) ∨
          (∃ ks0 k ys y, ks = ks0 ++ [k] ∧
            (∀ j ∈ ks0, (indexLocal shards j).shared = []) ∧
            (indexLocal shards k).shared = ys ++ [y] ∧ x = y ∧
            sh = shards.set k ⟨(indexLocal shards k).priv, ys⟩))) ∧
    Pool.stealScan pid 0 0 0 shards = .ok ([], shards, none) := by
  refine ⟨?_, rfl⟩
  intro hsize hpid
  refine ⟨scanOrder_perm pid size hsize hpid, ?_⟩
  have hs0 : size ≠ 0 := by omega
  by_cases hall : ∀ j, j < size → (indexLocal shards ((pid + j + 1) % size)).shared = []
  · refine ⟨_, _, _, stealScan_none pid size hs0 size 0 shards (fun j _ h => hall j (by omega)),
      steal_none pid size size 0 shards (fun j _ h => hall j (by omega)), ?_, Or.inl ?_⟩
    · rw [← List.range_eq_range']
      exact List.prefix_refl _
    · refine ⟨?_, by rw [← List.range_eq_range']; rfl, rfl, rfl⟩
      intro k hk
      obtain ⟨j, hj, rfl⟩ := List.mem_map.mp hk
      exact hall j (List.mem_range.mp hj)
  · have hex : ∃ j, j < size ∧ (indexLocal shards ((pid + j + 1) % size)).shared ≠ [] := by
      by_contra hc
      apply hall
      intro j hj
      by_contra hne
      exact hc ⟨j, hj, hne⟩
    classical
    have hk := Nat.find_spec hex
    have hmin : ∀ j, j < Nat.find hex →
        (indexLocal shards ((pid + j + 1) % size)).shared = [] := by
      intro j hj
      by_contra hne
      exact Nat.find_min hex hj ⟨by omega, hne⟩
    generalize Nat.find hex = k at hk hmin
    obtain ⟨hks, hkne⟩ := hk
    have hlen : 1 ≤ (indexLocal shards ((pid + k + 1) % size)).shared.length := by
      cases hsh : (indexLocal shards ((pid + k + 1) % size)).shared with
      | nil => exact absurd hsh hkne
      | cons a l => simp
    obtain ⟨ys, y, hys⟩ : ∃ ys y, (indexLocal shards ((pid + k + 1) % size)).shared = ys ++ [y] :=
      ⟨_, _, (List.dropLast_append_getLast hkne).symm⟩
    refine ⟨_, _, _,
      stealScan_found pid size hs0 size 0 k shards (Nat.zero_le _) (by omega)
        (fun j _ h => hmin j h) hlen,
      steal_found pid size size 0 k shards (Nat.zero_le _) (by omega)
        (fun j _ h => hmin j h) hlen, ?_, Or.inr ?_⟩
    · unfold scanOrder
      rw [Nat.sub_zero, ← List.range_eq_range']
      have : List.range (k + 1) <+: List.range size := by
        obtain ⟨d, hd⟩ : ∃ d, size = (k + 1) + d := ⟨size - (k + 1), by omega⟩
        rw [hd, List.range_add (k + 1) d]
        exact List.prefix_append _ _
      exact List.IsPrefix.map _ this
    · refine ⟨(List.range k).map (fun j => (pid + j + 1) % size), (pid + k + 1) % size, ys, y,
        ?_, ?_, hys, ?_, ?_⟩
      · rw [Nat.sub_zero, ← List.range_eq_range', List.range_succ, List.map_append]
        rfl
      · intro j hj
        obtain ⟨i, hi, rfl⟩ := List.mem_map.mp hj
        exact hmin i (List.mem_range.mp hi)
      · rw [pop_concat _ ys y hys]
      · rw [pop_concat _ ys y hys]

/-- Instance of `steal_scan_order` on the pool of three shards of which only the third
holds shared items: worker 0 inspects shard 1, then shard 2 and pops 9. -/
theorem steal_scan_order_witness :
    (1 : Nat) ≤ 3 ∧ (0 : Nat) < 3 ∧ scanOrder 0 3 = [1, 2, 0] ∧
    Pool.stealScan 0 3 3 0 (stealPool.pool 1).shards
      = .ok ([1, 2], [⟨none, []⟩, ⟨none, []⟩, ⟨some 3, [some 4]⟩], some 9) ∧
    (scanOrder 0 3).Perm (List.range 3) :=
  ⟨by decide, by decide, by decide, by decide,
    ((steal_scan_order 0 3 (stealPool.pool 1).shards).1 (by decide) (by decide)).1.1⟩

end sync

/-! ## Conservation of the items of a `Pool` -/

namespace sync

theorem stored_set (shards : List poolLocal) (i : Nat) (a : poolLocal) (v : Nat) :
    stored (shards.set i a) v + (indexLocal shards i).count v
      = stored shards v + (if i < shards.length then a.count v else 0) := by
  induction shards generalizing i with
  | nil => simp [stored, indexLocal, poolLocal.count]
  | cons l ls ih =>
    cases i with
    | zero =>
      simp only [List.set_cons_zero, stored, List.map_cons, List.sum_cons, indexLocal,
        List.getD_cons_zero, List.length_cons, Nat.zero_lt_succ, if_true]
      omega
    | succ i =>
      have := ih i
      simp only [stored, indexLocal, List.set_cons_succ, List.map_cons, List.sum_cons,
        List.getD_cons_succ, List.length_cons, Nat.succ_lt_succ_iff] at this ⊢
      omega

theorem stored_replicate (n v : Nat) : stored (List.replicate n ⟨none, []⟩) v = 0 := by
  induction n with
  | zero => rfl
  | succ n ih =>
    rw [List.replicate_succ]
    simp only [stored, List.map_cons, List.sum_cons] at ih ⊢
    rw [ih]
    simp [poolLocal.count]

theorem NoNil_set (shards : List poolLocal) (i : Nat) (a : poolLocal) (h : NoNil shards)
    (ha : none ∉ a.shared) : NoNil (shards.set i a) := by
  intro l hl
  rcases List.mem_or_eq_of_mem_set hl with h1 | h1
  · exact h l h1
  · rw [h1]; exact ha

theorem NoNil_replicate (n : Nat) : NoNil (List.replicate n ⟨none, []⟩) := by
  intro l hl
  rw [(List.mem_replicate.mp hl).2]
  exact List.not_mem_nil _

theorem NoNil_indexLocal (shards : List poolLocal) (i : Nat) (h : NoNil shards) :
    none ∉ (indexLocal shards i).shared := by
  by_cases hi : i < shards.length
  · have : indexLocal shards i = shards[i] := by
      simp [indexLocal, List.getD_eq_getElem?_getD, List.getElem?_eq_getElem hi]
    rw [this]
    exact h _ (List.getElem_mem hi)
  · have : indexLocal shards i = ⟨none, []⟩ := by
      simp [indexLocal, List.getD_eq_getElem?_getD, List.getElem?_eq_none (by omega : shards.length ≤ i)]
    rw [this]
    exact List.not_mem_nil _

/-- The shards after `pin` hold no more than before, and no nil. -/
theorem pin_stored (procs pid p : Nat) (st : Pools) (v : Nat) :
    stored ((Pool.pin procs pid p st).pool p).shards v ≤ stored (st.pool p).shards v ∧
    (NoNil (st.pool p).shards → NoNil ((Pool.pin procs pid p st).pool p).shards) ∧
    ((Pool.pin procs pid p st).pool p).New = (st.pool p).New := by
  by_cases h : pid < (st.pool p).localSize
  · rw [pin_of_lt procs pid p st h]
    exact ⟨le_refl _, id, rfl⟩
  · rw [pin_fresh procs pid p st h]
    exact ⟨by rw [stored_replicate]; exact Nat.zero_le _, fun _ => NoNil_replicate _, rfl⟩

theorem store_stored (st : Pools) (p i : Nat) (a : poolLocal) (v : Nat) :
    stored ((st.store p i a).pool p).shards v + (indexLocal (st.pool p).shards i).count v
      = stored (st.pool p).shards v + (if i < (st.pool p).shards.length then a.count v else 0) ∧
    ((st.store p i a).pool p).New = (st.pool p).New := by
  rw [Pools.store_pool]
  exact ⟨stored_set _ _ _ _, rfl⟩

theorem store_NoNil (st : Pools) (p i : Nat) (a : poolLocal) (h : NoNil (st.pool p).shards)
    (ha : none ∉ a.shared) : NoNil ((st.store p i a).pool p).shards := by
  rw [Pools.store_pool]
  exact NoNil_set _ _ _ h ha

/-- A call of `Put(x)` adds at most one copy of `x`, and nothing else. -/
theorem Put_stored (procs pid p : Nat) (st : Pools) (x : Option Nat) (v : Nat) :
    stored ((Pool.Put procs pid p x st).pool p).shards v
      ≤ stored (st.pool p).shards v + x.toList.count v ∧
    (NoNil (st.pool p).shards → NoNil ((Pool.Put procs pid p x st).pool p).shards) ∧
    ((Pool.Put procs pid p x st).pool p).New = (st.pool p).New := by
  cases x with
  | none => exact ⟨Nat.le_add_right _ _, id, rfl⟩
  | some x =>
    obtain ⟨h1, h2, h3⟩ := pin_stored procs pid p st v
    rw [Put_eq]
    have hc : (Option.toList (some x)).count v = if x = v then 1 else 0 := by
      simp [Option.toList, List.count_cons]
    rw [hc]
    generalize hl : indexLocal ((Pool.pin procs pid p st).pool p).shards pid = l
    by_cases hp : l.priv = none
    · rw [if_pos hp]
      obtain ⟨k1, k2⟩ := store_stored (Pool.pin procs pid p st) p pid { l with priv := some x } v
      refine ⟨?_, fun hn => store_NoNil _ _ _ _ (h2 hn) ?_, k2.trans h3⟩
      · rw [hl] at k1
        dsimp only at k1 ⊢
        simp only [poolLocal.count, hp, Option.some.injEq, reduceCtorEq, if_false] at k1
        split_ifs at k1 ⊢ <;> omega
      · rw [← hl]; exact NoNil_indexLocal _ _ (h2 hn)
    · rw [if_neg hp]
      obtain ⟨k1, k2⟩ := store_stored (Pool.pin procs pid p st) p pid
        { l with shared := l.shared ++ [some x] } v
      refine ⟨?_, fun hn => store_NoNil _ _ _ _ (h2 hn) ?_, k2.trans h3⟩
      · rw [hl] at k1
        dsimp only at k1 ⊢
        simp only [poolLocal.count, List.count_append, List.count_cons, List.count_nil,
          beq_iff_eq, Option.some.injEq] at k1
        split_ifs at k1 ⊢ <;> omega
      · intro hm
        rcases List.mem_append.mp hm with hm | hm
        · rw [← hl] at hm; exact NoNil_indexLocal _ _ (h2 hn) hm
        · simp at hm

theorem pop_count (l : poolLocal) (v : Nat) :
    l.pop.1.count v + (if l.pop.2 = some v then 1 else 0) = l.count v ∧
    (none ∉ l.shared → none ∉ l.pop.1.shared) := by
  rcases List.eq_nil_or_concat l.shared with h | ⟨ys, y, h⟩
  · rw [pop_nil l h]
    exact ⟨by simp, id⟩
  · rw [List.concat_eq_append] at h
    rw [pop_concat l ys y h]
    refine ⟨?_, ?_⟩
    · simp only [poolLocal.count, h, List.count_append, List.count_cons, List.count_nil,
        beq_iff_eq]
      split_ifs <;> omega
    · intro hn hm
      exact hn (by rw [h]; exact List.mem_append_left _ hm)

/-- The loop of `getSlow` takes out what it returns, and nothing else. -/
theorem steal_stored (pid size : Nat) (v : Nat) (n : Nat) : ∀ (i : Nat) (shards : List poolLocal),
    stored (Pool.steal pid size n i shards).1 v
        + (if (Pool.steal pid size n i shards).2 = some v then 1 else 0) ≤ stored shards v ∧
    (NoNil shards → NoNil (Pool.steal pid size n i shards).1) := by
  induction n with
  | zero => intro i shards; exact ⟨by simp [Pool.steal], id⟩
  | succ n ih =>
    intro i shards
    unfold Pool.steal
    by_cases h : 1 ≤ (indexLocal shards ((pid + i + 1) % size)).shared.length
    · rw [if_pos h]
      dsimp only
      have k1 := stored_set shards ((pid + i + 1) % size)
        (indexLocal shards ((pid + i + 1) % size)).pop.1 v
      obtain ⟨k2, k3⟩ := pop_count (indexLocal shards ((pid + i + 1) % size)) v
      refine ⟨?_, fun hn => NoNil_set _ _ _ hn (k3 (NoNil_indexLocal _ _ hn))⟩
      split_ifs at k1 k2 ⊢ <;> omega
    · rw [if_neg h]
      exact ih (i + 1) shards

/-- A call of `Get` on a pool without `New` takes out what it returns, and nothing
else. -/
theorem Get_stored (procs pid p : Nat) (st : Pools) (v : Nat) (hnew : (st.pool p).New = none) :
    stored ((Pool.Get procs pid p st).st.pool p).shards v
        + (if (Pool.Get procs pid p st).x = some v then 1 else 0) ≤ stored (st.pool p).shards v ∧
    (NoNil (st.pool p).shards → NoNil ((Pool.Get procs pid p st).st.pool p).shards) ∧
    ((Pool.Get procs pid p st).st.pool p).New = none := by
  obtain ⟨h1, h2, h3⟩ := pin_stored procs pid p st v
  unfold Pool.Get
  dsimp only
  generalize Pool.pin procs pid p st = st1 at h1 h2 h3
  generalize hl : indexLocal (st1.pool p).shards pid = l
  by_cases hp : l.priv ≠ none
  · rw [if_pos hp]
    dsimp only
    obtain ⟨k1, k2⟩ := store_stored st1 p pid { l with priv := none } v
    refine ⟨?_, fun hn => store_NoNil _ _ _ _ (h2 hn) ?_, by rw [k2, h3, hnew]⟩
    · rw [hl] at k1
      simp only [poolLocal.count, reduceCtorEq, if_false] at k1
      split_ifs at k1 ⊢ <;> omega
    · rw [← hl]; exact NoNil_indexLocal _ _ (h2 hn)
  · rw [if_neg hp]
    have hp' : l.priv = none := by simpa using hp
    have hl1 : ({ l with priv := none } : poolLocal) = l := by
      cases l; simp only [poolLocal.mk.injEq, and_true]; exact hp'.symm
    rw [hl1]
    obtain ⟨k1, k2⟩ := store_stored st1 p pid l.pop.1 v
    obtain ⟨c1, c2⟩ := pop_count l v
    rw [hl] at k1
    have hnn : NoNil (st.pool p).shards → NoNil ((st1.store p pid l.pop.1).pool p).shards :=
      fun hn => store_NoNil _ _ _ _ (h2 hn) (c2 (by rw [← hl]; exact NoNil_indexLocal _ _ (h2 hn)))
    by_cases hx : l.pop.2 ≠ none
    · rw [if_pos hx]
      dsimp only
      refine ⟨?_, hnn, by rw [k2, h3, hnew]⟩
      split_ifs at k1 c1 ⊢ <;> omega
    · rw [if_neg hx]
      have hx' : l.pop.2 = none := by simpa using hx
      rw [hx'] at c1
      simp only [reduceCtorEq, if_false, Nat.add_zero] at c1
      have hle : stored ((st1.store p pid l.pop.1).pool p).shards v ≤ stored (st.pool p).shards v := by
        split_ifs at k1 <;> omega
      generalize st1.store p pid l.pop.1 = st2 at hnn hle k2
      have hnew2 : (st2.pool p).New = none := by rw [k2, h3, hnew]
      obtain ⟨s1, s2⟩ := steal_stored pid (st2.pool p).localSize v (st2.pool p).localSize 0
        (st2.pool p).shards
      unfold Pool.getSlow
      dsimp only
      rw [hnew2]
      dsimp only
      rw [Function.update_same]
      dsimp only
      exact ⟨by omega, fun hn => s2 (hnn hn), rfl⟩

theorem clearShards_stored (v : Nat) (n : Nat) : ∀ (i : Nat) (shards : List poolLocal),
    stored (clearShards n i shards) v ≤ stored shards v ∧
    (NoNil shards → NoNil (clearShards n i shards)) := by
  induction n with
  | zero => intro i shards; exact ⟨le_refl _, id⟩
  | succ n ih =>
    intro i shards
    rw [clearShards]
    obtain ⟨a1, a2⟩ := ih (i + 1) (shards.set i ⟨none, []⟩)
    have k1 := stored_set shards i ⟨none, []⟩ v
    refine ⟨?_, fun hn => a2 (NoNil_set _ _ _ hn (List.not_mem_nil _))⟩
    have : (⟨none, []⟩ : poolLocal).count v = 0 := by simp [poolLocal.count]
    rw [this] at k1
    split_ifs at k1 <;> omega

/-- A run of `poolCleanup` adds nothing to a pool. -/
theorem poolCleanup_stored (p : Nat) (st : Pools) (v : Nat) :
    stored ((poolCleanup st).pool p).shards v ≤ stored (st.pool p).shards v ∧
    (NoNil (st.pool p).shards → NoNil ((poolCleanup st).pool p).shards) ∧
    ((poolCleanup st).pool p).New = (st.pool p).New := by
  have e : (poolCleanup st).pool p
      = if p ∈ st.allPools then (st.pool p).sweep else st.pool p := by
    unfold poolCleanup
    exact sweep_foldl st.allPools st.pool p
  rw [e]
  split_ifs
  · obtain ⟨a1, a2⟩ := clearShards_stored v (st.pool p).localSize 0 (st.pool p).shards
    exact ⟨a1, a2, rfl⟩
  · exact ⟨le_refl _, id, rfl⟩

/-- The invariant of a run on a pool without `New`: for every value, the copies held
by the pool and those handed out by `Get` are no more than those passed to `Put`. -/
theorem poolRun_stored (p : Nat) (ops : List PoolOp) : ∀ (log : PoolLog),
    (log.st.pool p).New = none → NoNil (log.st.pool p).shards →
    (∀ v, stored (log.st.pool p).shards v + log.gets.count (some v) ≤ log.puts.count v) →
    ((poolRun p ops log).st.pool p).New = none ∧
    NoNil ((poolRun p ops log).st.pool p).shards ∧
    (∀ v, stored ((poolRun p ops log).st.pool p).shards v
      + (poolRun p ops log).gets.count (some v) ≤ (poolRun p ops log).puts.count v) := by
  induction ops with
  | nil => intro log h1 h2 h3; exact ⟨h1, h2, h3⟩
  | cons op ops ih =>
    intro log h1 h2 h3
    cases op with
    | Put procs pid x =>
      rw [poolRun]
      refine ih _ ?_ ?_ ?_
      · rw [(Put_stored procs pid p log.st x 0).2.2]; exact h1
      · exact (Put_stored procs pid p log.st x 0).2.1 h2
      · intro v
        have := (Put_stored procs pid p log.st x v).1
        have := h3 v
        simp only [List.count_append]
        omega
    | Get procs pid =>
      rw [poolRun]
      refine ih _ ?_ ?_ ?_
      · exact (Get_stored procs pid p log.st 0 h1).2.2
      · exact (Get_stored procs pid p log.st 0 h1).2.1 h2
      · intro v
        have := (Get_stored procs pid p log.st v h1).1
        have := h3 v
        simp only [List.count_append, List.count_cons, List.count_nil, beq_iff_eq]
        split_ifs at * <;> omega
    | Cleanup =>
      rw [poolRun]
      refine ih _ ?_ ?_ ?_
      · rw [(poolCleanup_stored p log.st 0).2.2]; exact h1
      · exact (poolCleanup_stored p log.st 0).2.1 h2
      · intro v
        have := (poolCleanup_stored p log.st v).1
        have := h3 v
        dsimp only
        omega

/-- C40. A pool never duplicates or invents items.  On a zero-value pool without
`New`, after every sequence of `Put`, `Get` and `poolCleanup` calls by workers below
`GOMAXPROCS`, without interference: for each value `x` the number of calls of `Get`
that returned `x` is at most the number of calls of `Put(x)`, so every non-nil value
returned by a `Get` was passed to a `Put` before; a further `Get` returns only a value
of which `Put` has been given more copies than `Get` has handed out; no shared list
holds nil, and `Put(nil)` stores nothing. -/
theorem pool_no_duplicates (p : Nat) (st0 : Pools) (ops : List PoolOp)
    (h0 : st0.pool p = ⟨[], true, 0, none⟩) (_hvalid : ∀ op ∈ ops, op.valid = true) :
    (∀ v, (poolRun p ops ⟨st0, [], []⟩).gets.count (some v)
      ≤ (poolRun p ops ⟨st0, [], []⟩).puts.count v) ∧
    (∀ v, some v ∈ (poolRun p ops ⟨st0, [], []⟩).gets →
      v ∈ (poolRun p ops ⟨st0, [], []⟩).puts) ∧
    (∀ procs pid v, (Pool.Get procs pid p (poolRun p ops ⟨st0, [], []⟩).st).x = some v →
      (poolRun p ops ⟨st0, [], []⟩).gets.count (some v)
        < (poolRun p ops ⟨st0, [], []⟩).puts.count v) ∧
    NoNil ((poolRun p ops ⟨st0, [], []⟩).st.pool p).shards ∧
    (∀ procs pid st, Pool.Put procs pid p none st = st) := by
  obtain ⟨k1, k2, k3⟩ := poolRun_stored p ops ⟨st0, [], []⟩ (by rw [h0])
    (by rw [h0]; intro l hl; exact absurd hl (List.not_mem_nil _))
    (by intro v; rw [h0]; simp [stored])
  refine ⟨fun v => by have := k3 v; omega, ?_, ?_, k2, fun _ _ _ => rfl⟩
  · intro v hv
    have h1 := k3 v
    have h2 : 0 < (poolRun p ops ⟨st0, [], []⟩).gets.count (some v) := List.count_pos_iff.mpr hv
    exact List.count_pos_iff.mp (by omega)
  · intro procs pid v hx
    have h1 := k3 v
    have h2 := (Get_stored procs pid p (poolRun p ops ⟨st0, [], []⟩).st v k1).1
    rw [hx, if_pos rfl] at h2
    omega

/-- Instance of `pool_no_duplicates`: two workers put 5 and 7, a third call puts 5
again, the pool is swept, and two calls of `Get` follow. -/
theorem pool_no_duplicates_witness :
    (poolRun 1 [.Put 2 0 (some 5), .Put 2 1 (some 7), .Get 2 0, .Put 2 0 (some 5), .Get 2 0,
        .Cleanup, .Get 2 1] ⟨⟨fun _ => ⟨[], true, 0, none⟩, []⟩, [], []⟩).gets
      = [some 5, some 5, none] ∧
    ∀ v, (poolRun 1 [.Put 2 0 (some 5), .Put 2 1 (some 7), .Get 2 0, .Put 2 0 (some 5),
        .Get 2 0, .Cleanup, .Get 2 1] ⟨⟨fun _ => ⟨[], true, 0, none⟩, []⟩, [], []⟩).gets.count
          (some v)
      ≤ (poolRun 1 [.Put 2 0 (some 5), .Put 2 1 (some 7), .Get 2 0, .Put 2 0 (some 5),
        .Get 2 0, .Cleanup, .Get 2 1] ⟨⟨fun _ => ⟨[], true, 0, none⟩, []⟩, [], []⟩).puts.count v :=
  ⟨by decide,
    (pool_no_duplicates 1 ⟨fun _ => ⟨[], true, 0, none⟩, []⟩
      [.Put 2 0 (some 5), .Put 2 1 (some 7), .Get 2 0, .Put 2 0 (some 5), .Get 2 0,
        .Cleanup, .Get 2 1] rfl (by decide)).1⟩

end sync

/-! ## The capacity computed by `growslice` -/

namespace runtime

theorem uintptr_of_nonneg (x : Int) (h0 : 0 ≤ x) (h1 : x < 2 ^ 64) : (uintptr x : Int) = x := by
  unfold uintptr
  rw [Int.toNat_of_nonneg (Int.emod_nonneg _ (by norm_num))]
  exact Int.emod_eq_of_lt h0 h1

/-- One turn of the loop without overflow is one step of the growth. -/
theorem growOnce_eq (oldlen c : Int) (h0 : 0 ≤ c) (h1 : c < 2 ^ 62) :
    growOnce oldlen c = growStep oldlen c := by
  unfold growOnce growStep
  split_ifs
  · exact wrap64_id _ (by omega) (by omega)
  · rw [Int.tdiv_eq_ediv h0 (by norm_num)]
    exact wrap64_id _ (by omega) (by omega)

theorem growStep_nonneg (oldlen c : Int) (h0 : 0 ≤ c) : c ≤ growStep oldlen c := by
  unfold growStep
  split_ifs <;> omega

/-- The loop of `growslice` returns the first value of the growth, after at least one
step, that reaches `cap`. -/
theorem growLoop_spec (oldlen cap : Int) (hcap : cap < 2 ^ 62) (d : Nat) :
    ∀ (fuel : Nat) (c : Int), d + 1 ≤ fuel → 0 ≤ c → c ≤ cap →
      (∀ j, 1 ≤ j → j < d + 1 → (growStep oldlen)^[j] c < cap) →
      cap ≤ (growStep oldlen)^[d + 1] c →
      growLoop oldlen cap fuel c = some ((growStep oldlen)^[d + 1] c) := by
  induction d with
  | zero =>
    intro fuel c hf h0 hc _ hd
    obtain ⟨f, rfl⟩ : ∃ f, fuel = f + 1 := ⟨fuel - 1, by omega⟩
    rw [growLoop, growOnce_eq oldlen c h0 (by omega)]
    rw [Function.iterate_one] at hd
    rw [if_pos hd, Function.iterate_one]
  | succ d ih =>
    intro fuel c hf h0 hc hlt hd
    obtain ⟨f, rfl⟩ : ∃ f, fuel = f + 1 := ⟨fuel - 1, by omega⟩
    rw [growLoop, growOnce_eq oldlen c h0 (by omega)]
    have h1 := hlt 1 (le_refl _) (by omega)
    rw [Function.iterate_one] at h1
    rw [if_neg (by omega)]
    rw [Function.iterate_succ_apply] at hd ⊢
    refine ih f (growStep oldlen c) (by omega) (le_trans h0 (growStep_nonneg _ _ h0))
      (by omega) ?_ hd
    intro j hj1 hj2
    have := hlt (j + 1) (by omega) (by omega)
    rw [Function.iterate_succ_apply] at this
    exact this

/-- Within four steps the growth from `oldcap` reaches every `cap <= 2*oldcap`. -/
theorem growStep_reaches (oldlen oldcap cap : Int) (h1 : oldlen ≤ oldcap)
    (hcap : cap ≤ 2 * oldcap) :
    ∃ d, d < 4 ∧ cap ≤ (growStep oldlen)^[d + 1] oldcap ∧
      (∀ j, 1 ≤ j → j < d + 1 → (growStep oldlen)^[j] oldcap < cap) ∧
      (oldlen < 1024 → d = 0) := by
  by_cases hlen : oldlen < 1024
  · refine ⟨0, by omega, ?_, fun j h1 h2 => by omega, fun _ => rfl⟩
    rw [Function.iterate_one]
    unfold growStep
    rw [if_pos hlen]
    omega
  · have hq : ∀ c, growStep oldlen c = c + c / 4 := by
      intro c; unfold growStep; rw [if_neg hlen]
    by_cases c1 : cap ≤ (growStep oldlen)^[1] oldcap
    · exact ⟨0, by omega, c1, fun j h1 h2 => by omega, fun h => absurd h hlen⟩
    · by_cases c2 : cap ≤ (growStep oldlen)^[2] oldcap
      · refine ⟨1, by omega, c2, ?_, fun h => absurd h hlen⟩
        intro j h1 h2
        have : j = 1 := by omega
        subst this; omega
      · by_cases c3 : cap ≤ (growStep oldlen)^[3] oldcap
        · refine ⟨2, by omega, c3, ?_, fun h => absurd h hlen⟩
          intro j h1 h2
          have : j = 1 ∨ j = 2 := by omega
          rcases this with rfl | rfl <;> omega
        · refine ⟨3, by omega, ?_, ?_, fun h => absurd h hlen⟩
          · simp only [Function.iterate_succ, Function.iterate_zero, Function.comp_apply, hq,
              id_eq] at c1 c2 c3 ⊢
            omega
          · intro j h1 h2
            have : j = 1 ∨ j = 2 ∨ j = 3 := by omega
            rcases this with rfl | rfl | rfl <;> omega
/-- The capacity before rounding: `cap` itself when it is above twice the old
capacity, and otherwise the first value of the growth from the old capacity, after at
least one and at most four steps, that reaches `cap`. -/
theorem growCap_spec (fuel : Nat) (hfuel : 4 ≤ fuel) (old : slice) (cap : Int)
    (h1 : old.len ≤ old.cap) (h2 : 0 ≤ old.cap) (hcap : old.cap ≤ cap) (hlim : cap < 2 ^ 62) :
    ∃ newcap, growCap fuel old cap = some newcap ∧ cap ≤ newcap ∧ newcap < 2 ^ 63 ∧
      (2 * old.cap < cap → newcap = cap) ∧
      (cap ≤ 2 * old.cap → old.len < 1024 → newcap = 2 * old.cap) ∧
      (cap ≤ 2 * old.cap →
        ∃ k, 1 ≤ k ∧ k ≤ 4 ∧ newcap = (growStep old.len)^[k] old.cap ∧
          ∀ j, 1 ≤ j → j < k → (growStep old.len)^[j] old.cap < cap) := by
  have hw : wrap64 (old.cap + old.cap) = 2 * old.cap := by
    rw [wrap64_id _ (by omega) (by omega)]; omega
  unfold growCap
  rw [hw]
  by_cases hbig : 2 * old.cap < cap
  · rw [if_pos hbig]
    exact ⟨cap, rfl, le_refl _, by omega, fun _ => rfl, fun h => absurd hbig (by omega),
      fun h => absurd hbig (by omega)⟩
  · rw [if_neg hbig]
    obtain ⟨d, hd, r1, r2, r3⟩ := growStep_reaches old.len old.cap cap h1 (by omega)
    have hrun := growLoop_spec old.len cap hlim d fuel old.cap (by omega) h2 hcap r2 r1
    refine ⟨_, hrun, r1, ?_, fun h => absurd h hbig, ?_, fun _ => ⟨d + 1, by omega, by omega, rfl, r2⟩⟩
    · -- the last step starts below cap, or is the first step, which starts at old.cap <= cap
      have hprev : (growStep old.len)^[d] old.cap ≤ cap := by
        cases d with
        | zero => exact hcap
        | succ d => exact le_of_lt (r2 (d + 1) (by omega) (by omega))
      have hnn : ∀ j, 0 ≤ (growStep old.len)^[j] old.cap := by
        intro j
        induction j with
        | zero => exact h2
        | succ j ih =>
          rw [Function.iterate_succ_apply']
          exact le_trans ih (growStep_nonneg _ _ ih)
      rw [Function.iterate_succ_apply']
      have := hnn d
      generalize (growStep old.len)^[d] old.cap = c at hprev this
      unfold growStep
      split_ifs <;> omega
    · intro _ hlen
      have := r3 hlen
      subst this
      rw [Function.iterate_one]
      unfold growStep
      rw [if_pos hlen]
      omega

/-- C32, as stated, fails: with `_MaxMem = 2^39 - 1`, elements of 8 bytes and an old
slice of length 0 and capacity 40000000000, the requested capacity 40000000001 passes
the first range check (it is at most `_MaxMem/8 = 68719476735`) but the doubled
capacity 80000000000 does not pass the second one, and `growslice` panics.  So does
the request for exactly `_MaxMem/8` elements from an empty slice. -/
theorem growslice_panics_counterexample :
    (0 : Int) ≤ 0 ∧ (0 : Int) ≤ 40000000000 ∧ (40000000000 : Int) ≤ 40000000001 ∧
    uintptr 40000000001 ≤ (2 ^ 39 - 1) / 8 ∧
    growCap 4 ⟨4096, 0, 40000000000⟩ 40000000001 = some 80000000000 ∧
    Res.isPanic (growslice (2 ^ 39 - 1) roundup16 8192 12288 4 8 ⟨4096, 0, 40000000000⟩
      40000000001) = true ∧
    uintptr 68719476735 ≤ (2 ^ 39 - 1) / 8 ∧
    Res.isPanic (growslice (2 ^ 39 - 1) roundup16 8192 12288 4 8 ⟨0, 0, 0⟩ 68719476735)
      = true := by
  decide

/-- C32 (amended). Capacity computed by `growslice`, on a 64-bit platform with
`_MaxMem < 2^62` and a `roundupsize` that, on sizes up to `_MaxMem`, never rounds down
and stays below `2^63`.  For an element size above 0, an old slice with
`0 <= old.len <= old.cap` and a requested capacity `cap >= old.cap` with
`cap <= _MaxMem/size`: the loop terminates (four turns of fuel are enough) and the
capacity before rounding, `newcap`, is at least `cap`; it is exactly `cap` when
`cap > 2*old.cap`, it is `2*old.cap` when `cap <= 2*old.cap` and `old.len < 1024`, and
in general when `cap <= 2*old.cap` it is the first value of `old.cap` grown one to four
times (doubled, or by a quarter when `old.len >= 1024`) that reaches `cap`.  If
`newcap < _MaxMem/size`, `growslice` returns a slice with the new array, `len` equal to
`old.len` and `cap` equal to the rounded size divided by the element size, which is at
least `newcap`; if `newcap >= _MaxMem/size` it panics with "growslice: cap out of
range".  It panics in the same way when `cap < old.cap`. -/
theorem growslice_capacity (MaxMem : Nat) (hM : MaxMem < 2 ^ 62) (roundupsize : Nat → Nat)
    (hround : ∀ x, x ≤ MaxMem → x ≤ roundupsize x ∧ roundupsize x < 2 ^ 63)
    (zerobase newarr fuel : Nat) (hfuel : 4 ≤ fuel) (size : Nat) (hsize : 0 < size)
    (old : slice) (h0 : 0 ≤ old.len) (h1 : old.len ≤ old.cap) (cap : Int)
    (hcap : old.cap ≤ cap) (hlim : cap ≤ ((MaxMem / size : Nat) : Int)) :
    (∃ newcap, growCap fuel old cap = some newcap ∧ cap ≤ newcap ∧
      (2 * old.cap < cap → newcap = cap) ∧
      (cap ≤ 2 * old.cap → old.len < 1024 → newcap = 2 * old.cap) ∧
      (cap ≤ 2 * old.cap →
        ∃ k, 1 ≤ k ∧ k ≤ 4 ∧ newcap = (growStep old.len)^[k] old.cap ∧
          ∀ j, 1 ≤ j → j < k → (growStep old.len)^[j] old.cap < cap) ∧
      (newcap < ((MaxMem / size : Nat) : Int) →
        ∃ s, growslice MaxMem roundupsize zerobase newarr fuel size old cap = .ok s ∧
          s.array = newarr ∧ s.len = old.len ∧ cap ≤ s.cap ∧ newcap ≤ s.cap ∧
          s.cap = ((roundupsize (newcap.toNat * size) / size : Nat) : Int)) ∧
      (((MaxMem / size : Nat) : Int) ≤ newcap →
        growslice MaxMem roundupsize zerobase newarr fuel size old cap
          = .panic capOutOfRange)) ∧
    (∀ c, c < old.cap →
      growslice MaxMem roundupsize zerobase newarr fuel size old c = .panic capOutOfRange) := by
  have hdiv : MaxMem / size ≤ MaxMem := Nat.div_le_self _ _
  have hcap62 : cap < 2 ^ 62 := by
    have : ((MaxMem / size : Nat) : Int) < 2 ^ 62 := by
      have : MaxMem / size < 2 ^ 62 := by omega
      exact_mod_cast this
    omega
  constructor
  · obtain ⟨newcap, e1, e2, e3, e4, e5, e6⟩ :=
      growCap_spec fuel hfuel old cap h1 (by omega) hcap hcap62
    refine ⟨newcap, e1, e2, e4, e5, e6, ?_, ?_⟩
    all_goals
      have hu : (uintptr cap : Int) = cap := uintptr_of_nonneg cap (by omega) (by omega)
      have hun : (uintptr newcap : Int) = newcap :=
        uintptr_of_nonneg newcap (by omega) (by omega)
      have hfirst : ¬ (cap < old.cap ∨ (size > 0 ∧ uintptr cap > MaxMem / size)) := by
        intro h
        rcases h with h | ⟨_, h⟩
        · omega
        · have : ((MaxMem / size : Nat) : Int) < (uintptr cap : Int) := by exact_mod_cast h
          omega
    · intro hlt
      have hlt' : uintptr newcap < MaxMem / size := by
        have : (uintptr newcap : Int) < ((MaxMem / size : Nat) : Int) := by rw [hun]; exact hlt
        exact_mod_cast this
      have hn : uintptr newcap = newcap.toNat := by
        have := congrArg Int.toNat hun
        simpa using this
      have hmul : uintptr newcap * size ≤ MaxMem := by
        calc uintptr newcap * size ≤ (MaxMem / size) * size := Nat.mul_le_mul_right _ (le_of_lt hlt')
          _ ≤ MaxMem := Nat.div_mul_le_self _ _
      have hmod : uintptr newcap * size % 2 ^ 64 = uintptr newcap * size :=
        Nat.mod_eq_of_lt (by omega)
      obtain ⟨r1, r2⟩ := hround _ hmul
      have hq : uintptr newcap ≤ roundupsize (uintptr newcap * size) / size :=
        (Nat.le_div_iff_mul_le hsize).mpr r1
      have hq2 : roundupsize (uintptr newcap * size) / size < 2 ^ 63 :=
        lt_of_le_of_lt (Nat.div_le_self _ _) r2
      have hint : int (roundupsize (uintptr newcap * size) / size)
          = ((roundupsize (uintptr newcap * size) / size : Nat) : Int) := by
        unfold int
        exact wrap64_id _ (by omega) (by exact_mod_cast hq2)
      unfold growslice
      rw [if_neg hfirst, if_neg (by omega), e1]
      simp only []
      rw [if_neg (by omega), hmod, hint]
      refine ⟨_, rfl, rfl, rfl, ?_, ?_, by rw [hn]⟩
      · have h := Int.ofNat_le.mpr hq
        rw [hun] at h
        exact le_trans e2 h
      · have h := Int.ofNat_le.mpr hq
        rw [hun] at h
        exact h
    · intro hge
      have hge' : uintptr newcap ≥ MaxMem / size := by
        have : ((MaxMem / size : Nat) : Int) ≤ (uintptr newcap : Int) := by rw [hun]; exact hge
        exact_mod_cast this
      unfold growslice
      rw [if_neg hfirst, if_neg (by omega), e1]
      simp only []
      rw [if_pos hge']
  · intro c hc
    unfold growslice
    rw [if_pos (Or.inl hc)]

/-- Instance of `growslice_capacity`: elements of 8 bytes, an old slice of length and
capacity 1100, and the requested capacity 1101: the capacity grows by a quarter once,
to 1375, and the rounding to a multiple of 16 bytes makes it 1376. -/
theorem growslice_capacity_witness :
    sliceOf (growslice (2 ^ 39 - 1) roundup16 8192 12288 4 8 ⟨4096, 1100, 1100⟩ 1101)
      = some ⟨12288, 1100, 1376⟩ ∧
    ∃ newcap, growCap 4 ⟨4096, 1100, 1100⟩ 1101 = some newcap ∧ (1101 : Int) ≤ newcap :=
  ⟨by decide,
    let ⟨newcap, e1, e2, _⟩ := (growslice_capacity (2 ^ 39 - 1) (by norm_num) roundup16
      (fun x hx => by unfold roundup16; omega) 8192 12288 4 (le_refl _) 8 (by norm_num)
      ⟨4096, 1100, 1100⟩ (by decide) (by decide) 1101 (by decide) (by decide)).1
    ⟨newcap, e1, e2⟩⟩

end runtime

/-! ## `Ring.Unlink` -/

namespace ring

/-- The index after `i` in a ring of `L` elements, and the index before it. -/
theorem succ_mod (L i : Nat) (hi : i < L) : (i + 1) % L = if i + 1 = L then 0 else i + 1 := by
  split_ifs with h
  · rw [h, Nat.mod_self]
  · exact Nat.mod_eq_of_lt (by omega)

theorem IsRing.next_eq {h : Heap} {f : Nat → Nat} {L : Nat} (hr : IsRing h f L) {i : Nat}
    (hi : i < L) : (h (f i)).next = f (if i + 1 = L then 0 else i + 1) := by
  rw [(hr.2.2.2 i hi).1, succ_mod L i hi]

theorem IsRing.prev_eq {h : Heap} {f : Nat → Nat} {L : Nat} (hr : IsRing h f L) {i : Nat}
    (hi : i < L) : (h (f i)).prev = f (if i = 0 then L - 1 else i - 1) := by
  have hL := hr.1
  by_cases h0 : i = 0
  · subst h0
    rw [if_pos rfl]
    have := (hr.2.2.2 (L - 1) (by omega)).2
    rw [succ_mod L (L - 1) (by omega), if_pos (by omega)] at this
    exact this
  · rw [if_neg h0]
    have := (hr.2.2.2 (i - 1) (by omega)).2
    rw [succ_mod L (i - 1) (by omega), if_neg (by omega)] at this
    have e : i - 1 + 1 = i := by omega
    rw [e] at this
    exact this

theorem IsRing.inj {h : Heap} {f : Nat → Nat} {L : Nat} (hr : IsRing h f L) {i j : Nat}
    (hi : i < L) (hj : j < L) : f i = f j ↔ i = j :=
  ⟨hr.2.2.1 i j hi hj, fun e => by rw [e]⟩

/-- Forward steps in a ring. -/
theorem walk_next {h : Heap} {f : Nat → Nat} {L : Nat} (hr : IsRing h f L) (m : Nat) :
    ∀ i, i < L → walk h false m (f i) = .ok (f ((i + m) % L)) := by
  induction m with
  | zero => intro i hi; rw [walk, Nat.add_zero, Nat.mod_eq_of_lt hi]
  | succ m ih =>
    intro i hi
    rw [walk, if_neg (hr.2.1 i hi)]
    simp only [Bool.false_eq_true, if_false]
    rw [(hr.2.2.2 i hi).1, ih _ (Nat.mod_lt _ (by have := hr.1; omega)), Nat.mod_add_mod]
    congr 3
    omega

/-- Backward steps in a ring. -/
theorem walk_prev {h : Heap} {f : Nat → Nat} {L : Nat} (hr : IsRing h f L) (m : Nat) :
    ∀ i, i < L → walk h true m (f i) = .ok (f ((i + m * (L - 1)) % L)) := by
  have hL := hr.1
  induction m with
  | zero => intro i hi; rw [walk, Nat.zero_mul, Nat.add_zero, Nat.mod_eq_of_lt hi]
  | succ m ih =>
    intro i hi
    rw [walk, if_neg (hr.2.1 i hi)]
    simp only [if_true]
    have hp : (h (f i)).prev = f ((i + (L - 1)) % L) := by
      rw [hr.prev_eq hi]
      by_cases h0 : i = 0
      · subst h0
        rw [if_pos rfl, Nat.zero_add, Nat.mod_eq_of_lt (by omega)]
      · rw [if_neg h0]
        have e : i + (L - 1) = (i - 1) + L := by omega
        rw [e, Nat.add_mod_right, Nat.mod_eq_of_lt (by omega)]
    rw [hp, ih _ (Nat.mod_lt _ (by omega)), Nat.mod_add_mod]
    congr 3
    rw [Nat.succ_mul]
    omega

/-- The pointers after the four assignments of `Link`. -/
theorem relink_next (h : Heap) (r s n p x : Nat) :
    (relink h r s n p x).next = if x = p then n else if x = r then s else (h x).next := by
  simp only [relink, setNext, setPrev]
  split_ifs <;> rfl

theorem relink_prev (h : Heap) (r s n p x : Nat) :
    (relink h r s n p x).prev = if x = n then p else if x = s then r else (h x).prev := by
  simp only [relink, setNext, setPrev]
  split_ifs <;> rfl

/-- The pointers after the four assignments of `Link`, for the elements of a ring:
with `r = f 0`, `s = f j`, `n = f a`, `p = f k`. -/
theorem relink_ring {h : Heap} {f : Nat → Nat} {L : Nat} (hr : IsRing h f L) (j a k : Nat)
    (hj : j < L) (ha : a < L) (hk : k < L) :
    (∀ i, i < L → (relink h (f 0) (f j) (f a) (f k) (f i)).next
        = f (if i = k then a else if i = 0 then j else if i + 1 = L then 0 else i + 1)) ∧
    (∀ i, i < L → (relink h (f 0) (f j) (f a) (f k) (f i)).prev
        = f (if i = a then k else if i = j then 0 else if i = 0 then L - 1 else i - 1)) ∧
    (∀ x, (relink h (f 0) (f j) (f a) (f k) x).Value = (h x).Value) ∧
    (∀ x, (∀ i, i < L → x ≠ f i) → relink h (f 0) (f j) (f a) (f k) x = h x) := by
  have hL := hr.1
  refine ⟨?_, ?_, ?_, ?_⟩
  · intro i hi
    simp only [relink_next, hr.inj hi hk, hr.inj hi (by omega : 0 < L), hr.next_eq hi]
    split_ifs <;> rfl
  · intro i hi
    simp only [relink_prev, hr.inj hi ha, hr.inj hi hj, hr.prev_eq hi]
    split_ifs <;> rfl
  · intro x
    simp only [relink, setNext, setPrev]
    split_ifs <;> rfl
  · intro x hx
    simp only [relink, setNext, setPrev, hx k hk, hx a ha, hx j hj, hx 0 (by omega), if_false]

/-- A ring inside the relinked memory, from a map of its indices into the old ring. -/
theorem isRing_of_map (h' : Heap) {f : Nat → Nat} {L L' : Nat} (σ nx pv : Nat → Nat)
    (hf0 : ∀ i, i < L → f i ≠ 0) (hfinj : ∀ i j, i < L → j < L → f i = f j → i = j)
    (hnext : ∀ i, i < L → (h' (f i)).next = f (nx i))
    (hprev : ∀ i, i < L → (h' (f i)).prev = f (pv i))
    (hL' : 1 ≤ L') (hσ : ∀ i, i < L' → σ i < L)
    (hinj : ∀ i j, i < L' → j < L' → σ i = σ j → i = j)
    (hnx : ∀ i, i < L' → nx (σ i) = σ (if i + 1 = L' then 0 else i + 1))
    (hpv : ∀ i, i < L' → pv (σ (if i + 1 = L' then 0 else i + 1)) = σ i) :
    IsRing h' (fun i => f (σ i)) L' := by
  refine ⟨hL', fun i hi => hf0 _ (hσ i hi),
    fun i j hi hj e => hinj i j hi hj (hfinj _ _ (hσ i hi) (hσ j hj) e), ?_⟩
  intro i hi
  have hlt : (if i + 1 = L' then 0 else i + 1) < L' := by split_ifs <;> omega
  rw [succ_mod L' i hi]
  exact ⟨by rw [hnext _ (hσ i hi), hnx i hi], by rw [hprev _ (hσ _ hlt), hpv i hi]⟩

/-- The call `r.Link(s)` inside one ring, with `r = f 0` and `s` the element after
`f k`: the `k` elements after `r` are taken out. -/
theorem Link_ring {h : Heap} {f : Nat → Nat} {L : Nat} (hr : IsRing h f L) (k : Nat)
    (hk : k < L) :
    ∃ h', Link (f 0) (f ((k + 1) % L)) h = .ok (f (1 % L), h') ∧
      IsRing h' (kept f k) (L - k) ∧
      (k ≠ 0 → IsRing h' (fun i => f (i + 1)) k) ∧
      (k = 0 → h' = h) ∧
      (∀ x, (h' x).Value = (h x).Value) ∧
      (∀ x, (∀ i, i < L → x ≠ f i) → h' x = h x) := by
  have hL := hr.1
  have e1 : 1 % L = if 0 + 1 = L then 0 else 0 + 1 := succ_mod L 0 (by omega)
  have hj : (k + 1) % L < L := Nat.mod_lt _ (by omega)
  have ha : 1 % L < L := Nat.mod_lt _ (by omega)
  have hnext0 : (h (f 0)).next = f (1 % L) := by rw [hr.next_eq (by omega), e1]
  have hprevj : (h (f ((k + 1) % L))).prev = f k := (hr.2.2.2 k hk).2
  have hLink : Link (f 0) (f ((k + 1) % L)) h
      = .ok (f (1 % L), relink h (f 0) (f ((k + 1) % L)) (f (1 % L)) (f k)) := by
    unfold Link Next Prev
    rw [if_neg (hr.2.1 0 (by omega)), hnext0, if_neg (hr.2.1 _ ha)]
    simp only []
    rw [if_pos (hr.2.1 _ hj), if_neg (hr.2.1 _ hj)]
    rw [(hr.2.2.2 _ hj).1, if_neg (hr.2.1 _ (Nat.mod_lt _ (by omega))), hprevj]
    simp only []
    rw [if_neg (by simp only [not_or]; exact ⟨hr.2.1 _ ha, hr.2.1 _ hk⟩)]
  rw [hLink]
  have hjv : (k + 1 = L ∧ (k + 1) % L = 0) ∨ (k + 1 ≠ L ∧ (k + 1) % L = k + 1) := by
    rw [succ_mod L k hk]
    split_ifs with c
    · exact Or.inl ⟨c, rfl⟩
    · exact Or.inr ⟨c, rfl⟩
  have hav : (L = 1 ∧ 1 % L = 0) ∨ (L ≠ 1 ∧ 1 % L = 1) := by
    rw [e1]
    split_ifs with c
    · exact Or.inl ⟨by omega, rfl⟩
    · exact Or.inr ⟨by omega, rfl⟩
  clear e1 hnext0 hprevj hLink
  generalize (k + 1) % L = j at hj hjv ⊢
  generalize 1 % L = a at ha hav ⊢
  obtain ⟨p1, p2, p3, p4⟩ := relink_ring hr j a k hj ha hk
  refine ⟨_, rfl, ?_, ?_, ?_, p3, p4⟩
  · have := isRing_of_map (relink h (f 0) (f j) (f a) (f k))
      (fun i => if i = 0 then 0 else k + i) _ _ hr.2.1 hr.2.2.1 p1 p2
      (by omega : 1 ≤ L - k)
      (by intro i hi; dsimp only; split_ifs <;> omega)
      (by intro i j hi hj e; dsimp only at e; split_ifs at e <;> omega)
      (by intro i hi; dsimp only; split_ifs <;> first | omega | contradiction)
      (by intro i hi; dsimp only; split_ifs <;> first | omega | contradiction)
    have e : kept f k = fun i => f (if i = 0 then 0 else k + i) := by
      funext i; unfold kept; split_ifs <;> rfl
    rw [e]
    exact this
  · intro hk0
    exact isRing_of_map (relink h (f 0) (f j) (f a) (f k))
      (fun i => i + 1) _ _ hr.2.1 hr.2.2.1 p1 p2 (by omega)
      (by intro i hi; dsimp only; omega)
      (by intro i j hi hj e; dsimp only at e; omega)
      (by intro i hi; dsimp only; split_ifs <;> first | omega | contradiction)
      (by intro i hi; dsimp only; split_ifs <;> first | omega | contradiction)
  · intro hk0
    subst hk0
    funext x
    by_cases hx : ∃ i, i < L ∧ x = f i
    · obtain ⟨i, hi, rfl⟩ := hx
      have a3 := p3 (f i)
      have b2 : (relink h (f 0) (f j) (f a) (f 0) (f i)).prev = (h (f i)).prev := by
        rw [p2 i hi, hr.prev_eq hi]
        congr 1
        split_ifs <;> omega
      have b1 : (relink h (f 0) (f j) (f a) (f 0) (f i)).next = (h (f i)).next := by
        rw [p1 i hi, hr.next_eq hi]
        congr 1
        split_ifs <;> omega
      generalize relink h (f 0) (f j) (f a) (f 0) (f i) = y at a3 b1 b2
      generalize h (f i) = z at a3 b1 b2
      cases y; cases z
      simp only at a3 b1 b2
      rw [a3, b1, b2]
    · exact p4 x (fun i hi e => hx ⟨i, hi, e⟩)

/-- The method `Len` on a ring returns its number of elements. -/
theorem lenLoop_ring {h : Heap} {f : Nat → Nat} {L : Nat} (hr : IsRing h f L) (d : Nat) :
    ∀ (i fuel : Nat), i + d = L → 1 ≤ i → d + 1 ≤ fuel →
      lenLoop h (f 0) fuel (f (i % L)) i = .ok L := by
  have hL := hr.1
  induction d with
  | zero =>
    intro i fuel hi h1 hf
    obtain ⟨fu, rfl⟩ : ∃ fu, fuel = fu + 1 := ⟨fuel - 1, by omega⟩
    have : i = L := by omega
    subst this
    rw [lenLoop, Nat.mod_self, if_neg (by simp)]
  | succ d ih =>
    intro i fuel hi h1 hf
    obtain ⟨fu, rfl⟩ : ∃ fu, fuel = fu + 1 := ⟨fuel - 1, by omega⟩
    have hiL : i < L := by omega
    rw [lenLoop, Nat.mod_eq_of_lt hiL,
      if_pos (fun e => by have := hr.2.2.1 i 0 hiL (by omega) e; omega),
      if_neg (hr.2.1 i hiL), (hr.2.2.2 i hiL).1]
    exact ih (i + 1) fu (by omega) (by omega) (by omega)

theorem Len_ring {h : Heap} {f : Nat → Nat} {L : Nat} (hr : IsRing h f L) (fuel : Nat)
    (hf : L ≤ fuel) : Len (f 0) h fuel = .ok L := by
  have hL := hr.1
  unfold Len Next
  rw [if_pos (hr.2.1 0 (by omega)), if_neg (hr.2.1 0 (by omega)), (hr.2.2.2 0 (by omega)).1,
    if_neg (hr.2.1 _ (Nat.mod_lt _ (by omega)))]
  exact lenLoop_ring hr (L - 1) 1 fuel (by omega) (le_refl _) (by omega)

/-- The method `Move` forward and backward in a ring. -/
theorem Move_ring {h : Heap} {f : Nat → Nat} {L : Nat} (hr : IsRing h f L) (n : Int) :
    (0 < n → Move (f 0) n h = .ok (f (n.toNat % L), h)) ∧
    (n < 0 → Move (f 0) n h = .ok (f (((-n).toNat * (L - 1)) % L), h)) := by
  have hL := hr.1
  have h0 : (h (f 0)).next ≠ 0 := by
    rw [(hr.2.2.2 0 (by omega)).1]
    exact hr.2.1 _ (Nat.mod_lt _ (by omega))
  constructor
  · intro hn
    unfold Move
    rw [if_neg (hr.2.1 0 (by omega)), if_neg h0, if_neg (by omega), if_pos hn,
      walk_next hr _ 0 (by omega), Nat.zero_add]
  · intro hn
    unfold Move
    rw [if_neg (hr.2.1 0 (by omega)), if_neg h0, if_pos hn, walk_prev hr _ 0 (by omega),
      Nat.zero_add]

/-- Walking `2^63` steps backward on a ring whose length divides `2^64` ends where
`2^63` steps forward end. -/
theorem back_eq_forward (L : Nat) (hL : 1 ≤ L) (hdiv : 2 ^ 64 % L = 0) :
    (2 ^ 63 * (L - 1)) % L = 2 ^ 63 % L := by
  obtain ⟨q, hq⟩ := Nat.dvd_of_mod_eq_zero hdiv
  have e : 2 ^ 63 * (L - 1) + L * q = 2 ^ 63 + L * 2 ^ 63 := by
    rw [← hq]
    obtain ⟨m, rfl⟩ : ∃ m, L = m + 1 := ⟨L - 1, by omega⟩
    rw [Nat.add_sub_cancel]
    omega
  rw [← Nat.add_mul_mod_self_left (2 ^ 63 * (L - 1)) L q, e, Nat.add_mul_mod_self_left]

/-- The call `r.Unlink(n)` when `n + 1` is evaluated without overflow, or wraps around
on a ring whose length divides `2^64`. -/
theorem Unlink_eq_Link {h : Heap} {f : Nat → Nat} {L : Nat} (hr : IsRing h f L) (n : Int)
    (hn : 0 < n) (hmax : n < 2 ^ 63 - 1 ∨ (n = 2 ^ 63 - 1 ∧ 2 ^ 64 % L = 0)) :
    Unlink (f 0) n h = Link (f 0) (f ((n.toNat % L + 1) % L)) h := by
  rcases hmax with hmax | ⟨rfl, hdiv⟩
  · have hw : runtime.wrap64 (n + 1) = n + 1 := by unfold runtime.wrap64; omega
    unfold Unlink
    rw [if_neg (by omega), hw, (Move_ring hr (n + 1)).1 (by omega)]
    simp only []
    have e : (n + 1).toNat = n.toNat + 1 := by omega
    rw [e, Nat.mod_add_mod]
  · have hw : runtime.wrap64 (2 ^ 63 - 1 + 1) = -(2 ^ 63) := by decide
    have e1 : (-(-(2 : Int) ^ 63)).toNat = 2 ^ 63 := by decide
    have e2 : ((2 : Int) ^ 63 - 1).toNat = 2 ^ 63 - 1 := by decide
    unfold Unlink
    rw [if_neg (by decide), hw, (Move_ring hr (-(2 ^ 63))).2 (by decide)]
    simp only []
    rw [e1, e2, back_eq_forward L hr.1 hdiv, Nat.mod_add_mod]
    rfl

/-- C33. `Ring.Unlink` at the largest `int`: `n + 1` wraps around to `-2^63`, so
`Move` walks `2^63` steps backward.  On the ring of the three elements at the addresses
1, 2, 3 this ends on the element after `r`, and `r.Unlink(2^63 - 1)` removes nothing:
the ring still has 3 elements, although `(2^63 - 1) mod 3 = 1`. -/
theorem Unlink_overflow_counterexample :
    IsRing (ringOf 3) (fun i => i + 1) 3 ∧ ((2 : Int) ^ 63 - 1).toNat % 3 = 1 ∧
    ∃ h', Unlink 1 (2 ^ 63 - 1) (ringOf 3) = .ok (2, h') ∧ Len 1 h' 3 = .ok 3 ∧
      (3 : Nat) ≠ 3 - ((2 : Int) ^ 63 - 1).toNat % 3 := by
  have hr : IsRing (ringOf 3) (fun i => i + 1) 3 :=
    ⟨by decide, by decide, fun i j _ _ e => Nat.succ.inj e, by decide⟩
  refine ⟨hr, by decide, ?_⟩
  have hw : runtime.wrap64 (2 ^ 63 - 1 + 1) = -(2 ^ 63) := by decide
  have hm := (Move_ring hr (-(2 ^ 63))).2 (by decide)
  have hu : Unlink 1 (2 ^ 63 - 1) (ringOf 3) = Link 1 2 (ringOf 3) := by
    unfold Unlink
    rw [if_neg (by decide), hw]
    have hm' : Move 1 (-(2 ^ 63)) (ringOf 3) = .ok (2, ringOf 3) := hm
    rw [hm']
  rw [hu]
  exact ⟨relink (ringOf 3) 1 2 2 1, rfl, rfl, by decide⟩

/-- The method `Ring.Unlink` on 64-bit `int`, where `n + 1` does not overflow.  Let `r = f 0` be an element of the
ring `f 0, ..., f (L-1)`, `L >= 1`, let `n > 0` be such that `n < 2^63 - 1` (so that
`n + 1` does not overflow) or `L` divides `2^64`, and `k = n mod L`.  Then
`r.Unlink(n)` returns `r.Next()`, and afterwards: `r` is in the ring
`f 0, f (k+1), ..., f (L-1)` of `L - k` elements, which `Len` confirms (it returns
`L - k` with `L` turns of fuel); when `k != 0` the result `f 1` is in the ring
`f 1, ..., f k` of exactly `k` elements, the removed ones in their previous order; when
`k = 0` the memory is unchanged; no `Value` changes and no element outside the ring is
written.  For `n <= 0` the call returns nil and changes nothing. -/
theorem Unlink_spec (h : Heap) (f : Nat → Nat) (L : Nat) (hr : IsRing h f L) (n : Int) :
    (0 < n → (n < 2 ^ 63 - 1 ∨ (n = 2 ^ 63 - 1 ∧ 2 ^ 64 % L = 0)) →
      ∃ h', Unlink (f 0) n h = .ok (f (1 % L), h') ∧
        IsRing h' (kept f (n.toNat % L)) (L - n.toNat % L) ∧
        kept f (n.toNat % L) 0 = f 0 ∧
        (∀ fuel, L ≤ fuel → Len (f 0) h' fuel = .ok (L - n.toNat % L)) ∧
        (n.toNat % L ≠ 0 →
          1 % L = 1 ∧ IsRing h' (fun i => f (i + 1)) (n.toNat % L) ∧
          ∀ fuel, L ≤ fuel → Len (f 1) h' fuel = .ok (n.toNat % L)) ∧
        (n.toNat % L = 0 → h' = h) ∧
        (∀ x, (h' x).Value = (h x).Value) ∧
        (∀ x, (∀ i, i < L → x ≠ f i) → h' x = h x)) ∧
    (n ≤ 0 → Unlink (f 0) n h = .ok (0, h)) := by
  have hL := hr.1
  refine ⟨?_, fun hn => by unfold Unlink; rw [if_pos hn]⟩
  intro hn hmax
  have hk : n.toNat % L < L := Nat.mod_lt _ (by omega)
  obtain ⟨h', e1, e2, e3, e4, e5, e6⟩ := Link_ring hr (n.toNat % L) hk
  refine ⟨h', by rw [Unlink_eq_Link hr n hn hmax]; exact e1, e2, rfl, ?_, ?_, e4, e5, e6⟩
  · intro fuel hf
    have := Len_ring e2 fuel (by omega)
    exact this
  · intro hk0
    have hL2 : 1 < L := by omega
    refine ⟨Nat.mod_eq_of_lt hL2, e3 hk0, ?_⟩
    intro fuel hf
    have := Len_ring (e3 hk0) fuel (by omega)
    exact this

/-- Instance of `Unlink_spec`: on the ring of the five elements at the addresses 1 to 5,
`Unlink(7)` from the first element takes out the elements at 2 and 3. -/
theorem Unlink_spec_witness :
    IsRing (ringOf 5) (fun i => i + 1) 5 ∧ (0 : Int) < 7 ∧ (7 : Int) < 2 ^ 63 - 1 ∧
    valueOf (Unlink 1 7 (ringOf 5)) = some 2 ∧
    ∃ h', Unlink 1 7 (ringOf 5) = .ok (2, h') ∧ Len 1 h' 5 = .ok 3 ∧ Len 2 h' 5 = .ok 2 :=
  have hr : IsRing (ringOf 5) (fun i => i + 1) 5 :=
    ⟨by decide, by decide, fun i j _ _ e => Nat.succ.inj e, by decide⟩
  ⟨hr, by decide, by decide, by decide,
    let ⟨h', e1, _, _, e4, e5, _⟩ :=
      (Unlink_spec (ringOf 5) (fun i => i + 1) 5 hr 7).1 (by decide) (Or.inl (by decide))
    ⟨h', e1, e4 5 (le_refl _), (e5 (by decide)).2.2 5 (le_refl _)⟩⟩

end ring
